import Mathlib

/-!
# parsdb: a copy-on-write B+tree over memory-mapped pages

A shallow embedding of the Go sources of `parsdb` (`pkg/bnode.go`,
`pkg/insertion.go`, `pkg/delete.go`, `pkg/btree.go`, `pkg/parsdb.go`,
`pkg/disk/kv.go`, `pkg/disk/mmap.go`) followed by theorems about them.

Modelling conventions.

* A byte slice is a `List Nat`; every write stores a value reduced modulo 256.
* `uint16` / `uint64` arithmetic is `Nat` arithmetic reduced modulo `2^16` / `2^64`
  at every operation of the source.
* A Go panic is `Except.error` carrying a `Fault` that tells which kind of panic it is.
  A function of the source that returns normally yields `Except.ok`.
* A slice knows its length only.  Go allows re-slicing up to the capacity of the
  backing array; here every access beyond the length is a `Fault.bounds`.  The two
  agree on every node whose cells lie inside its slice.
* Recursion through the page store (`treeInsert`, `treeDelete`, `BTree.Get`) carries a
  fuel argument; running out of fuel is the separate fault `Fault.outOfFuel`.
-/

namespace ParsDB

/-! ## Constants (`pkg/constants/constants.go`) -/

def BNODE_NODE : Nat := 1
def BNODE_LEAF : Nat := 2
def HEADER : Nat := 4
def BTREE_PAGE_SIZE : Nat := 4096
def BTREE_MAX_KEY_SIZE : Nat := 1000
def BTREE_MAX_VAL_SIZE : Nat := 3000
/-- The bytes of the Go string constant `DB_SIG = "PARSDB"`. -/
def DB_SIG : List Nat := [80, 65, 82, 83, 68, 66]

/-! ## Panics -/

/-- The ways in which the Go code can stop abnormally. -/
inductive Fault where
  /-- The helper `assert` was called with `false`: `panic("assertion failed")`. -/
  | assertion
  /-- A slice or index expression out of range (run-time panic). -/
  | bounds
  /-- The `default` branch of a switch on the node type: `panic("bad node!")`. -/
  | badNode
  /-- The message `pageGet: invalid pointer` of `KV.pageGet`. -/
  | invalidPointer
  /-- The fuel of the model ran out; not a behaviour of the source. -/
  | outOfFuel
deriving DecidableEq, Repr

abbrev Res (α : Type) := Except Fault α

/-- Go's `assert(ok)` of `pkg/bnode.go`. -/
def assert (ok : Bool) : Res Unit :=
  if ok then .ok () else .error .assertion

/-! ## Machine integers and byte slices -/

def w16 (x : Nat) : Nat := x % 65536
def w64 (x : Nat) : Nat := x % 18446744073709551616
/-- Subtraction of `uint16` values, wrapping around. -/
def sub16 (a b : Nat) : Nat := (w16 a + 65536 - w16 b) % 65536

/-- Little-endian encoding of `v` on `n` bytes. -/
def leEncode : Nat → Nat → List Nat
  | 0, _ => []
  | n + 1, v => v % 256 :: leEncode n (v / 256)

/-- Value of a little-endian byte string. -/
def leDecode : List Nat → Nat
  | [] => 0
  | b :: bs => b + 256 * leDecode bs

/-- The bytes `d[pos : pos+n]`, when they lie inside `d`. -/
def slice (d : List Nat) (pos n : Nat) : List Nat := (d.drop pos).take n

/-- Go's `copy(d[pos:], src)` on the underlying array, for `pos ≤ len(d)`: it copies
`min(len(d) - pos, len(src))` bytes and never grows `d`. -/
def blit (d : List Nat) (pos : Nat) (src : List Nat) : List Nat :=
  d.take pos ++ (src.take (d.length - pos) ++ d.drop (pos + src.length))

/-- Go's `copy(d[pos:], src)`; the slice expression `d[pos:]` panics beyond the length. -/
def copyAt (d : List Nat) (pos : Nat) (src : List Nat) : Res (List Nat) :=
  if pos ≤ d.length then .ok (blit d pos src) else .error .bounds

/-- Go's `binary.LittleEndian.Uint16(d[pos:])`. -/
def rdU16 (d : List Nat) (pos : Nat) : Res Nat :=
  if pos + 2 ≤ d.length then .ok (leDecode (slice d pos 2)) else .error .bounds

/-- Go's `binary.LittleEndian.PutUint16(d[pos:], v)`. -/
def wrU16 (d : List Nat) (pos v : Nat) : Res (List Nat) :=
  if pos + 2 ≤ d.length then .ok (blit d pos (leEncode 2 v)) else .error .bounds

/-- Go's `binary.LittleEndian.Uint64(d[pos:])`. -/
def rdU64 (d : List Nat) (pos : Nat) : Res Nat :=
  if pos + 8 ≤ d.length then .ok (leDecode (slice d pos 8)) else .error .bounds

/-- Go's `binary.LittleEndian.PutUint64(d[pos:], v)`. -/
def wrU64 (d : List Nat) (pos v : Nat) : Res (List Nat) :=
  if pos + 8 ≤ d.length then .ok (blit d pos (leEncode 8 v)) else .error .bounds

/-- Go's `d[pos:][:n]`. -/
def subSlice (d : List Nat) (pos n : Nat) : Res (List Nat) :=
  if pos ≤ d.length ∧ n ≤ d.length - pos then .ok (slice d pos n) else .error .bounds

/-- Go's `make([]byte, n)`. -/
def zeros (n : Nat) : List Nat := List.replicate n 0

/-! ## The page codec (`pkg/bnode.go`) -/

/-- A node is a byte slice that can be dumped to disk. -/
structure BNode where
  data : List Nat
deriving DecidableEq, Repr

namespace BNode

def btype (node : BNode) : Res Nat := rdU16 node.data 0

/-- The source reads `node.data[2:4]`, which needs four bytes. -/
def nkeys (node : BNode) : Res Nat := rdU16 node.data 2

def setHeader (node : BNode) (btype nkeys : Nat) : Res BNode := do
  let d1 ← wrU16 node.data 0 (w16 btype)
  let d2 ← wrU16 d1 2 (w16 nkeys)
  pure ⟨d2⟩

def getPtr (node : BNode) (idx : Nat) : Res Nat := do
  let n ← node.nkeys
  assert (idx < n)
  let pos := w16 (HEADER + 8 * idx)
  rdU64 node.data pos

def setPtr (node : BNode) (idx val : Nat) : Res BNode := do
  let n ← node.nkeys
  assert (idx < n)
  let pos := w16 (HEADER + 8 * idx)
  let d ← wrU64 node.data pos (w64 val)
  pure ⟨d⟩

def offsetPos (node : BNode) (idx : Nat) : Res Nat := do
  let n ← node.nkeys
  assert (1 ≤ idx && idx ≤ n)
  pure (w16 (HEADER + 8 * n + 2 * (idx - 1)))

def getOffset (node : BNode) (idx : Nat) : Res Nat := do
  if idx = 0 then pure 0
  else
    let p ← node.offsetPos idx
    rdU16 node.data p

def setOffset (node : BNode) (idx offset : Nat) : Res BNode := do
  let p ← node.offsetPos idx
  let d ← wrU16 node.data p (w16 offset)
  pure ⟨d⟩

def kvPos (node : BNode) (idx : Nat) : Res Nat := do
  let n ← node.nkeys
  assert (idx ≤ n)
  let off ← node.getOffset idx
  pure (w16 (HEADER + 8 * n + 2 * n + off))

def setKey (node : BNode) (idx : Nat) (key : List Nat) : Res BNode := do
  assert (key.length ≤ BTREE_MAX_KEY_SIZE)
  let pos ← node.kvPos idx
  let d1 ← wrU16 node.data pos (w16 key.length)
  let d2 ← copyAt d1 (w16 (pos + 4)) key
  pure ⟨d2⟩

def setVal (node : BNode) (idx : Nat) (val : List Nat) : Res BNode := do
  assert (val.length ≤ BTREE_MAX_VAL_SIZE)
  let pos ← node.kvPos idx
  let klen ← rdU16 node.data pos
  let d1 ← wrU16 node.data (w16 (pos + 2)) (w16 val.length)
  let d2 ← copyAt d1 (w16 (pos + 4 + klen)) val
  pure ⟨d2⟩

def getKey (node : BNode) (idx : Nat) : Res (List Nat) := do
  let n ← node.nkeys
  assert (idx < n)
  let pos ← node.kvPos idx
  let klen ← rdU16 node.data pos
  subSlice node.data (w16 (pos + 4)) klen

def getVal (node : BNode) (idx : Nat) : Res (List Nat) := do
  let n ← node.nkeys
  assert (idx < n)
  let pos ← node.kvPos idx
  let klen ← rdU16 node.data pos
  let vlen ← rdU16 node.data (w16 (pos + 2))
  subSlice node.data (w16 (pos + 4 + klen)) vlen

/-- Node size in bytes. -/
def nbytes (node : BNode) : Res Nat := do
  let n ← node.nkeys
  node.kvPos n

def Size (node : BNode) : Nat := node.data.length

def GetData (node : BNode) : List Nat := node.data

end BNode

/-! ## Insertion (`pkg/insertion.go`) -/

/-- Go's `bytes.Compare`: lexicographic comparison, `-1`, `0` or `1`. -/
def bytesCompare : List Nat → List Nat → Int
  | [], [] => 0
  | [], _ :: _ => -1
  | _ :: _, [] => 1
  | a :: as, b :: bs => if a < b then -1 else if b < a then 1 else bytesCompare as bs

/-- Go's `bytes.Equal`. -/
def bytesEqual (a b : List Nat) : Bool := a == b

/-- The loop of `nodeLookupLE`; `rem` counts the iterations left (`nkeys - i`). -/
def lookupLoop (node : BNode) (key : List Nat) : Nat → Nat → Nat → Res Nat
  | 0, _, found => pure found
  | rem + 1, i, found => do
    let k ← node.getKey i
    let cmp := bytesCompare k key
    let found := if cmp ≤ 0 then i else found
    if cmp ≥ 0 then pure found else lookupLoop node key rem (i + 1) found

/-- Returns the first kid node whose range intersects the key (`kid[i] <= key`). -/
def nodeLookupLE (node : BNode) (key : List Nat) : Res Nat := do
  let nkeys ← node.nkeys
  lookupLoop node key (nkeys - 1) 1 0

/-- The pointer loop of `nodeAppendRange`, `i` running from `i` to `i + rem - 1`. -/
def copyPtrs (old : BNode) (dstNew srcOld : Nat) : Nat → Nat → BNode → Res BNode
  | 0, _, new => pure new
  | rem + 1, i, new => do
    let p ← old.getPtr (w16 (srcOld + i))
    let new ← new.setPtr (w16 (dstNew + i)) p
    copyPtrs old dstNew srcOld rem (i + 1) new

/-- The offset loop of `nodeAppendRange`, `i` running from `i` to `i + rem - 1`. -/
def copyOffsets (old : BNode) (dstNew srcOld dstBegin srcBegin : Nat) :
    Nat → Nat → BNode → Res BNode
  | 0, _, new => pure new
  | rem + 1, i, new => do
    let o ← old.getOffset (w16 (srcOld + i))
    let offset := sub16 (w16 (dstBegin + o)) srcBegin
    let new ← new.setOffset (w16 (dstNew + i)) offset
    copyOffsets old dstNew srcOld dstBegin srcBegin rem (i + 1) new

/-- Copy multiple KVs into the position. -/
def nodeAppendRange (new old : BNode) (dstNew srcOld n : Nat) : Res BNode := do
  let oldn ← old.nkeys
  assert (w16 (srcOld + n) ≤ oldn)
  let nn ← new.nkeys
  assert (w16 (dstNew + n) ≤ nn)
  if n = 0 then pure new
  else
    let new ← copyPtrs old dstNew srcOld n 0 new
    let dstBegin ← new.getOffset dstNew
    let srcBegin ← old.getOffset srcOld
    let new ← copyOffsets old dstNew srcOld dstBegin srcBegin n 1 new
    let begin_ ← old.kvPos srcOld
    let end_ ← old.kvPos (w16 (srcOld + n))
    let pos ← new.kvPos dstNew
    if ¬ pos ≤ new.data.length then .error .bounds
    else if ¬ (begin_ ≤ end_ ∧ end_ ≤ old.data.length) then .error .bounds
    else pure ⟨blit new.data pos (slice old.data begin_ (end_ - begin_))⟩

/-- Copy a KV into the position. -/
def nodeAppendKV (new : BNode) (idx ptr : Nat) (key val : List Nat) : Res BNode := do
  let new ← new.setPtr idx ptr
  let new ← new.setKey idx key
  let new ← new.setVal idx val
  let off ← new.getOffset idx
  new.setOffset (w16 (idx + 1)) (w16 (off + 4 + w16 (key.length + val.length)))

/-- Add a new key to a leaf node. -/
def leafInsert (new old : BNode) (idx : Nat) (key val : List Nat) : Res BNode := do
  let oldn ← old.nkeys
  let new ← new.setHeader BNODE_LEAF (w16 (oldn + 1))
  let new ← nodeAppendRange new old 0 0 idx
  let new ← nodeAppendKV new idx 0 key val
  let oldn ← old.nkeys
  nodeAppendRange new old (w16 (idx + 1)) idx (sub16 oldn idx)

def leafUpdate (new old : BNode) (idx : Nat) (key val : List Nat) : Res BNode := do
  let oldn ← old.nkeys
  let new ← new.setHeader BNODE_LEAF oldn
  let new ← nodeAppendRange new old 0 0 idx
  let new ← nodeAppendKV new idx 0 key val
  let oldn ← old.nkeys
  nodeAppendRange new old (w16 (idx + 1)) (w16 (idx + 1)) (sub16 oldn (w16 (idx + 1)))

/-- Split a bigger-than-allowed node into two; the body of the source is
`// code omitted...`, so both destination buffers are left as they are. -/
def nodeSplit2 (left right _old : BNode) : Res (BNode × BNode) :=
  pure (left, right)

/-- Split a node if it is too big; the results are 1 to 3 nodes.  The source returns
`(nsplit, [3]BNode)` and every caller uses `splitted[:nsplit]`, which is the list
returned here. -/
def nodeSplit3 (old : BNode) : Res (List BNode) := do
  let nb ← old.nbytes
  if nb ≤ BTREE_PAGE_SIZE then
    if ¬ BTREE_PAGE_SIZE ≤ old.data.length then .error .bounds
    else pure [⟨old.data.take BTREE_PAGE_SIZE⟩]
  else
    let left : BNode := ⟨zeros (2 * BTREE_PAGE_SIZE)⟩
    let right : BNode := ⟨zeros BTREE_PAGE_SIZE⟩
    let (left, right) ← nodeSplit2 left right old
    let lb ← left.nbytes
    if lb ≤ BTREE_PAGE_SIZE then
      if ¬ BTREE_PAGE_SIZE ≤ left.data.length then .error .bounds
      else pure [⟨left.data.take BTREE_PAGE_SIZE⟩, right]
    else
      let leftleft : BNode := ⟨zeros BTREE_PAGE_SIZE⟩
      let middle : BNode := ⟨zeros BTREE_PAGE_SIZE⟩
      let (leftleft, middle) ← nodeSplit2 leftleft middle left
      let llb ← leftleft.nbytes
      assert (llb ≤ BTREE_PAGE_SIZE)
      pure [leftleft, middle, right]

/-! ## The tree and its page callbacks (`pkg/btree.go`) -/

/-- The three callbacks of `BTree` (`get`, `new`, `del`), as functions on the state
`σ` of the page store behind them. -/
structure Pager (σ : Type) where
  /-- Dereference a pointer. -/
  get : σ → Nat → Res BNode
  /-- Allocate a new page. -/
  new : σ → BNode → Res (Nat × σ)
  /-- Deallocate a page. -/
  del : σ → Nat → Res σ

/-- The mutable part of a `BTree`: the root page and the state of the page store. -/
structure BTree (σ : Type) where
  root : Nat
  pages : σ

/-- The loop `for i, node := range kids` of `nodeReplaceKidN`.  The arguments of
`nodeAppendKV` are evaluated left to right: `tree.new(node)` before `node.getKey(0)`. -/
def appendKids {σ : Type} (P : Pager σ) (idx : Nat) :
    List BNode → Nat → σ → BNode → Res (BNode × σ)
  | [], _, s, new => pure (new, s)
  | node :: kids, i, s, new => do
    let (ptr, s) ← P.new s node
    let k ← node.getKey 0
    let new ← nodeAppendKV new (w16 (idx + w16 i)) ptr k []
    appendKids P idx kids (i + 1) s new

/-- Replace a link with multiple links. -/
def nodeReplaceKidN {σ : Type} (P : Pager σ) (s : σ) (new old : BNode) (idx : Nat)
    (kids : List BNode) : Res (BNode × σ) := do
  let inc := w16 kids.length
  let oldn ← old.nkeys
  let new ← new.setHeader BNODE_NODE (sub16 (w16 (oldn + inc)) 1)
  let new ← nodeAppendRange new old 0 0 idx
  let (new, s) ← appendKids P idx kids 0 s new
  let oldn ← old.nkeys
  let new ← nodeAppendRange new old (w16 (idx + inc)) (w16 (idx + 1))
    (sub16 oldn (w16 (idx + 1)))
  pure (new, s)

/-- Part of `treeInsert`: KV insertion to an internal node.  `recur` is the recursive
call of `treeInsert` on the kid. -/
def nodeInsert {σ : Type} (P : Pager σ)
    (recur : σ → BNode → List Nat → List Nat → Res (BNode × σ))
    (s : σ) (new node : BNode) (idx : Nat) (key val : List Nat) : Res (BNode × σ) := do
  let kptr ← node.getPtr idx
  let knode ← P.get s kptr
  let s ← P.del s kptr
  let (knode, s) ← recur s knode key val
  let splited ← nodeSplit3 knode
  nodeReplaceKidN P s new node idx splited

/-- The body of `treeInsert`, with the recursive call as a parameter. -/
def treeInsertBody {σ : Type} (P : Pager σ)
    (recur : σ → BNode → List Nat → List Nat → Res (BNode × σ))
    (s : σ) (node : BNode) (key val : List Nat) : Res (BNode × σ) := do
  let newNode : BNode := ⟨zeros (2 * BTREE_PAGE_SIZE)⟩
  let idx ← nodeLookupLE node key
  let ty ← node.btype
  if ty = BNODE_LEAF then
    let k ← node.getKey idx
    if bytesEqual key k then
      let r ← leafUpdate newNode node idx key val
      pure (r, s)
    else
      let r ← leafInsert newNode node (w16 (idx + 1)) key val
      pure (r, s)
  else if ty = BNODE_NODE then
    nodeInsert P recur s newNode node idx key val
  else .error .badNode

/-- Insert a KV into a node; the result might be bigger than one page.  `fuel` bounds
the number of levels below `node`. -/
def treeInsert {σ : Type} (P : Pager σ) :
    Nat → σ → BNode → List Nat → List Nat → Res (BNode × σ)
  | 0 => treeInsertBody P (fun _ _ _ _ => .error .outOfFuel)
  | fuel + 1 => treeInsertBody P (treeInsert P fuel)

/-- The loop of `BTree.Insert` that links the pieces of a split root. -/
def appendRoots {σ : Type} (P : Pager σ) :
    List BNode → Nat → σ → BNode → Res (BNode × σ)
  | [], _, s, root => pure (root, s)
  | knode :: rest, i, s, root => do
    let (ptr, s) ← P.new s knode
    let key ← knode.getKey 0
    let root ← nodeAppendKV root (w16 i) ptr key []
    appendRoots P rest (i + 1) s root

/-- The method `BTree.Insert`. -/
def BTree.Insert {σ : Type} (P : Pager σ) (fuel : Nat) (tree : BTree σ)
    (key val : List Nat) : Res (BTree σ) := do
  assert (key.length != 0)
  assert (key.length ≤ BTREE_MAX_KEY_SIZE)
  assert (val.length ≤ BTREE_MAX_VAL_SIZE)
  if tree.root = 0 then
    let root : BNode := ⟨zeros BTREE_PAGE_SIZE⟩
    let root ← root.setHeader BNODE_LEAF 2
    let root ← nodeAppendKV root 0 0 [] []
    let root ← nodeAppendKV root 1 0 key val
    let (ptr, s) ← P.new tree.pages root
    pure ⟨ptr, s⟩
  else
    let node ← P.get tree.pages tree.root
    let s ← P.del tree.pages tree.root
    let (node, s) ← treeInsert P fuel s node key val
    let splitted ← nodeSplit3 node
    if splitted.length > 1 then
      let root : BNode := ⟨zeros BTREE_PAGE_SIZE⟩
      let root ← root.setHeader BNODE_NODE splitted.length
      let (root, s) ← appendRoots P splitted 0 s root
      let (ptr, s) ← P.new s root
      pure ⟨ptr, s⟩
    else
      match splitted with
      | [] => .error .bounds
      | first :: _ =>
        let (ptr, s) ← P.new s first
        pure ⟨ptr, s⟩

/-- One round of the loop of `BTree.Get`; `recur` is the next round. -/
def getStep {σ : Type} (P : Pager σ) (recur : BNode → Res (Option (List Nat)))
    (s : σ) (key : List Nat) (node : BNode) : Res (Option (List Nat)) := do
  let idx ← nodeLookupLE node key
  let ty ← node.btype
  if ty = BNODE_LEAF then
    let k ← node.getKey idx
    if bytesEqual key k then
      let v ← node.getVal idx
      pure (some v)
    else pure none
  else
    let kptr ← node.getPtr idx
    let node ← P.get s kptr
    recur node

/-- The loop of `BTree.Get`; `fuel` bounds the number of levels below `node`. -/
def getLoop {σ : Type} (P : Pager σ) (s : σ) (key : List Nat) :
    Nat → BNode → Res (Option (List Nat))
  | 0 => getStep P (fun _ => .error .outOfFuel) s key
  | fuel + 1 => getStep P (getLoop P s key fuel) s key

/-- The method `BTree.Get`; Go's `nil` result is `none`, a found value (possibly of
length zero, which Go returns as a non-nil slice) is `some`. -/
def BTree.Get {σ : Type} (P : Pager σ) (fuel : Nat) (tree : BTree σ)
    (key : List Nat) : Res (Option (List Nat)) := do
  assert (key.length != 0)
  assert (key.length ≤ BTREE_MAX_KEY_SIZE)
  if tree.root = 0 then pure none
  else
    let node ← P.get tree.pages tree.root
    getLoop P tree.pages key fuel node

/-! ## Deletion (`pkg/delete.go`) -/

/-- Remove a key from a leaf node. -/
def leafDelete (new old : BNode) (idx : Nat) : Res BNode := do
  let oldn ← old.nkeys
  let new ← new.setHeader BNODE_LEAF (sub16 oldn 1)
  let new ← nodeAppendRange new old 0 0 idx
  let oldn ← old.nkeys
  nodeAppendRange new old idx (w16 (idx + 1)) (sub16 oldn (w16 (idx + 1)))

def nodeReplace2Kid (new node : BNode) (idx ptr : Nat) (key : List Nat) : Res BNode := do
  let n ← node.nkeys
  let new ← new.setHeader BNODE_NODE (sub16 n 1)
  let new ← nodeAppendRange new node 0 0 idx
  let new ← new.setPtr idx ptr
  let new ← new.setKey idx key
  let n ← node.nkeys
  nodeAppendRange new node idx (w16 (idx + 1)) (sub16 n (w16 (idx + 1)))

/-- Merge 2 nodes into 1. -/
def nodeMerge (new left right : BNode) : Res BNode := do
  let ty ← left.btype
  let ln ← left.nkeys
  let rn ← right.nkeys
  let new ← new.setHeader ty (w16 (ln + rn))
  let ln ← left.nkeys
  let new ← nodeAppendRange new left 0 0 ln
  let ln ← left.nkeys
  let rn ← right.nkeys
  nodeAppendRange new right ln 0 rn

/-- Should the updated kid be merged with a sibling?  The result is the direction
(`-1` left, `+1` right, `0` none) and the sibling (`BNode{}` when there is none). -/
def shouldMerge {σ : Type} (P : Pager σ) (s : σ) (node : BNode) (idx : Nat)
    (updated : BNode) : Res (Int × BNode) := do
  let ub ← updated.nbytes
  if ub > BTREE_PAGE_SIZE / 4 then pure (0, ⟨[]⟩)
  else
    let tryRight : Res (Int × BNode) := do
      let n ← node.nkeys
      if w16 (idx + 1) < n then
        let p ← node.getPtr (w16 (idx + 1))
        let sibling ← P.get s p
        let sb ← sibling.nbytes
        let ub ← updated.nbytes
        let merged := sub16 (w16 (sb + ub)) HEADER
        if merged ≤ BTREE_PAGE_SIZE then pure (1, sibling) else pure (0, ⟨[]⟩)
      else pure (0, ⟨[]⟩)
    if idx > 0 then
      let p ← node.getPtr (sub16 idx 1)
      let sibling ← P.get s p
      let sb ← sibling.nbytes
      let ub ← updated.nbytes
      let merged := sub16 (w16 (sb + ub)) HEADER
      if merged ≤ BTREE_PAGE_SIZE then pure (-1, sibling) else tryRight
    else tryRight

/-- Part of `treeDelete`; `recur` is the recursive call of `treeDelete` on the kid. -/
def nodeDelete {σ : Type} (P : Pager σ) (recur : σ → BNode → List Nat → Res (BNode × σ))
    (s : σ) (node : BNode) (idx : Nat) (key : List Nat) : Res (BNode × σ) := do
  let kptr ← node.getPtr idx
  let kid ← P.get s kptr
  let (updated, s) ← recur s kid key
  if updated.data.length = 0 then pure (⟨[]⟩, s)
  else
    let s ← P.del s kptr
    let new : BNode := ⟨zeros BTREE_PAGE_SIZE⟩
    let (mergeDir, sibling) ← shouldMerge P s node idx updated
    if mergeDir < 0 then
      let merged : BNode := ⟨zeros BTREE_PAGE_SIZE⟩
      let merged ← nodeMerge merged sibling updated
      let lp ← node.getPtr (sub16 idx 1)
      let s ← P.del s lp
      let (ptr, s) ← P.new s merged
      let k ← merged.getKey 0
      let new ← nodeReplace2Kid new node (sub16 idx 1) ptr k
      pure (new, s)
    else if mergeDir > 0 then
      let merged : BNode := ⟨zeros BTREE_PAGE_SIZE⟩
      let merged ← nodeMerge merged updated sibling
      let rp ← node.getPtr (w16 (idx + 1))
      let s ← P.del s rp
      let (ptr, s) ← P.new s merged
      let k ← merged.getKey 0
      let new ← nodeReplace2Kid new node idx ptr k
      pure (new, s)
    else
      let un ← updated.nkeys
      assert (un > 0)
      nodeReplaceKidN P s new node idx [updated]

/-- The body of `treeDelete`, with the recursive call as a parameter.  The empty node
`BNode{}` means "not found". -/
def treeDeleteBody {σ : Type} (P : Pager σ)
    (recur : σ → BNode → List Nat → Res (BNode × σ))
    (s : σ) (node : BNode) (key : List Nat) : Res (BNode × σ) := do
  let idx ← nodeLookupLE node key
  let ty ← node.btype
  if ty = BNODE_LEAF then
    let k ← node.getKey idx
    if ¬ bytesEqual key k then pure (⟨[]⟩, s)
    else
      let new : BNode := ⟨zeros BTREE_PAGE_SIZE⟩
      let new ← leafDelete new node idx
      pure (new, s)
  else if ty = BNODE_NODE then
    nodeDelete P recur s node idx key
  else .error .badNode

/-- Delete a key from the tree; `fuel` bounds the number of levels below `node`. -/
def treeDelete {σ : Type} (P : Pager σ) : Nat → σ → BNode → List Nat → Res (BNode × σ)
  | 0 => treeDeleteBody P (fun _ _ _ => .error .outOfFuel)
  | fuel + 1 => treeDeleteBody P (treeDelete P fuel)

/-- The method `BTree.Delete`: the boolean result and the tree afterwards. -/
def BTree.Delete {σ : Type} (P : Pager σ) (fuel : Nat) (tree : BTree σ)
    (key : List Nat) : Res (Bool × BTree σ) := do
  assert (key.length != 0)
  assert (key.length ≤ BTREE_MAX_KEY_SIZE)
  if tree.root = 0 then pure (false, tree)
  else
    let node ← P.get tree.pages tree.root
    let (updated, s) ← treeDelete P fuel tree.pages node key
    if updated.data.length = 0 then pure (false, ⟨tree.root, s⟩)
    else
      let s ← P.del s tree.root
      let ty ← updated.btype
      let single ← (if ty = BNODE_NODE then do
          let un ← updated.nkeys
          pure (decide (un = 1))
        else pure false : Res Bool)
      if single then
        let p ← updated.getPtr 0
        pure (true, ⟨p, s⟩)
      else
        let (p, s) ← P.new s updated
        pure (true, ⟨p, s⟩)

/-! ## The in-memory page store (`pkg/parsdb.go`) -/

/-- The map `pages` of `NewParsDB`.  The source uses the address of a node's buffer as
its page ID; `nextAddr` stands for the address the allocator gives to the next
buffer: nonzero and different from the address of every buffer still in `pages`. -/
structure MemPages where
  pages : List (Nat × BNode)
  nextAddr : Nat
deriving DecidableEq, Repr

def MemPages.get (m : MemPages) (ptr : Nat) : Res BNode :=
  match m.pages.lookup ptr with
  | some node => pure node
  | none => .error .assertion

def MemPages.new (m : MemPages) (node : BNode) : Res (Nat × MemPages) := do
  let nb ← node.nbytes
  assert (nb ≤ BTREE_PAGE_SIZE)
  if node.data.length = 0 then .error .bounds
  else
    let key := m.nextAddr
    assert ((m.pages.lookup key).isNone)
    pure (key, ⟨(key, node) :: m.pages, m.nextAddr + 1⟩)

def MemPages.del (m : MemPages) (ptr : Nat) : Res MemPages := do
  assert ((m.pages.lookup ptr).isSome)
  pure ⟨m.pages.filter (fun p => p.1 != ptr), m.nextAddr⟩

/-- The callbacks installed by `NewParsDB`. -/
def memPager : Pager MemPages where
  get := MemPages.get
  new := MemPages.new
  del := MemPages.del

/-- The page store of a fresh `NewParsDB()`. -/
def MemPages.empty : MemPages := ⟨[], 1⟩

/-! ## The pager (`pkg/disk/kv.go`, `pkg/disk/mmap.go`) -/

/-- The `error` values the pager returns, one per message of the source. -/
inductive IOErr where
  /-- The message `stat file error`. -/
  | stat
  /-- The message `file size is not a multiple of ...` of `mmapInit`. -/
  | notMultiple
  /-- The message `mmap error`. -/
  | mmap
  /-- The message `fallocate` of `extendFile`. -/
  | fallocate
  /-- The message `sync`. -/
  | sync
  /-- The message `write master page`. -/
  | writeMaster
  /-- The message `masterLoad: bad signature`. -/
  | badSignature
  /-- The message `masterLoad: bad master page`. -/
  | badMasterPage
deriving DecidableEq, Repr

/-- The system calls the pager issues on its file, in the order it issues them, and
the stores it makes into the mapped region. -/
inductive Event where
  /-- `syscall.Ftruncate(fd, size)`. -/
  | ftruncate (size : Nat)
  /-- `syscall.Mmap(fd, offset, length, ...)`. -/
  | mmap (offset length : Nat)
  /-- `copy(db.pageGet(ptr).GetData(), page)`: a store into the mapped page `ptr`. -/
  | pageCopy (ptr : Nat) (page : List Nat)
  /-- `db.fp.Sync()`. -/
  | fsync
  /-- `db.fp.WriteAt(data, offset)`. -/
  | writeAt (offset : Nat) (data : List Nat)
deriving DecidableEq, Repr

/-- The operating system as the pager sees it: the outcome of each system call, which
may depend on everything that happened before. -/
structure Sys where
  /-- Whether `Ftruncate` to the given size succeeds. -/
  ftruncateOk : List Event → Nat → Bool
  /-- The bytes of a new mapping `(offset, length)`, or `none` when `Mmap` fails. -/
  mmapBytes : List Event → Nat → Nat → Option (List Nat)
  /-- Whether `Sync` succeeds. -/
  syncOk : List Event → Bool
  /-- Whether `WriteAt` succeeds. -/
  writeOk : List Event → Nat → List Nat → Bool

/-- The fields of `KV` that the modelled functions use, and the events so far. -/
structure KV where
  /-- The field `tree.root`. -/
  root : Nat
  /-- The field `mmap.file`: file size, can be larger than the database size. -/
  file : Nat
  /-- The field `mmap.total`: mmap size, can be larger than the file size. -/
  total : Nat
  /-- The field `mmap.chunks`. -/
  chunks : List (List Nat)
  /-- The field `page.flushed`: database size in number of pages. -/
  flushed : Nat
  /-- The field `page.temp`: newly allocated pages. -/
  temp : List (List Nat)
  /-- The system calls and mapped stores made so far, oldest first. -/
  trace : List Event
deriving DecidableEq, Repr

/-- The walk of `pageGet` over the chunks: the index of the chunk holding page `ptr`
and the byte offset of the page inside it. -/
def pageLocate : List (List Nat) → Nat → Nat → Nat → Res (Nat × Nat)
  | [], _, _, _ => .error .invalidPointer
  | chunk :: rest, i, start, ptr =>
    let end_ := w64 (start + w64 chunk.length / BTREE_PAGE_SIZE)
    if ptr < end_ then
      let offset := w64 (BTREE_PAGE_SIZE * w64 (ptr + 18446744073709551616 - start))
      if offset + BTREE_PAGE_SIZE ≤ chunk.length then pure (i, offset) else .error .bounds
    else pageLocate rest (i + 1) end_ ptr

/-- The method `KV.pageGet`. -/
def KV.pageGet (db : KV) (ptr : Nat) : Res BNode := do
  let (i, offset) ← pageLocate db.chunks 0 0 ptr
  pure ⟨slice (db.chunks.getD i []) offset BTREE_PAGE_SIZE⟩

/-- The 32 bytes `masterStore` assembles: signature, root, flushed. -/
def masterRecord (root flushed : Nat) : List Nat :=
  blit (blit (blit (zeros 32) 0 (DB_SIG.take 16)) 16 (leEncode 8 (w64 root)))
    24 (leEncode 8 (w64 flushed))

/-- The function `masterLoad`: the state afterwards and the returned `error`
(`none` is Go's `nil`). -/
def masterLoad (db : KV) : Res (KV × Option IOErr) := do
  if db.file = 0 then
    pure ({ db with flushed := 1 }, none)
  else
    match db.chunks with
    | [] => .error .bounds
    | data :: _ =>
      let root ← rdU64 data 16
      let used ← rdU64 data 24
      if ¬ 16 ≤ data.length then .error .bounds
      else if ¬ bytesEqual DB_SIG (data.take 16) then
        pure (db, some .badSignature)
      else
        let bad := ! (decide (1 ≤ used) && decide (used ≤ w64 (db.file / BTREE_PAGE_SIZE)))
        let bad := bad || ! (decide (0 ≤ root) && decide (root < used))
        if bad then pure (db, some .badMasterPage)
        else pure ({ db with root := root, flushed := used }, none)

/-- The callback `KV.pageNew`. -/
def KV.pageNew (db : KV) (node : BNode) : Res (Nat × KV) := do
  assert (node.Size ≤ BTREE_PAGE_SIZE)
  let ptr := w64 (db.flushed + w64 db.temp.length)
  pure (ptr, { db with temp := db.temp ++ [node.GetData] })

/-- The callback `KV.pageDel`, which does nothing. -/
def KV.pageDel (db : KV) (_ptr : Nat) : Res KV := pure db

/-- The callbacks `Open` installs into the tree. -/
def kvPager : Pager KV where
  get := KV.pageGet
  new := KV.pageNew
  del := KV.pageDel

/-- The loop of `extendFile`; `fuel` bounds the iterations (each adds a page at least). -/
def growPages (npages : Nat) : Nat → Nat → Nat
  | 0, filePages => filePages
  | fuel + 1, filePages =>
    if filePages < npages then
      let inc := filePages / 8
      let inc := if inc < 1 then 1 else inc
      growPages npages fuel (filePages + inc)
    else filePages

/-- The function `extendFile`: extend the file to at least `npages` pages. -/
def extendFile (sys : Sys) (db : KV) (npages : Nat) : KV × Option IOErr :=
  let filePages := db.file / BTREE_PAGE_SIZE
  if filePages ≥ npages then (db, none)
  else
    let filePages := growPages npages (npages - filePages) filePages
    let fileSize := filePages * BTREE_PAGE_SIZE
    let db1 := { db with trace := db.trace ++ [.ftruncate fileSize] }
    if sys.ftruncateOk db.trace fileSize then ({ db1 with file := fileSize }, none)
    else (db1, some .fallocate)

/-- The doubling loop of `mmapInit`. -/
def growMmap (size : Nat) : Nat → Nat → Nat
  | 0, mmapSize => mmapSize
  | fuel + 1, mmapSize => if mmapSize < size then growMmap size fuel (mmapSize * 2) else mmapSize

/-- The function `mmapInit`, given the result of `fp.Stat()` (`none` when it fails):
the file size and the first chunk, or the returned error.  The `int` arithmetic of
the source is exact for every file size below `2^62`. -/
def mmapInit (sys : Sys) (statSize : Option Nat) : Res (Except IOErr (Nat × List Nat)) := do
  match statSize with
  | none => pure (.error .stat)
  | some size =>
    if size % BTREE_MAX_KEY_SIZE ≠ 0 then pure (.error .notMultiple)
    else
      let mmapSize := 64 * 2 ^ 20
      assert (mmapSize % BTREE_PAGE_SIZE == 0)
      let mmapSize := growMmap size size mmapSize
      match sys.mmapBytes [] 0 mmapSize with
      | none => pure (.error .mmap)
      | some chunk => pure (.ok (size, chunk))

/-- The method `KV.Get`. -/
def KV.Get (fuel : Nat) (db : KV) (key : List Nat) : Res (Option (List Nat)) :=
  BTree.Get kvPager fuel ⟨db.root, db⟩ key

/-! ## The mapped file: chunks as windows of the file (`pkg/disk/mmap.go`, `pkg/disk/kv.go`)

`syscall.Mmap(fd, off, len, PROT_READ|PROT_WRITE, MAP_SHARED)` returns a window on the
file: byte `i` of the chunk is byte `off + i` of the file, and a store through the chunk
is a store to that byte of the file, seen through every chunk that maps it; a
`WriteAt` on the file is seen through the chunks in the same way.  The model `KV` keeps
the bytes of each chunk apart and is used only where nothing is stored into the file:
reading pages, `pageNew`, `masterLoad`, `extendFile`.  The model `MappedKV` keeps the
bytes of the file once and each chunk as the window the call of `Mmap` was given; every
function that stores into the file (`writePages`, `masterStore`, `syncPages`,
`flashPages`) is modelled on it. -/

/-- A chunk: the offset and the length that `syscall.Mmap` was called with. -/
structure Window where
  off : Nat
  len : Nat
deriving DecidableEq, Repr

/-- The fields of `KV` that the mapping functions use, with the chunks as windows and
the bytes of the file as the mappings show them. -/
structure MappedKV where
  /-- The field `mmap.file`. -/
  file : Nat
  /-- The field `mmap.total`. -/
  total : Nat
  /-- The field `mmap.chunks`. -/
  chunks : List Window
  /-- The field `page.flushed`. -/
  flushed : Nat
  /-- The field `page.temp`. -/
  temp : List (List Nat)
  /-- The byte at each offset of the file. -/
  bytes : Nat → Nat

/-- The `n` bytes of the file from offset `pos`. -/
def readAt (bytes : Nat → Nat) (pos n : Nat) : List Nat :=
  (List.range n).map (fun i => bytes (pos + i))

/-- The file after `src` is stored from offset `pos`. -/
def storeAt (bytes : Nat → Nat) (pos : Nat) (src : List Nat) : Nat → Nat :=
  fun j => if pos ≤ j ∧ j < pos + src.length then src.getD (j - pos) 0 else bytes j

/-- The walk of `pageGet` over the chunks: the chunk holding page `ptr` and the byte
offset of the page inside it. -/
def windowLocate : List Window → Nat → Nat → Res (Window × Nat)
  | [], _, _ => .error .invalidPointer
  | chunk :: rest, start, ptr =>
    let end_ := w64 (start + w64 chunk.len / BTREE_PAGE_SIZE)
    if ptr < end_ then
      let offset := w64 (BTREE_PAGE_SIZE * w64 (ptr + 18446744073709551616 - start))
      if offset + BTREE_PAGE_SIZE ≤ chunk.len then pure (chunk, offset) else .error .bounds
    else windowLocate rest end_ ptr

/-- The method `KV.pageGet`: the page is read through the chunk that holds it. -/
def MappedKV.pageGet (db : MappedKV) (ptr : Nat) : Res BNode := do
  let (chunk, offset) ← windowLocate db.chunks 0 ptr
  pure ⟨readAt db.bytes (chunk.off + offset) BTREE_PAGE_SIZE⟩

/-- The statement `copy(db.pageGet(ptr).GetData(), page)` of `writePages`. -/
def MappedKV.pageStore (db : MappedKV) (ptr : Nat) (page : List Nat) : Res MappedKV := do
  let (chunk, offset) ← windowLocate db.chunks 0 ptr
  pure { db with bytes := storeAt db.bytes (chunk.off + offset) (page.take BTREE_PAGE_SIZE) }

/-- The callback `KV.pageNew`. -/
def MappedKV.pageNew (db : MappedKV) (node : BNode) : Res (Nat × MappedKV) := do
  assert (node.Size ≤ BTREE_PAGE_SIZE)
  let ptr := w64 (db.flushed + w64 db.temp.length)
  pure (ptr, { db with temp := db.temp ++ [node.GetData] })

/-- The function `extendFile`; `truncOk` tells whether `Ftruncate` succeeds. -/
def MappedKV.extendFile (truncOk : Bool) (db : MappedKV) (npages : Nat) :
    MappedKV × Option IOErr :=
  let filePages := db.file / BTREE_PAGE_SIZE
  if filePages ≥ npages then (db, none)
  else
    let filePages := growPages npages (npages - filePages) filePages
    let fileSize := filePages * BTREE_PAGE_SIZE
    if truncOk then ({ db with file := fileSize }, none) else (db, some .fallocate)

/-- The function `extendMmap`; `mmapOk` tells whether `Mmap` succeeds.  The new chunk is
the window `(db.mmap.total, npages * BTREE_PAGE_SIZE)` the call asks for. -/
def MappedKV.extendMmap (mmapOk : Bool) (db : MappedKV) (npages : Nat) :
    MappedKV × Option IOErr :=
  if db.total ≥ npages * BTREE_PAGE_SIZE then (db, none)
  else if mmapOk then
    ({ db with
        total := db.total + db.total
        chunks := db.chunks ++ [⟨db.total, npages * BTREE_PAGE_SIZE⟩] }, none)
  else (db, some .mmap)

/-- The loop of `writePages` that copies the pending pages into the mapped file. -/
def MappedKV.copyPages (flushed : Nat) : List (List Nat) → Nat → MappedKV → Res MappedKV
  | [], _, db => pure db
  | page :: rest, i, db => do
    let ptr := w64 (flushed + w64 i)
    let db ← db.pageStore ptr page
    MappedKV.copyPages flushed rest (i + 1) db

/-- The function `writePages`. -/
def MappedKV.writePages (truncOk mmapOk : Bool) (db : MappedKV) :
    Res (MappedKV × Option IOErr) := do
  let npages := db.flushed + db.temp.length
  match db.extendFile truncOk npages with
  | (db, some err) => pure (db, some err)
  | (db, none) =>
    match db.extendMmap mmapOk npages with
    | (db, some err) => pure (db, some err)
    | (db, none) =>
      let db ← MappedKV.copyPages db.flushed db.temp 0 db
      pure (db, none)

/-- The function `masterStore`: the record is assembled from the signature, the root
and `page.flushed`, and `WriteAt(data, 0)` stores its 32 bytes from offset 0 of the
file, where the first chunk maps them.  `root` is the field `tree.root`; `writeOk` tells
whether `WriteAt` succeeds, and a failed call is taken to leave the file as it was. -/
def MappedKV.masterStore (writeOk : Bool) (root : Nat) (db : MappedKV) :
    MappedKV × Option IOErr :=
  let data := masterRecord root db.flushed
  if writeOk then ({ db with bytes := storeAt db.bytes 0 data }, none)
  else (db, some .writeMaster)

/-- The function `syncPages`; `syncOk` and `syncAgainOk` tell whether the first and the
second call of `Sync` succeed.  `Sync` changes no byte of the file: it makes the bytes
the file has at that point durable. -/
def MappedKV.syncPages (syncOk writeOk syncAgainOk : Bool) (root : Nat) (db : MappedKV) :
    MappedKV × Option IOErr :=
  if syncOk then
    let db := { db with flushed := w64 (db.flushed + w64 db.temp.length), temp := [] }
    match db.masterStore writeOk root with
    | (db, some err) => (db, some err)
    | (db, none) => if syncAgainOk then (db, none) else (db, some .sync)
  else (db, some .sync)

/-- The function `flashPages`: the commit of the pending pages. -/
def MappedKV.flashPages (truncOk mmapOk syncOk writeOk syncAgainOk : Bool) (root : Nat)
    (db : MappedKV) : Res (MappedKV × Option IOErr) := do
  match ← db.writePages truncOk mmapOk with
  | (db, some err) => pure (db, some err)
  | (db, none) => pure (db.syncPages syncOk writeOk syncAgainOk root)

/-! ## Vocabulary of the specification -/

/-- One entry of a node: child pointer, key and value. -/
structure Entry where
  ptr : Nat
  key : List Nat
  val : List Nat
deriving DecidableEq, Repr

/-- The size of the cell of an entry: two length fields, key and value. -/
def Entry.size (e : Entry) : Nat := 4 + e.key.length + e.val.length

/-- The cell of an entry: `klen | vlen | key | val`. -/
def Entry.bytes (e : Entry) : List Nat :=
  leEncode 2 e.key.length ++ (leEncode 2 e.val.length ++ (e.key ++ e.val))

/-- The distance from the start of the cell region to the start of cell `i`. -/
def offTo (es : List Entry) (i : Nat) : Nat := ((es.take i).map Entry.size).sum

/-- The bytes `d` hold a node with type tag `ty` and `n` entry slots, of which the first
`es.length` are filled with the entries `es`, in the layout of `pkg/bnode.go`. -/
structure Layout (d : List Nat) (ty n : Nat) (es : List Entry) : Prop where
  len_lt : d.length < 65536
  ty_lt : ty < 65536
  count : es.length ≤ n
  fits : 4 + 10 * n + offTo es es.length ≤ d.length
  hty : slice d 0 2 = leEncode 2 ty
  hn : slice d 2 2 = leEncode 2 n
  ptrs : ∀ i e, es[i]? = some e →
    slice d (4 + 8 * i) 8 = leEncode 8 e.ptr ∧ e.ptr < 18446744073709551616
  offs : ∀ i e, es[i]? = some e →
    slice d (4 + 8 * n + 2 * i) 2 = leEncode 2 (offTo es (i + 1))
  cells : ∀ i e, es[i]? = some e → slice d (4 + 10 * n + offTo es i) e.size = e.bytes

/-- The three regions of a node buffer that hold no entry yet. -/
def FreeRegion (n : Nat) (es : List Entry) (a b : Nat) : Prop :=
  (4 + 8 * es.length ≤ a ∧ b ≤ 4 + 8 * n) ∨
  (4 + 8 * n + 2 * es.length ≤ a ∧ b ≤ 4 + 10 * n) ∨
  4 + 10 * n + offTo es es.length ≤ a

/-- The bytes of `d'` and `d` agree outside `[a, b)`. -/
def SameOutside (d' d : List Nat) (a b : Nat) : Prop :=
  d'.length = d.length ∧ ∀ q l, q + l ≤ a ∨ b ≤ q → slice d' q l = slice d q l

/-- Strict lexicographic order on keys, as `bytes.Compare` decides it. -/
def KeyLt (a b : List Nat) : Prop := bytesCompare a b < 0

/-- The keys of the entries are strictly ascending. -/
def SortedKeys (es : List Entry) : Prop := (es.map Entry.key).Pairwise KeyLt

/-- The loop of `nodeLookupLE` on the list of the keys at the indices `i`, `i+1`, ... -/
def lookupIdx (key : List Nat) : List (List Nat) → Nat → Nat → Nat
  | [], _, found => found
  | k :: rest, i, found =>
    let cmp := bytesCompare k key
    let found := if cmp ≤ 0 then i else found
    if cmp ≥ 0 then found else lookupIdx key rest (i + 1) found

/-- The index `nodeLookupLE` returns on a node with the entries `es`. -/
def lookupLE (es : List Entry) (key : List Nat) : Nat :=
  lookupIdx key ((es.map Entry.key).drop 1) 1 0

/-- What `treeInsert` does to the entries of a leaf: replace the entry with the key, or
insert a new entry after the last smaller one. -/
def leafPut (es : List Entry) (key val : List Nat) : List Entry :=
  let idx := lookupLE es key
  if (es[idx]?.map Entry.key) = some key then
    es.take idx ++ [⟨0, key, val⟩] ++ es.drop (idx + 1)
  else
    es.take (idx + 1) ++ [⟨0, key, val⟩] ++ es.drop (idx + 1)

/-- What `BTree.Get` reads from the entries of a leaf. -/
def leafGet (es : List Entry) (key : List Nat) : Option (List Nat) :=
  match es[lookupLE es key]? with
  | some e => if e.key = key then some e.val else none
  | none => none

/-- What `treeDelete` does to the entries of a leaf; `none` when the key is not there. -/
def leafDel (es : List Entry) (key : List Nat) : Option (List Entry) :=
  let idx := lookupLE es key
  match es[idx]? with
  | some e => if e.key = key then some (es.take idx ++ es.drop (idx + 1)) else none
  | none => none

/-- The entries of a leaf of the tree: the sentinel with the empty key first, and the
keys strictly ascending. -/
structure LeafOK (es : List Entry) : Prop where
  sentinel : ∃ e0, es[0]? = some e0 ∧ e0.key = []
  sorted : SortedKeys es

/-- The entries hold the value `v` under the key `k`. -/
def Holds (es : List Entry) (k v : List Nat) : Prop := ∃ e ∈ es, e.key = k ∧ e.val = v

/-- The encoded size of a leaf with the entries `es`: what `nbytes()` returns. -/
def leafBytes (es : List Entry) : Nat := 4 + 10 * es.length + offTo es es.length

/-- The node is a page-sized leaf of the tree holding exactly the entries `es`. -/
structure LeafPage (node : BNode) (es : List Entry) : Prop where
  size : node.data.length = BTREE_PAGE_SIZE
  layout : Layout node.data BNODE_LEAF es.length es
  fits : leafBytes es ≤ BTREE_PAGE_SIZE
  ok : LeafOK es

/-- A page store whose `get` returns exactly what `new` stored: on every state that
satisfies `I`, `new` accepts a page-sized node with `nbytes() ≤ 4096`, returns a nonzero
page ID under which `get` returns the node, and `del` accepts every stored page. -/
structure PagerLaws {σ : Type} (P : Pager σ) (I : σ → Prop) : Prop where
  new_ok : ∀ s node nb, I s → node.nbytes = .ok nb → nb ≤ BTREE_PAGE_SIZE →
    node.data.length = BTREE_PAGE_SIZE →
    ∃ p s', P.new s node = .ok (p, s') ∧ I s' ∧ p ≠ 0 ∧ P.get s' p = .ok node
  del_ok : ∀ s p node, I s → P.get s p = .ok node → ∃ s', P.del s p = .ok s' ∧ I s'

/-- The trees reached from the empty tree (root 0) over the store state `s0` by calls
of `BTree.Insert` and `BTree.Delete` that returned. -/
inductive Reach {σ : Type} (P : Pager σ) (s0 : σ) : BTree σ → Prop where
  | empty : Reach P s0 ⟨0, s0⟩
  | insert {t t' : BTree σ} {fuel : Nat} {k v : List Nat} :
      Reach P s0 t → BTree.Insert P fuel t k v = .ok t' → Reach P s0 t'
  | delete {t t' : BTree σ} {fuel : Nat} {k : List Nat} {b : Bool} :
      Reach P s0 t → BTree.Delete P fuel t k = .ok (b, t') → Reach P s0 t'

/-- The sentinel entry of the first leaf: empty key, empty value. -/
def sentinel : Entry := ⟨0, [], []⟩

/-- The tree is a single leaf with the entries `es`; the empty tree (root 0) stands
for the leaf that holds the sentinel only. -/
def AbsTree {σ : Type} (P : Pager σ) (I : σ → Prop) (t : BTree σ) (es : List Entry) : Prop :=
  I t.pages ∧ ((t.root = 0 ∧ es = [sentinel]) ∨
    (t.root ≠ 0 ∧ ∃ node, P.get t.pages t.root = .ok node ∧ LeafPage node es))

/-- A key the public operations accept: 1 to 1000 bytes. -/
def ValidKey (key : List Nat) : Prop := key.length ≠ 0 ∧ key.length ≤ BTREE_MAX_KEY_SIZE

/-- A value the public operations accept: at most 3000 bytes. -/
def ValidVal (val : List Nat) : Prop := val.length ≤ BTREE_MAX_VAL_SIZE

/-- The number of entries of the root node (`nkeys()` of the page `tree.root`). -/
def rootNkeys {σ : Type} (P : Pager σ) (t : BTree σ) : Res Nat := do
  let node ← P.get t.pages t.root
  node.nkeys

/-- The states of the in-memory page store in which no stored page has the address
that the allocator hands out next, or a later one. -/
def MemPages.Fresh (m : MemPages) : Prop :=
  m.nextAddr ≠ 0 ∧ ∀ x ∈ m.pages, x.1 < m.nextAddr

/-- The keys of a node in index order, read with `getKey`; `rem` keys are left. -/
def keysLoop (node : BNode) : Nat → Nat → Res (List (List Nat))
  | 0, _ => pure []
  | rem + 1, i => do
    let k ← node.getKey i
    let ks ← keysLoop node rem (i + 1)
    pure (k :: ks)

/-- The keys of a node in index order. -/
def nodeKeys (node : BNode) : Res (List (List Nat)) := do
  let n ← node.nkeys
  keysLoop node n 0

/-- The in-order walk below the kids `i`, `i+1`, ... of an internal node. -/
def kidsLoop {σ : Type} (P : Pager σ) (s : σ) (recur : BNode → Res (List (List Nat)))
    (node : BNode) : Nat → Nat → Res (List (List Nat))
  | 0, _ => pure []
  | rem + 1, i => do
    let p ← node.getPtr i
    let kid ← P.get s p
    let ks ← recur kid
    let rest ← kidsLoop P s recur node rem (i + 1)
    pure (ks ++ rest)

/-- One level of the in-order walk: the keys of a leaf, or the walks of the kids. -/
def walkStep {σ : Type} (P : Pager σ) (s : σ) (recur : BNode → Res (List (List Nat)))
    (node : BNode) : Res (List (List Nat)) := do
  let ty ← node.btype
  if ty = BNODE_LEAF then nodeKeys node
  else
    let n ← node.nkeys
    kidsLoop P s recur node n 0

/-- The in-order walk of the leaves below `node`: their keys, left to right. -/
def walk {σ : Type} (P : Pager σ) (s : σ) : Nat → BNode → Res (List (List Nat))
  | 0 => walkStep P s (fun _ => .error .outOfFuel)
  | fuel + 1 => walkStep P s (walk P s fuel)

/-- The in-order walk of the leaves of the tree; no keys in the empty tree. -/
def treeWalk {σ : Type} (P : Pager σ) (fuel : Nat) (t : BTree σ) : Res (List (List Nat)) :=
  if t.root = 0 then pure []
  else do
    let node ← P.get t.pages t.root
    walk P t.pages fuel node

/-- A value of the largest size the API accepts: 3000 bytes, all equal to `b`. -/
def bigVal (b : Nat) : List Nat := List.replicate 3000 b

/-- A run of `BTree.Insert` calls, one per pair, first pair first. -/
def insertAll {σ : Type} (P : Pager σ) (fuel : Nat) :
    BTree σ → List (List Nat × List Nat) → Res (BTree σ)
  | t, [] => pure t
  | t, (k, v) :: ops => do
    let t' ← BTree.Insert P fuel t k v
    insertAll P fuel t' ops

/-- The value of the last pair with the key `k`, if there is one. -/
def lastVal (k : List Nat) : List (List Nat × List Nat) → Option (List Nat)
  | [] => none
  | (k0, v0) :: ops =>
    match lastVal k ops with
    | some v => some v
    | none => if k0 = k then some v0 else none

/-- The signature as the master page holds it: `PARSDB` zero-padded to 16 bytes. -/
def signature16 : List Nat := DB_SIG ++ zeros 10

/-- An operating system in which every call succeeds and a new mapping reads zero. -/
def sysOk : Sys where
  ftruncateOk := fun _ _ => true
  mmapBytes := fun _ _ len => some (zeros len)
  syncOk := fun _ => true
  writeOk := fun _ _ _ => true

/-- A pager over a file of two pages with root 1 and one pending page image. -/
def exampleDb : KV := ⟨1, 8192, 8192, [zeros 8192], 1, [[2, 0, 1, 0]], []⟩

/-- Appends the entries with `nodeAppendKV`, one slot after the other, from slot `i`. -/
def appendAll : BNode → List Entry → Nat → Res BNode
  | node, [], _ => pure node
  | node, e :: rest, i => do
    let node ← nodeAppendKV node i e.ptr e.key e.val
    appendAll node rest (i + 1)

/-- The page image that the codec (`setHeader`, `nodeAppendKV`) writes into a fresh
page for a node with the given type tag and entries. -/
def buildNode (ty : Nat) (es : List Entry) : Res BNode := do
  let node ← (BNode.mk (zeros BTREE_PAGE_SIZE)).setHeader ty es.length
  appendAll node es 0

/-- A key of the largest size: the byte `b`, then 999 bytes `c`. -/
def longKey (b c : Nat) : List Nat := b :: List.replicate 999 c

/-- The entries of the six leaves of the example tree, left to right. -/
def exLeaf : Nat → List Entry
  | 0 => [⟨0, [], []⟩]
  | 1 => [⟨0, [1], [9]⟩, ⟨0, longKey 1 1, List.replicate 100 7⟩]
  | i => [⟨0, longKey i 0, []⟩]

/-- The entries of the root of the example tree: the first key of each leaf with the
page of the leaf (leaf `i` is stored in page `i + 1`). -/
def exRoot : List Entry :=
  [⟨1, [], []⟩, ⟨2, [1], []⟩, ⟨3, longKey 2 0, []⟩, ⟨4, longKey 3 0, []⟩,
    ⟨5, longKey 4 0, []⟩, ⟨6, longKey 5 0, []⟩]

/-- A pager whose file holds the master page, then the given pages as pages 1, 2, ...;
the root is page 7 and 8 pages are flushed. -/
def exDb (pages : List BNode) : KV :=
  ⟨7, 32768, 32768, [zeros BTREE_PAGE_SIZE ++ (pages.map BNode.data).flatten], 8, [], []⟩

/-- The seven pages of the example tree: the six leaves, then the root. -/
def exTree : Res (List BNode) := do
  let l0 ← buildNode BNODE_LEAF (exLeaf 0)
  let l1 ← buildNode BNODE_LEAF (exLeaf 1)
  let l2 ← buildNode BNODE_LEAF (exLeaf 2)
  let l3 ← buildNode BNODE_LEAF (exLeaf 3)
  let l4 ← buildNode BNODE_LEAF (exLeaf 4)
  let l5 ← buildNode BNODE_LEAF (exLeaf 5)
  let root ← buildNode BNODE_NODE exRoot
  pure [l0, l1, l2, l3, l4, l5, root]

/-- A page store whose callbacks all fail: any call of a callback shows as
`Fault.invalidPointer`. -/
def trapPager : Pager Unit where
  get := fun _ _ => .error .invalidPointer
  new := fun _ _ => .error .invalidPointer
  del := fun _ _ => .error .invalidPointer

/-- The quantity `node1max` that `init` of `pkg/bnode.go` checks against the page size:
a leaf with one pair of the largest key and value. -/
def node1max : Nat := HEADER + 8 + 2 + 4 + BTREE_MAX_KEY_SIZE + BTREE_MAX_VAL_SIZE

/-- `KeyLt` is decided by evaluating `bytesCompare`. -/
instance KeyLt.decide (a b : List Nat) : Decidable (KeyLt a b) :=
  inferInstanceAs (Decidable (bytesCompare a b < 0))

/-- The page image that the codec writes into a buffer of two pages, the size of the
buffer `treeInsert` builds its result in. -/
def buildWide (ty : Nat) (es : List Entry) : Res BNode := do
  let node ← (BNode.mk (zeros (2 * BTREE_PAGE_SIZE))).setHeader ty es.length
  appendAll node es 0

/-- One step of the growth schedule of `extendFile`: `p + max(1, p/8)`. -/
def growStep (p : Nat) : Nat := p + max 1 (p / 8)

/-- The growth schedule started at `p`: `p`, `growStep p`, `growStep (growStep p)`, ... -/
def growSeq (p : Nat) : Nat → Nat
  | 0 => p
  | k + 1 => growSeq (growStep p) k

/-- A buffer of 32 bytes with the header of a leaf with two entries and nothing else
written: both offsets are zero. -/
def bareBuffer : BNode := ⟨[2, 0, 2, 0] ++ zeros 28⟩

/-- The buffer `bareBuffer` after `nodeAppendKV(dst, 1, 5, "k", "v")`. -/
def bareBufferAfter : BNode :=
  ⟨[2, 0, 2, 0, 0, 0, 0, 0, 0, 0, 0, 0, 5, 0, 0, 0, 0, 0, 0, 0, 0, 0, 6, 0,
    1, 0, 1, 0, 107, 118, 0, 0]⟩

/-- The mapping state after the file grew past 64 MiB once: the chunk of `mmapInit`
(64 MiB from offset 0), the chunk `extendMmap(16385)` added (16385 pages from offset
64 MiB), `total` doubled to 128 MiB, 32768 pages flushed, nothing pending; the file has
35655 pages, the first size of the schedule of `extendFile` from 1 that holds them. -/
def driftDb : MappedKV :=
  ⟨146042880, 134217728, [⟨0, 67108864⟩, ⟨67108864, 67112960⟩], 32768, [], fun _ => 0⟩

/-- A page image filled with the byte `b`. -/
def fillPage (b : Nat) : List Nat := List.replicate BTREE_PAGE_SIZE b

/-- The state `driftDb` with two pending images, after `extendFile` and `extendMmap`. -/
def driftDbMapped : MappedKV :=
  ⟨146042880, 268435456, [⟨0, 67108864⟩, ⟨67108864, 67112960⟩, ⟨134217728, 134225920⟩],
    32768, [fillPage 0, fillPage 1], fun _ => 0⟩

/-- The state `driftDbMapped` after the two pending images are stored. -/
def driftDbWritten : MappedKV :=
  { driftDbMapped with
    bytes := storeAt (storeAt (fun _ => 0) 134217728 (fillPage 0)) 134217728 (fillPage 1) }

/-- The mapping state after `Open` on an empty file: one chunk of 64 MiB from offset
0, `total` its length, page 0 reserved for the master page. -/
def openDb : MappedKV := ⟨0, 67108864, [⟨0, 67108864⟩], 1, [], fun _ => 0⟩

/-- The chunks lie one after the other on the file from page `start`: each one starts
where the one before ends and holds whole pages. -/
def Contiguous : List Window → Nat → Prop
  | [], _ => True
  | w :: rest, start =>
    w.off = start * BTREE_PAGE_SIZE ∧ w.len % BTREE_PAGE_SIZE = 0 ∧
      Contiguous rest (start + w.len / BTREE_PAGE_SIZE)

/-- The number of bytes the chunks map. -/
def mappedBytes (chunks : List Window) : Nat := (chunks.map Window.len).sum

/-- The node is the root of a subtree of height `h` in the store `s`: a leaf at height
0, an internal node above, every node in the layout of `pkg/bnode.go` with at least one
entry, every child pointer resolved by the callback `get`. -/
def Subtree {σ : Type} (P : Pager σ) (s : σ) : Nat → BNode → Prop
  | 0, node => ∃ es, Layout node.data BNODE_LEAF es.length es ∧ 0 < es.length
  | h + 1, node => ∃ es, Layout node.data BNODE_NODE es.length es ∧ 0 < es.length ∧
      ∀ e ∈ es, ∃ kid, P.get s e.ptr = .ok kid ∧ Subtree P s h kid

/-- The key is stored in a leaf of the subtree of height `h` below the node. -/
def KeyIn {σ : Type} (P : Pager σ) (s : σ) (key : List Nat) : Nat → BNode → Prop
  | 0, node => ∃ i, node.getKey i = .ok key
  | h + 1, node => ∃ i p kid, node.getPtr i = .ok p ∧ P.get s p = .ok kid ∧
      KeyIn P s key h kid

/-- The tree is empty, or its root page is the root of a subtree of height `h`. -/
def TreeOK {σ : Type} (P : Pager σ) (t : BTree σ) (h : Nat) : Prop :=
  t.root = 0 ∨ ∃ node, P.get t.pages t.root = .ok node ∧ Subtree P t.pages h node

/-- The key is stored in a leaf of the tree of height `h`. -/
def Present {σ : Type} (P : Pager σ) (t : BTree σ) (h : Nat) (key : List Nat) : Prop :=
  t.root ≠ 0 ∧ ∃ node, P.get t.pages t.root = .ok node ∧ KeyIn P t.pages key h node

/-- The page store `P` with a count of the calls of `new` and `del` next to its state;
`get` is not counted. -/
def tally {σ : Type} (P : Pager σ) : Pager (σ × Nat) where
  get := fun s ptr => P.get s.1 ptr
  new := fun s node => do
    let (ptr, s1) ← P.new s.1 node
    pure (ptr, (s1, s.2 + 1))
  del := fun s ptr => do
    let s1 ← P.del s.1 ptr
    pure (s1, s.2 + 1)

/-- The entries of the four leaves of a tree of three levels, left to right. -/
def thinLeaf : Nat → List Entry
  | 0 => [⟨0, [], []⟩]
  | 1 => [⟨0, [1], [11]⟩]
  | 2 => [⟨0, [2], [12]⟩]
  | _ => [⟨0, [3], [13]⟩]

/-- The left internal node of the tree: the first three leaves, in the pages 1, 2, 3. -/
def thinLeft : List Entry := [⟨1, [], []⟩, ⟨2, [1], []⟩, ⟨3, [2], []⟩]

/-- The right internal node of the tree: the fourth leaf alone, in page 4. -/
def thinRight : List Entry := [⟨4, [3], []⟩]

/-- The root of the tree: the two internal nodes, in the pages 5 and 6. -/
def thinRoot : List Entry := [⟨5, [], []⟩, ⟨6, [3], []⟩]

/-- The seven pages of the tree: the four leaves, the two internal nodes, the root. -/
def thinTree : Res (List BNode) := do
  let l0 ← buildNode BNODE_LEAF (thinLeaf 0)
  let l1 ← buildNode BNODE_LEAF (thinLeaf 1)
  let l2 ← buildNode BNODE_LEAF (thinLeaf 2)
  let l3 ← buildNode BNODE_LEAF (thinLeaf 3)
  let left ← buildNode BNODE_NODE thinLeft
  let right ← buildNode BNODE_NODE thinRight
  let root ← buildNode BNODE_NODE thinRoot
  pure [l0, l1, l2, l3, left, right, root]

/-- The root that the master record of the file names: the 8 bytes at offset 16, as
`masterLoad` decodes them. -/
def masterRoot (bytes : Nat → Nat) : Nat := leDecode (readAt bytes 16 8)

/-- The number of pages that the master record of the file names: the 8 bytes at
offset 24, as `masterLoad` decodes them. -/
def masterUsed (bytes : Nat → Nat) : Nat := leDecode (readAt bytes 24 8)

/-- Page `ptr` of the file: the bytes from offset `ptr * 4096`, which is where a
process that maps the file from offset 0, as `mmapInit` does, reads the page. -/
def filePage (bytes : Nat → Nat) (ptr : Nat) : List Nat :=
  readAt bytes (ptr * BTREE_PAGE_SIZE) BTREE_PAGE_SIZE

/-- The state `driftDb` with the pending image `fillPage 170`, after `writePages`: a
third chunk is mapped and the image is stored in page 32768. -/
def driftDbFirstWritten : MappedKV :=
  ⟨146042880, 268435456, [⟨0, 67108864⟩, ⟨67108864, 67112960⟩, ⟨134217728, 134221824⟩],
    32768, [fillPage 170], storeAt (fun _ => 0) 134217728 (fillPage 170)⟩

/-- The state `driftDbFirstWritten` after `syncPages` with the root 32768: the first
commit from `driftDb` is done. -/
def driftDbFirst : MappedKV :=
  ⟨146042880, 268435456, [⟨0, 67108864⟩, ⟨67108864, 67112960⟩, ⟨134217728, 134221824⟩],
    32769, [],
    storeAt (storeAt (fun _ => 0) 134217728 (fillPage 170)) 0 (masterRecord 32768 32769)⟩

/-- The state `driftDbFirst` with the pending image `fillPage 187`, after `writePages`
of the next commit. -/
def driftDbNextWritten : MappedKV :=
  { driftDbFirst with
    temp := [fillPage 187]
    bytes := storeAt driftDbFirst.bytes 134217728 (fillPage 187) }

/-- The state `driftDbNextWritten` after `syncPages` with the root 32769. -/
def driftDbNext : MappedKV :=
  { driftDbNextWritten with
    flushed := 32770
    temp := []
    bytes := storeAt driftDbNextWritten.bytes 0 (masterRecord 32769 32770) }

/-! ## Byte slices: reading after writing -/

theorem slice_getElem? (d : List Nat) (p n i : Nat) :
    (slice d p n)[i]? = if i < n then d[p + i]? else none := by
  unfold slice
  rw [List.getElem?_take]
  split
  · rw [List.getElem?_drop]
  · rfl

theorem blit_length (d : List Nat) (p : Nat) (s : List Nat) :
    (blit d p s).length = d.length := by
  unfold blit
  simp only [List.length_append, List.length_take, List.length_drop]
  omega

theorem blit_getElem? (d : List Nat) (p : Nat) (s : List Nat) (i : Nat) (hp : p ≤ d.length) :
    (blit d p s)[i]? =
      if i < p then d[i]? else if i < p + s.length ∧ i < d.length then s[i - p]? else d[i]? := by
  unfold blit
  by_cases h1 : i < p
  · rw [List.getElem?_append_left (by simp; omega)]
    simp [h1, List.getElem?_take]
  · rw [List.getElem?_append_right (by simp; omega)]
    simp only [List.length_take, h1, if_false]
    have hmin : min p d.length = p := by omega
    rw [hmin]
    by_cases h2 : i < p + s.length ∧ i < d.length
    · rw [List.getElem?_append_left (by simp; omega)]
      simp [h2, List.getElem?_take]
      intro h; omega
    · rw [List.getElem?_append_right (by simp; omega)]
      simp only [h2, if_false, List.length_take, List.getElem?_drop]
      by_cases h3 : i < d.length
      · have : s.length ≤ i - p := by omega
        congr 1
        omega
      · rw [List.getElem?_eq_none (by omega), List.getElem?_eq_none (by omega)]


theorem slice_length (d : List Nat) (p n : Nat) (h : p + n ≤ d.length) :
    (slice d p n).length = n := by
  unfold slice
  simp only [List.length_take, List.length_drop]
  omega

theorem slice_blit_disjoint (d : List Nat) (p : Nat) (s : List Nat) (q m : Nat)
    (hp : p ≤ d.length) (h : q + m ≤ p ∨ p + s.length ≤ q) :
    slice (blit d p s) q m = slice d q m := by
  apply List.ext_getElem?
  intro i
  rw [slice_getElem?, slice_getElem?]
  split
  · rw [blit_getElem? d p s _ hp]
    split
    · rfl
    · split
      · omega
      · rfl
  · rfl

theorem slice_blit_inside (d : List Nat) (p : Nat) (s : List Nat) (x m : Nat)
    (hfit : p + s.length ≤ d.length) (h : x + m ≤ s.length) :
    slice (blit d p s) (p + x) m = slice s x m := by
  apply List.ext_getElem?
  intro i
  rw [slice_getElem?, slice_getElem?]
  split
  · rw [blit_getElem? d p s _ (by omega)]
    rw [if_neg (by omega), if_pos (by omega)]
    congr 1
    omega
  · rfl

theorem slice_all (s : List Nat) : slice s 0 s.length = s := by
  unfold slice
  simp

theorem slice_blit_same (d : List Nat) (p : Nat) (s : List Nat)
    (hfit : p + s.length ≤ d.length) :
    slice (blit d p s) p s.length = s := by
  have := slice_blit_inside d p s 0 s.length hfit (by omega)
  rw [Nat.add_zero] at this
  rw [this, slice_all]

theorem slice_slice (d : List Nat) (p n x m : Nat) (h : x + m ≤ n) :
    slice (slice d p n) x m = slice d (p + x) m := by
  apply List.ext_getElem?
  intro i
  rw [slice_getElem?, slice_getElem?, slice_getElem?]
  split
  · rw [if_pos (by omega), Nat.add_assoc]
  · rfl

theorem slice_add (d : List Nat) (p n m : Nat) (h : p + n ≤ d.length) :
    slice d p (n + m) = slice d p n ++ slice d (p + n) m := by
  apply List.ext_getElem?
  intro i
  by_cases hi : i < n
  · rw [List.getElem?_append_left (by rw [slice_length d p n h]; exact hi)]
    rw [slice_getElem?, slice_getElem?, if_pos (by omega), if_pos hi]
  · rw [List.getElem?_append_right (by rw [slice_length d p n h]; omega)]
    rw [slice_length d p n h, slice_getElem?, slice_getElem?]
    by_cases h2 : i < n + m
    · rw [if_pos h2, if_pos (by omega)]
      congr 1
      omega
    · rw [if_neg h2, if_neg (by omega)]

theorem slice_take (d : List Nat) (k p n : Nat) (h : p + n ≤ k) :
    slice (d.take k) p n = slice d p n := by
  apply List.ext_getElem?
  intro i
  rw [slice_getElem?, slice_getElem?]
  split
  · rw [List.getElem?_take, if_pos (by omega)]
  · rfl

theorem slice_zeros (k p n : Nat) (h : p + n ≤ k) : slice (zeros k) p n = zeros n := by
  apply List.ext_getElem?
  intro i
  rw [slice_getElem?]
  unfold zeros
  by_cases hi : i < n
  · rw [if_pos hi, List.getElem?_replicate, List.getElem?_replicate, if_pos (by omega), if_pos hi]
  · rw [if_neg hi, List.getElem?_replicate, if_neg hi]

theorem slice_append_left (a b : List Nat) (p n : Nat) (h : p + n ≤ a.length) :
    slice (a ++ b) p n = slice a p n := by
  apply List.ext_getElem?
  intro i
  rw [slice_getElem?, slice_getElem?]
  split
  · rw [List.getElem?_append_left (by omega)]
  · rfl

theorem slice_append_right (a b : List Nat) (p n : Nat) :
    slice (a ++ b) (a.length + p) n = slice b p n := by
  apply List.ext_getElem?
  intro i
  rw [slice_getElem?, slice_getElem?]
  split
  · rw [List.getElem?_append_right (by omega)]
    congr 1
    omega
  · rfl

theorem leEncode_length (n v : Nat) : (leEncode n v).length = n := by
  induction n generalizing v with
  | zero => rfl
  | succ n ih => simp [leEncode, ih]

theorem leDecode_leEncode (n v : Nat) : leDecode (leEncode n v) = v % 256 ^ n := by
  induction n generalizing v with
  | zero => simp [leEncode, leDecode, Nat.mod_one]
  | succ n ih =>
    simp only [leEncode, leDecode, ih]
    rw [pow_succ, Nat.mul_comm (256 ^ n) 256, Nat.mod_mul]

theorem leDecode_leEncode_2 (v : Nat) (h : v < 65536) : leDecode (leEncode 2 v) = v := by
  rw [leDecode_leEncode]
  exact Nat.mod_eq_of_lt (by simpa using h)

theorem leDecode_leEncode_8 (v : Nat) (h : v < 18446744073709551616) :
    leDecode (leEncode 8 v) = v := by
  rw [leDecode_leEncode]
  exact Nat.mod_eq_of_lt (by simpa using h)



/-! ## The result monad and machine integers -/

@[simp] theorem bind_ok {α β : Type} (a : α) (f : α → Res β) :
    (Except.ok a >>= f) = f a := rfl
@[simp] theorem bind_error {α β : Type} (e : Fault) (f : α → Res β) :
    ((Except.error e : Res α) >>= f) = Except.error e := rfl
@[simp] theorem pure_eq_ok {α : Type} (a : α) : (pure a : Res α) = Except.ok a := rfl
@[simp] theorem assert_true : assert true = Except.ok () := rfl
@[simp] theorem assert_false : assert false = Except.error Fault.assertion := rfl

theorem assert_of {p : Prop} [Decidable p] (h : p) : assert (decide p) = Except.ok () := by
  rw [decide_eq_true h]; rfl

theorem w16_of_lt {x : Nat} (h : x < 65536) : w16 x = x := Nat.mod_eq_of_lt h
theorem w64_of_lt {x : Nat} (h : x < 18446744073709551616) : w64 x = x := Nat.mod_eq_of_lt h
theorem sub16_of_le {a b : Nat} (ha : a < 65536) (hb : b ≤ a) : sub16 a b = a - b := by
  unfold sub16 w16
  omega

/-! ## Offsets of cells -/

theorem offTo_zero (es : List Entry) : offTo es 0 = 0 := by
  simp [offTo]

theorem getElem?_lt {α : Type} {l : List α} {i : Nat} {a : α} (h : l[i]? = some a) :
    i < l.length := by
  rcases Nat.lt_or_ge i l.length with h' | h'
  · exact h'
  · rw [List.getElem?_eq_none h'] at h; cases h

theorem offTo_succ (es : List Entry) (i : Nat) (e : Entry) (h : es[i]? = some e) :
    offTo es (i + 1) = offTo es i + e.size := by
  induction es generalizing i with
  | nil => simp at h
  | cons a es ih =>
    cases i with
    | zero =>
      simp at h
      subst h
      simp [offTo]
    | succ i =>
      simp at h
      have := ih i h
      simp only [offTo, List.take_succ_cons, List.map_cons, List.sum_cons] at this ⊢
      omega

theorem offTo_of_ge (es : List Entry) (i : Nat) (h : es.length ≤ i) :
    offTo es i = offTo es es.length := by
  simp [offTo, List.take_of_length_le h]

theorem offTo_mono (es : List Entry) {i j : Nat} (h : i ≤ j) : offTo es i ≤ offTo es j := by
  induction j with
  | zero =>
    have : i = 0 := by omega
    subst this; exact Nat.le_refl _
  | succ j ih =>
    rcases Nat.lt_or_ge i (j + 1) with h' | h'
    · have h1 := ih (by omega)
      rcases hj : es[j]? with _ | e
      · have hlen : es.length ≤ j := by
          rcases Nat.lt_or_ge j es.length with h2 | h2
          · rw [List.getElem?_eq_getElem h2] at hj; cases hj
          · exact h2
        rw [offTo_of_ge es (j + 1) (by omega), ← offTo_of_ge es j hlen]
        exact h1
      · rw [offTo_succ es j e hj]; omega
    · have : i = j + 1 := by omega
      subst this; exact Nat.le_refl _

theorem offTo_append_left (es l : List Entry) (i : Nat) (h : i ≤ es.length) :
    offTo (es ++ l) i = offTo es i := by
  simp [offTo, List.take_append_of_le_length h]

theorem offTo_append_right (es l : List Entry) (j : Nat) :
    offTo (es ++ l) (es.length + j) = offTo es es.length + offTo l j := by
  simp [offTo, List.take_append]

theorem offTo_drop (es : List Entry) (s j : Nat) :
    offTo es (s + j) = offTo es s + offTo (es.drop s) j := by
  rcases Nat.lt_or_ge es.length s with h | h
  · rw [offTo_of_ge es (s + j) (by omega), offTo_of_ge es s (by omega)]
    simp [offTo, List.drop_of_length_le (Nat.le_of_lt h)]
  · have h1 : es = es.take s ++ es.drop s := (List.take_append_drop s es).symm
    have h2 : (es.take s).length = s := by simp; omega
    have h3 := offTo_append_right (es.take s) (es.drop s) j
    rw [← h1, h2] at h3
    have h4 := offTo_append_left (es.take s) (es.drop s) s (by omega)
    rw [← h1] at h4
    rw [h3, h4, offTo_of_ge (es.take s) s (by omega)]

theorem offTo_take (es : List Entry) (m j : Nat) (h : j ≤ m) :
    offTo (es.take m) j = offTo es j := by
  simp [offTo, List.take_take, Nat.min_eq_left h]

/-! ## Reading a node -/

theorem Layout.n_lt {d ty n es} (L : Layout d ty n es) : n < 65536 := by
  have := L.fits; have := L.len_lt; omega

theorem Layout.nkeys_eq {d ty n es} (L : Layout d ty n es) : (BNode.mk d).nkeys = .ok n := by
  have h1 := L.fits
  have h2 := L.n_lt
  simp only [BNode.nkeys, rdU16]
  rw [if_pos (by omega), L.hn, leDecode_leEncode_2 n h2]

theorem Layout.btype_eq {d ty n es} (L : Layout d ty n es) : (BNode.mk d).btype = .ok ty := by
  have h1 := L.fits
  simp only [BNode.btype, rdU16]
  rw [if_pos (by omega), L.hty, leDecode_leEncode_2 ty L.ty_lt]

theorem Layout.getPtr_eq {d ty n es} (L : Layout d ty n es) (i : Nat) (e : Entry)
    (h : es[i]? = some e) : (BNode.mk d).getPtr i = .ok e.ptr := by
  have hi := getElem?_lt h
  have h1 := L.fits
  have h2 := L.count
  have h3 := L.len_lt
  obtain ⟨hp, hlt⟩ := L.ptrs i e h
  simp only [BNode.getPtr, L.nkeys_eq, bind_ok, HEADER]
  rw [assert_of (by omega)]
  simp only [bind_ok, rdU64]
  rw [w16_of_lt (by omega), if_pos (by omega), hp, leDecode_leEncode_8 _ hlt]

theorem Layout.off_le {d ty n es} (L : Layout d ty n es) (i : Nat) :
    4 + 10 * n + offTo es i ≤ d.length := by
  have h1 := L.fits
  rcases Nat.le_total i es.length with h | h
  · have := offTo_mono es h; omega
  · rw [offTo_of_ge es i h]; exact h1

theorem Layout.getOffset_eq {d ty n es} (L : Layout d ty n es) (i : Nat)
    (h : i ≤ es.length) : (BNode.mk d).getOffset i = .ok (offTo es i) := by
  have h1 := L.fits
  have h2 := L.count
  have h3 := L.len_lt
  cases i with
  | zero => simp [BNode.getOffset, offTo_zero]
  | succ j =>
    have hj : j < es.length := by omega
    have he : es[j]? = some es[j] := List.getElem?_eq_getElem hj
    have ho := L.offs j _ he
    have hle := L.off_le (j + 1)
    simp only [BNode.getOffset, BNode.offsetPos, L.nkeys_eq, bind_ok, HEADER]
    rw [if_neg (by omega)]
    have : (decide (1 ≤ j + 1) && decide (j + 1 ≤ n)) = true := by
      simp; omega
    rw [this]
    simp only [assert_true, bind_ok, pure_eq_ok, rdU16, Nat.add_sub_cancel]
    rw [w16_of_lt (by omega), if_pos (by omega), ho, leDecode_leEncode_2 _ (by omega)]

theorem Layout.kvPos_eq {d ty n es} (L : Layout d ty n es) (i : Nat)
    (h : i ≤ es.length) : (BNode.mk d).kvPos i = .ok (4 + 10 * n + offTo es i) := by
  have h2 := L.count
  have h3 := L.len_lt
  have hle := L.off_le i
  simp only [BNode.kvPos, L.nkeys_eq, bind_ok, HEADER, L.getOffset_eq i h]
  rw [assert_of (by omega)]
  simp only [bind_ok, pure_eq_ok]
  rw [w16_of_lt (by omega)]
  congr 1
  omega

theorem Layout.nbytes_eq {d ty n es} (L : Layout d ty n es) (h : es.length = n) :
    (BNode.mk d).nbytes = .ok (4 + 10 * n + offTo es n) := by
  simp only [BNode.nbytes, L.nkeys_eq, bind_ok]
  exact L.kvPos_eq n (by omega)

theorem Entry.bytes_length (e : Entry) : e.bytes.length = e.size := by
  simp [Entry.bytes, Entry.size, leEncode_length]
  omega

theorem slice_all_of {s : List Nat} {n : Nat} (h : s.length = n) : slice s 0 n = s := by
  subst h; exact slice_all s

theorem slice_append_right_of (a b : List Nat) {p x : Nat} (n : Nat) (h : p = a.length + x) :
    slice (a ++ b) p n = slice b x n := by
  subst h; exact slice_append_right a b x n

/-- The four fields of a cell, read off the bytes of the cell. -/
theorem cell_parts (d : List Nat) (p : Nat) (e : Entry) (h : slice d p e.size = e.bytes) :
    slice d p 2 = leEncode 2 e.key.length ∧ slice d (p + 2) 2 = leEncode 2 e.val.length ∧
    slice d (p + 4) e.key.length = e.key ∧ slice d (p + 4 + e.key.length) e.val.length = e.val := by
  have hs : e.size = 4 + e.key.length + e.val.length := rfl
  have l2 : ∀ v, (leEncode 2 v).length = 2 := fun v => leEncode_length 2 v
  refine ⟨?_, ?_, ?_, ?_⟩
  · have := slice_slice d p e.size 0 2 (by omega)
    rw [h, Nat.add_zero] at this
    rw [← this, Entry.bytes, slice_append_left _ _ _ _ (by rw [l2]), slice_all_of (l2 _)]
  · have := slice_slice d p e.size 2 2 (by omega)
    rw [h] at this
    rw [← this, Entry.bytes, slice_append_right_of _ _ 2 (show 2 = _ + 0 by rw [l2]),
      slice_append_left _ _ _ _ (by rw [l2]), slice_all_of (l2 _)]
  · have := slice_slice d p e.size 4 e.key.length (by omega)
    rw [h] at this
    rw [← this, Entry.bytes, slice_append_right_of _ _ _ (show 4 = _ + 2 by rw [l2]),
      slice_append_right_of _ _ _ (show 2 = _ + 0 by rw [l2]),
      slice_append_left _ _ _ _ (by omega), slice_all]
  · have := slice_slice d p e.size (4 + e.key.length) e.val.length (by omega)
    rw [h] at this
    rw [Nat.add_assoc, ← this, Entry.bytes,
      slice_append_right_of _ _ _ (show 4 + e.key.length = _ + (2 + e.key.length) by rw [l2]; omega),
      slice_append_right_of _ _ _ (show 2 + e.key.length = _ + e.key.length by rw [l2]),
      slice_append_right_of _ _ _ (show e.key.length = _ + 0 by omega), slice_all]

/-- A cell assembled from its four fields. -/
theorem cell_of_parts (d : List Nat) (p : Nat) (e : Entry) (hfit : p + e.size ≤ d.length)
    (h1 : slice d p 2 = leEncode 2 e.key.length)
    (h2 : slice d (p + 2) 2 = leEncode 2 e.val.length)
    (h3 : slice d (p + 4) e.key.length = e.key)
    (h4 : slice d (p + 4 + e.key.length) e.val.length = e.val) :
    slice d p e.size = e.bytes := by
  have hs : e.size = 2 + (2 + (e.key.length + e.val.length)) := by
    simp only [Entry.size]; omega
  rw [hs] at hfit ⊢
  rw [slice_add d p 2 _ (by omega), slice_add d (p + 2) 2 _ (by omega),
    slice_add d (p + 2 + 2) _ _ (by omega), Entry.bytes, h1, h2,
    show p + 2 + 2 = p + 4 by omega, h3, h4]

theorem Layout.cell_le {d ty n es} (L : Layout d ty n es) (i : Nat) (e : Entry)
    (h : es[i]? = some e) : 4 + 10 * n + offTo es i + e.size ≤ d.length := by
  have := L.off_le (i + 1)
  rw [offTo_succ es i e h] at this
  omega

theorem Layout.getKey_eq {d ty n es} (L : Layout d ty n es) (i : Nat) (e : Entry)
    (h : es[i]? = some e) : (BNode.mk d).getKey i = .ok e.key := by
  have hi := getElem?_lt h
  have h2 := L.count
  have h3 := L.len_lt
  have hc := L.cell_le i e h
  have hs : e.size = 4 + e.key.length + e.val.length := rfl
  obtain ⟨c1, _, c3, _⟩ := cell_parts d _ e (L.cells i e h)
  simp only [BNode.getKey, L.nkeys_eq, bind_ok, L.kvPos_eq i (Nat.le_of_lt hi)]
  rw [assert_of (by omega)]
  simp only [bind_ok, rdU16, subSlice]
  rw [if_pos (by omega), c1, leDecode_leEncode_2 _ (by omega), bind_ok, w16_of_lt (by omega),
    if_pos (by omega), c3]

theorem Layout.getVal_eq {d ty n es} (L : Layout d ty n es) (i : Nat) (e : Entry)
    (h : es[i]? = some e) : (BNode.mk d).getVal i = .ok e.val := by
  have hi := getElem?_lt h
  have h2 := L.count
  have h3 := L.len_lt
  have hc := L.cell_le i e h
  have hs : e.size = 4 + e.key.length + e.val.length := rfl
  obtain ⟨c1, c2, _, c4⟩ := cell_parts d _ e (L.cells i e h)
  simp only [BNode.getVal, L.nkeys_eq, bind_ok, L.kvPos_eq i (Nat.le_of_lt hi)]
  rw [assert_of (by omega)]
  simp only [bind_ok, rdU16]
  rw [if_pos (by omega), c1, leDecode_leEncode_2 _ (by omega), bind_ok, w16_of_lt (by omega),
    if_pos (by omega), c2, leDecode_leEncode_2 _ (by omega), bind_ok, w16_of_lt (by omega)]
  simp only [subSlice]
  rw [if_pos (by omega), c4]



/-! ## Writing a node -/

theorem SameOutside.refl (d : List Nat) (a b : Nat) : SameOutside d d a b :=
  ⟨rfl, fun _ _ _ => rfl⟩

theorem SameOutside.chain {d1 d2 d3 : List Nat} {a b a' b' : Nat}
    (h1 : SameOutside d2 d1 a' b') (h2 : SameOutside d3 d2 a' b')
    (ha : a ≤ a') (hb : b' ≤ b) : SameOutside d3 d1 a b := by
  refine ⟨h2.1.trans h1.1, fun q l h => ?_⟩
  rw [h2.2 q l (by omega), h1.2 q l (by omega)]

theorem SameOutside.mono {d' d : List Nat} {a b a' b' : Nat}
    (h : SameOutside d' d a' b') (ha : a ≤ a') (hb : b' ≤ b) : SameOutside d' d a b :=
  ⟨h.1, fun q l hq => h.2 q l (by omega)⟩

theorem sameOutside_blit (d : List Nat) (p : Nat) (s : List Nat) (hp : p ≤ d.length) :
    SameOutside (blit d p s) d p (p + s.length) :=
  ⟨blit_length d p s, fun q l h => slice_blit_disjoint d p s q l hp h⟩

theorem Layout.frame {d ty n es} (L : Layout d ty n es) {d' : List Nat} {a b : Nat}
    (hs : SameOutside d' d a b) (hfree : FreeRegion n es a b) : Layout d' ty n es := by
  obtain ⟨hlen, hsame⟩ := hs
  have hc := L.count
  refine ⟨by rw [hlen]; exact L.len_lt, L.ty_lt, L.count, by rw [hlen]; exact L.fits, ?_, ?_, ?_, ?_, ?_⟩
  · rw [hsame _ _ (by unfold FreeRegion at hfree; omega)]; exact L.hty
  · rw [hsame _ _ (by unfold FreeRegion at hfree; omega)]; exact L.hn
  · intro i e h
    have hi := getElem?_lt h
    rw [hsame _ _ (by unfold FreeRegion at hfree; omega)]
    exact L.ptrs i e h
  · intro i e h
    have hi := getElem?_lt h
    rw [hsame _ _ (by unfold FreeRegion at hfree; omega)]
    exact L.offs i e h
  · intro i e h
    have hi := getElem?_lt h
    have h1 := offTo_succ es i e h
    have h2 := offTo_mono es (show i + 1 ≤ es.length by omega)
    rw [hsame _ _ (by unfold FreeRegion at hfree; omega)]
    exact L.cells i e h

theorem Layout.append {d ty n es} (L : Layout d ty n es) (l : List Entry)
    (hk : es.length + l.length ≤ n)
    (hfit : 4 + 10 * n + offTo es es.length + offTo l l.length ≤ d.length)
    (hp : ∀ j e, l[j]? = some e →
      slice d (4 + 8 * (es.length + j)) 8 = leEncode 8 e.ptr ∧ e.ptr < 18446744073709551616)
    (ho : ∀ j e, l[j]? = some e →
      slice d (4 + 8 * n + 2 * (es.length + j)) 2 =
        leEncode 2 (offTo es es.length + offTo l (j + 1)))
    (hc : ∀ j e, l[j]? = some e →
      slice d (4 + 10 * n + (offTo es es.length + offTo l j)) e.size = e.bytes) :
    Layout d ty n (es ++ l) := by
  refine ⟨L.len_lt, L.ty_lt, by simpa using hk, ?_, L.hty, L.hn, ?_, ?_, ?_⟩
  · have := offTo_append_right es l l.length
    rw [List.length_append, this]
    omega
  · intro i e h
    rcases Nat.lt_or_ge i es.length with hi | hi
    · rw [List.getElem?_append_left hi] at h
      exact L.ptrs i e h
    · rw [List.getElem?_append_right hi] at h
      have := hp _ e h
      rwa [show es.length + (i - es.length) = i by omega] at this
  · intro i e h
    rcases Nat.lt_or_ge i es.length with hi | hi
    · rw [List.getElem?_append_left hi] at h
      rw [offTo_append_left es l (i + 1) (by omega)]
      exact L.offs i e h
    · rw [List.getElem?_append_right hi] at h
      have := ho _ e h
      rw [show es.length + (i - es.length) = i by omega] at this
      rw [this, show i + 1 = es.length + (i - es.length + 1) by omega, offTo_append_right]
  · intro i e h
    rcases Nat.lt_or_ge i es.length with hi | hi
    · rw [List.getElem?_append_left hi] at h
      rw [offTo_append_left es l i (by omega)]
      exact L.cells i e h
    · rw [List.getElem?_append_right hi] at h
      have := hc _ e h
      have hi2 : offTo (es ++ l) i = offTo es es.length + offTo l (i - es.length) := by
        have := offTo_append_right es l (i - es.length)
        rwa [show es.length + (i - es.length) = i by omega] at this
      rw [hi2]
      exact this

theorem setHeader_layout (d : List Nat) (ty n : Nat) (hlen : d.length < 65536)
    (hfit : 4 + 10 * n ≤ d.length) (hty : ty < 65536) :
    ∃ d', (BNode.mk d).setHeader ty n = .ok ⟨d'⟩ ∧ d'.length = d.length ∧ Layout d' ty n [] := by
  have l2 : ∀ v, (leEncode 2 v).length = 2 := fun v => leEncode_length 2 v
  refine ⟨blit (blit d 0 (leEncode 2 ty)) 2 (leEncode 2 n), ?_, ?_, ?_⟩
  · simp only [BNode.setHeader, wrU16]
    rw [if_pos (by omega), bind_ok, if_pos (by rw [blit_length]; omega), bind_ok,
      w16_of_lt hty, w16_of_lt (by omega)]
    rfl
  · rw [blit_length, blit_length]
  · refine ⟨by rw [blit_length, blit_length]; exact hlen, hty, by simp, ?_, ?_, ?_, ?_, ?_, ?_⟩
    · rw [blit_length, blit_length]; simp [offTo]; omega
    · rw [slice_blit_disjoint _ _ _ _ _ (by rw [blit_length]; omega) (by omega)]
      have := slice_blit_same d 0 (leEncode 2 ty) (by rw [l2]; omega)
      rwa [l2] at this
    · have := slice_blit_same (blit d 0 (leEncode 2 ty)) 2 (leEncode 2 n)
        (by rw [l2, blit_length]; omega)
      rwa [l2] at this
    · intro i e h; simp at h
    · intro i e h; simp at h
    · intro i e h; simp at h



theorem setPtr_eq (d : List Nat) (n idx v : Nat) (hn : (BNode.mk d).nkeys = .ok n)
    (hi : idx < n) (hfit : 4 + 8 * idx + 8 ≤ d.length) (hlen : d.length < 65536) :
    (BNode.mk d).setPtr idx v = .ok ⟨blit d (4 + 8 * idx) (leEncode 8 (w64 v))⟩ := by
  simp only [BNode.setPtr, hn, bind_ok, HEADER]
  rw [assert_of hi]
  simp only [bind_ok, wrU64]
  rw [w16_of_lt (by omega), if_pos (by omega)]
  rfl

theorem setOffset_eq (d : List Nat) (n idx off : Nat) (hn : (BNode.mk d).nkeys = .ok n)
    (hi : idx < n) (hfit : 4 + 8 * n + 2 * idx + 2 ≤ d.length) (hlen : d.length < 65536) :
    (BNode.mk d).setOffset (idx + 1) off =
      .ok ⟨blit d (4 + 8 * n + 2 * idx) (leEncode 2 (w16 off))⟩ := by
  simp only [BNode.setOffset, BNode.offsetPos, hn, bind_ok, HEADER]
  have : (decide (1 ≤ idx + 1) && decide (idx + 1 ≤ n)) = true := by
    simp; omega
  rw [this]
  simp only [assert_true, bind_ok, pure_eq_ok, wrU16, Nat.add_sub_cancel]
  rw [w16_of_lt (by omega), if_pos (by omega)]
  rfl

theorem setKey_eq (d : List Nat) (idx pos : Nat) (key : List Nat)
    (hpos : (BNode.mk d).kvPos idx = .ok pos) (hkey : key.length ≤ 1000)
    (hfit : pos + 4 ≤ d.length) (hlen : d.length < 65536) :
    (BNode.mk d).setKey idx key =
      .ok ⟨blit (blit d pos (leEncode 2 key.length)) (pos + 4) key⟩ := by
  simp only [BNode.setKey, BTREE_MAX_KEY_SIZE]
  rw [assert_of hkey]
  simp only [bind_ok, hpos, wrU16, copyAt]
  rw [if_pos (by omega), bind_ok, w16_of_lt (by omega), w16_of_lt (by omega),
    if_pos (by rw [blit_length]; omega)]
  rfl

theorem setVal_eq (d : List Nat) (idx pos klen : Nat) (val : List Nat)
    (hpos : (BNode.mk d).kvPos idx = .ok pos) (hval : val.length ≤ 3000)
    (hklen : slice d pos 2 = leEncode 2 klen) (hk : klen < 65536)
    (hfit : pos + 4 + klen ≤ d.length) (hlen : d.length < 65536) :
    (BNode.mk d).setVal idx val =
      .ok ⟨blit (blit d (pos + 2) (leEncode 2 val.length)) (pos + 4 + klen) val⟩ := by
  simp only [BNode.setVal, BTREE_MAX_VAL_SIZE]
  rw [assert_of hval]
  simp only [bind_ok, hpos, rdU16, wrU16, copyAt]
  rw [if_pos (by omega), hklen, leDecode_leEncode_2 _ hk, bind_ok, w16_of_lt (by omega),
    w16_of_lt (by omega), if_pos (by omega), bind_ok, w16_of_lt (by omega),
    if_pos (by rw [blit_length]; omega)]
  rfl

theorem blit_spec (d : List Nat) (p : Nat) (s : List Nat) (n : Nat) (hn : s.length = n)
    (h : p + n ≤ d.length) :
    ∃ d', d' = blit d p s ∧ d'.length = d.length ∧ SameOutside d' d p (p + n) ∧
      slice d' p n = s := by
  subst hn
  exact ⟨_, rfl, blit_length d p s, sameOutside_blit d p s (by omega), slice_blit_same d p s h⟩

theorem nodeAppendKV_layout {d ty n es} (L : Layout d ty n es) (ptr : Nat) (key val : List Nat)
    (hk : es.length < n) (hkey : key.length ≤ 1000) (hval : val.length ≤ 3000)
    (hptr : ptr < 18446744073709551616)
    (hfit : 4 + 10 * n + offTo es es.length + (4 + key.length + val.length) ≤ d.length) :
    ∃ d', nodeAppendKV ⟨d⟩ es.length ptr key val = .ok ⟨d'⟩ ∧ d'.length = d.length ∧
      Layout d' ty n (es ++ [⟨ptr, key, val⟩]) := by
  have hlen := L.len_lt
  have l2 : ∀ v, (leEncode 2 v).length = 2 := fun v => leEncode_length 2 v
  have l8 : ∀ v, (leEncode 8 v).length = 8 := fun v => leEncode_length 8 v
  obtain ⟨pos, hpos⟩ : ∃ pos, pos = 4 + 10 * n + offTo es es.length := ⟨_, rfl⟩
  -- the pointer
  obtain ⟨d1, hd1, len1, S1, W1⟩ :=
    blit_spec d (4 + 8 * es.length) (leEncode 8 (w64 ptr)) 8 (l8 _) (by omega)
  have e1 : (BNode.mk d).setPtr es.length ptr = .ok ⟨d1⟩ := by
    rw [hd1]; exact setPtr_eq d n es.length ptr L.nkeys_eq hk (by omega) hlen
  have L1 : Layout d1 ty n es := L.frame S1 (Or.inl ⟨Nat.le_refl _, by omega⟩)
  -- the key
  obtain ⟨d2, hd2, len2, S2, W2⟩ :=
    blit_spec d1 pos (leEncode 2 key.length) 2 (l2 _) (by omega)
  obtain ⟨d3, hd3, len3, S3, W3⟩ := blit_spec d2 (pos + 4) key key.length rfl (by omega)
  have e2 : (BNode.mk d1).setKey es.length key = .ok ⟨d3⟩ := by
    rw [hd3, hd2]
    exact setKey_eq d1 es.length pos key (by rw [hpos]; exact L1.kvPos_eq _ (Nat.le_refl _))
      hkey (by omega) (by omega)
  have L2 : Layout d2 ty n es := L1.frame S2 (Or.inr (Or.inr (by omega)))
  have L3 : Layout d3 ty n es := L2.frame S3 (Or.inr (Or.inr (by omega)))
  have k3 : slice d3 pos 2 = leEncode 2 key.length := by
    rw [S3.2 _ _ (by omega)]; exact W2
  -- the value
  obtain ⟨d4, hd4, len4, S4, W4⟩ :=
    blit_spec d3 (pos + 2) (leEncode 2 val.length) 2 (l2 _) (by omega)
  obtain ⟨d5, hd5, len5, S5, W5⟩ :=
    blit_spec d4 (pos + 4 + key.length) val val.length rfl (by omega)
  have e3 : (BNode.mk d3).setVal es.length val = .ok ⟨d5⟩ := by
    rw [hd5, hd4]
    exact setVal_eq d3 es.length pos key.length val
      (by rw [hpos]; exact L3.kvPos_eq _ (Nat.le_refl _)) hval k3 (by omega) (by omega) (by omega)
  have L4 : Layout d4 ty n es := L3.frame S4 (Or.inr (Or.inr (by omega)))
  have L5 : Layout d5 ty n es := L4.frame S5 (Or.inr (Or.inr (by omega)))
  -- the offset
  obtain ⟨off, hoffdef⟩ :
    ∃ off, off = w16 (offTo es es.length + 4 + w16 (key.length + val.length)) := ⟨_, rfl⟩
  have hoff : off = offTo es es.length + (4 + key.length + val.length) := by
    rw [hoffdef, w16_of_lt (by omega : key.length + val.length < 65536), w16_of_lt (by omega)]
    omega
  obtain ⟨d6, hd6, len6, S6, W6⟩ :=
    blit_spec d5 (4 + 8 * n + 2 * es.length) (leEncode 2 (w16 off)) 2 (l2 _) (by omega)
  have e4 : (BNode.mk d5).setOffset (es.length + 1) off = .ok ⟨d6⟩ := by
    rw [hd6]; exact setOffset_eq d5 n es.length off L5.nkeys_eq hk (by omega) (by omega)
  have L6 : Layout d6 ty n es := L5.frame S6 (Or.inr (Or.inl ⟨Nat.le_refl _, by omega⟩))
  rw [w16_of_lt (by omega : off < 65536)] at W6
  refine ⟨d6, ?_, by omega, ?_⟩
  · simp only [nodeAppendKV, e1, bind_ok, e2, e3, L5.getOffset_eq _ (Nat.le_refl _)]
    rw [w16_of_lt (by omega : es.length + 1 < 65536), ← hoffdef]
    exact e4
  · have hsz : (Entry.mk ptr key val).size = 4 + key.length + val.length := rfl
    have hone : offTo [Entry.mk ptr key val] 1 = 4 + key.length + val.length := by
      simp [offTo, Entry.size]
    have hsingle : ∀ (j : Nat) (e : Entry), [Entry.mk ptr key val][j]? = some e →
        j = 0 ∧ e = ⟨ptr, key, val⟩ := by
      intro j e h
      have hj := getElem?_lt h
      simp at hj
      subst hj
      simp at h
      exact ⟨rfl, h.symm⟩
    apply L6.append [⟨ptr, key, val⟩] (by simpa using hk)
    · show 4 + 10 * n + offTo es es.length + offTo [Entry.mk ptr key val] 1 ≤ d6.length
      rw [hone]; omega
    · intro j e h
      obtain ⟨hj, he⟩ := hsingle j e h
      subst hj he
      refine ⟨?_, hptr⟩
      rw [Nat.add_zero, S6.2 _ _ (by omega), S5.2 _ _ (by omega), S4.2 _ _ (by omega),
        S3.2 _ _ (by omega), S2.2 _ _ (by omega), W1, w64_of_lt hptr]
    · intro j e h
      obtain ⟨hj, he⟩ := hsingle j e h
      subst hj he
      rw [Nat.add_zero, hone, W6, hoff]
    · intro j e h
      obtain ⟨hj, he⟩ := hsingle j e h
      subst hj he
      rw [offTo_zero, Nat.add_zero, ← hpos]
      apply cell_of_parts
      · rw [hsz]; omega
      · rw [S6.2 _ _ (by omega), S5.2 _ _ (by omega), S4.2 _ _ (by omega)]
        exact k3
      · show slice d6 (pos + 2) 2 = leEncode 2 val.length
        rw [S6.2 _ _ (by omega), S5.2 _ _ (by omega)]
        exact W4
      · show slice d6 (pos + 4) key.length = key
        rw [S6.2 _ _ (by omega), S5.2 _ _ (by omega), S4.2 _ _ (by omega)]
        exact W3
      · show slice d6 (pos + 4 + key.length) val.length = val
        rw [S6.2 _ _ (by omega)]
        exact W5



theorem SameOutside.trans2 {d1 d2 d3 : List Nat} {a b a1 b1 a2 b2 : Nat}
    (h1 : SameOutside d2 d1 a1 b1) (h2 : SameOutside d3 d2 a2 b2)
    (ha1 : a ≤ a1) (hb1 : b1 ≤ b) (ha2 : a ≤ a2) (hb2 : b2 ≤ b) : SameOutside d3 d1 a b :=
  SameOutside.chain (h1.mono ha1 hb1) (h2.mono ha2 hb2) (Nat.le_refl _) (Nat.le_refl _)

theorem copyPtrs_spec {od oty n0 oes} (Lo : Layout od oty n0 oes) {ty n : Nat} {es : List Entry}
    (s m : Nat) (hs : s + m ≤ oes.length) (hk : es.length + m ≤ n) :
    ∀ rem i d, i + rem = m → Layout d ty n es →
      ∃ d', copyPtrs ⟨od⟩ es.length s rem i ⟨d⟩ = .ok ⟨d'⟩ ∧
        SameOutside d' d (4 + 8 * (es.length + i)) (4 + 8 * (es.length + m)) ∧
        ∀ j e, i ≤ j → j < m → oes[s + j]? = some e →
          slice d' (4 + 8 * (es.length + j)) 8 = leEncode 8 e.ptr := by
  intro rem
  induction rem with
  | zero =>
    intro i d hi L
    refine ⟨d, rfl, SameOutside.refl _ _ _, ?_⟩
    intro j e h1 h2 _
    omega
  | succ rem ih =>
    intro i d hi L
    have hlen := L.len_lt
    have hfit := L.fits
    have hco := Lo.count
    have hlo := Lo.len_lt
    have hfo := Lo.fits
    have hsi : s + i < oes.length := by omega
    have he : oes[s + i]? = some oes[s + i] := List.getElem?_eq_getElem hsi
    obtain ⟨hp, hplt⟩ := Lo.ptrs _ _ he
    obtain ⟨d1, hd1, len1, S1, W1⟩ :=
      blit_spec d (4 + 8 * (es.length + i)) (leEncode 8 (w64 oes[s + i].ptr)) 8
        (leEncode_length 8 _) (by omega)
    have e1 : (BNode.mk d).setPtr (es.length + i) oes[s + i].ptr = .ok ⟨d1⟩ := by
      rw [hd1]; exact setPtr_eq d n _ _ L.nkeys_eq (by omega) (by omega) hlen
    have L1 : Layout d1 ty n es := L.frame S1 (Or.inl ⟨by omega, by omega⟩)
    obtain ⟨d', hd', S', W'⟩ := ih (i + 1) d1 (by omega) L1
    refine ⟨d', ?_, ?_, ?_⟩
    · simp only [copyPtrs]
      rw [w16_of_lt (by omega), Lo.getPtr_eq _ _ he, bind_ok, w16_of_lt (by omega), e1, bind_ok]
      exact hd'
    · exact SameOutside.trans2 S1 S' (Nat.le_refl _) (by omega) (by omega) (Nat.le_refl _)
    · intro j e h1 h2 hje
      rcases Nat.eq_or_lt_of_le h1 with h | h
      · subst h
        rw [he] at hje
        cases hje
        rw [S'.2 _ _ (by omega), W1, w64_of_lt hplt]
      · exact W' j e (by omega) h2 hje

theorem copyOffsets_spec {od oty n0 oes} (Lo : Layout od oty n0 oes) {ty n : Nat}
    {es : List Entry} (s m : Nat) (hs : s + m ≤ oes.length) (hk : es.length + m ≤ n)
    (hsmall : offTo es es.length + offTo oes (s + m) < 65536 + offTo oes s) :
    ∀ rem i d, i + rem = m → Layout d ty n es →
      ∃ d', copyOffsets ⟨od⟩ es.length s (offTo es es.length) (offTo oes s) rem (i + 1) ⟨d⟩
          = .ok ⟨d'⟩ ∧
        SameOutside d' d (4 + 8 * n + 2 * (es.length + i)) (4 + 8 * n + 2 * (es.length + m)) ∧
        ∀ j, i ≤ j → j < m →
          slice d' (4 + 8 * n + 2 * (es.length + j)) 2 =
            leEncode 2 (offTo es es.length + (offTo oes (s + j + 1) - offTo oes s)) := by
  intro rem
  induction rem with
  | zero =>
    intro i d hi L
    refine ⟨d, rfl, SameOutside.refl _ _ _, ?_⟩
    intro j h1 h2
    omega
  | succ rem ih =>
    intro i d hi L
    have hlen := L.len_lt
    have hfit := L.fits
    have hco := Lo.count
    have hlo := Lo.len_lt
    have hfo := Lo.fits
    have hm1 := offTo_mono oes (show s ≤ s + i + 1 by omega)
    have hm2 := offTo_mono oes (show s + i + 1 ≤ s + m by omega)
    have hm3 := Lo.off_le (s + m)
    obtain ⟨v, hv⟩ : ∃ v, v = sub16 (w16 (offTo es es.length + offTo oes (s + i + 1)))
      (offTo oes s) := ⟨_, rfl⟩
    have hveq : v = offTo es es.length + (offTo oes (s + i + 1) - offTo oes s) := by
      rw [hv]; unfold sub16 w16; omega
    obtain ⟨d1, hd1, len1, S1, W1⟩ :=
      blit_spec d (4 + 8 * n + 2 * (es.length + i)) (leEncode 2 (w16 v)) 2
        (leEncode_length 2 _) (by omega)
    have e1 : (BNode.mk d).setOffset (es.length + i + 1) v = .ok ⟨d1⟩ := by
      rw [hd1]; exact setOffset_eq d n _ _ L.nkeys_eq (by omega) (by omega) hlen
    have L1 : Layout d1 ty n es := L.frame S1 (Or.inr (Or.inl ⟨by omega, by omega⟩))
    obtain ⟨d', hd', S', W'⟩ := ih (i + 1) d1 (by omega) L1
    refine ⟨d', ?_, ?_, ?_⟩
    · simp only [copyOffsets]
      rw [w16_of_lt (by omega), Lo.getOffset_eq _ (by omega), bind_ok,
        show s + (i + 1) = s + i + 1 by omega, ← hv,
        show es.length + (i + 1) = es.length + i + 1 by omega, w16_of_lt (by omega), e1, bind_ok]
      exact hd'
    · exact SameOutside.trans2 S1 S' (Nat.le_refl _) (by omega) (by omega) (Nat.le_refl _)
    · intro j h1 h2
      rcases Nat.eq_or_lt_of_le h1 with h | h
      · subst h
        rw [S'.2 _ _ (by omega), W1, w16_of_lt (by omega), hveq]
      · exact W' j (by omega) h2


theorem getElem?_drop_take {α : Type} (l : List α) (s m j : Nat) (a : α)
    (h : ((l.drop s).take m)[j]? = some a) : j < m ∧ l[s + j]? = some a := by
  rw [List.getElem?_take] at h
  split at h
  · rename_i hj
    rw [List.getElem?_drop] at h
    exact ⟨hj, h⟩
  · cases h

theorem nodeAppendRange_layout {d ty n es od oty n0 oes} (L : Layout d ty n es)
    (Lo : Layout od oty n0 oes) (s m : Nat) (hs : s + m ≤ oes.length) (hk : es.length + m ≤ n)
    (hfit : 4 + 10 * n + offTo es es.length + offTo (oes.drop s) m ≤ d.length) :
    ∃ d', nodeAppendRange ⟨d⟩ ⟨od⟩ es.length s m = .ok ⟨d'⟩ ∧ d'.length = d.length ∧
      Layout d' ty n (es ++ (oes.drop s).take m) := by
  have hlen := L.len_lt
  have hco := Lo.count
  have hlo := Lo.len_lt
  have hn0 := Lo.n_lt
  have hnn := L.n_lt
  have hdrop : ∀ j, offTo oes (s + j) = offTo oes s + offTo (oes.drop s) j :=
    fun j => offTo_drop oes s j
  have hm3 := Lo.off_le (s + m)
  have hm4 := Lo.off_le s
  rcases Nat.eq_zero_or_pos m with hm | hm
  · subst hm
    refine ⟨d, ?_, rfl, by simpa using L⟩
    have hw1 : w16 s = s := w16_of_lt (by omega)
    have hw2 : w16 es.length = es.length := w16_of_lt (by omega)
    have ha1 : decide (s ≤ n0) = true := decide_eq_true (by omega)
    have ha2 : decide (es.length ≤ n) = true := decide_eq_true (by omega)
    simp only [nodeAppendRange, Lo.nkeys_eq, L.nkeys_eq, bind_ok, Nat.add_zero, hw1, hw2, ha1,
      ha2, assert_true, if_true, pure_eq_ok]
  · obtain ⟨d1, e1, S1, W1⟩ := copyPtrs_spec Lo s m hs hk m 0 d (by omega) L
    have L1 : Layout d1 ty n es := L.frame S1 (Or.inl ⟨by omega, by omega⟩)
    obtain ⟨d2, e2, S2, W2⟩ :=
      copyOffsets_spec Lo s m hs hk (by have := hdrop m; omega) m 0 d1 (by omega) L1
    have L2 : Layout d2 ty n es := L1.frame S2 (Or.inr (Or.inl ⟨by omega, by omega⟩))
    obtain ⟨blk, hblk⟩ : ∃ blk, blk = slice od (4 + 10 * n0 + offTo oes s)
      (offTo (oes.drop s) m) := ⟨_, rfl⟩
    have hblen : blk.length = offTo (oes.drop s) m := by
      rw [hblk]; exact slice_length _ _ _ (by have := hdrop m; omega)
    obtain ⟨d3, hd3, len3, S3, W3⟩ :=
      blit_spec d2 (4 + 10 * n + offTo es es.length) blk _ hblen
        (by rw [S2.1, S1.1]; omega)
    have L3 : Layout d3 ty n es := L2.frame S3 (Or.inr (Or.inr (Nat.le_refl _)))
    refine ⟨d3, ?_, by rw [len3, S2.1, S1.1], ?_⟩
    · simp only [nodeAppendRange, Lo.nkeys_eq, L.nkeys_eq, bind_ok]
      rw [w16_of_lt (by omega), assert_of (by omega), bind_ok, w16_of_lt (by omega),
        assert_of (by omega), bind_ok, if_neg (by omega), e1, bind_ok,
        L1.getOffset_eq _ (Nat.le_refl _), bind_ok, Lo.getOffset_eq _ (by omega), bind_ok, e2,
        bind_ok, Lo.kvPos_eq _ (by omega), bind_ok, Lo.kvPos_eq _ (by omega), bind_ok,
        L2.kvPos_eq _ (Nat.le_refl _), bind_ok]
      have h1 : (4 + 10 * n + offTo es es.length ≤ d2.length) := by rw [S2.1, S1.1]; omega
      have h2 : 4 + 10 * n0 + offTo oes s ≤ 4 + 10 * n0 + offTo oes (s + m) ∧
          4 + 10 * n0 + offTo oes (s + m) ≤ od.length := by
        have := hdrop m; omega
      simp only [h1, h2, not_true_eq_false, if_false, and_self]
      rw [hd3, hblk]
      have : 4 + 10 * n0 + offTo oes (s + m) - (4 + 10 * n0 + offTo oes s)
          = offTo (oes.drop s) m := by
        have := hdrop m; omega
      rw [this]
      rfl
    · have htk : ∀ j, j ≤ m → offTo ((oes.drop s).take m) j = offTo (oes.drop s) j :=
        fun j hj => offTo_take _ m j hj
      have hlm : ((oes.drop s).take m).length = m := by
        simp only [List.length_take, List.length_drop]; omega
      apply L3.append _ (by rw [hlm]; exact hk)
      · rw [hlm, htk m (Nat.le_refl _), len3, S2.1, S1.1]; exact hfit
      · intro j e h
        obtain ⟨hj, he⟩ := getElem?_drop_take _ _ _ _ _ h
        refine ⟨?_, (Lo.ptrs _ _ he).2⟩
        rw [S3.2 _ _ (by omega), S2.2 _ _ (by omega)]
        exact W1 j e (by omega) hj he
      · intro j e h
        obtain ⟨hj, he⟩ := getElem?_drop_take _ _ _ _ _ h
        rw [S3.2 _ _ (by omega), W2 j (by omega) hj, htk (j + 1) (by omega)]
        have := hdrop (j + 1)
        rw [show s + (j + 1) = s + j + 1 by omega] at this
        rw [this, Nat.add_sub_cancel_left]
      · intro j e h
        obtain ⟨hj, he⟩ := getElem?_drop_take _ _ _ _ _ h
        rw [htk j (by omega), ← Nat.add_assoc]
        have hsucc := offTo_succ oes (s + j) e he
        have hmono := offTo_mono oes (show s + j + 1 ≤ s + m by omega)
        have h1 := hdrop j
        have h2 := hdrop m
        have hin : offTo (oes.drop s) j + e.size ≤ blk.length := by
          rw [hblen]; omega
        have := slice_blit_inside d2 (4 + 10 * n + offTo es es.length) blk
          (offTo (oes.drop s) j) e.size (by rw [hblen, S2.1, S1.1]; omega) hin
        rw [← hd3] at this
        rw [this, hblk, slice_slice _ _ _ _ _ (by rw [← hblen]; exact hin)]
        have hc := Lo.cells _ _ he
        rw [h1] at hc
        rw [← hc]
        congr 1
        omega



/-! ## The leaf operations on a laid-out node -/

theorem offTo_length_append (a b : List Entry) :
    offTo (a ++ b) (a ++ b).length = offTo a a.length + offTo b b.length := by
  rw [List.length_append, offTo_append_right]

theorem offTo_length_single (e : Entry) : offTo [e] [e].length = e.size := by
  simp [offTo]

theorem offTo_length_take (es : List Entry) (i : Nat) :
    offTo (es.take i) (es.take i).length = offTo es i := by
  simp only [offTo, List.take_length]

theorem offTo_length_drop (es : List Entry) (i : Nat) (h : i ≤ es.length) :
    offTo (es.drop i) (es.drop i).length = offTo es es.length - offTo es i := by
  have := offTo_drop es i (es.length - i)
  rw [show i + (es.length - i) = es.length by omega] at this
  rw [List.length_drop]
  omega

theorem nodeAppendKV_at {d ty n es} (L : Layout d ty n es) (k ptr : Nat) (key val : List Nat)
    (hlen : es.length = k)
    (hk : k < n) (hkey : key.length ≤ 1000) (hval : val.length ≤ 3000)
    (hptr : ptr < 18446744073709551616)
    (hfit : 4 + 10 * n + offTo es es.length + (4 + key.length + val.length) ≤ d.length) :
    ∃ d', nodeAppendKV ⟨d⟩ k ptr key val = .ok ⟨d'⟩ ∧ d'.length = d.length ∧
      Layout d' ty n (es ++ [⟨ptr, key, val⟩]) := by
  subst hlen
  exact nodeAppendKV_layout L ptr key val hk hkey hval hptr hfit

theorem nodeAppendRange_at {d ty n es od oty n0 oes} (L : Layout d ty n es)
    (Lo : Layout od oty n0 oes) (k s m : Nat) (hlen : es.length = k)
    (hs : s + m ≤ oes.length) (hk : k + m ≤ n)
    (hfit : 4 + 10 * n + offTo es es.length + offTo (oes.drop s) m ≤ d.length) :
    ∃ d', nodeAppendRange ⟨d⟩ ⟨od⟩ k s m = .ok ⟨d'⟩ ∧ d'.length = d.length ∧
      Layout d' ty n (es ++ (oes.drop s).take m) := by
  subst hlen
  exact nodeAppendRange_layout L Lo s m hs hk hfit

theorem leafInsert_layout {d od oty n0 oes} (Lo : Layout od oty n0 oes) (hfull : oes.length = n0)
    (idx : Nat) (key val : List Nat) (hidx : idx ≤ n0)
    (hkey : key.length ≤ 1000) (hval : val.length ≤ 3000) (hd : d.length < 65536)
    (hfit : 4 + 10 * (n0 + 1) + offTo oes n0 + (4 + key.length + val.length) ≤ d.length) :
    ∃ d', leafInsert ⟨d⟩ ⟨od⟩ idx key val = .ok ⟨d'⟩ ∧ d'.length = d.length ∧
      Layout d' BNODE_LEAF (n0 + 1) (oes.take idx ++ [⟨0, key, val⟩] ++ oes.drop idx) := by
  have hm1 := offTo_mono oes hidx
  have hdr := offTo_drop oes idx (n0 - idx)
  rw [show idx + (n0 - idx) = n0 by omega] at hdr
  obtain ⟨d0, e0, len0, L0⟩ := setHeader_layout d BNODE_LEAF (n0 + 1) hd (by omega)
    (by decide)
  obtain ⟨d1, e1, len1, L1⟩ := nodeAppendRange_at L0 Lo 0 0 idx rfl (by omega) (by omega)
    (by simp only [List.drop_zero, List.length_nil, offTo_zero]; omega)
  rw [List.nil_append, List.drop_zero] at L1
  have hl1 : (oes.take idx).length = idx := by simp; omega
  obtain ⟨d2, e2, len2, L2⟩ := nodeAppendKV_at L1 idx 0 key val hl1 (by omega) hkey hval
    (by decide) (by rw [offTo_length_take]; omega)
  have hl2 : (oes.take idx ++ [Entry.mk 0 key val]).length = idx + 1 := by simp; omega
  obtain ⟨d3, e3, len3, L3⟩ := nodeAppendRange_at L2 Lo (idx + 1) idx (n0 - idx) hl2
    (by omega) (by omega)
    (by rw [offTo_length_append, offTo_length_take, offTo_length_single]
        simp only [Entry.size]; omega)
  have htk : (oes.drop idx).take (n0 - idx) = oes.drop idx :=
    List.take_of_length_le (by rw [List.length_drop]; omega)
  rw [htk] at L3
  have hn0 := Lo.n_lt
  refine ⟨d3, ?_, by omega, L3⟩
  simp only [leafInsert, Lo.nkeys_eq, bind_ok]
  rw [w16_of_lt (by omega), e0, bind_ok, e1, bind_ok, e2, bind_ok, w16_of_lt (by omega),
    sub16_of_le (by omega) hidx]
  exact e3

theorem leafUpdate_layout {d od oty n0 oes} (Lo : Layout od oty n0 oes) (hfull : oes.length = n0)
    (idx : Nat) (key val : List Nat) (hidx : idx < n0)
    (hkey : key.length ≤ 1000) (hval : val.length ≤ 3000) (hd : d.length < 65536)
    (hfit : 4 + 10 * n0 + offTo oes n0 + (4 + key.length + val.length) ≤ d.length) :
    ∃ d', leafUpdate ⟨d⟩ ⟨od⟩ idx key val = .ok ⟨d'⟩ ∧ d'.length = d.length ∧
      Layout d' BNODE_LEAF n0 (oes.take idx ++ [⟨0, key, val⟩] ++ oes.drop (idx + 1)) := by
  have hm1 := offTo_mono oes (Nat.le_of_lt hidx)
  have hm2 := offTo_mono oes (show idx ≤ idx + 1 by omega)
  have hdr := offTo_drop oes (idx + 1) (n0 - (idx + 1))
  rw [show idx + 1 + (n0 - (idx + 1)) = n0 by omega] at hdr
  obtain ⟨d0, e0, len0, L0⟩ := setHeader_layout d BNODE_LEAF n0 hd (by omega) (by decide)
  obtain ⟨d1, e1, len1, L1⟩ := nodeAppendRange_at L0 Lo 0 0 idx rfl (by omega) (by omega)
    (by simp only [List.drop_zero, List.length_nil, offTo_zero]; omega)
  rw [List.nil_append, List.drop_zero] at L1
  have hl1 : (oes.take idx).length = idx := by simp; omega
  obtain ⟨d2, e2, len2, L2⟩ := nodeAppendKV_at L1 idx 0 key val hl1 (by omega) hkey hval
    (by decide) (by rw [offTo_length_take]; omega)
  have hl2 : (oes.take idx ++ [Entry.mk 0 key val]).length = idx + 1 := by simp; omega
  obtain ⟨d3, e3, len3, L3⟩ := nodeAppendRange_at L2 Lo (idx + 1) (idx + 1) (n0 - (idx + 1)) hl2
    (by omega) (by omega)
    (by rw [offTo_length_append, offTo_length_take, offTo_length_single]
        simp only [Entry.size]; omega)
  have htk : (oes.drop (idx + 1)).take (n0 - (idx + 1)) = oes.drop (idx + 1) :=
    List.take_of_length_le (by rw [List.length_drop]; omega)
  rw [htk] at L3
  have hn0 := Lo.n_lt
  refine ⟨d3, ?_, by omega, L3⟩
  simp only [leafUpdate, Lo.nkeys_eq, bind_ok]
  rw [e0, bind_ok, e1, bind_ok, e2, bind_ok, w16_of_lt (by omega),
    sub16_of_le (by omega) (by omega)]
  exact e3

theorem leafDelete_layout {d od oty n0 oes} (Lo : Layout od oty n0 oes) (hfull : oes.length = n0)
    (idx : Nat) (hidx : idx < n0) (hd : d.length < 65536)
    (hfit : 4 + 10 * n0 + offTo oes n0 ≤ d.length) :
    ∃ d', leafDelete ⟨d⟩ ⟨od⟩ idx = .ok ⟨d'⟩ ∧ d'.length = d.length ∧
      Layout d' BNODE_LEAF (n0 - 1) (oes.take idx ++ oes.drop (idx + 1)) := by
  have hm1 := offTo_mono oes (Nat.le_of_lt hidx)
  have hm2 := offTo_mono oes (show idx ≤ idx + 1 by omega)
  have hdr := offTo_drop oes (idx + 1) (n0 - (idx + 1))
  rw [show idx + 1 + (n0 - (idx + 1)) = n0 by omega] at hdr
  obtain ⟨d0, e0, len0, L0⟩ := setHeader_layout d BNODE_LEAF (n0 - 1) hd (by omega) (by decide)
  obtain ⟨d1, e1, len1, L1⟩ := nodeAppendRange_at L0 Lo 0 0 idx rfl (by omega) (by omega)
    (by simp only [List.drop_zero, List.length_nil, offTo_zero]; omega)
  rw [List.nil_append, List.drop_zero] at L1
  have hl1 : (oes.take idx).length = idx := by simp; omega
  obtain ⟨d2, e2, len2, L2⟩ := nodeAppendRange_at L1 Lo idx (idx + 1) (n0 - (idx + 1)) hl1
    (by omega) (by omega) (by rw [offTo_length_take]; omega)
  have htk : (oes.drop (idx + 1)).take (n0 - (idx + 1)) = oes.drop (idx + 1) :=
    List.take_of_length_le (by rw [List.length_drop]; omega)
  rw [htk] at L2
  have hn0 := Lo.n_lt
  refine ⟨d2, ?_, by omega, L2⟩
  simp only [leafDelete, Lo.nkeys_eq, bind_ok]
  rw [sub16_of_le (by omega) (by omega), e0, bind_ok, e1, bind_ok, w16_of_lt (by omega),
    sub16_of_le (by omega) (by omega)]
  exact e2



/-! ## The order of keys -/

theorem bytesCompare_range (a b : List Nat) :
    bytesCompare a b = -1 ∨ bytesCompare a b = 0 ∨ bytesCompare a b = 1 := by
  induction a generalizing b with
  | nil => cases b <;> simp [bytesCompare]
  | cons x xs ih =>
    cases b with
    | nil => simp [bytesCompare]
    | cons y ys =>
      simp only [bytesCompare]
      split
      · simp
      · split
        · simp
        · exact ih ys

theorem bytesCompare_eq_zero (a b : List Nat) : bytesCompare a b = 0 ↔ a = b := by
  induction a generalizing b with
  | nil => cases b <;> simp [bytesCompare]
  | cons x xs ih =>
    cases b with
    | nil => simp [bytesCompare]
    | cons y ys =>
      simp only [bytesCompare]
      split
      · simp; intro h; omega
      · split
        · simp; intro h; omega
        · rw [ih ys]
          have : x = y := by omega
          simp [this]

theorem bytesCompare_swap (a b : List Nat) : bytesCompare b a = - bytesCompare a b := by
  induction a generalizing b with
  | nil => cases b <;> simp [bytesCompare]
  | cons x xs ih =>
    cases b with
    | nil => simp [bytesCompare]
    | cons y ys =>
      simp only [bytesCompare]
      by_cases h1 : x < y
      · have h2 : ¬ y < x := by omega
        simp only [h1, h2, if_true, if_false, neg_neg]
      · by_cases h2 : y < x
        · simp only [h1, h2, if_true, if_false]
        · simp only [h1, h2, if_false]
          exact ih ys

theorem KeyLt.step {a b c : List Nat} (h1 : KeyLt a b) (h2 : KeyLt b c) : KeyLt a c := by
  unfold KeyLt at *
  induction a generalizing b c with
  | nil =>
    cases c with
    | nil => cases b <;> simp [bytesCompare] at h1 h2
    | cons z zs => simp [bytesCompare]
  | cons x xs ih =>
    cases b with
    | nil => simp [bytesCompare] at h1
    | cons y ys =>
      cases c with
      | nil => simp [bytesCompare] at h2
      | cons z zs =>
        simp only [bytesCompare] at h1 h2 ⊢
        by_cases hxy : x < y
        · by_cases hyz : y < z
          · rw [if_pos (by omega)]; decide
          · rw [if_neg hyz] at h2
            by_cases hzy : z < y
            · rw [if_pos hzy] at h2; simp at h2
            · rw [if_pos (by omega)]; decide
        · rw [if_neg hxy] at h1
          by_cases hyx : y < x
          · rw [if_pos hyx] at h1; simp at h1
          · rw [if_neg hyx] at h1
            by_cases hyz : y < z
            · rw [if_pos (by omega)]; decide
            · rw [if_neg hyz] at h2
              by_cases hzy : z < y
              · rw [if_pos hzy] at h2; simp at h2
              · rw [if_neg hzy] at h2
                rw [if_neg (by omega), if_neg (by omega)]
                exact ih h1 h2

theorem KeyLt.ne {a b : List Nat} (h : KeyLt a b) : a ≠ b := by
  intro hab
  have := (bytesCompare_eq_zero a b).2 hab
  unfold KeyLt at h
  omega

theorem KeyLt.asymm {a b : List Nat} (h : KeyLt a b) : ¬ KeyLt b a := by
  unfold KeyLt at *
  rw [bytesCompare_swap a b]
  omega

theorem keyLt_nil_of_ne {k : List Nat} (h : k ≠ []) : KeyLt [] k := by
  cases k with
  | nil => exact absurd rfl h
  | cons x xs => simp [KeyLt, bytesCompare]

theorem bytesEqual_iff (a b : List Nat) : bytesEqual a b = true ↔ a = b := by
  simp [bytesEqual]


/-! ## `nodeLookupLE` -/

theorem lookupLoop_eq {d ty n es} (L : Layout d ty n es) (hfull : es.length = n)
    (key : List Nat) :
    ∀ rem i found, i + rem = n →
      lookupLoop ⟨d⟩ key rem i found = .ok (lookupIdx key ((es.drop i).map Entry.key) i found) := by
  intro rem
  induction rem with
  | zero =>
    intro i found hi
    rw [List.drop_of_length_le (by omega)]
    rfl
  | succ rem ih =>
    intro i found hi
    have hlt : i < es.length := by omega
    have he : es[i]? = some es[i] := List.getElem?_eq_getElem hlt
    have hdrop : es.drop i = es[i] :: es.drop (i + 1) := List.drop_eq_getElem_cons hlt
    rw [hdrop]
    simp only [lookupLoop, L.getKey_eq i _ he, bind_ok, List.map_cons, lookupIdx, pure_eq_ok]
    split
    · rfl
    · exact ih (i + 1) _ (by omega)

theorem nodeLookupLE_eq {d ty n es} (L : Layout d ty n es) (hfull : es.length = n)
    (key : List Nat) : nodeLookupLE ⟨d⟩ key = .ok (lookupLE es key) := by
  simp only [nodeLookupLE, L.nkeys_eq, bind_ok, lookupLE]
  rcases Nat.eq_zero_or_pos n with h0 | h0
  · subst h0
    have : es = [] := List.length_eq_zero.mp hfull
    subst this
    rfl
  · rw [lookupLoop_eq L hfull key (n - 1) 1 0 (by omega), List.map_drop]

theorem lookupIdx_range (key : List Nat) (rest : List (List Nat)) (i found : Nat) :
    lookupIdx key rest i found = found ∨
      (i ≤ lookupIdx key rest i found ∧ lookupIdx key rest i found < i + rest.length) := by
  induction rest generalizing i found with
  | nil => left; rfl
  | cons k rest ih =>
    simp only [lookupIdx, List.length_cons]
    by_cases h1 : bytesCompare k key ≥ 0
    · rw [if_pos h1]
      by_cases h2 : bytesCompare k key ≤ 0
      · rw [if_pos h2]; right; omega
      · rw [if_neg h2]; left; rfl
    · rw [if_neg h1, if_pos (by omega)]
      rcases ih (i + 1) i with h | h
      · right; rw [h]; omega
      · right; omega

theorem lookupIdx_spec (key : List Nat) (rest : List (List Nat)) (i found : Nat)
    (hs : rest.Pairwise KeyLt) (hf : found < i) :
    ∀ j k, rest[j]? = some k →
      (i + j ≤ lookupIdx key rest i found → bytesCompare k key ≤ 0) ∧
      (lookupIdx key rest i found < i + j → KeyLt key k) := by
  induction rest generalizing i found with
  | nil => intro j k h; simp at h
  | cons k0 rest ih =>
    intro j k h
    rw [List.pairwise_cons] at hs
    obtain ⟨hk0, hs'⟩ := hs
    have hlater : ∀ j', rest[j']? = some k → KeyLt k0 k := fun j' hj' =>
      hk0 k (List.getElem?_mem hj')
    simp only [lookupIdx]
    by_cases h1 : bytesCompare k0 key ≥ 0
    · rw [if_pos h1]
      by_cases h2 : bytesCompare k0 key ≤ 0
      · rw [if_pos h2]
        have heq : k0 = key := (bytesCompare_eq_zero k0 key).1 (by omega)
        cases j with
        | zero =>
          simp at h; subst h
          exact ⟨fun _ => h2, fun hlt => by omega⟩
        | succ j =>
          simp at h
          refine ⟨fun hle => by omega, fun _ => ?_⟩
          rw [← heq]; exact hlater j h
      · rw [if_neg h2]
        have hgt : KeyLt key k0 := by
          unfold KeyLt; rw [bytesCompare_swap k0 key]; omega
        cases j with
        | zero =>
          simp at h; subst h
          exact ⟨fun hle => by omega, fun _ => hgt⟩
        | succ j =>
          simp at h
          exact ⟨fun hle => by omega, fun _ => hgt.step (hlater j h)⟩
    · rw [if_neg h1, if_pos (by omega)]
      have hr := lookupIdx_range key rest (i + 1) i
      cases j with
      | zero =>
        simp at h; subst h
        exact ⟨fun _ => by omega, fun hlt => by omega⟩
      | succ j =>
        simp at h
        have := ih (i + 1) i hs' (by omega) j k h
        rw [show i + 1 + j = i + (j + 1) by omega] at this
        exact this

theorem lookupLE_lt (es : List Entry) (key : List Nat) (h : 0 < es.length) :
    lookupLE es key < es.length := by
  unfold lookupLE
  have := lookupIdx_range key ((es.map Entry.key).drop 1) 1 0
  simp only [List.length_drop, List.length_map] at this
  omega

theorem lookupLE_spec (es : List Entry) (key : List Nat) (hs : SortedKeys es)
    (e0 : Entry) (h0 : es[0]? = some e0) (hle : bytesCompare e0.key key ≤ 0) :
    ∀ j e, es[j]? = some e →
      (j ≤ lookupLE es key → bytesCompare e.key key ≤ 0) ∧
      (lookupLE es key < j → KeyLt key e.key) := by
  intro j e h
  unfold lookupLE
  cases j with
  | zero =>
    rw [h0] at h; cases h
    exact ⟨fun _ => hle, fun hlt => by omega⟩
  | succ j =>
    have hsd : ((es.map Entry.key).drop 1).Pairwise KeyLt := List.Pairwise.drop hs
    have hj : ((es.map Entry.key).drop 1)[j]? = some e.key := by
      rw [List.getElem?_drop, List.getElem?_map, show 1 + j = j + 1 by omega, h]
      rfl
    have := lookupIdx_spec key _ 1 0 hsd (by omega) j e.key hj
    rw [show 1 + j = j + 1 by omega] at this
    exact this



/-! ## The leaf operations on sorted entries -/

theorem SortedKeys.lt {es : List Entry} (hs : SortedKeys es) {i j : Nat} {a b : Entry}
    (ha : es[i]? = some a) (hb : es[j]? = some b) (hij : i < j) : KeyLt a.key b.key := by
  have hi := getElem?_lt ha
  have hj := getElem?_lt hb
  have := (List.pairwise_iff_getElem.1 hs) i j (by simpa using hi) (by simpa using hj) hij
  rw [List.getElem?_eq_getElem hi] at ha
  rw [List.getElem?_eq_getElem hj] at hb
  cases ha; cases hb
  simpa using this

theorem split_at {α : Type} (l : List α) (i : Nat) (a : α) (h : l[i]? = some a) :
    l = l.take i ++ a :: l.drop (i + 1) := by
  have hi := getElem?_lt h
  rw [List.getElem?_eq_getElem hi] at h
  cases h
  rw [← List.drop_eq_getElem_cons hi, List.take_append_drop]

theorem mem_take_idx {α : Type} {l : List α} {i : Nat} {a : α} (h : a ∈ l.take i) :
    ∃ j, j < i ∧ l[j]? = some a := by
  obtain ⟨j, hj⟩ := List.mem_iff_getElem?.1 h
  rw [List.getElem?_take] at hj
  split at hj
  · exact ⟨j, by assumption, hj⟩
  · cases hj

theorem mem_drop_idx {α : Type} {l : List α} {i : Nat} {a : α} (h : a ∈ l.drop i) :
    ∃ j, i ≤ j ∧ l[j]? = some a := by
  obtain ⟨j, hj⟩ := List.mem_iff_getElem?.1 h
  rw [List.getElem?_drop] at hj
  exact ⟨i + j, by omega, hj⟩

theorem LeafOK.pos {es : List Entry} (h : LeafOK es) : 0 < es.length := by
  obtain ⟨e0, h0, _⟩ := h.sentinel
  exact getElem?_lt h0

theorem LeafOK.le_key {es : List Entry} (h : LeafOK es) (key : List Nat) :
    ∃ e0, es[0]? = some e0 ∧ bytesCompare e0.key key ≤ 0 := by
  obtain ⟨e0, h0, hk⟩ := h.sentinel
  refine ⟨e0, h0, ?_⟩
  rw [hk]
  cases key <;> simp [bytesCompare]

/-- The entry `nodeLookupLE` points at. -/
theorem LeafOK.at_idx {es : List Entry} (h : LeafOK es) (key : List Nat) :
    ∃ e, es[lookupLE es key]? = some e ∧ bytesCompare e.key key ≤ 0 := by
  have hlt := lookupLE_lt es key h.pos
  obtain ⟨e0, h0, hle⟩ := h.le_key key
  refine ⟨es[lookupLE es key], List.getElem?_eq_getElem hlt, ?_⟩
  exact (lookupLE_spec es key h.sorted e0 h0 hle _ _ (List.getElem?_eq_getElem hlt)).1
    (Nat.le_refl _)

/-- An entry with the key sits at the index `nodeLookupLE` returns. -/
theorem LeafOK.idx_of_key {es : List Entry} (h : LeafOK es) {j : Nat} {e : Entry}
    (hj : es[j]? = some e) : lookupLE es e.key = j := by
  obtain ⟨e0, h0, hle⟩ := h.le_key e.key
  obtain ⟨e1, h1, hle1⟩ := h.at_idx e.key
  have hsp := lookupLE_spec es e.key h.sorted e0 h0 hle j e hj
  rcases Nat.lt_trichotomy j (lookupLE es e.key) with hlt | heq | hgt
  · have := h.sorted.lt hj h1 hlt
    unfold KeyLt at this
    rw [bytesCompare_swap] at this
    omega
  · exact heq.symm
  · exact absurd rfl (hsp.2 hgt).ne

theorem leafGet_iff {es : List Entry} (h : LeafOK es) (k v : List Nat) :
    leafGet es k = some v ↔ Holds es k v := by
  constructor
  · intro hg
    unfold leafGet at hg
    split at hg
    · rename_i e he
      split at hg
      · rename_i hk
        cases hg
        exact ⟨e, List.getElem?_mem he, hk, rfl⟩
      · cases hg
    · cases hg
  · rintro ⟨e, hmem, hk, hv⟩
    obtain ⟨j, hj⟩ := List.mem_iff_getElem?.1 hmem
    have := h.idx_of_key hj
    rw [hk] at this
    unfold leafGet
    rw [this, hj]
    simp [hk, hv]

theorem leafGet_eq_of_holds {es es' : List Entry} (h : LeafOK es) (h' : LeafOK es')
    (k : List Nat) (hh : ∀ v, Holds es' k v ↔ Holds es k v) : leafGet es' k = leafGet es k := by
  apply Option.ext
  intro v
  rw [Option.mem_def, Option.mem_def, leafGet_iff h', leafGet_iff h, hh]


theorem sortedKeys_iff (es : List Entry) :
    SortedKeys es ↔ es.Pairwise (fun a b => KeyLt a.key b.key) := by
  unfold SortedKeys
  rw [List.pairwise_map]

theorem sorted_put (es : List Entry) (i j : Nat) (e : Entry) (hs : SortedKeys es)
    (hlo : ∀ a ∈ es.take i, KeyLt a.key e.key) (hhi : ∀ b ∈ es.drop j, KeyLt e.key b.key) :
    SortedKeys (es.take i ++ [e] ++ es.drop j) := by
  rw [sortedKeys_iff] at hs ⊢
  rw [List.append_assoc, List.pairwise_append]
  refine ⟨hs.sublist (List.take_sublist _ _), ?_, ?_⟩
  · rw [List.singleton_append, List.pairwise_cons]
    exact ⟨hhi, hs.sublist (List.drop_sublist _ _)⟩
  · intro a ha b hb
    rw [List.singleton_append, List.mem_cons] at hb
    rcases hb with hb | hb
    · subst hb; exact hlo a ha
    · exact (hlo a ha).step (hhi b hb)

theorem sorted_del (es : List Entry) (i j : Nat) (hs : SortedKeys es) (hij : i ≤ j) :
    SortedKeys (es.take i ++ es.drop j) := by
  rw [sortedKeys_iff] at hs ⊢
  rw [List.pairwise_append]
  refine ⟨hs.sublist (List.take_sublist _ _), hs.sublist (List.drop_sublist _ _), ?_⟩
  intro a ha b hb
  obtain ⟨ia, hia, ha'⟩ := mem_take_idx ha
  obtain ⟨ib, hib, hb'⟩ := mem_drop_idx hb
  exact ((sortedKeys_iff es).2 hs).lt ha' hb' (by omega)

/-- Around the index `nodeLookupLE` returns: smaller keys before, larger keys after. -/
theorem LeafOK.around {es : List Entry} (h : LeafOK es) (key : List Nat) (e1 : Entry)
    (h1 : es[lookupLE es key]? = some e1) :
    (∀ a ∈ es.take (lookupLE es key), KeyLt a.key key) ∧
    (∀ b ∈ es.drop (lookupLE es key + 1), KeyLt key b.key) ∧
    (e1.key ≠ key → KeyLt e1.key key) := by
  obtain ⟨e0, h0, hle⟩ := h.le_key key
  have hsp := lookupLE_spec es key h.sorted e0 h0 hle
  have hle1 : bytesCompare e1.key key ≤ 0 := (hsp _ _ h1).1 (Nat.le_refl _)
  have hne : e1.key ≠ key → KeyLt e1.key key := by
    intro hne
    have := (bytesCompare_eq_zero e1.key key).not.2 hne
    unfold KeyLt; omega
  refine ⟨?_, ?_, hne⟩
  · intro a ha
    obtain ⟨j, hj, ha'⟩ := mem_take_idx ha
    have hlt := h.sorted.lt ha' h1 hj
    by_cases hk : e1.key = key
    · rw [← hk]; exact hlt
    · exact hlt.step (hne hk)
  · intro b hb
    obtain ⟨j, hj, hb'⟩ := mem_drop_idx hb
    exact (hsp _ _ hb').2 (by omega)

theorem leafPut_ok {es : List Entry} (h : LeafOK es) (key val : List Nat) (hkey : key ≠ []) :
    LeafOK (leafPut es key val) := by
  obtain ⟨e1, h1, _⟩ := h.at_idx key
  obtain ⟨hlo, hhi, hne⟩ := h.around key e1 h1
  obtain ⟨e0, h0, hk0⟩ := h.sentinel
  unfold leafPut
  simp only [h1, Option.map_some', Option.some.injEq]
  by_cases hk : e1.key = key
  · rw [if_pos hk]
    have hidx : 0 < lookupLE es key := by
      rcases Nat.eq_zero_or_pos (lookupLE es key) with hz | hz
      · rw [hz, h0] at h1
        cases h1
        exact absurd (hk0.symm.trans hk).symm hkey
      · exact hz
    refine ⟨⟨e0, ?_, hk0⟩, sorted_put es _ _ ⟨0, key, val⟩ h.sorted hlo hhi⟩
    rw [List.append_assoc, List.getElem?_append_left (by simp; exact ⟨hidx, h.pos⟩),
      List.getElem?_take, if_pos hidx, h0]
  · rw [if_neg hk]
    refine ⟨⟨e0, ?_, hk0⟩, sorted_put es _ _ ⟨0, key, val⟩ h.sorted ?_ hhi⟩
    · rw [List.append_assoc, List.getElem?_append_left (by simp; exact h.pos),
        List.getElem?_take, if_pos (by omega), h0]
    · intro a ha
      obtain ⟨j, hj, ha'⟩ := mem_take_idx ha
      rcases Nat.eq_or_lt_of_le (Nat.le_of_lt_succ hj) with hjq | hjl
      · rw [hjq, h1] at ha'
        cases ha'
        exact hne hk
      · exact (h.sorted.lt ha' h1 hjl).step (hne hk)

theorem leafPut_holds {es : List Entry} (h : LeafOK es) (key val k v : List Nat) :
    Holds (leafPut es key val) k v ↔ (k = key ∧ v = val) ∨ (k ≠ key ∧ Holds es k v) := by
  obtain ⟨e1, h1, _⟩ := h.at_idx key
  obtain ⟨hlo, hhi, hne⟩ := h.around key e1 h1
  have hsplit := split_at es _ e1 h1
  have hmem : ∀ x, x ∈ es ↔ x ∈ es.take (lookupLE es key) ∨ x = e1 ∨
      x ∈ es.drop (lookupLE es key + 1) := by
    intro x
    conv => lhs; rw [hsplit]
    simp [List.mem_append, List.mem_cons]
  unfold leafPut
  simp only [h1, Option.map_some', Option.some.injEq]
  by_cases hk : e1.key = key
  · rw [if_pos hk]
    unfold Holds
    constructor
    · rintro ⟨x, hx, hxk, hxv⟩
      simp only [List.mem_append, List.mem_singleton] at hx
      rcases hx with (hx | hx) | hx
      · have := (hlo x hx).ne
        exact Or.inr ⟨by rw [← hxk]; exact this, x, (hmem x).2 (Or.inl hx), hxk, hxv⟩
      · subst hx
        exact Or.inl ⟨hxk.symm, hxv.symm⟩
      · have := (hhi x hx).ne
        exact Or.inr ⟨by rw [← hxk]; exact fun h => this h.symm, x,
          (hmem x).2 (Or.inr (Or.inr hx)), hxk, hxv⟩
    · rintro (⟨hk', hv'⟩ | ⟨hk', x, hx, hxk, hxv⟩)
      · exact ⟨⟨0, key, val⟩, by simp, hk'.symm, hv'.symm⟩
      · refine ⟨x, ?_, hxk, hxv⟩
        simp only [List.mem_append, List.mem_singleton]
        rcases (hmem x).1 hx with hx | hx | hx
        · exact Or.inl (Or.inl hx)
        · subst hx
          exact absurd (hxk.symm.trans hk) hk'
        · exact Or.inr hx
  · rw [if_neg hk]
    have hlo' : ∀ a ∈ es.take (lookupLE es key + 1), KeyLt a.key key := by
      intro a ha
      obtain ⟨j, hj, ha'⟩ := mem_take_idx ha
      rcases Nat.eq_or_lt_of_le (Nat.le_of_lt_succ hj) with hjq | hjl
      · rw [hjq, h1] at ha'
        cases ha'
        exact hne hk
      · exact (h.sorted.lt ha' h1 hjl).step (hne hk)
    have hmem' : ∀ x, x ∈ es ↔ x ∈ es.take (lookupLE es key + 1) ∨
        x ∈ es.drop (lookupLE es key + 1) := by
      intro x
      rw [← List.mem_append, List.take_append_drop]
    unfold Holds
    constructor
    · rintro ⟨x, hx, hxk, hxv⟩
      simp only [List.mem_append, List.mem_singleton] at hx
      rcases hx with (hx | hx) | hx
      · have := (hlo' x hx).ne
        exact Or.inr ⟨by rw [← hxk]; exact this, x, (hmem' x).2 (Or.inl hx), hxk, hxv⟩
      · subst hx
        exact Or.inl ⟨hxk.symm, hxv.symm⟩
      · have := (hhi x hx).ne
        exact Or.inr ⟨by rw [← hxk]; exact fun h => this h.symm, x,
          (hmem' x).2 (Or.inr hx), hxk, hxv⟩
    · rintro (⟨hk', hv'⟩ | ⟨hk', x, hx, hxk, hxv⟩)
      · exact ⟨⟨0, key, val⟩, by simp, hk'.symm, hv'.symm⟩
      · refine ⟨x, ?_, hxk, hxv⟩
        simp only [List.mem_append, List.mem_singleton]
        rcases (hmem' x).1 hx with hx | hx
        · exact Or.inl (Or.inl hx)
        · exact Or.inr hx

theorem leafDel_none_iff {es : List Entry} (h : LeafOK es) (key : List Nat) :
    leafDel es key = none ↔ leafGet es key = none := by
  obtain ⟨e1, h1, _⟩ := h.at_idx key
  unfold leafDel leafGet
  simp only [h1]
  by_cases hk : e1.key = key
  · simp [hk]
  · simp [hk]

theorem leafDel_ok {es es' : List Entry} (h : LeafOK es) (key : List Nat) (hkey : key ≠ [])
    (hd : leafDel es key = some es') : LeafOK es' := by
  obtain ⟨e1, h1, _⟩ := h.at_idx key
  obtain ⟨e0, h0, hk0⟩ := h.sentinel
  unfold leafDel at hd
  simp only [h1] at hd
  by_cases hk : e1.key = key
  · rw [if_pos hk] at hd
    cases hd
    have hidx : 0 < lookupLE es key := by
      rcases Nat.eq_zero_or_pos (lookupLE es key) with hz | hz
      · rw [hz, h0] at h1
        cases h1
        exact absurd (hk0.symm.trans hk).symm hkey
      · exact hz
    refine ⟨⟨e0, ?_, hk0⟩, sorted_del es _ _ h.sorted (by omega)⟩
    rw [List.getElem?_append_left (by simp; exact ⟨hidx, h.pos⟩), List.getElem?_take,
      if_pos hidx, h0]
  · rw [if_neg hk] at hd
    cases hd

theorem leafDel_holds {es es' : List Entry} (h : LeafOK es) (key : List Nat)
    (hd : leafDel es key = some es') (k v : List Nat) :
    Holds es' k v ↔ (k ≠ key ∧ Holds es k v) := by
  obtain ⟨e1, h1, _⟩ := h.at_idx key
  obtain ⟨hlo, hhi, hne⟩ := h.around key e1 h1
  have hsplit := split_at es _ e1 h1
  have hmem : ∀ x, x ∈ es ↔ x ∈ es.take (lookupLE es key) ∨ x = e1 ∨
      x ∈ es.drop (lookupLE es key + 1) := by
    intro x
    conv => lhs; rw [hsplit]
    simp [List.mem_append, List.mem_cons]
  unfold leafDel at hd
  simp only [h1] at hd
  by_cases hk : e1.key = key
  · rw [if_pos hk] at hd
    cases hd
    unfold Holds
    constructor
    · rintro ⟨x, hx, hxk, hxv⟩
      simp only [List.mem_append] at hx
      rcases hx with hx | hx
      · have := (hlo x hx).ne
        exact ⟨by rw [← hxk]; exact this, x, (hmem x).2 (Or.inl hx), hxk, hxv⟩
      · have := (hhi x hx).ne
        exact ⟨by rw [← hxk]; exact fun h => this h.symm, x,
          (hmem x).2 (Or.inr (Or.inr hx)), hxk, hxv⟩
    · rintro ⟨hk', x, hx, hxk, hxv⟩
      refine ⟨x, ?_, hxk, hxv⟩
      simp only [List.mem_append]
      rcases (hmem x).1 hx with hx | hx | hx
      · exact Or.inl hx
      · subst hx
        exact absurd (hxk.symm.trans hk) hk'
      · exact Or.inr hx
  · rw [if_neg hk] at hd
    cases hd



/-! ## The tree operations on a leaf page -/

theorem Layout.take {d ty n es} (L : Layout d ty n es) (k : Nat)
    (hk : 4 + 10 * n + offTo es es.length ≤ k) : Layout (d.take k) ty n es := by
  have hlen := L.len_lt
  have hc := L.count
  refine ⟨by rw [List.length_take]; omega, L.ty_lt, L.count,
    by rw [List.length_take]; have := L.fits; omega, ?_, ?_, ?_, ?_, ?_⟩
  · rw [slice_take _ _ _ _ (by omega)]; exact L.hty
  · rw [slice_take _ _ _ _ (by omega)]; exact L.hn
  · intro i e h
    have hi := getElem?_lt h
    rw [slice_take _ _ _ _ (by omega)]
    exact L.ptrs i e h
  · intro i e h
    have hi := getElem?_lt h
    rw [slice_take _ _ _ _ (by omega)]
    exact L.offs i e h
  · intro i e h
    have hi := getElem?_lt h
    have h1 := offTo_succ es i e h
    have h2 := offTo_mono es (show i + 1 ≤ es.length by omega)
    rw [slice_take _ _ _ _ (by omega)]
    exact L.cells i e h

theorem zeros_length (k : Nat) : (zeros k).length = k := by
  simp only [zeros, List.length_replicate]

theorem layout_zeros (k : Nat) (h4 : 4 ≤ k) (hk : k < 65536) : Layout (zeros k) 0 0 [] := by
  refine ⟨by rw [zeros_length]; exact hk, by decide, Nat.le_refl _, ?_, ?_, ?_, ?_, ?_, ?_⟩
  · rw [zeros_length]; simp [offTo]; omega
  · rw [slice_zeros _ _ _ (by omega)]; rfl
  · rw [slice_zeros _ _ _ (by omega)]; rfl
  · intro i e h; simp at h
  · intro i e h; simp at h
  · intro i e h; simp at h

theorem leafPut_length (es : List Entry) (key val : List Nat) (e1 : Entry)
    (h1 : es[lookupLE es key]? = some e1) :
    (leafPut es key val).length = if e1.key = key then es.length else es.length + 1 := by
  have hi := getElem?_lt h1
  unfold leafPut
  simp only [h1, Option.map_some', Option.some.injEq]
  split <;> simp <;> omega

theorem leafPut_bytes (es : List Entry) (key val : List Nat) (e1 : Entry)
    (h1 : es[lookupLE es key]? = some e1) :
    leafBytes (leafPut es key val) + (if e1.key = key then e1.size else 0) =
      leafBytes es + (if e1.key = key then 0 else 10) + (4 + key.length + val.length) := by
  have hi := getElem?_lt h1
  have hsucc := offTo_succ es _ e1 h1
  have hd := offTo_length_drop es (lookupLE es key + 1) (by omega)
  have hm := offTo_mono es (show lookupLE es key + 1 ≤ es.length by omega)
  unfold leafBytes leafPut
  simp only [h1, Option.map_some', Option.some.injEq]
  split
  · rw [offTo_length_append, offTo_length_append, offTo_length_take, offTo_length_single, hd]
    simp only [List.length_append, List.length_take, List.length_drop, List.length_singleton,
      Entry.size] at hsucc ⊢
    omega
  · rw [offTo_length_append, offTo_length_append, offTo_length_take, offTo_length_single, hd]
    simp only [List.length_append, List.length_take, List.length_drop, List.length_singleton,
      Entry.size] at hsucc ⊢
    omega

theorem treeInsertBody_leaf {σ : Type} (P : Pager σ)
    (recur : σ → BNode → List Nat → List Nat → Res (BNode × σ)) (s : σ)
    {node : BNode} {es : List Entry} (hp : LeafPage node es) (key val : List Nat)
    (hkey : key.length ≤ 1000) (hval : val.length ≤ 3000) :
    ∃ d', treeInsertBody P recur s node key val = .ok (⟨d'⟩, s) ∧
      d'.length = 2 * BTREE_PAGE_SIZE ∧
      Layout d' BNODE_LEAF (leafPut es key val).length (leafPut es key val) := by
  obtain ⟨d⟩ := node
  have L := hp.layout
  have hfits := hp.fits
  obtain ⟨e1, h1, _⟩ := hp.ok.at_idx key
  have hi := getElem?_lt h1
  have hlen := leafPut_length es key val e1 h1
  unfold leafBytes BTREE_PAGE_SIZE at hfits
  have hz : (zeros (2 * BTREE_PAGE_SIZE)).length = 8192 := zeros_length _
  simp only [treeInsertBody, nodeLookupLE_eq L rfl key, bind_ok, L.btype_eq, if_true,
    L.getKey_eq _ _ h1]
  by_cases hk : e1.key = key
  · have hb : bytesEqual key e1.key = true := (bytesEqual_iff _ _).2 hk.symm
    rw [hb]
    simp only [if_true]
    obtain ⟨d', e', len', L'⟩ := leafUpdate_layout (d := zeros (2 * BTREE_PAGE_SIZE)) L rfl
      (lookupLE es key) key val hi hkey hval (by rw [hz]; decide) (by rw [hz]; omega)
    refine ⟨d', by rw [e']; rfl, by rw [len', hz]; rfl, ?_⟩
    rw [hlen, if_pos hk]
    unfold leafPut
    simp only [h1, Option.map_some', Option.some.injEq, hk, if_true]
    exact L'
  · have hb : bytesEqual key e1.key = false := by
      rw [Bool.eq_false_iff]
      intro h
      exact hk ((bytesEqual_iff _ _).1 h).symm
    rw [hb]
    simp only [Bool.false_eq_true, if_false]
    have hn := L.n_lt
    rw [w16_of_lt (by omega)]
    obtain ⟨d', e', len', L'⟩ := leafInsert_layout (d := zeros (2 * BTREE_PAGE_SIZE)) L rfl
      (lookupLE es key + 1) key val (by omega) hkey hval (by rw [hz]; decide)
      (by rw [hz]; omega)
    refine ⟨d', by rw [e']; rfl, by rw [len', hz]; rfl, ?_⟩
    rw [hlen, if_neg hk]
    unfold leafPut
    simp only [h1, Option.map_some', Option.some.injEq, hk, if_false]
    exact L'

theorem treeInsert_leaf {σ : Type} (P : Pager σ) (fuel : Nat) (s : σ)
    {node : BNode} {es : List Entry} (hp : LeafPage node es) (key val : List Nat)
    (hkey : key.length ≤ 1000) (hval : val.length ≤ 3000) :
    ∃ d', treeInsert P fuel s node key val = .ok (⟨d'⟩, s) ∧
      d'.length = 2 * BTREE_PAGE_SIZE ∧
      Layout d' BNODE_LEAF (leafPut es key val).length (leafPut es key val) := by
  cases fuel with
  | zero => exact treeInsertBody_leaf P _ s hp key val hkey hval
  | succ fuel => exact treeInsertBody_leaf P _ s hp key val hkey hval

theorem getStep_leaf {σ : Type} (P : Pager σ) (recur : BNode → Res (Option (List Nat)))
    (s : σ) {node : BNode} {es : List Entry} (hp : LeafPage node es) (key : List Nat) :
    getStep P recur s key node = .ok (leafGet es key) := by
  obtain ⟨d⟩ := node
  have L := hp.layout
  obtain ⟨e1, h1, _⟩ := hp.ok.at_idx key
  simp only [getStep, nodeLookupLE_eq L rfl key, bind_ok, L.btype_eq, if_true,
    L.getKey_eq _ _ h1, leafGet, h1]
  by_cases hk : e1.key = key
  · have hb : bytesEqual key e1.key = true := (bytesEqual_iff _ _).2 hk.symm
    rw [hb]
    simp only [if_true, L.getVal_eq _ _ h1, bind_ok, pure_eq_ok, hk]
  · have hb : bytesEqual key e1.key = false := by
      rw [Bool.eq_false_iff]
      intro h
      exact hk ((bytesEqual_iff _ _).1 h).symm
    rw [hb]
    simp only [Bool.false_eq_true, if_false, pure_eq_ok, hk]

theorem getLoop_leaf {σ : Type} (P : Pager σ) (fuel : Nat)
    (s : σ) {node : BNode} {es : List Entry} (hp : LeafPage node es) (key : List Nat) :
    getLoop P s key fuel node = .ok (leafGet es key) := by
  cases fuel with
  | zero => exact getStep_leaf P _ s hp key
  | succ fuel => exact getStep_leaf P _ s hp key

theorem leafDel_bytes (es es' : List Entry) (key : List Nat) (hd : leafDel es key = some es') :
    es'.length + 1 = es.length ∧ leafBytes es' ≤ leafBytes es ∧
    ∃ e1, es[lookupLE es key]? = some e1 ∧ e1.key = key ∧
      es' = es.take (lookupLE es key) ++ es.drop (lookupLE es key + 1) := by
  dsimp only [leafDel] at hd
  split at hd
  · rename_i e1 h1
    split at hd
    · rename_i hk
      cases hd
      have hi := getElem?_lt h1
      have hsucc := offTo_succ es _ e1 h1
      have hdr := offTo_length_drop es (lookupLE es key + 1) (by omega)
      have hm := offTo_mono es (show lookupLE es key + 1 ≤ es.length by omega)
      refine ⟨by simp; omega, ?_, e1, h1, hk, rfl⟩
      unfold leafBytes
      rw [offTo_length_append, offTo_length_take, hdr]
      simp only [List.length_append, List.length_take, List.length_drop]
      omega
    · cases hd
  · cases hd

theorem treeDeleteBody_leaf {σ : Type} (P : Pager σ)
    (recur : σ → BNode → List Nat → Res (BNode × σ)) (s : σ)
    {node : BNode} {es : List Entry} (hp : LeafPage node es) (key : List Nat) :
    (leafDel es key = none → treeDeleteBody P recur s node key = .ok (⟨[]⟩, s)) ∧
    (∀ es', leafDel es key = some es' →
      ∃ d', treeDeleteBody P recur s node key = .ok (⟨d'⟩, s) ∧
        d'.length = BTREE_PAGE_SIZE ∧ Layout d' BNODE_LEAF es'.length es') := by
  obtain ⟨d⟩ := node
  have L := hp.layout
  have hfits := hp.fits
  obtain ⟨e1, h1, _⟩ := hp.ok.at_idx key
  have hi := getElem?_lt h1
  unfold leafBytes BTREE_PAGE_SIZE at hfits
  have hz : (zeros BTREE_PAGE_SIZE).length = 4096 := zeros_length _
  simp only [treeDeleteBody, nodeLookupLE_eq L rfl key, bind_ok, L.btype_eq, if_true,
    L.getKey_eq _ _ h1]
  by_cases hk : e1.key = key
  · have hb : bytesEqual key e1.key = true := (bytesEqual_iff _ _).2 hk.symm
    rw [hb]
    simp only [not_true_eq_false, if_false]
    constructor
    · intro hnone
      unfold leafDel at hnone
      simp [h1, hk] at hnone
    · intro es' hd
      obtain ⟨hl, _, e1', h1', _, hes'⟩ := leafDel_bytes es es' key hd
      obtain ⟨d', e', len', L'⟩ := leafDelete_layout (d := zeros BTREE_PAGE_SIZE) L rfl
        (lookupLE es key) hi (by rw [hz]; decide) (by rw [hz]; omega)
      refine ⟨d', by rw [e']; rfl, by rw [len', hz]; rfl, ?_⟩
      rw [hes'] at hl ⊢
      rw [show (es.take (lookupLE es key) ++ es.drop (lookupLE es key + 1)).length
        = es.length - 1 by omega]
      exact L'
  · have hb : bytesEqual key e1.key = false := by
      rw [Bool.eq_false_iff]
      intro h
      exact hk ((bytesEqual_iff _ _).1 h).symm
    rw [hb]
    simp only [Bool.false_eq_true, not_false_eq_true, if_true, pure_eq_ok]
    constructor
    · intro _; trivial
    · intro es' hd
      unfold leafDel at hd
      simp [h1, hk] at hd

theorem treeDelete_leaf {σ : Type} (P : Pager σ) (fuel : Nat) (s : σ)
    {node : BNode} {es : List Entry} (hp : LeafPage node es) (key : List Nat) :
    (leafDel es key = none → treeDelete P fuel s node key = .ok (⟨[]⟩, s)) ∧
    (∀ es', leafDel es key = some es' →
      ∃ d', treeDelete P fuel s node key = .ok (⟨d'⟩, s) ∧
        d'.length = BTREE_PAGE_SIZE ∧ Layout d' BNODE_LEAF es'.length es') := by
  cases fuel with
  | zero => exact treeDeleteBody_leaf P _ s hp key
  | succ fuel => exact treeDeleteBody_leaf P _ s hp key



/-! ## The public operations on a single-leaf tree -/

theorem nodeSplit3_fits {d ty n es} (L : Layout d ty n es) (hfull : es.length = n)
    (hlen : BTREE_PAGE_SIZE ≤ d.length) (hfit : 4 + 10 * n + offTo es n ≤ BTREE_PAGE_SIZE) :
    nodeSplit3 ⟨d⟩ = .ok [⟨d.take BTREE_PAGE_SIZE⟩] := by
  simp only [nodeSplit3, L.nbytes_eq hfull, bind_ok, hfit, if_true, hlen, not_true_eq_false,
    if_false, pure_eq_ok]

theorem nodeSplit3_overflow {d ty n es} (L : Layout d ty n es) (hfull : es.length = n)
    (hfit : BTREE_PAGE_SIZE < 4 + 10 * n + offTo es n) :
    nodeSplit3 ⟨d⟩ =
      .ok [⟨(zeros (2 * BTREE_PAGE_SIZE)).take BTREE_PAGE_SIZE⟩, ⟨zeros BTREE_PAGE_SIZE⟩] := by
  have hz := layout_zeros (2 * BTREE_PAGE_SIZE) (by decide) (by decide)
  have hnb := hz.nbytes_eq rfl
  have h1 : ¬ 4 + 10 * n + offTo es n ≤ BTREE_PAGE_SIZE := by omega
  have h2 : (4 + 10 * 0 + offTo ([] : List Entry) 0) ≤ BTREE_PAGE_SIZE := by
    rw [offTo_zero]; decide
  have h3 : BTREE_PAGE_SIZE ≤ (zeros (2 * BTREE_PAGE_SIZE)).length := by
    rw [zeros_length]; decide
  unfold nodeSplit3
  rw [L.nbytes_eq hfull, bind_ok, if_neg h1]
  show (nodeSplit2 _ _ _ >>= _) = _
  unfold nodeSplit2
  rw [pure_eq_ok, bind_ok]
  dsimp only
  rw [hnb, bind_ok, if_pos h2, if_neg (not_not.2 h3)]
  rfl

theorem validKey_ne {key : List Nat} (h : ValidKey key) : key ≠ [] := by
  intro hk
  subst hk
  exact h.1 rfl

theorem leafOK_sentinel : LeafOK [sentinel] :=
  ⟨⟨sentinel, rfl, rfl⟩, by simp [SortedKeys]⟩

theorem lookupLE_sentinel (key : List Nat) : lookupLE [sentinel] key = 0 := rfl

theorem leafPut_sentinel (key val : List Nat) (hk : key ≠ []) :
    leafPut [sentinel] key val = [sentinel, ⟨0, key, val⟩] := by
  unfold leafPut
  rw [lookupLE_sentinel]
  have : ¬ (some ([] : List Nat) = some key) := by
    intro h
    cases h
    exact hk rfl
  simp [sentinel, this]

theorem leafGet_sentinel (key : List Nat) (hk : key ≠ []) : leafGet [sentinel] key = none := by
  unfold leafGet
  rw [lookupLE_sentinel]
  have : ¬ ([] : List Nat) = key := fun h => hk h.symm
  simp [sentinel, this]

theorem leafDel_sentinel (key : List Nat) (hk : key ≠ []) : leafDel [sentinel] key = none := by
  unfold leafDel
  rw [lookupLE_sentinel]
  have : ¬ ([] : List Nat) = key := fun h => hk h.symm
  simp [sentinel, this]

theorem assert_validKey {key : List Nat} (h : ValidKey key) :
    assert (key.length != 0) = .ok () ∧ assert (decide (key.length ≤ BTREE_MAX_KEY_SIZE)) = .ok () := by
  obtain ⟨h1, h2⟩ := h
  constructor
  · have : (key.length != 0) = true := by simpa using h1
    rw [this]; rfl
  · exact assert_of h2

/-- The first insertion builds the leaf `sentinel, (key, val)`. -/
theorem first_leaf (key val : List Nat) (hk : ValidKey key) (hv : ValidVal val) :
    ∃ d0 d1 d, (BNode.mk (zeros BTREE_PAGE_SIZE)).setHeader BNODE_LEAF 2 = .ok ⟨d0⟩ ∧
      nodeAppendKV ⟨d0⟩ 0 0 [] [] = .ok ⟨d1⟩ ∧ nodeAppendKV ⟨d1⟩ 1 0 key val = .ok ⟨d⟩ ∧
      LeafPage ⟨d⟩ (leafPut [sentinel] key val) := by
  have hne := validKey_ne hk
  have hz : (zeros BTREE_PAGE_SIZE).length = 4096 := zeros_length _
  obtain ⟨hk1, hk2⟩ := hk
  unfold BTREE_MAX_KEY_SIZE at hk2
  unfold ValidVal BTREE_MAX_VAL_SIZE at hv
  obtain ⟨d0, e0, len0, L0⟩ := setHeader_layout (zeros BTREE_PAGE_SIZE) BNODE_LEAF 2
    (by rw [hz]; decide) (by rw [hz]; decide) (by decide)
  obtain ⟨d1, e1, len1, L1⟩ := nodeAppendKV_at L0 0 0 [] [] rfl (by decide) (by decide)
    (by decide) (by decide) (by rw [len0, hz]; simp [offTo])
  obtain ⟨d2, e2, len2, L2⟩ := nodeAppendKV_at L1 1 0 key val rfl (by decide) hk2
    hv (by decide) (by rw [len1, len0, hz]; simp [offTo, Entry.size]; omega)
  refine ⟨d0, d1, d2, e0, e1, e2, ?_⟩
  · rw [leafPut_sentinel key val hne]
    refine ⟨by show d2.length = 4096; omega, L2, ?_, ?_⟩
    · simp [leafBytes, offTo, Entry.size, sentinel, BTREE_PAGE_SIZE]; omega
    · rw [← leafPut_sentinel key val hne]
      exact leafPut_ok leafOK_sentinel key val hne


theorem leafPage_nbytes {node : BNode} {es : List Entry} (hp : LeafPage node es) :
    node.nbytes = .ok (leafBytes es) := by
  obtain ⟨d⟩ := node
  exact hp.layout.nbytes_eq rfl

/-- `BTree.Get` on a single-leaf tree reads the entries of the leaf. -/
theorem Get_sim {σ : Type} {P : Pager σ} {I : σ → Prop} {t : BTree σ} {es : List Entry}
    (h : AbsTree P I t es) (fuel : Nat) (key : List Nat) (hk : ValidKey key) :
    BTree.Get P fuel t key = .ok (leafGet es key) := by
  obtain ⟨a1, a2⟩ := assert_validKey hk
  obtain ⟨_, hroot | hroot⟩ := h
  · obtain ⟨h0, hes⟩ := hroot
    subst hes
    simp only [BTree.Get, a1, a2, bind_ok, h0, if_true, pure_eq_ok,
      leafGet_sentinel key (validKey_ne hk)]
  · obtain ⟨h0, node, hget, hp⟩ := hroot
    simp only [BTree.Get, a1, a2, bind_ok, h0, if_false, hget, getLoop_leaf P fuel _ hp key]

/-- `BTree.Insert` on a single-leaf tree: it puts the pair into the leaf when the new
leaf fits one page, and panics in `nodeSplit3`'s caller when it does not. -/
theorem Insert_sim {σ : Type} {P : Pager σ} {I : σ → Prop} (laws : PagerLaws P I)
    {t : BTree σ} {es : List Entry}
    (h : AbsTree P I t es) (fuel : Nat) (key val : List Nat) (hk : ValidKey key)
    (hv : ValidVal val) :
    (leafBytes (leafPut es key val) ≤ BTREE_PAGE_SIZE →
      ∃ t', BTree.Insert P fuel t key val = .ok t' ∧ AbsTree P I t' (leafPut es key val)) ∧
    (BTREE_PAGE_SIZE < leafBytes (leafPut es key val) →
      BTree.Insert P fuel t key val = .error .assertion) := by
  obtain ⟨a1, a2⟩ := assert_validKey hk
  have a3 : assert (decide (val.length ≤ BTREE_MAX_VAL_SIZE)) = .ok () := assert_of hv
  have hne := validKey_ne hk
  obtain ⟨hI, hroot | hroot⟩ := h
  · obtain ⟨h0, hes⟩ := hroot
    subst hes
    obtain ⟨d0, d1, d, hd0, hd1, hd, hp⟩ := first_leaf key val hk hv
    obtain ⟨p, s', hnew, hI', hp0, hget⟩ :=
      laws.new_ok t.pages ⟨d⟩ _ hI (leafPage_nbytes hp) hp.fits hp.size
    have hins : BTree.Insert P fuel t key val = .ok ⟨p, s'⟩ := by
      simp only [BTree.Insert, a1, a2, a3, bind_ok, h0, if_true, hd0, hd1, hd, hnew,
        pure_eq_ok]
    constructor
    · intro _
      exact ⟨⟨p, s'⟩, hins, hI', Or.inr ⟨hp0, ⟨d⟩, hget, hp⟩⟩
    · intro hov
      have := hp.fits
      omega
  · obtain ⟨h0, node, hget, hp⟩ := hroot
    obtain ⟨s1, hdel, hI1⟩ := laws.del_ok t.pages t.root node hI hget
    obtain ⟨d', hti, hlen', L'⟩ := treeInsert_leaf P fuel s1 hp key val hk.2 hv
    have hnb : 4 + 10 * (leafPut es key val).length
        + offTo (leafPut es key val) (leafPut es key val).length = leafBytes (leafPut es key val) :=
      rfl
    constructor
    · intro hfit
      have hsplit := nodeSplit3_fits L' rfl (by rw [hlen']; decide) hfit
      have hL := L'.take BTREE_PAGE_SIZE hfit
      have hpage : LeafPage ⟨d'.take BTREE_PAGE_SIZE⟩ (leafPut es key val) :=
        ⟨by show (d'.take BTREE_PAGE_SIZE).length = _
            rw [List.length_take, hlen']; decide,
          hL, hfit, leafPut_ok hp.ok key val hne⟩
      obtain ⟨p, s2, hnew, hI2, hp0, hget2⟩ :=
        laws.new_ok s1 _ _ hI1 (leafPage_nbytes hpage) hfit hpage.size
      refine ⟨⟨p, s2⟩, ?_, hI2, Or.inr ⟨hp0, _, hget2, hpage⟩⟩
      simp only [BTree.Insert, a1, a2, a3, bind_ok, h0, if_false, hget, hdel, hti, hsplit,
        List.length_singleton, gt_iff_lt, Nat.lt_irrefl, hnew, pure_eq_ok]
    · intro hov
      have hsplit := nodeSplit3_overflow L' rfl hov
      have hz := layout_zeros (2 * BTREE_PAGE_SIZE) (by decide) (by decide)
      have hzt : Layout ((zeros (2 * BTREE_PAGE_SIZE)).take BTREE_PAGE_SIZE) 0 0 [] :=
        hz.take BTREE_PAGE_SIZE (by rw [List.length_nil, offTo_zero]; decide)
      have hzl : ((zeros (2 * BTREE_PAGE_SIZE)).take BTREE_PAGE_SIZE).length = BTREE_PAGE_SIZE := by
        rw [List.length_take, zeros_length]; decide
      obtain ⟨p, s2, hnew, hI2, hp0, hget2⟩ :=
        laws.new_ok s1 ⟨(zeros (2 * BTREE_PAGE_SIZE)).take BTREE_PAGE_SIZE⟩ _ hI1
          (hzt.nbytes_eq rfl) (by rw [offTo_zero]; decide) hzl
      have hkey0 : (BNode.mk ((zeros (2 * BTREE_PAGE_SIZE)).take BTREE_PAGE_SIZE)).getKey 0
          = .error .assertion := by
        simp only [BNode.getKey, hzt.nkeys_eq, bind_ok, Nat.lt_irrefl, decide_False,
          assert_false, bind_error]
      obtain ⟨r0, hr0, _, _⟩ := setHeader_layout (zeros BTREE_PAGE_SIZE) BNODE_NODE 2
        (by rw [zeros_length]; decide) (by rw [zeros_length]; decide) (by decide)
      simp only [BTree.Insert, a1, a2, a3, bind_ok, h0, if_false, hget, hdel, hti, hsplit,
        List.length_cons, List.length_nil, gt_iff_lt, Nat.lt_add_one, if_true, zero_add,
        Nat.reduceAdd, hr0, appendRoots, hnew, hkey0, bind_error]


/-- `BTree.Delete` on a single-leaf tree: `false` and no change when the key is not in
the leaf, `true` and the leaf without the entry when it is. -/
theorem Delete_sim {σ : Type} {P : Pager σ} {I : σ → Prop} (laws : PagerLaws P I)
    {t : BTree σ} {es : List Entry}
    (h : AbsTree P I t es) (fuel : Nat) (key : List Nat) (hk : ValidKey key) :
    (leafDel es key = none → BTree.Delete P fuel t key = .ok (false, t)) ∧
    (∀ es', leafDel es key = some es' →
      ∃ t', BTree.Delete P fuel t key = .ok (true, t') ∧ AbsTree P I t' es') := by
  obtain ⟨a1, a2⟩ := assert_validKey hk
  have hne := validKey_ne hk
  obtain ⟨hI, hroot | hroot⟩ := h
  · obtain ⟨h0, hes⟩ := hroot
    subst hes
    constructor
    · intro _
      simp only [BTree.Delete, a1, a2, bind_ok, h0, if_true, pure_eq_ok]
    · intro es' hd
      rw [leafDel_sentinel key hne] at hd
      cases hd
  · obtain ⟨h0, node, hget, hp⟩ := hroot
    obtain ⟨hn, hs⟩ := treeDelete_leaf P fuel t.pages hp key
    constructor
    · intro hnone
      simp only [BTree.Delete, a1, a2, bind_ok, h0, if_false, hget, hn hnone, List.length_nil,
        if_true, pure_eq_ok]
    · intro es' hd
      obtain ⟨d', htd, hlen', L'⟩ := hs es' hd
      obtain ⟨_, hb, _⟩ := leafDel_bytes es es' key hd
      have hfit : leafBytes es' ≤ BTREE_PAGE_SIZE := Nat.le_trans hb hp.fits
      have hpage : LeafPage ⟨d'⟩ es' := ⟨hlen', L', hfit, leafDel_ok hp.ok key hne hd⟩
      obtain ⟨s1, hdel, hI1⟩ := laws.del_ok t.pages t.root node hI hget
      obtain ⟨p, s2, hnew, hI2, hp0, hget2⟩ :=
        laws.new_ok s1 _ _ hI1 (leafPage_nbytes hpage) hfit hpage.size
      refine ⟨⟨p, s2⟩, ?_, hI2, Or.inr ⟨hp0, _, hget2, hpage⟩⟩
      have hl0 : ¬ d'.length = 0 := by rw [hlen']; decide
      have hty : ¬ BNODE_LEAF = BNODE_NODE := by decide
      simp only [BTree.Delete, a1, a2, bind_ok, h0, if_false, hget, htd, hl0, hdel,
        L'.btype_eq, hty, pure_eq_ok, Bool.false_eq_true, hnew]

theorem assert_eq_ok {b : Bool} (h : assert b = .ok ()) : b = true := by
  cases b
  · cases h
  · rfl

theorem Insert_valid {σ : Type} {P : Pager σ} {fuel : Nat} {t t' : BTree σ}
    {key val : List Nat} (h : BTree.Insert P fuel t key val = .ok t') :
    ValidKey key ∧ ValidVal val := by
  unfold BTree.Insert at h
  cases h1 : assert (key.length != 0) with
  | error e => rw [h1] at h; cases h
  | ok u1 =>
    rw [h1, bind_ok] at h
    cases h2 : assert (decide (key.length ≤ BTREE_MAX_KEY_SIZE)) with
    | error e => rw [h2] at h; cases h
    | ok u2 =>
      rw [h2, bind_ok] at h
      cases h3 : assert (decide (val.length ≤ BTREE_MAX_VAL_SIZE)) with
      | error e => rw [h3] at h; cases h
      | ok u3 =>
        have b1 := assert_eq_ok h1
        have b2 := assert_eq_ok h2
        have b3 := assert_eq_ok h3
        exact ⟨⟨by simpa using b1, by simpa using b2⟩, by simpa [ValidVal] using b3⟩

theorem Delete_valid {σ : Type} {P : Pager σ} {fuel : Nat} {t : BTree σ}
    {r : Bool × BTree σ} {key : List Nat} (h : BTree.Delete P fuel t key = .ok r) :
    ValidKey key := by
  unfold BTree.Delete at h
  cases h1 : assert (key.length != 0) with
  | error e => rw [h1] at h; cases h
  | ok u1 =>
    rw [h1, bind_ok] at h
    cases h2 : assert (decide (key.length ≤ BTREE_MAX_KEY_SIZE)) with
    | error e => rw [h2] at h; cases h
    | ok u2 =>
      have b1 := assert_eq_ok h1
      have b2 := assert_eq_ok h2
      exact ⟨by simpa using b1, by simpa using b2⟩

/-- Every tree reached from the empty tree is a single leaf with sorted entries. -/
theorem reach_abs {σ : Type} {P : Pager σ} {I : σ → Prop} (laws : PagerLaws P I)
    {s0 : σ} (h0 : I s0) {t : BTree σ} (hr : Reach P s0 t) :
    ∃ es, AbsTree P I t es ∧ LeafOK es ∧ leafBytes es ≤ BTREE_PAGE_SIZE := by
  induction hr with
  | empty =>
    exact ⟨[sentinel], ⟨h0, Or.inl ⟨rfl, rfl⟩⟩, leafOK_sentinel, by decide⟩
  | @insert t t' fuel k v _ hins ih =>
    obtain ⟨es, habs, hok, _⟩ := ih
    obtain ⟨hk, hv⟩ := Insert_valid hins
    obtain ⟨hfit, hov⟩ := Insert_sim laws habs fuel k v hk hv
    rcases Nat.lt_or_ge BTREE_PAGE_SIZE (leafBytes (leafPut es k v)) with hgt | hle
    · rw [hov hgt] at hins
      cases hins
    · obtain ⟨t'', h1, h2⟩ := hfit hle
      rw [h1] at hins
      cases hins
      exact ⟨_, h2, leafPut_ok hok k v (validKey_ne hk), hle⟩
  | @delete t t' fuel k b _ hdel ih =>
    obtain ⟨es, habs, hok, hb⟩ := ih
    have hk := Delete_valid hdel
    obtain ⟨hn, hs⟩ := Delete_sim laws habs fuel k hk
    cases hd : leafDel es k with
    | none =>
      rw [hn hd] at hdel
      cases hdel
      exact ⟨es, habs, hok, hb⟩
    | some es' =>
      obtain ⟨t'', h1, h2⟩ := hs es' hd
      rw [h1] at hdel
      cases hdel
      exact ⟨es', h2, leafDel_ok hok k (validKey_ne hk) hd,
        Nat.le_trans (leafDel_bytes es es' k hd).2.1 hb⟩



/-! ## The in-memory page store obeys the laws -/

theorem mem_of_lookup {l : List (Nat × BNode)} {k : Nat} {v : BNode}
    (h : l.lookup k = some v) : (k, v) ∈ l := by
  induction l with
  | nil => cases h
  | cons x xs ih =>
    obtain ⟨k', v'⟩ := x
    rw [List.lookup_cons] at h
    by_cases hk : k = k'
    · subst hk
      simp at h
      subst h
      exact List.mem_cons_self _ _
    · have : (k == k') = false := by simpa using hk
      rw [this] at h
      exact List.mem_cons_of_mem _ (ih h)

theorem memPager_laws : PagerLaws memPager MemPages.Fresh where
  new_ok := by
    intro s node nb hI hnb hle hlen
    obtain ⟨h0, hlt⟩ := hI
    have hnone : s.pages.lookup s.nextAddr = none := by
      cases hl : s.pages.lookup s.nextAddr with
      | none => rfl
      | some v =>
        have := hlt _ (mem_of_lookup hl)
        simp at this
    have hlen0 : ¬ node.data.length = 0 := by rw [hlen]; decide
    refine ⟨s.nextAddr, ⟨(s.nextAddr, node) :: s.pages, s.nextAddr + 1⟩, ?_, ?_, h0, ?_⟩
    · show MemPages.new s node = _
      simp only [MemPages.new, hnb, bind_ok, assert_of hle, hlen0, if_false, hnone,
        Option.isNone_none, assert_true, pure_eq_ok]
    · refine ⟨Nat.succ_ne_zero _, ?_⟩
      intro x hx
      rw [List.mem_cons] at hx
      rcases hx with hx | hx
      · subst hx; exact Nat.lt_succ_self _
      · exact Nat.lt_succ_of_lt (hlt x hx)
    · show MemPages.get _ _ = _
      simp [MemPages.get, List.lookup_cons]
  del_ok := by
    intro s p node hI hget
    obtain ⟨h0, hlt⟩ := hI
    have hsome : (s.pages.lookup p).isSome = true := by
      change MemPages.get s p = _ at hget
      unfold MemPages.get at hget
      cases hl : s.pages.lookup p with
      | none => rw [hl] at hget; cases hget
      | some v => rfl
    refine ⟨⟨s.pages.filter (fun x => x.1 != p), s.nextAddr⟩, ?_, h0, ?_⟩
    · show MemPages.del s p = _
      simp only [MemPages.del, hsome, assert_true, bind_ok, pure_eq_ok]
    · intro x hx
      exact hlt x (List.mem_of_mem_filter hx)

theorem memPages_empty_fresh : MemPages.Fresh MemPages.empty :=
  ⟨by decide, by intro x hx; cases hx⟩

/-- One more insertion into a reached in-memory tree whose new leaf fits a page. -/
theorem mem_insert_step {t : BTree MemPages} {es : List Entry}
    (hr : Reach memPager MemPages.empty t) (habs : AbsTree memPager MemPages.Fresh t es)
    (k v : List Nat) (hk : ValidKey k) (hv : ValidVal v)
    (hfit : leafBytes (leafPut es k v) ≤ BTREE_PAGE_SIZE) :
    ∃ t', BTree.Insert memPager 0 t k v = .ok t' ∧ Reach memPager MemPages.empty t' ∧
      AbsTree memPager MemPages.Fresh t' (leafPut es k v) := by
  obtain ⟨t', h1, h2⟩ := (Insert_sim memPager_laws habs 0 k v hk hv).1 hfit
  exact ⟨t', h1, Reach.insert hr h1, h2⟩

theorem mem_empty_abs : AbsTree memPager MemPages.Fresh ⟨0, MemPages.empty⟩ [sentinel] :=
  ⟨memPages_empty_fresh, Or.inl ⟨rfl, rfl⟩⟩

/-- The in-memory tree after `Insert("b", 2)` and `Insert("a", 1)`. -/
theorem mem_two_keys :
    ∃ t1 t2, BTree.Insert memPager 0 ⟨0, MemPages.empty⟩ [98] [2] = .ok t1 ∧
      BTree.Insert memPager 0 t1 [97] [1] = .ok t2 ∧ Reach memPager MemPages.empty t2 ∧
      AbsTree memPager MemPages.Fresh t2 [sentinel, ⟨0, [97], [1]⟩, ⟨0, [98], [2]⟩] := by
  have p1 : leafPut [sentinel] [98] [2] = [sentinel, ⟨0, [98], [2]⟩] :=
    leafPut_sentinel _ _ (by decide)
  have p2 : leafPut [sentinel, ⟨0, [98], [2]⟩] [97] [1]
      = [sentinel, ⟨0, [97], [1]⟩, ⟨0, [98], [2]⟩] := by
    have hl : lookupLE [sentinel, ⟨0, [98], [2]⟩] [97] = 0 := rfl
    unfold leafPut
    rw [hl]
    simp [sentinel]
  obtain ⟨t1, h1, hr1, habs1⟩ := mem_insert_step Reach.empty mem_empty_abs [98] [2]
    ⟨by decide, by decide⟩ (by simp [ValidVal, BTREE_MAX_VAL_SIZE])
    (by rw [p1]; decide)
  rw [p1] at habs1
  obtain ⟨t2, h2, hr2, habs2⟩ := mem_insert_step hr1 habs1 [97] [1]
    ⟨by decide, by decide⟩ (by simp [ValidVal, BTREE_MAX_VAL_SIZE])
    (by rw [p2]; decide)
  rw [p2] at habs2
  exact ⟨t1, t2, h1, h2, hr2, habs2⟩


/-! ## Claims about the tree -/

theorem keysLoop_eq {d ty n es} (L : Layout d ty n es) (hfull : es.length = n) :
    ∀ rem i, i + rem = n → keysLoop ⟨d⟩ rem i = .ok ((es.drop i).map Entry.key) := by
  intro rem
  induction rem with
  | zero =>
    intro i hi
    rw [List.drop_of_length_le (by omega)]
    rfl
  | succ rem ih =>
    intro i hi
    have hlt : i < es.length := by omega
    have he : es[i]? = some es[i] := List.getElem?_eq_getElem hlt
    rw [List.drop_eq_getElem_cons hlt]
    simp only [keysLoop, L.getKey_eq i _ he, bind_ok, ih (i + 1) (by omega), pure_eq_ok,
      List.map_cons]

theorem nodeKeys_eq {d ty n es} (L : Layout d ty n es) (hfull : es.length = n) :
    nodeKeys ⟨d⟩ = .ok (es.map Entry.key) := by
  simp only [nodeKeys, L.nkeys_eq, bind_ok, keysLoop_eq L hfull n 0 (by omega), List.drop_zero]

theorem leafOK_head {es : List Entry} (h : LeafOK es) : (es.map Entry.key).head? = some [] := by
  obtain ⟨e0, h0, hk⟩ := h.sentinel
  cases es with
  | nil => simp at h0
  | cons a as =>
    simp at h0
    subst h0
    simp [hk]

theorem treeWalk_leaf {σ : Type} {P : Pager σ} {I : σ → Prop} {t : BTree σ} {es : List Entry}
    (h : AbsTree P I t es) (fuel : Nat) :
    ∃ ks, treeWalk P fuel t = .ok ks ∧ ks.Pairwise KeyLt := by
  obtain ⟨_, hroot | hroot⟩ := h
  · obtain ⟨h0, _⟩ := hroot
    exact ⟨[], by simp only [treeWalk, h0, if_true, pure_eq_ok], List.Pairwise.nil⟩
  · obtain ⟨h0, node, hget, hp⟩ := hroot
    obtain ⟨d⟩ := node
    refine ⟨es.map Entry.key, ?_, hp.ok.sorted⟩
    have hw : walk P t.pages fuel ⟨d⟩ = .ok (es.map Entry.key) := by
      cases fuel <;>
        simp only [walk, walkStep, hp.layout.btype_eq, bind_ok, if_true,
          nodeKeys_eq hp.layout rfl]
    simp only [treeWalk, h0, if_false, hget, bind_ok, hw]

/-- C4. Key ordering is an invariant.  On a leaf page whose keys are strictly ascending
with the sentinel (empty key) first, `treeInsert` of any valid pair and `treeDelete` of
any present key return a leaf whose keys, read with `getKey`, are strictly ascending
with the sentinel first; and the in-order walk of every tree reached from the empty
tree by `Insert` and `Delete` calls yields strictly ascending keys. -/
theorem C4_key_ordering_invariant {σ : Type} (P : Pager σ) :
    (∀ (fuel : Nat) (s : σ) (node : BNode) (es : List Entry) (key val : List Nat),
      LeafPage node es → ValidKey key → ValidVal val →
      ∃ node' ks, treeInsert P fuel s node key val = .ok (node', s) ∧
        nodeKeys node' = .ok ks ∧ ks.Pairwise KeyLt ∧ ks.head? = some []) ∧
    (∀ (fuel : Nat) (s : σ) (node : BNode) (es : List Entry) (key v : List Nat),
      LeafPage node es → ValidKey key → Holds es key v →
      ∃ node' ks, treeDelete P fuel s node key = .ok (node', s) ∧
        nodeKeys node' = .ok ks ∧ ks.Pairwise KeyLt ∧ ks.head? = some []) ∧
    (∀ (I : σ → Prop) (s0 : σ) (t : BTree σ) (fuel : Nat),
      PagerLaws P I → I s0 → Reach P s0 t →
      ∃ ks, treeWalk P fuel t = .ok ks ∧ ks.Pairwise KeyLt) := by
  refine ⟨?_, ?_, ?_⟩
  · intro fuel s node es key val hp hk hv
    obtain ⟨d', hti, _, L'⟩ := treeInsert_leaf P fuel s hp key val hk.2 hv
    have hok := leafPut_ok hp.ok key val (validKey_ne hk)
    exact ⟨⟨d'⟩, _, hti, nodeKeys_eq L' rfl, hok.sorted, leafOK_head hok⟩
  · intro fuel s node es key v hp hk hh
    have hg := (leafGet_iff hp.ok key v).2 hh
    cases hd : leafDel es key with
    | none =>
      rw [(leafDel_none_iff hp.ok key).1 hd] at hg
      cases hg
    | some es' =>
      obtain ⟨d', htd, _, L'⟩ := (treeDelete_leaf P fuel s hp key).2 es' hd
      have hok := leafDel_ok hp.ok key (validKey_ne hk) hd
      exact ⟨⟨d'⟩, _, htd, nodeKeys_eq L' rfl, hok.sorted, leafOK_head hok⟩
  · intro I s0 t fuel laws h0 hr
    obtain ⟨es, habs, _, _⟩ := reach_abs laws h0 hr
    exact treeWalk_leaf habs fuel

/-- C4, at the in-memory tree after `Insert("b", 2)` and `Insert("a", 1)`. -/
theorem C4_key_ordering_witness :
    ∃ t1 t2, BTree.Insert memPager 0 ⟨0, MemPages.empty⟩ [98] [2] = .ok t1 ∧
      BTree.Insert memPager 0 t1 [97] [1] = .ok t2 ∧
      ∃ ks, treeWalk memPager 0 t2 = .ok ks ∧ ks.Pairwise KeyLt := by
  obtain ⟨t1, t2, h1, h2, hr, _⟩ := mem_two_keys
  exact ⟨t1, t2, h1, h2, (C4_key_ordering_invariant memPager).2.2 MemPages.Fresh
    MemPages.empty t2 0 memPager_laws memPages_empty_fresh hr⟩

/-- C2. Delete reports presence.  On every tree reached from the empty tree and every
key of 1 to 1000 bytes, `BTree.Delete` returns; its result is `true` exactly when
`BTree.Get` found the key just before; afterwards `BTree.Get` finds nothing under the
key and a second `BTree.Delete` returns `false`. -/
theorem C2_delete_reports_presence {σ : Type} {P : Pager σ} {I : σ → Prop}
    (laws : PagerLaws P I) {s0 : σ} (h0 : I s0) {t : BTree σ} (hr : Reach P s0 t)
    (fuel : Nat) (k : List Nat) (hk : ValidKey k) :
    ∃ b t', BTree.Delete P fuel t k = .ok (b, t') ∧
      (b = true ↔ ∃ v, BTree.Get P fuel t k = .ok (some v)) ∧
      BTree.Get P fuel t' k = .ok none ∧
      ∃ t'', BTree.Delete P fuel t' k = .ok (false, t'') := by
  obtain ⟨es, habs, hok, _⟩ := reach_abs laws h0 hr
  have hget := Get_sim habs fuel k hk
  obtain ⟨hn, hs⟩ := Delete_sim laws habs fuel k hk
  cases hd : leafDel es k with
  | none =>
    have hg := (leafDel_none_iff hok k).1 hd
    refine ⟨false, t, hn hd, ?_, by rw [hget, hg], t, hn hd⟩
    rw [hget, hg]
    simp
  | some es' =>
    obtain ⟨t', hdel, habs'⟩ := hs es' hd
    have hok' := leafDel_ok hok k (validKey_ne hk) hd
    have hg' : leafGet es' k = none := by
      cases hg : leafGet es' k with
      | none => rfl
      | some v =>
        have := (leafDel_holds hok k hd k v).1 ((leafGet_iff hok' k v).1 hg)
        exact absurd rfl this.1
    have hd' : leafDel es' k = none := (leafDel_none_iff hok' k).2 hg'
    refine ⟨true, t', hdel, ?_, by rw [Get_sim habs' fuel k hk, hg'], t',
      (Delete_sim laws habs' fuel k hk).1 hd'⟩
    rw [hget]
    cases hg : leafGet es k with
    | none =>
      rw [(leafDel_none_iff hok k).2 hg] at hd
      cases hd
    | some v => simp

/-- C2, at the in-memory tree after `Insert("b", 2)` and `Insert("a", 1)`, for the
present key `a`. -/
theorem C2_delete_reports_presence_witness :
    ∃ t1 t2, BTree.Insert memPager 0 ⟨0, MemPages.empty⟩ [98] [2] = .ok t1 ∧
      BTree.Insert memPager 0 t1 [97] [1] = .ok t2 ∧
      BTree.Get memPager 0 t2 [97] = .ok (some [1]) ∧
      ∃ b t', BTree.Delete memPager 0 t2 [97] = .ok (b, t') ∧
        (b = true ↔ ∃ v, BTree.Get memPager 0 t2 [97] = .ok (some v)) ∧
        BTree.Get memPager 0 t' [97] = .ok none ∧
        ∃ t'', BTree.Delete memPager 0 t' [97] = .ok (false, t'') := by
  obtain ⟨t1, t2, h1, h2, hr, habs⟩ := mem_two_keys
  exact ⟨t1, t2, h1, h2, Get_sim habs 0 [97] ⟨by decide, by decide⟩,
    C2_delete_reports_presence memPager_laws memPages_empty_fresh hr 0 [97]
      ⟨by decide, by decide⟩⟩

/-- C5. Delete changes only the deleted key.  On every tree reached from the empty
tree, `BTree.Delete(k)` returns, and `BTree.Get(k')` of every other key returns, with
the same result after the deletion as before it. -/
theorem C5_delete_frame {σ : Type} {P : Pager σ} {I : σ → Prop}
    (laws : PagerLaws P I) {s0 : σ} (h0 : I s0) {t : BTree σ} (hr : Reach P s0 t)
    (fuel : Nat) (k k' : List Nat) (hk : ValidKey k) (hk' : ValidKey k') (hne : k' ≠ k) :
    ∃ b t' r, BTree.Delete P fuel t k = .ok (b, t') ∧
      BTree.Get P fuel t k' = .ok r ∧ BTree.Get P fuel t' k' = .ok r := by
  obtain ⟨es, habs, hok, _⟩ := reach_abs laws h0 hr
  obtain ⟨hn, hs⟩ := Delete_sim laws habs fuel k hk
  cases hd : leafDel es k with
  | none => exact ⟨false, t, _, hn hd, Get_sim habs fuel k' hk', Get_sim habs fuel k' hk'⟩
  | some es' =>
    obtain ⟨t', hdel, habs'⟩ := hs es' hd
    have hok' := leafDel_ok hok k (validKey_ne hk) hd
    refine ⟨true, t', _, hdel, Get_sim habs fuel k' hk', ?_⟩
    rw [Get_sim habs' fuel k' hk']
    congr 1
    apply leafGet_eq_of_holds hok hok'
    intro v
    rw [leafDel_holds hok k hd k' v]
    exact ⟨fun h => h.2, fun h => ⟨hne, h⟩⟩

/-- C5, at the in-memory tree after `Insert("b", 2)` and `Insert("a", 1)`: delete `b`,
look up `a`. -/
theorem C5_delete_frame_witness :
    ∃ t1 t2, BTree.Insert memPager 0 ⟨0, MemPages.empty⟩ [98] [2] = .ok t1 ∧
      BTree.Insert memPager 0 t1 [97] [1] = .ok t2 ∧
      BTree.Get memPager 0 t2 [97] = .ok (some [1]) ∧
      ∃ b t' r, BTree.Delete memPager 0 t2 [98] = .ok (b, t') ∧
        BTree.Get memPager 0 t2 [97] = .ok r ∧ BTree.Get memPager 0 t' [97] = .ok r := by
  obtain ⟨t1, t2, h1, h2, hr, habs⟩ := mem_two_keys
  exact ⟨t1, t2, h1, h2, Get_sim habs 0 [97] ⟨by decide, by decide⟩,
    C5_delete_frame memPager_laws memPages_empty_fresh hr 0 [98] [97]
      ⟨by decide, by decide⟩ ⟨by decide, by decide⟩ (by decide)⟩


theorem bigVal_length (b : Nat) : (bigVal b).length = 3000 := by
  simp only [bigVal, List.length_replicate]

theorem big_valid (b : Nat) : ValidVal (bigVal b) := by
  simp [ValidVal, BTREE_MAX_VAL_SIZE, bigVal_length]

theorem put_a_big :
    leafPut [sentinel] [97] (bigVal 1) =
      [sentinel, ⟨0, [97], bigVal 1⟩] :=
  leafPut_sentinel _ _ (by decide)

theorem put_b_big (v : List Nat) :
    leafPut [sentinel, ⟨0, [97], bigVal 1⟩] [98] v =
      [sentinel, ⟨0, [97], bigVal 1⟩, ⟨0, [98], v⟩] := by
  have hl : lookupLE [sentinel, ⟨0, [97], bigVal 1⟩] [98] = 1 := rfl
  unfold leafPut
  rw [hl]
  simp

theorem put_b_again (v w : List Nat) :
    leafPut [sentinel, ⟨0, [97], bigVal 1⟩, ⟨0, [98], v⟩] [98] w =
      [sentinel, ⟨0, [97], bigVal 1⟩, ⟨0, [98], w⟩] := by
  have hl : lookupLE [sentinel, ⟨0, [97], bigVal 1⟩, ⟨0, [98], v⟩] [98] = 2 := rfl
  unfold leafPut
  rw [hl]
  simp

/-- C1, evaluated at the failing input.  Over the in-memory page store, starting from
the empty tree, `Insert("a", v1)` with a 3000-byte value returns, and `Insert("b", v2)`
with a 3000-byte value does not: the leaf would need 6048 bytes, `nodeSplit2` leaves
both halves empty, and `getKey(0)` of the empty left half fails its assertion. -/
theorem C1_second_big_insert_panics :
    ∃ t1, BTree.Insert memPager 0 ⟨0, MemPages.empty⟩ [97] (bigVal 1) = .ok t1 ∧
      BTree.Insert memPager 0 t1 [98] (bigVal 2) = .error .assertion := by
  obtain ⟨t1, h1, _, habs1⟩ := mem_insert_step Reach.empty mem_empty_abs [97]
    (bigVal 1) ⟨by decide, by decide⟩ (big_valid 1)
    (by rw [put_a_big]; simp [leafBytes, offTo, Entry.size, sentinel, BTREE_PAGE_SIZE, bigVal_length])
  refine ⟨t1, h1, ?_⟩
  rw [put_a_big] at habs1
  apply (Insert_sim memPager_laws habs1 0 [98] (bigVal 2) ⟨by decide, by decide⟩
    (big_valid 2)).2
  rw [put_b_big]
  simp [leafBytes, offTo, Entry.size, sentinel, BTREE_PAGE_SIZE, bigVal_length]

/-- C3, evaluated at the failing input.  Over the in-memory page store, after
`Insert("a", v)` with a 3000-byte value, `Insert("b", "")` returns and the overwrite
`Insert("b", v2)` with a 3000-byte value does not return: it fails the assertion of
`getKey(0)` on the empty node that `nodeSplit3` produced. -/
theorem C3_big_overwrite_panics :
    ∃ t1 t2, BTree.Insert memPager 0 ⟨0, MemPages.empty⟩ [97] (bigVal 1) = .ok t1 ∧
      BTree.Insert memPager 0 t1 [98] [] = .ok t2 ∧
      BTree.Insert memPager 0 t2 [98] (bigVal 2) = .error .assertion := by
  obtain ⟨t1, h1, hr1, habs1⟩ := mem_insert_step Reach.empty mem_empty_abs [97]
    (bigVal 1) ⟨by decide, by decide⟩ (big_valid 1)
    (by rw [put_a_big]; simp [leafBytes, offTo, Entry.size, sentinel, BTREE_PAGE_SIZE, bigVal_length])
  rw [put_a_big] at habs1
  obtain ⟨t2, h2, _, habs2⟩ := mem_insert_step hr1 habs1 [98] [] ⟨by decide, by decide⟩
    (by simp [ValidVal])
    (by rw [put_b_big]; simp [leafBytes, offTo, Entry.size, sentinel, BTREE_PAGE_SIZE, bigVal_length])
  rw [put_b_big] at habs2
  refine ⟨t1, t2, h1, h2, ?_⟩
  apply (Insert_sim memPager_laws habs2 0 [98] (bigVal 2) ⟨by decide, by decide⟩
    (big_valid 2)).2
  rw [put_b_again]
  simp [leafBytes, offTo, Entry.size, sentinel, BTREE_PAGE_SIZE, bigVal_length]



theorem absTree_nkeys {σ : Type} {P : Pager σ} {I : σ → Prop} {t : BTree σ} {es : List Entry}
    (h : AbsTree P I t es) (h2 : 2 ≤ es.length) : rootNkeys P t = .ok es.length := by
  obtain ⟨_, hroot | hroot⟩ := h
  · obtain ⟨_, hes⟩ := hroot
    subst hes
    simp at h2
  · obtain ⟨_, node, hget, hp⟩ := hroot
    obtain ⟨d⟩ := node
    simp only [rootNkeys, hget, bind_ok, hp.layout.nkeys_eq]

theorem holds_unique {es : List Entry} (h : LeafOK es) {k v w : List Nat}
    (h1 : Holds es k v) (h2 : Holds es k w) : v = w := by
  have a := (leafGet_iff h k v).2 h1
  have b := (leafGet_iff h k w).2 h2
  rw [a] at b
  cases b
  rfl

/-- The part of the overwrite property that the code has: when both calls return, the
second value is read back and the number of entries is the same. -/
theorem overwrite_of_returned_inserts {σ : Type} {P : Pager σ} {I : σ → Prop}
    (laws : PagerLaws P I) {s0 : σ} (h0 : I s0) {t t1 t2 : BTree σ} (hr : Reach P s0 t)
    (fuel : Nat) (k v1 v2 : List Nat)
    (h1 : BTree.Insert P fuel t k v1 = .ok t1) (h2 : BTree.Insert P fuel t1 k v2 = .ok t2) :
    BTree.Get P fuel t2 k = .ok (some v2) ∧ rootNkeys P t2 = rootNkeys P t1 := by
  obtain ⟨es, habs, hok, _⟩ := reach_abs laws h0 hr
  obtain ⟨hk, hv1⟩ := Insert_valid h1
  obtain ⟨_, hv2⟩ := Insert_valid h2
  have hne := validKey_ne hk
  -- the first call
  obtain ⟨hfit1, hov1⟩ := Insert_sim laws habs fuel k v1 hk hv1
  have habs1 : AbsTree P I t1 (leafPut es k v1) := by
    rcases Nat.lt_or_ge BTREE_PAGE_SIZE (leafBytes (leafPut es k v1)) with hgt | hle
    · rw [hov1 hgt] at h1; cases h1
    · obtain ⟨t', e1, a1⟩ := hfit1 hle
      rw [e1] at h1; cases h1; exact a1
  have hok1 := leafPut_ok hok k v1 hne
  -- the second call
  obtain ⟨hfit2, hov2⟩ := Insert_sim laws habs1 fuel k v2 hk hv2
  have habs2 : AbsTree P I t2 (leafPut (leafPut es k v1) k v2) := by
    rcases Nat.lt_or_ge BTREE_PAGE_SIZE (leafBytes (leafPut (leafPut es k v1) k v2)) with hgt | hle
    · rw [hov2 hgt] at h2; cases h2
    · obtain ⟨t', e2, a2⟩ := hfit2 hle
      rw [e2] at h2; cases h2; exact a2
  have hok2 := leafPut_ok hok1 k v2 hne
  have hg2 : leafGet (leafPut (leafPut es k v1) k v2) k = some v2 :=
    (leafGet_iff hok2 k v2).2 ((leafPut_holds hok1 k v2 k v2).2 (Or.inl ⟨rfl, rfl⟩))
  refine ⟨by rw [Get_sim habs2 fuel k hk, hg2], ?_⟩
  -- the key is in the leaf after the first call, so the second call replaces its entry
  have hg1 : leafGet (leafPut es k v1) k = some v1 :=
    (leafGet_iff hok1 k v1).2 ((leafPut_holds hok k v1 k v1).2 (Or.inl ⟨rfl, rfl⟩))
  obtain ⟨e1, he1, _⟩ := hok1.at_idx k
  have hkey : e1.key = k := by
    unfold leafGet at hg1
    rw [he1] at hg1
    by_cases hk' : e1.key = k
    · exact hk'
    · simp [hk'] at hg1
  have hlen := leafPut_length (leafPut es k v1) k v2 e1 he1
  rw [if_pos hkey] at hlen
  have hpos := hok.pos
  have hl1 : 2 ≤ (leafPut es k v1).length := by
    obtain ⟨e0, he0, _⟩ := hok.at_idx k
    have hi := getElem?_lt he0
    have := leafPut_length es k v1 e0 he0
    by_cases hk0 : e0.key = k
    · rw [if_pos hk0] at this
      have hz : lookupLE es k ≠ 0 := by
        intro hz
        obtain ⟨s, hs0, hsk⟩ := hok.sentinel
        rw [hz, hs0] at he0
        cases he0
        exact hne (hk0.symm.trans hsk)
      omega
    · rw [if_neg hk0] at this
      omega
  rw [absTree_nkeys habs2 (by omega), absTree_nkeys habs1 hl1, hlen]

theorem lastVal_cons (k k0 v0 : List Nat) (ops : List (List Nat × List Nat)) :
    lastVal k ((k0, v0) :: ops) =
      match lastVal k ops with
      | some v => some v
      | none => if k0 = k then some v0 else none := rfl

theorem insertAll_abs {σ : Type} {P : Pager σ} {I : σ → Prop} (laws : PagerLaws P I)
    (fuel : Nat) (ops : List (List Nat × List Nat)) :
    ∀ (t t' : BTree σ) (es : List Entry), AbsTree P I t es → LeafOK es →
      insertAll P fuel t ops = .ok t' →
      ∃ es', AbsTree P I t' es' ∧ LeafOK es' ∧
        ∀ k v, Holds es' k v ↔
          (lastVal k ops = some v ∨ (lastVal k ops = none ∧ Holds es k v)) := by
  induction ops with
  | nil =>
    intro t t' es habs hok h
    cases h
    exact ⟨es, habs, hok, fun k v => by simp [lastVal]⟩
  | cons op ops ih =>
    intro t t' es habs hok h
    obtain ⟨k0, v0⟩ := op
    simp only [insertAll] at h
    cases hins : BTree.Insert P fuel t k0 v0 with
    | error e => rw [hins] at h; cases h
    | ok t1 =>
      rw [hins, bind_ok] at h
      obtain ⟨hk, hv⟩ := Insert_valid hins
      obtain ⟨hfit, hov⟩ := Insert_sim laws habs fuel k0 v0 hk hv
      have habs1 : AbsTree P I t1 (leafPut es k0 v0) := by
        rcases Nat.lt_or_ge BTREE_PAGE_SIZE (leafBytes (leafPut es k0 v0)) with hgt | hle
        · rw [hov hgt] at hins; cases hins
        · obtain ⟨t'', e1, a1⟩ := hfit hle
          rw [e1] at hins; cases hins; exact a1
      have hok1 := leafPut_ok hok k0 v0 (validKey_ne hk)
      obtain ⟨es', habs', hok', hh⟩ := ih t1 t' _ habs1 hok1 h
      refine ⟨es', habs', hok', ?_⟩
      intro k v
      rw [hh k v, lastVal_cons, leafPut_holds hok k0 v0 k v]
      cases hl : lastVal k ops with
      | some w => simp
      | none =>
        by_cases hk0 : k0 = k
        · subst hk0
          simp
          constructor
          · intro h; exact h.symm
          · intro h; exact h.symm
        · have hk0' : ¬ k = k0 := fun h => hk0 h.symm
          simp [hk0, hk0']

/-- The part of the round-trip property that the code has: when every call of a run
of insertions into the empty tree returns, `BTree.Get` returns, for every inserted
key, the value of the last insertion of that key. -/
theorem roundtrip_of_returned_inserts {σ : Type} {P : Pager σ} {I : σ → Prop}
    (laws : PagerLaws P I) {s0 : σ} (h0 : I s0) (fuel : Nat)
    (ops : List (List Nat × List Nat)) (t : BTree σ)
    (h : insertAll P fuel ⟨0, s0⟩ ops = .ok t) (k v : List Nat) (hk : ValidKey k)
    (hl : lastVal k ops = some v) : BTree.Get P fuel t k = .ok (some v) := by
  obtain ⟨es', habs', hok', hh⟩ := insertAll_abs laws fuel ops ⟨0, s0⟩ t [sentinel]
    ⟨h0, Or.inl ⟨rfl, rfl⟩⟩ leafOK_sentinel h
  rw [Get_sim habs' fuel k hk, (leafGet_iff hok' k v).2 ((hh k v).2 (Or.inl hl))]



/-! ## Claims about the pager -/

theorem masterRecord_length (root flushed : Nat) : (masterRecord root flushed).length = 32 := by
  simp only [masterRecord, blit_length, zeros_length]

/-- `masterLoad` compares the 6 bytes of `DB_SIG` with 16 bytes of the page, so it
rejects every non-empty file. -/
theorem masterLoad_nonempty (db : KV) (data : List Nat) (tail : List (List Nat))
    (hfile : db.file ≠ 0) (hchunks : db.chunks = data :: tail) (hlen : 32 ≤ data.length) :
    masterLoad db = .ok (db, some .badSignature) := by
  have hneq : bytesEqual DB_SIG (data.take 16) = false := by
    rw [Bool.eq_false_iff]
    intro h
    have h2 := congrArg List.length ((bytesEqual_iff _ _).1 h)
    rw [List.length_take] at h2
    have : DB_SIG.length = 6 := rfl
    omega
  have h16 : 16 ≤ data.length := by omega
  simp only [masterLoad, hfile, if_false, hchunks, rdU64]
  rw [if_pos (by omega), bind_ok, if_pos (by omega), bind_ok]
  simp only [h16, not_true_eq_false, if_false, hneq, Bool.false_eq_true, not_false_eq_true,
    if_true, pure_eq_ok]

/-- C7, evaluated on the failing inputs.  On every non-empty file whose first chunk
starts with the 32 bytes that `masterStore` writes for `(root, flushed)`, `masterLoad`
does not succeed: it returns the error `bad signature` and leaves `db` as it was. -/
theorem C7_masterLoad_rejects_stored_record (db : KV) (root flushed : Nat)
    (rest : List Nat) (tail : List (List Nat)) (hfile : db.file ≠ 0)
    (hchunks : db.chunks = (masterRecord root flushed ++ rest) :: tail) :
    masterLoad db = .ok (db, some .badSignature) :=
  masterLoad_nonempty db _ tail hfile hchunks
    (by rw [List.length_append, masterRecord_length]; omega)

/-- C7, at a file of two pages whose master record stores root 1 and flushed 2. -/
theorem C7_masterLoad_rejects_stored_record_witness :
    masterLoad ⟨0, 8192, 67108864, [masterRecord 1 2 ++ zeros 8160], 0, [], []⟩ =
      .ok (⟨0, 8192, 67108864, [masterRecord 1 2 ++ zeros 8160], 0, [], []⟩,
        some .badSignature) :=
  C7_masterLoad_rejects_stored_record _ 1 2 (zeros 8160) [] (by decide) rfl

/-- C8. A corrupt master is rejected atomically.  On every non-empty file whose first
16 bytes differ from the padded signature, or whose `flushed` and `root` fields violate
`1 <= flushed <= file_size/4096` and `root < flushed`, `masterLoad` returns an error and
the state after it is the state before it (root and flushed counter included). -/
theorem C8_corrupt_master_rejected (db : KV) (data : List Nat) (tail : List (List Nat))
    (hfile : db.file ≠ 0) (hchunks : db.chunks = data :: tail) (hlen : 32 ≤ data.length)
    (_hcorrupt : data.take 16 ≠ signature16 ∨
      ¬ (1 ≤ leDecode (slice data 24 8) ∧
          leDecode (slice data 24 8) ≤ db.file / BTREE_PAGE_SIZE ∧
          leDecode (slice data 16 8) < leDecode (slice data 24 8))) :
    ∃ db' err, masterLoad db = .ok (db', some err) ∧ db' = db ∧
      db'.root = db.root ∧ db'.flushed = db.flushed :=
  ⟨db, .badSignature, masterLoad_nonempty db data tail hfile hchunks hlen, rfl, rfl, rfl⟩

/-- C8, at a one-page file whose first 32 bytes are zero. -/
theorem C8_corrupt_master_rejected_witness :
    ∃ db' err, masterLoad ⟨7, 4096, 67108864, [zeros 32], 3, [], []⟩ = .ok (db', some err) ∧
      db' = ⟨7, 4096, 67108864, [zeros 32], 3, [], []⟩ ∧
      db'.root = 7 ∧ db'.flushed = 3 :=
  C8_corrupt_master_rejected ⟨7, 4096, 67108864, [zeros 32], 3, [], []⟩ (zeros 32) []
    (by decide) rfl (by rw [zeros_length]) (Or.inl (by decide))

theorem growMmap_of_ge (size fuel m : Nat) (h : ¬ m < size) : growMmap size fuel m = m := by
  cases fuel with
  | zero => rfl
  | succ fuel => simp only [growMmap, h, if_false]

/-- C9, evaluated on the failing inputs.  `mmapInit` tests the file size modulo 1000
(`BTREE_MAX_KEY_SIZE`), not modulo the page size: it rejects a file of one page, 4096
bytes, the size `extendFile` gives the first page, and it accepts a file of 1000 bytes,
which is not a multiple of the page size. -/
theorem C9_mmapInit_checks_wrong_modulus (sys : Sys) :
    mmapInit sys (some 4096) = .ok (.error .notMultiple) ∧
    (∀ db : KV, db.file = 0 → sys.ftruncateOk db.trace 4096 = true →
      (extendFile sys db 1).1.file = 4096) ∧
    (∀ chunk, sys.mmapBytes [] 0 (64 * 2 ^ 20) = some chunk →
      mmapInit sys (some 1000) = .ok (.ok (1000, chunk))) := by
  refine ⟨?_, ?_, ?_⟩
  · simp [mmapInit, BTREE_MAX_KEY_SIZE]
  · intro db h0 hok
    simp [extendFile, h0, BTREE_PAGE_SIZE, growPages, hok]
  · intro chunk hc
    have hg : growMmap 1000 1000 (64 * 2 ^ 20) = 64 * 2 ^ 20 :=
      growMmap_of_ge _ _ _ (by norm_num)
    have ha : assert ((64 * 2 ^ 20) % BTREE_PAGE_SIZE == 0) = .ok () := by
      have : ((64 * 2 ^ 20) % BTREE_PAGE_SIZE == 0) = true := by
        simp [BTREE_PAGE_SIZE]
      rw [this]; rfl
    simp only [mmapInit, BTREE_MAX_KEY_SIZE, Nat.mod_self, ne_eq, not_true_eq_false, if_false,
      ha, bind_ok, hg, hc, pure_eq_ok]



/-! ## A range copy that does not fit its buffer -/

/-- `nodeAppendRange` into a buffer too small for the copied cells: Go's `copy`
truncates silently, the pointers and the offsets are written in full. -/
theorem nodeAppendRange_header {d ty n es od oty n0 oes} (L : Layout d ty n es)
    (Lo : Layout od oty n0 oes) (s m : Nat) (hm : 0 < m) (hs : s + m ≤ oes.length)
    (hk : es.length + m ≤ n)
    (hsmall : offTo es es.length + offTo (oes.drop s) m < 65536) :
    ∃ d', nodeAppendRange ⟨d⟩ ⟨od⟩ es.length s m = .ok ⟨d'⟩ ∧ d'.length = d.length ∧
      Layout d' ty n es ∧
      ∀ j, j < m → slice d' (4 + 8 * n + 2 * (es.length + j)) 2 =
        leEncode 2 (offTo es es.length + offTo (oes.drop s) (j + 1)) := by
  have hlen := L.len_lt
  have hco := Lo.count
  have hlo := Lo.len_lt
  have hn0 := Lo.n_lt
  have hnn := L.n_lt
  have hfits := L.fits
  have hdrop : ∀ j, offTo oes (s + j) = offTo oes s + offTo (oes.drop s) j :=
    fun j => offTo_drop oes s j
  have hm3 := Lo.off_le (s + m)
  have hm4 := Lo.off_le s
  obtain ⟨d1, e1, S1, W1⟩ := copyPtrs_spec Lo s m hs hk m 0 d (by omega) L
  have L1 : Layout d1 ty n es := L.frame S1 (Or.inl ⟨by omega, by omega⟩)
  obtain ⟨d2, e2, S2, W2⟩ :=
    copyOffsets_spec Lo s m hs hk (by have := hdrop m; omega) m 0 d1 (by omega) L1
  have L2 : Layout d2 ty n es := L1.frame S2 (Or.inr (Or.inl ⟨by omega, by omega⟩))
  obtain ⟨blk, hblk⟩ : ∃ blk, blk = slice od (4 + 10 * n0 + offTo oes s)
    (offTo (oes.drop s) m) := ⟨_, rfl⟩
  have hpos : 4 + 10 * n + offTo es es.length ≤ d2.length := by rw [S2.1, S1.1]; omega
  have S3 := sameOutside_blit d2 (4 + 10 * n + offTo es es.length) blk hpos
  have L3 : Layout (blit d2 (4 + 10 * n + offTo es es.length) blk) ty n es :=
    L2.frame S3 (Or.inr (Or.inr (Nat.le_refl _)))
  refine ⟨blit d2 (4 + 10 * n + offTo es es.length) blk, ?_, by rw [S3.1, S2.1, S1.1], L3, ?_⟩
  · have hw1 : w16 (s + m) = s + m := w16_of_lt (by omega)
    have hw2 : w16 (es.length + m) = es.length + m := w16_of_lt (by omega)
    have ha1 : decide (s + m ≤ n0) = true := decide_eq_true (by omega)
    have ha2 : decide (es.length + m ≤ n) = true := decide_eq_true (by omega)
    have hm0 : ¬ m = 0 := by omega
    simp only [nodeAppendRange, Lo.nkeys_eq, L.nkeys_eq, bind_ok, hw1, hw2, ha1, ha2,
      assert_true, hm0, if_false, e1, L1.getOffset_eq _ (Nat.le_refl _),
      Lo.getOffset_eq s (by omega), e2, Lo.kvPos_eq s (by omega),
      Lo.kvPos_eq (s + m) (by omega), L2.kvPos_eq _ (Nat.le_refl _)]
    have h2 : 4 + 10 * n0 + offTo oes s ≤ 4 + 10 * n0 + offTo oes (s + m) ∧
        4 + 10 * n0 + offTo oes (s + m) ≤ od.length := by
      have := hdrop m; omega
    simp only [hpos, h2, not_true_eq_false, if_false, and_self]
    rw [hblk]
    have : 4 + 10 * n0 + offTo oes (s + m) - (4 + 10 * n0 + offTo oes s)
        = offTo (oes.drop s) m := by
      have := hdrop m; omega
    rw [this]
    rfl
  · intro j hj
    rw [S3.2 _ _ (by omega), W2 j (by omega) hj]
    have := hdrop (j + 1)
    rw [show s + (j + 1) = s + j + 1 by omega] at this
    rw [this, Nat.add_sub_cancel_left]

/-- The size of a node read off its last offset. -/
theorem nbytes_of_last_offset {d ty n es} (L : Layout d ty n es) (v : Nat) (hn : 0 < n)
    (hslot : slice d (4 + 8 * n + 2 * (n - 1)) 2 = leEncode 2 v)
    (hv : 4 + 10 * n + v < 65536) :
    (BNode.mk d).nbytes = .ok (4 + 10 * n + v) := by
  have hlen := L.len_lt
  have hfits := L.fits
  have hn1 : decide (1 ≤ n) = true := decide_eq_true hn
  have hn0 : ¬ n = 0 := by omega
  have hw : w16 (4 + 8 * n + 2 * (n - 1)) = 4 + 8 * n + 2 * (n - 1) := w16_of_lt (by omega)
  simp only [BNode.nbytes, L.nkeys_eq, bind_ok, BNode.kvPos, BNode.getOffset, BNode.offsetPos,
    HEADER, Nat.le_refl, decide_True, assert_true, hn0, if_false, hn1, Bool.and_true,
    pure_eq_ok, rdU16, hw]
  rw [if_pos (by omega), hslot, leDecode_leEncode_2 _ (by omega), bind_ok,
    w16_of_lt (by omega)]
  congr 1
  omega


/-! ## An internal node that outgrows its page on deletion -/

theorem appendAll_layout (ty n : Nat) (rest : List Entry) :
    ∀ (pre : List Entry) (d : List Nat), Layout d ty n pre → pre.length + rest.length = n →
      (∀ e ∈ rest, e.key.length ≤ 1000 ∧ e.val.length ≤ 3000 ∧ e.ptr < 18446744073709551616) →
      4 + 10 * n + offTo (pre ++ rest) (pre ++ rest).length ≤ d.length →
      ∃ d', appendAll ⟨d⟩ rest pre.length = .ok ⟨d'⟩ ∧ d'.length = d.length ∧
        Layout d' ty n (pre ++ rest) := by
  induction rest with
  | nil =>
    intro pre d L _ _ _
    exact ⟨d, rfl, rfl, by simpa using L⟩
  | cons e rest ih =>
    intro pre d L hn hes hfit
    obtain ⟨hk, hv, hp⟩ := hes e (List.mem_cons_self _ _)
    have hsplit : pre ++ e :: rest = (pre ++ [e]) ++ rest := by simp
    rw [hsplit, offTo_length_append, offTo_length_append, offTo_length_single] at hfit
    simp only [List.length_cons] at hn
    obtain ⟨d1, e1, len1, L1⟩ := nodeAppendKV_layout L e.ptr e.key e.val (by omega) hk hv hp
      (by simp only [Entry.size] at hfit; omega)
    obtain ⟨d2, e2, len2, L2⟩ := ih (pre ++ [e]) d1 L1
      (by simp only [List.length_append, List.length_singleton]; omega)
      (fun x hx => hes x (List.mem_cons_of_mem _ hx))
      (by rw [offTo_length_append, offTo_length_append, offTo_length_single, len1]; exact hfit)
    refine ⟨d2, ?_, by omega, by rw [hsplit]; exact L2⟩
    simp only [appendAll, e1, bind_ok]
    rw [List.length_append, List.length_singleton] at e2
    exact e2

theorem buildNode_layout (ty : Nat) (es : List Entry) (hty : ty < 65536)
    (hes : ∀ e ∈ es, e.key.length ≤ 1000 ∧ e.val.length ≤ 3000 ∧
      e.ptr < 18446744073709551616)
    (hfit : leafBytes es ≤ BTREE_PAGE_SIZE) :
    ∃ d, buildNode ty es = .ok ⟨d⟩ ∧ d.length = BTREE_PAGE_SIZE ∧ Layout d ty es.length es := by
  unfold leafBytes at hfit
  have hz : (zeros BTREE_PAGE_SIZE).length = BTREE_PAGE_SIZE := zeros_length _
  have hP : BTREE_PAGE_SIZE = 4096 := rfl
  obtain ⟨d0, e0, len0, L0⟩ := setHeader_layout (zeros BTREE_PAGE_SIZE) ty es.length
    (by rw [hz, hP]; omega) (by rw [hz]; omega) hty
  obtain ⟨d1, e1, len1, L1⟩ := appendAll_layout ty es.length es [] d0 L0 (by simp) hes
    (by rw [List.nil_append, len0, hz]; exact hfit)
  refine ⟨d1, ?_, by rw [len1, len0, hz], by simpa using L1⟩
  simp only [buildNode, e0, bind_ok]
  exact e1

/-- `treeDelete` on a leaf image, at the entry `nodeLookupLE` finds. -/
theorem treeDeleteBody_leaf_at {σ : Type} (P : Pager σ)
    (recur : σ → BNode → List Nat → Res (BNode × σ)) (s : σ) {d : List Nat} {n : Nat}
    {es : List Entry} (L : Layout d BNODE_LEAF n es) (hfull : es.length = n)
    (hfit : 4 + 10 * n + offTo es n ≤ BTREE_PAGE_SIZE) (key : List Nat) (e1 : Entry)
    (h1 : es[lookupLE es key]? = some e1) (hk : e1.key = key) :
    ∃ d', treeDeleteBody P recur s ⟨d⟩ key = .ok (⟨d'⟩, s) ∧ d'.length = BTREE_PAGE_SIZE ∧
      Layout d' BNODE_LEAF (n - 1) (es.take (lookupLE es key) ++ es.drop (lookupLE es key + 1)) := by
  subst hfull
  have hi := getElem?_lt h1
  have hz : (zeros BTREE_PAGE_SIZE).length = 4096 := zeros_length _
  unfold BTREE_PAGE_SIZE at hfit
  have hb : bytesEqual key e1.key = true := (bytesEqual_iff _ _).2 hk.symm
  obtain ⟨d', e', len', L'⟩ := leafDelete_layout (d := zeros BTREE_PAGE_SIZE) L rfl
    (lookupLE es key) hi (by rw [hz]; decide) (by rw [hz]; omega)
  refine ⟨d', ?_, by rw [len', hz]; rfl, L'⟩
  simp only [treeDeleteBody, nodeLookupLE_eq L rfl key, bind_ok, L.btype_eq, if_true,
    L.getKey_eq _ _ h1]
  rw [hb]
  simp only [not_true_eq_false, if_false]
  rw [e']
  rfl

theorem shouldMerge_big {σ : Type} (P : Pager σ) (s : σ) (node updated : BNode) (idx ub : Nat)
    (hub : updated.nbytes = .ok ub) (hbig : BTREE_PAGE_SIZE / 4 < ub) :
    shouldMerge P s node idx updated = .ok (0, ⟨[]⟩) := by
  unfold shouldMerge
  rw [hub, bind_ok, if_pos hbig]
  rfl

theorem kv_pageNew (db : KV) (d : List Nat) (hd : d.length ≤ BTREE_PAGE_SIZE) :
    kvPager.new db ⟨d⟩ =
      .ok (w64 (db.flushed + w64 db.temp.length), { db with temp := db.temp ++ [d] }) := by
  show KV.pageNew db ⟨d⟩ = _
  have : decide (BNode.Size ⟨d⟩ ≤ BTREE_PAGE_SIZE) = true := decide_eq_true hd
  simp only [KV.pageNew, this, assert_true, bind_ok, pure_eq_ok, BNode.GetData]

/-- `nodeReplaceKidN` with one kid whose first key is longer than the key it replaces:
the last offset, hence `nbytes()`, counts all the cells although the page-sized buffer
cannot hold them. -/
theorem nodeReplaceKidN_one (db : KV) (z : List Nat) (hz : z.length = 4096)
    {od : List Nat} {n0 : Nat} {oes : List Entry}
    (Lo : Layout od BNODE_NODE n0 oes) (hfull : oes.length = n0) (idx : Nat)
    (hidx : idx + 1 < n0) {kd : List Nat} {kty kn : Nat} {kes : List Entry}
    (Lk : Layout kd kty kn kes) (hkd : kd.length ≤ BTREE_PAGE_SIZE) (k0 : Entry)
    (hk0 : kes[0]? = some k0) (hklen : k0.key.length ≤ 1000)
    (hfit : 4 + 10 * n0 + offTo oes idx + (4 + k0.key.length) ≤ BTREE_PAGE_SIZE)
    (hsmall : 4 + 10 * n0 + offTo oes idx + (4 + k0.key.length) +
      offTo (oes.drop (idx + 1)) (n0 - (idx + 1)) < 65536) :
    ∃ d', nodeReplaceKidN kvPager db ⟨z⟩ ⟨od⟩ idx [⟨kd⟩] =
        .ok (⟨d'⟩, { db with temp := db.temp ++ [kd] }) ∧
      d'.length = BTREE_PAGE_SIZE ∧ (BNode.mk d').btype = .ok BNODE_NODE ∧
      (BNode.mk d').nkeys = .ok n0 ∧
      (BNode.mk d').nbytes = .ok (4 + 10 * n0 + offTo oes idx + (4 + k0.key.length) +
        offTo (oes.drop (idx + 1)) (n0 - (idx + 1))) := by
  have hP : BTREE_PAGE_SIZE = 4096 := rfl
  rw [hP] at hfit
  have hn0 := Lo.n_lt
  have hofits := Lo.fits
  have holen := Lo.len_lt
  obtain ⟨d0, e0, len0, L0⟩ := setHeader_layout z BNODE_NODE n0
    (by rw [hz]; omega) (by rw [hz]; omega) (by decide)
  have hto : offTo (oes.drop 0) idx = offTo oes idx := by rw [List.drop_zero]
  obtain ⟨d1, e1, len1, L1⟩ := nodeAppendRange_at L0 Lo 0 0 idx rfl (by omega) (by omega)
    (by rw [hto, len0, hz]; simp only [List.length_nil, offTo_zero]; omega)
  rw [List.nil_append, List.drop_zero] at L1
  have hl1 : (oes.take idx).length = idx := by rw [List.length_take]; omega
  have ho1 : offTo (oes.take idx) (oes.take idx).length = offTo oes idx := by
    rw [offTo_length_take]
  obtain ⟨d2, e2, len2, L2⟩ := nodeAppendKV_at L1 idx
    (w64 (db.flushed + w64 db.temp.length)) k0.key [] hl1 (by omega) hklen (by simp)
    (Nat.mod_lt _ (by decide))
    (by rw [ho1, len1, len0, hz]; simp only [List.length_nil]; omega)
  have hl2 : (oes.take idx ++ [(⟨w64 (db.flushed + w64 db.temp.length), k0.key, []⟩ : Entry)]).length
      = idx + 1 := by
    rw [List.length_append, hl1, List.length_singleton]
  have ho2 : offTo (oes.take idx ++ [(⟨w64 (db.flushed + w64 db.temp.length), k0.key, []⟩ : Entry)])
      (oes.take idx ++ [(⟨w64 (db.flushed + w64 db.temp.length), k0.key, []⟩ : Entry)]).length
      = offTo oes idx + (4 + k0.key.length) := by
    rw [offTo_length_append, ho1, offTo_length_single]
    simp only [Entry.size, List.length_nil, Nat.add_zero]
  obtain ⟨d3, e3, len3, L3, W3⟩ := nodeAppendRange_header L2 Lo (idx + 1) (n0 - (idx + 1))
    (by omega) (by omega) (by rw [hl2]; omega) (by rw [ho2]; omega)
  rw [hl2] at e3
  have hlast := W3 (n0 - (idx + 1) - 1) (by omega)
  rw [ho2, hl2, show n0 - (idx + 1) - 1 + 1 = n0 - (idx + 1) by omega,
    show idx + 1 + (n0 - (idx + 1) - 1) = n0 - 1 by omega] at hlast
  have hnb := nbytes_of_last_offset L3 _ (by omega) hlast (by omega)
  refine ⟨d3, ?_, by rw [len3, len2, len1, len0, hz]; rfl, L3.btype_eq, L3.nkeys_eq, ?_⟩
  · have hw1 : w16 ([(⟨kd⟩ : BNode)].length) = 1 := rfl
    have hw2 : sub16 (w16 (n0 + 1)) 1 = n0 := by
      rw [w16_of_lt (by omega), sub16_of_le (by omega) (by omega)]; omega
    have hw3 : w16 (idx + w16 0) = idx := by
      rw [show w16 0 = 0 from rfl, Nat.add_zero, w16_of_lt (by omega)]
    have hw4 : w16 (idx + 1) = idx + 1 := w16_of_lt (by omega)
    have hw5 : sub16 n0 (idx + 1) = n0 - (idx + 1) := sub16_of_le (by omega) (by omega)
    simp only [nodeReplaceKidN, hw1, Lo.nkeys_eq, bind_ok, hw2, e0, e1, appendKids,
      kv_pageNew db kd hkd, Lk.getKey_eq 0 k0 hk0, hw3, e2, pure_eq_ok, hw4, hw5, e3]
  · rw [hnb]
    congr 1
    omega

theorem nodeDelete_grow (recur : KV → BNode → List Nat → Res (BNode × KV)) (db : KV)
    {rd : List Nat} {n0 : Nat} {res : List Entry} (Lr : Layout rd BNODE_NODE n0 res)
    (idx : Nat) (er : Entry) (hr : res[idx]? = some er) (kid : BNode) (key : List Nat)
    (hget : KV.pageGet db er.ptr = .ok kid)
    {dU : List Nat} {kn : Nat} {kes : List Entry} (hrec : recur db kid key = .ok (⟨dU⟩, db))
    (LU : Layout dU BNODE_LEAF kn kes) (hkfull : kes.length = kn) (hdU : dU.length = 4096)
    (hbig : BTREE_PAGE_SIZE / 4 < 4 + 10 * kn + offTo kes kn) (hkn : 0 < kn)
    (r : BNode × KV)
    (hrep : nodeReplaceKidN kvPager db ⟨zeros BTREE_PAGE_SIZE⟩ ⟨rd⟩ idx [⟨dU⟩] = .ok r) :
    nodeDelete kvPager recur db ⟨rd⟩ idx key = .ok r := by
  have hsm := shouldMerge_big kvPager db ⟨rd⟩ ⟨dU⟩ idx _ (LU.nbytes_eq hkfull) hbig
  have hg : kvPager.get db er.ptr = .ok kid := hget
  have hd : kvPager.del db er.ptr = .ok db := rfl
  have hlen : ¬ (BNode.mk dU).data.length = 0 := by
    show ¬ dU.length = 0
    omega
  have hpos : decide (kn > 0) = true := decide_eq_true hkn
  unfold nodeDelete
  rw [Lr.getPtr_eq idx er hr, bind_ok, hg, bind_ok, hrec, bind_ok]
  dsimp only
  rw [if_neg hlen, hd, bind_ok, hsm, bind_ok]
  dsimp only
  rw [if_neg (by decide), if_neg (by decide), LU.nkeys_eq, bind_ok, hpos, assert_true, bind_ok]
  exact hrep

/-- `BTree.Delete` on a tree of two levels whose deleted key is the first key of a leaf
that is not merged: the root is rewritten with the next key of the leaf, and both the
leaf and the root go to `pageNew`. -/
theorem Delete_grow (db : KV) (root : Nat) (hroot : root ≠ 0) {rd : List Nat} {n0 : Nat}
    {res : List Entry} (Lr : Layout rd BNODE_NODE n0 res) (hfull : res.length = n0)
    (key : List Nat) (hkey1 : key.length ≠ 0) (hkey2 : key.length ≤ BTREE_MAX_KEY_SIZE)
    (hgetr : KV.pageGet db root = .ok ⟨rd⟩) (er : Entry)
    (hr : res[lookupLE res key]? = some er) (hidx : lookupLE res key + 1 < n0)
    {kd : List Nat} {kn : Nat} {kes : List Entry} (Lk : Layout kd BNODE_LEAF kn kes)
    (hkfull : kes.length = kn) (hkfit : 4 + 10 * kn + offTo kes kn ≤ BTREE_PAGE_SIZE)
    (hget : KV.pageGet db er.ptr = .ok ⟨kd⟩) (e1 : Entry)
    (h1 : kes[lookupLE kes key]? = some e1) (hk : e1.key = key) (k0 : Entry)
    (hk0 : (kes.take (lookupLE kes key) ++ kes.drop (lookupLE kes key + 1))[0]? = some k0)
    (hklen : k0.key.length ≤ 1000)
    (hbig : BTREE_PAGE_SIZE / 4 < 4 + 10 * (kn - 1) +
      offTo (kes.take (lookupLE kes key) ++ kes.drop (lookupLE kes key + 1)) (kn - 1))
    (hfit : 4 + 10 * n0 + offTo res (lookupLE res key) + (4 + k0.key.length)
      ≤ BTREE_PAGE_SIZE)
    (hsmall : 4 + 10 * n0 + offTo res (lookupLE res key) + (4 + k0.key.length) +
      offTo (res.drop (lookupLE res key + 1)) (n0 - (lookupLE res key + 1)) < 65536) :
    ∃ dU dN, BTree.Delete kvPager 1 ⟨root, db⟩ key =
        .ok (true, ⟨w64 (db.flushed + w64 (db.temp.length + 1)),
          { db with temp := db.temp ++ [dU, dN] }⟩) ∧
      (BNode.mk dN).nbytes = .ok (4 + 10 * n0 + offTo res (lookupLE res key) +
        (4 + k0.key.length) +
        offTo (res.drop (lookupLE res key + 1)) (n0 - (lookupLE res key + 1))) := by
  have hi := getElem?_lt h1
  have hP : BTREE_PAGE_SIZE = 4096 := rfl
  obtain ⟨dU, eU, lenU, LU⟩ := treeDeleteBody_leaf_at kvPager
    (fun _ _ _ => .error .outOfFuel) db Lk hkfull hkfit key e1 h1 hk
  have hlk : (kes.take (lookupLE kes key) ++ kes.drop (lookupLE kes key + 1)).length
      = kn - 1 := by
    rw [List.length_append, List.length_take, List.length_drop]; omega
  have hkn : 0 < kn - 1 := by
    have := getElem?_lt hk0
    omega
  obtain ⟨dN, eN, lenN, tyN, nN, bN⟩ := nodeReplaceKidN_one db (zeros BTREE_PAGE_SIZE)
    (zeros_length _) Lr hfull (lookupLE res key) hidx LU (by rw [lenU]) k0 hk0 hklen hfit hsmall
  have hnd := nodeDelete_grow (treeDelete kvPager 0) db Lr (lookupLE res key) er hr ⟨kd⟩ key
    hget eU LU hlk lenU hbig hkn _ eN
  have htd : treeDelete kvPager 1 db ⟨rd⟩ key
      = .ok (⟨dN⟩, { db with temp := db.temp ++ [dU] }) := by
    show treeDeleteBody kvPager (treeDelete kvPager 0) db ⟨rd⟩ key = _
    unfold treeDeleteBody
    rw [nodeLookupLE_eq Lr hfull key, bind_ok, Lr.btype_eq, bind_ok,
      if_neg (by decide), if_pos rfl]
    exact hnd
  refine ⟨dU, dN, ?_, bN⟩
  have ha1 : (key.length != 0) = true := by simpa using hkey1
  have ha2 : decide (key.length ≤ BTREE_MAX_KEY_SIZE) = true := decide_eq_true hkey2
  have hg : kvPager.get db root = .ok ⟨rd⟩ := hgetr
  have hlen : ¬ (BNode.mk dN).data.length = 0 := by
    show ¬ dN.length = 0
    rw [lenN, hP]; omega
  have hn1 : decide (n0 = 1) = false := decide_eq_false (by omega)
  have hnew := kv_pageNew { db with temp := db.temp ++ [dU] } dN (by rw [lenN])
  unfold BTree.Delete
  rw [ha1, ha2, assert_true, bind_ok, bind_ok]
  dsimp only
  rw [if_neg hroot, hg, bind_ok, htd, bind_ok]
  dsimp only
  rw [if_neg hlen]
  have hd : kvPager.del ({ db with temp := db.temp ++ [dU] } : KV) root
      = .ok { db with temp := db.temp ++ [dU] } := rfl
  rw [hd, bind_ok, tyN, bind_ok, if_pos rfl, nN, bind_ok, pure_eq_ok, bind_ok, hn1]
  simp only [Bool.false_eq_true, if_false]
  rw [hnew, bind_ok]
  simp only [pure_eq_ok, List.length_append, List.length_singleton, List.append_assoc,
    List.singleton_append]

theorem join_pages_length (N : Nat) :
    ∀ ps : List (List Nat), (∀ p ∈ ps, p.length = N) → ps.flatten.length = N * ps.length := by
  intro ps
  induction ps with
  | nil => intro _; rfl
  | cons q qs ih =>
    intro h
    rw [List.flatten_cons, List.length_append, ih (fun p hp => h p (List.mem_cons_of_mem _ hp)),
      h q (List.mem_cons_self _ _), List.length_cons, Nat.mul_succ, Nat.add_comm]

theorem slice_join_page (N : Nat) :
    ∀ (ps : List (List Nat)) (i : Nat) (p : List Nat), (∀ q ∈ ps, q.length = N) →
      ps[i]? = some p → slice ps.flatten (N * i) N = p := by
  intro ps
  induction ps with
  | nil => intro i p _ hi; simp at hi
  | cons q qs ih =>
    intro i p h hi
    have hq := h q (List.mem_cons_self _ _)
    cases i with
    | zero =>
      simp only [List.getElem?_cons_zero, Option.some.injEq] at hi
      subst hi
      rw [List.flatten_cons, Nat.mul_zero, slice_append_left _ _ _ _ (by omega)]
      exact slice_all_of hq
    | succ j =>
      simp only [List.getElem?_cons_succ] at hi
      rw [List.flatten_cons, slice_append_right_of q qs.flatten N (x := N * j)
        (by rw [hq, Nat.mul_succ, Nat.add_comm])]
      exact ih j p (fun x hx => h x (List.mem_cons_of_mem _ hx)) hi

theorem pageGet_exDb (pages : List BNode) (hlen : pages.length = 7)
    (hp : ∀ p ∈ pages, p.data.length = BTREE_PAGE_SIZE) (k : Nat) (p : BNode)
    (hk : pages[k]? = some p) : KV.pageGet (exDb pages) (k + 1) = .ok p := by
  have hk7 : k < 7 := by
    have := getElem?_lt hk
    omega
  have hP : BTREE_PAGE_SIZE = 4096 := rfl
  have hall : ∀ q ∈ pages.map BNode.data, q.length = 4096 := by
    intro q hq
    obtain ⟨b, hb, rfl⟩ := List.mem_map.1 hq
    exact hp b hb
  have hj : (pages.map BNode.data).flatten.length = 28672 := by
    rw [join_pages_length 4096 _ hall, List.length_map, hlen]
  have hz : (zeros BTREE_PAGE_SIZE).length = 4096 := zeros_length _
  have hc : (zeros BTREE_PAGE_SIZE ++ (pages.map BNode.data).flatten).length = 32768 := by
    rw [List.length_append, hz, hj]
  have hsl : slice (zeros BTREE_PAGE_SIZE ++ (pages.map BNode.data).flatten) (4096 * (k + 1)) 4096
      = p.data := by
    rw [slice_append_right_of _ _ 4096 (x := 4096 * k) (by rw [hz]; omega)]
    exact slice_join_page 4096 _ k p.data hall (by rw [List.getElem?_map, hk]; rfl)
  have hw1 : w64 (0 + w64 32768 / BTREE_PAGE_SIZE) = 8 := by decide
  have hw2 : w64 (BTREE_PAGE_SIZE * w64 (k + 1 + 18446744073709551616 - 0)) = 4096 * (k + 1) := by
    rw [Nat.sub_zero, hP]
    unfold w64
    rw [Nat.add_mod_right, Nat.mod_eq_of_lt (by omega), Nat.mod_eq_of_lt (by omega)]
  unfold KV.pageGet exDb
  simp only [pageLocate, hc, hw1, hw2]
  rw [if_pos (by omega), if_pos (by omega)]
  simp only [pure_eq_ok, bind_ok, List.getD_cons_zero, hP]
  rw [hP] at hsl
  rw [hsl]

theorem longKey_length (b c : Nat) : (longKey b c).length = 1000 := by
  simp only [longKey, List.length_cons, List.length_replicate]

theorem exLeaf_small (i : Nat) : ∀ e ∈ exLeaf i,
    e.key.length ≤ 1000 ∧ e.val.length ≤ 3000 ∧ e.ptr < 18446744073709551616 := by
  intro e he
  match i, he with
  | 0, he =>
    simp only [exLeaf, List.mem_singleton] at he
    subst he
    simp only [List.length_nil]
    omega
  | 1, he =>
    simp only [exLeaf, List.mem_cons, List.mem_singleton, List.not_mem_nil, or_false] at he
    rcases he with rfl | rfl <;>
      simp only [longKey_length, List.length_nil, List.length_cons, List.length_replicate] <;>
      omega
  | n + 2, he =>
    simp only [exLeaf, List.mem_singleton] at he
    subst he
    simp only [longKey_length, List.length_nil]
    omega

theorem exRoot_small : ∀ e ∈ exRoot,
    e.key.length ≤ 1000 ∧ e.val.length ≤ 3000 ∧ e.ptr < 18446744073709551616 := by
  intro e he
  simp only [exRoot, List.mem_cons, List.mem_singleton, List.not_mem_nil, or_false] at he
  rcases he with rfl | rfl | rfl | rfl | rfl | rfl <;>
    simp only [longKey_length, List.length_nil, List.length_cons] <;>
    omega

theorem exLeaf_bytes (i : Nat) : leafBytes (exLeaf i) ≤ 1134 := by
  match i with
  | 0 =>
    simp only [leafBytes, exLeaf, offTo, List.length_cons, List.length_nil, List.take,
      List.map, List.sum_cons, List.sum_nil, Entry.size]
    omega
  | 1 =>
    simp only [leafBytes, exLeaf, offTo, List.length_cons, List.length_nil, List.take,
      List.map, List.sum_cons, List.sum_nil, Entry.size, longKey_length,
      List.length_replicate]
    omega
  | n + 2 =>
    simp only [leafBytes, exLeaf, offTo, List.length_cons, List.length_nil, List.take,
      List.map, List.sum_cons, List.sum_nil, Entry.size, longKey_length]
    omega

theorem exRoot_bytes : leafBytes exRoot = 4089 := by
  simp only [leafBytes, exRoot, offTo, List.length_cons, List.length_nil, List.take,
    List.map, List.sum_cons, List.sum_nil, Entry.size, longKey_length]
  omega


/-- The first six pages are the leaves, the seventh is the root. -/
theorem exTree_pages :
    ∃ l0 l1 l2 l3 l4 l5 rd : List Nat,
      exTree = .ok [⟨l0⟩, ⟨l1⟩, ⟨l2⟩, ⟨l3⟩, ⟨l4⟩, ⟨l5⟩, ⟨rd⟩] ∧
      (l0.length = BTREE_PAGE_SIZE ∧ Layout l0 BNODE_LEAF 1 (exLeaf 0)) ∧
      (l1.length = BTREE_PAGE_SIZE ∧ Layout l1 BNODE_LEAF 2 (exLeaf 1)) ∧
      (l2.length = BTREE_PAGE_SIZE ∧ Layout l2 BNODE_LEAF 1 (exLeaf 2)) ∧
      (l3.length = BTREE_PAGE_SIZE ∧ Layout l3 BNODE_LEAF 1 (exLeaf 3)) ∧
      (l4.length = BTREE_PAGE_SIZE ∧ Layout l4 BNODE_LEAF 1 (exLeaf 4)) ∧
      (l5.length = BTREE_PAGE_SIZE ∧ Layout l5 BNODE_LEAF 1 (exLeaf 5)) ∧
      (rd.length = BTREE_PAGE_SIZE ∧ Layout rd BNODE_NODE 6 exRoot) := by
  have hb : ∀ i, leafBytes (exLeaf i) ≤ BTREE_PAGE_SIZE := fun i =>
    Nat.le_trans (exLeaf_bytes i) (by decide)
  obtain ⟨l0, e0, n0, L0⟩ := buildNode_layout BNODE_LEAF (exLeaf 0) (by decide)
    (exLeaf_small 0) (hb 0)
  obtain ⟨l1, e1, n1, L1⟩ := buildNode_layout BNODE_LEAF (exLeaf 1) (by decide)
    (exLeaf_small 1) (hb 1)
  obtain ⟨l2, e2, n2, L2⟩ := buildNode_layout BNODE_LEAF (exLeaf 2) (by decide)
    (exLeaf_small 2) (hb 2)
  obtain ⟨l3, e3, n3, L3⟩ := buildNode_layout BNODE_LEAF (exLeaf 3) (by decide)
    (exLeaf_small 3) (hb 3)
  obtain ⟨l4, e4, n4, L4⟩ := buildNode_layout BNODE_LEAF (exLeaf 4) (by decide)
    (exLeaf_small 4) (hb 4)
  obtain ⟨l5, e5, n5, L5⟩ := buildNode_layout BNODE_LEAF (exLeaf 5) (by decide)
    (exLeaf_small 5) (hb 5)
  obtain ⟨rd, er, nr, Lr⟩ := buildNode_layout BNODE_NODE exRoot (by decide) exRoot_small
    (by rw [exRoot_bytes]; decide)
  refine ⟨l0, l1, l2, l3, l4, l5, rd, ?_, ⟨n0, L0⟩, ⟨n1, L1⟩, ⟨n2, L2⟩, ⟨n3, L3⟩, ⟨n4, L4⟩,
    ⟨n5, L5⟩, ⟨nr, Lr⟩⟩
  unfold exTree
  rw [e0, bind_ok, e1, bind_ok, e2, bind_ok, e3, bind_ok, e4, bind_ok, e5, bind_ok, er, bind_ok]
  rfl

theorem page_fits {d : List Nat} {ty : Nat} {es : List Entry} (L : Layout d ty es.length es)
    (h : leafBytes es ≤ BTREE_PAGE_SIZE) :
    ∃ b, (BNode.mk d).nbytes = .ok b ∧ b ≤ BTREE_PAGE_SIZE :=
  ⟨_, L.nbytes_eq rfl, h⟩

theorem exRoot_lookup : lookupLE exRoot [1] = 1 := by decide

theorem exLeaf_lookup : lookupLE (exLeaf 1) [1] = 0 := by decide

/-- C6, evaluated at the failing input.  The tree has two levels: a root with six kids
and six leaves, sorted, each root key the first key of its leaf, all seven pages with
`nbytes() <= 4096` (the root has 4089).  `BTree.Delete` of the first key of the second
leaf returns `true` and hands two images to `pageNew`, which keeps them for the next
commit: the leaf, and a root in which the 1000-byte second key of the leaf replaces a
1-byte key, so that `nbytes()` of this root is 5088. -/
theorem C6_delete_persists_oversized_root :
    ∃ (pages : List BNode) (leaf img : List Nat),
      exTree = .ok pages ∧
      (∀ p ∈ pages, ∃ b, p.nbytes = .ok b ∧ b ≤ BTREE_PAGE_SIZE) ∧
      BTree.Delete kvPager 1 ⟨7, exDb pages⟩ [1] =
        .ok (true, ⟨9, { exDb pages with temp := [leaf, img] }⟩) ∧
      (BNode.mk img).nbytes = .ok 5088 := by
  obtain ⟨l0, l1, l2, l3, l4, l5, rd, hpages, ⟨n0, L0⟩, ⟨n1, L1⟩, ⟨n2, L2⟩, ⟨n3, L3⟩,
    ⟨n4, L4⟩, ⟨n5, L5⟩, ⟨nr, Lr⟩⟩ := exTree_pages
  have hb : ∀ i, leafBytes (exLeaf i) ≤ BTREE_PAGE_SIZE := fun i =>
    Nat.le_trans (exLeaf_bytes i) (by decide)
  have hlen : ∀ p ∈ [(⟨l0⟩ : BNode), ⟨l1⟩, ⟨l2⟩, ⟨l3⟩, ⟨l4⟩, ⟨l5⟩, ⟨rd⟩],
      p.data.length = BTREE_PAGE_SIZE := by
    intro p hp
    simp only [List.mem_cons, List.mem_singleton, List.not_mem_nil, or_false] at hp
    rcases hp with rfl | rfl | rfl | rfl | rfl | rfl | rfl <;> assumption
  have hgr := pageGet_exDb [⟨l0⟩, ⟨l1⟩, ⟨l2⟩, ⟨l3⟩, ⟨l4⟩, ⟨l5⟩, ⟨rd⟩] rfl hlen 6 ⟨rd⟩ rfl
  have hgk := pageGet_exDb [⟨l0⟩, ⟨l1⟩, ⟨l2⟩, ⟨l3⟩, ⟨l4⟩, ⟨l5⟩, ⟨rd⟩] rfl hlen 1 ⟨l1⟩ rfl
  have hk1 : 4 + 10 * 2 + offTo (exLeaf 1) 2 ≤ BTREE_PAGE_SIZE := by
    simp only [exLeaf, offTo, List.take, List.map, List.sum_cons, List.sum_nil, Entry.size,
      longKey_length, List.length_replicate, List.length_cons, List.length_nil]
    decide
  obtain ⟨dU, dN, hdel, hnb⟩ := Delete_grow
    (exDb [⟨l0⟩, ⟨l1⟩, ⟨l2⟩, ⟨l3⟩, ⟨l4⟩, ⟨l5⟩, ⟨rd⟩]) 7 (by decide) Lr rfl [1] (by decide)
    (by decide) hgr ⟨2, [1], []⟩ (by rw [exRoot_lookup]; rfl) (by rw [exRoot_lookup]; decide)
    L1 rfl hk1 hgk ⟨0, [1], [9]⟩ (by rw [exLeaf_lookup]; rfl) rfl
    ⟨0, longKey 1 1, List.replicate 100 7⟩ (by rw [exLeaf_lookup]; rfl)
    (by rw [longKey_length])
    (by
      rw [exLeaf_lookup]
      simp only [exLeaf, offTo, List.take, List.drop, List.nil_append, List.map,
        List.sum_cons, List.sum_nil, Entry.size, longKey_length, List.length_replicate]
      decide)
    (by
      rw [exRoot_lookup]
      simp only [exRoot, offTo, List.take, List.map, List.sum_cons, List.sum_nil,
        Entry.size, longKey_length, List.length_nil]
      decide)
    (by
      rw [exRoot_lookup]
      simp only [exRoot, offTo, List.take, List.drop, List.map, List.sum_cons,
        List.sum_nil, Entry.size, longKey_length, List.length_nil]
      decide)
  refine ⟨_, dU, dN, hpages, ?_, hdel, ?_⟩
  · intro p hp
    simp only [List.mem_cons, List.mem_singleton, List.not_mem_nil, or_false] at hp
    rcases hp with rfl | rfl | rfl | rfl | rfl | rfl | rfl
    · exact page_fits L0 (hb 0)
    · exact page_fits L1 (hb 1)
    · exact page_fits L2 (hb 2)
    · exact page_fits L3 (hb 3)
    · exact page_fits L4 (hb 4)
    · exact page_fits L5 (hb 5)
    · exact page_fits Lr (by rw [exRoot_bytes]; decide)
  · rw [hnb, exRoot_lookup]
    simp only [exRoot, offTo, List.take, List.drop, List.map, List.sum_cons,
      List.sum_nil, Entry.size, longKey_length, List.length_nil]
    rfl

/-! ## Claims about the API boundary and the codec -/

theorem assert_bad_key {key : List Nat} (h : key.length = 0 ∨ BTREE_MAX_KEY_SIZE < key.length)
    {α : Type} (rest : Res α) :
    (do assert (key.length != 0); assert (decide (key.length ≤ BTREE_MAX_KEY_SIZE)); rest)
      = .error .assertion := by
  rcases h with h | h
  · have : (key.length != 0) = false := by simp [h]
    rw [this]
    rfl
  · have h1 : (key.length != 0) = true := by
      have : key.length ≠ 0 := fun h0 => by rw [h0] at h; exact Nat.not_lt_zero _ h
      simpa using this
    have h2 : decide (key.length ≤ BTREE_MAX_KEY_SIZE) = false :=
      decide_eq_false (Nat.not_le.2 h)
    rw [h1, h2]
    rfl

/-- C11. Size limits at the API boundary.  For an empty key and for a key longer than
1000 bytes `BTree.Insert`, `BTree.Delete` and `BTree.Get` fail their assertion, and for a
value longer than 3000 bytes `BTree.Insert` does.  The result is the assertion failure
for every page store, whatever its callbacks do, so the failure comes before any
callback runs; a failed call returns no new root or store. -/
theorem C11_size_limits {σ : Type} (P : Pager σ) (fuel : Nat) (t : BTree σ)
    (key val : List Nat) :
    ((key.length = 0 ∨ BTREE_MAX_KEY_SIZE < key.length) →
      BTree.Insert P fuel t key val = .error .assertion ∧
      BTree.Delete P fuel t key = .error .assertion ∧
      BTree.Get P fuel t key = .error .assertion) ∧
    (BTREE_MAX_VAL_SIZE < val.length →
      BTree.Insert P fuel t key val = .error .assertion) := by
  constructor
  · intro h
    exact ⟨assert_bad_key h _, assert_bad_key h _, assert_bad_key h _⟩
  · intro hv
    by_cases hk : key.length = 0 ∨ BTREE_MAX_KEY_SIZE < key.length
    · exact assert_bad_key hk _
    · have h1 : (key.length != 0) = true := by
        have : key.length ≠ 0 := fun h0 => hk (Or.inl h0)
        simpa using this
      have h2 : decide (key.length ≤ BTREE_MAX_KEY_SIZE) = true :=
        decide_eq_true (Nat.not_lt.1 (fun h => hk (Or.inr h)))
      have h3 : decide (val.length ≤ BTREE_MAX_VAL_SIZE) = false :=
        decide_eq_false (Nat.not_le.2 hv)
      unfold BTree.Insert
      rw [h1, h2, h3]
      rfl

/-- C11, over the store whose callbacks all fail with another fault, on a tree with
root 5: the empty key, a key of 1001 bytes, a value of 3001 bytes. -/
theorem C11_size_limits_witness :
    BTree.Insert trapPager 0 ⟨5, ()⟩ [] [1] = .error .assertion ∧
    BTree.Delete trapPager 0 ⟨5, ()⟩ (List.replicate 1001 7) = .error .assertion ∧
    BTree.Get trapPager 0 ⟨5, ()⟩ [] = .error .assertion ∧
    BTree.Insert trapPager 0 ⟨5, ()⟩ [1] (List.replicate 3001 0) = .error .assertion ∧
    BTree.Get trapPager 0 ⟨5, ()⟩ [1] = .error .invalidPointer :=
  ⟨((C11_size_limits trapPager 0 ⟨5, ()⟩ [] [1]).1 (Or.inl rfl)).1,
    ((C11_size_limits trapPager 0 ⟨5, ()⟩ (List.replicate 1001 7) []).1
      (Or.inr (by rw [List.length_replicate]; decide))).2.1,
    ((C11_size_limits trapPager 0 ⟨5, ()⟩ [] []).1 (Or.inl rfl)).2.2,
    (C11_size_limits trapPager 0 ⟨5, ()⟩ [1] (List.replicate 3001 0)).2
      (by rw [List.length_replicate]; decide),
    rfl⟩

/-- C12. A maximum-size pair fits one page.  The check of `init` passes
(`node1max <= 4096`), and for every key of 1000 bytes and value of 3000 bytes
`BTree.Insert` into the empty tree returns; the root it stores is a leaf with the two
entries sentinel and `(key, val)`, `nbytes() = 4032 <= 4096`, and `BTree.Get(key)`
returns the value. -/
theorem C12_max_pair_fits {σ : Type} {P : Pager σ} {I : σ → Prop} (laws : PagerLaws P I)
    (s0 : σ) (h0 : I s0) (fuel : Nat) (key val : List Nat) (hk : key.length = 1000)
    (hv : val.length = 3000) :
    node1max ≤ BTREE_PAGE_SIZE ∧
    ∃ t' root, BTree.Insert P fuel ⟨0, s0⟩ key val = .ok t' ∧ t'.root ≠ 0 ∧
      P.get t'.pages t'.root = .ok root ∧ root.btype = .ok BNODE_LEAF ∧
      root.nkeys = .ok 2 ∧ root.getKey 0 = .ok [] ∧ root.getKey 1 = .ok key ∧
      root.getVal 1 = .ok val ∧ root.nbytes = .ok 4032 ∧ 4032 ≤ BTREE_PAGE_SIZE ∧
      BTree.Get P fuel t' key = .ok (some val) := by
  refine ⟨by decide, ?_⟩
  have hkey : ValidKey key := ⟨by omega, by rw [hk]; decide⟩
  have hval : ValidVal val := by unfold ValidVal; rw [hv]; decide
  have hne := validKey_ne hkey
  have hput := leafPut_sentinel key val hne
  have hbytes : leafBytes [sentinel, ⟨0, key, val⟩] = 4032 := by
    simp only [leafBytes, offTo, List.length_cons, List.length_nil, List.take, List.map,
      List.sum_cons, List.sum_nil, Entry.size, sentinel, hk, hv]
    rfl
  have habs0 : AbsTree P I ⟨0, s0⟩ [sentinel] := ⟨h0, Or.inl ⟨rfl, rfl⟩⟩
  obtain ⟨t', hins, habs⟩ := (Insert_sim laws habs0 fuel key val hkey hval).1
    (by rw [hput, hbytes]; decide)
  rw [hput] at habs
  have hget := Get_sim habs fuel key hkey
  obtain ⟨_, hroot | hroot⟩ := habs
  · have := congrArg List.length hroot.2
    simp at this
  · obtain ⟨hr, ⟨d⟩, hg, hp⟩ := hroot
    have L := hp.layout
    have hgv : leafGet [sentinel, ⟨0, key, val⟩] key = some val :=
      (leafGet_iff hp.ok key val).2
        ⟨⟨0, key, val⟩, List.mem_cons_of_mem _ (List.mem_singleton.2 rfl), rfl, rfl⟩
    refine ⟨t', ⟨d⟩, hins, hr, hg, L.btype_eq, L.nkeys_eq, L.getKey_eq 0 sentinel rfl,
      L.getKey_eq 1 ⟨0, key, val⟩ rfl, L.getVal_eq 1 ⟨0, key, val⟩ rfl, ?_, by decide, ?_⟩
    · rw [leafPage_nbytes hp, hbytes]
    · rw [hget, hgv]

/-- C12, over the in-memory page store: a key of 1000 bytes `0x01` and a value of 3000
bytes `0x07`. -/
theorem C12_max_pair_fits_witness :
    node1max ≤ BTREE_PAGE_SIZE ∧
    ∃ t' root, BTree.Insert memPager 0 ⟨0, MemPages.empty⟩ (longKey 1 1) (bigVal 7) = .ok t' ∧
      t'.root ≠ 0 ∧ memPager.get t'.pages t'.root = .ok root ∧
      root.btype = .ok BNODE_LEAF ∧ root.nkeys = .ok 2 ∧ root.getKey 0 = .ok [] ∧
      root.getKey 1 = .ok (longKey 1 1) ∧ root.getVal 1 = .ok (bigVal 7) ∧
      root.nbytes = .ok 4032 ∧ 4032 ≤ BTREE_PAGE_SIZE ∧
      BTree.Get memPager 0 t' (longKey 1 1) = .ok (some (bigVal 7)) :=
  C12_max_pair_fits memPager_laws MemPages.empty memPages_empty_fresh 0 (longKey 1 1)
    (bigVal 7) (longKey_length 1 1) (bigVal_length 7)

/-- The loop of `nodeLookupLE` on a node whose keys read as the list `ks`. -/
theorem lookupLoop_keys (node : BNode) (ks : List (List Nat))
    (hkeys : ∀ i k, ks[i]? = some k → node.getKey i = .ok k) (key : List Nat) :
    ∀ rem i found, i + rem = ks.length →
      lookupLoop node key rem i found = .ok (lookupIdx key (ks.drop i) i found) := by
  intro rem
  induction rem with
  | zero =>
    intro i found hi
    rw [List.drop_of_length_le (by omega)]
    rfl
  | succ rem ih =>
    intro i found hi
    have hlt : i < ks.length := by omega
    rw [List.drop_eq_getElem_cons hlt]
    simp only [lookupLoop, hkeys i _ (List.getElem?_eq_getElem hlt), bind_ok, lookupIdx]
    split
    · rfl
    · exact ih (i + 1) _ (by omega)

theorem pairwise_keyLt_get {ks : List (List Nat)} (hs : ks.Pairwise KeyLt) {i j : Nat}
    {a b : List Nat} (hij : i < j) (ha : ks[i]? = some a) (hb : ks[j]? = some b) :
    KeyLt a b := by
  have hj := getElem?_lt hb
  have hi : i < ks.length := by omega
  have h := (List.pairwise_iff_getElem.1 hs) i j hi hj hij
  rw [List.getElem?_eq_getElem hi] at ha
  rw [List.getElem?_eq_getElem hj] at hb
  cases ha
  cases hb
  exact h

/-- C13. `nodeLookupLE` returns the index of the largest entry whose key is at most
the target.  On every node with at least one key whose keys, as `getKey` reads them,
are strictly ascending and whose key 0 is at most the target, it returns an index `i`
with `key(i) <= target` and `key(j) > target` for every `j > i`; an entry whose key
equals the target is the one returned. -/
theorem C13_nodeLookupLE_largest_le (node : BNode) (ks : List (List Nat))
    (target : List Nat) (hn : node.nkeys = .ok ks.length)
    (hkeys : ∀ i k, ks[i]? = some k → node.getKey i = .ok k)
    (hs : ks.Pairwise KeyLt) (k0 : List Nat) (h0 : ks[0]? = some k0)
    (hle : bytesCompare k0 target ≤ 0) :
    ∃ i ki, nodeLookupLE node target = .ok i ∧ ks[i]? = some ki ∧
      bytesCompare ki target ≤ 0 ∧
      (∀ j kj, i < j → ks[j]? = some kj → 0 < bytesCompare kj target) ∧
      (∀ j, ks[j]? = some target → j = i) := by
  have hpos := getElem?_lt h0
  obtain ⟨r, hr⟩ : ∃ r, r = lookupIdx target (ks.drop 1) 1 0 := ⟨_, rfl⟩
  have hlook : nodeLookupLE node target = .ok r := by
    simp only [nodeLookupLE, hn, bind_ok]
    rw [lookupLoop_keys node ks hkeys target (ks.length - 1) 1 0 (by omega), hr]
  have hrange := lookupIdx_range target (ks.drop 1) 1 0
  rw [← hr, List.length_drop] at hrange
  have hrlt : r < ks.length := by omega
  have hspec := lookupIdx_spec target (ks.drop 1) 1 0
    ((List.pairwise_iff_getElem.2 fun i j hi hj hij => by
      simp only [List.getElem_drop]
      exact (List.pairwise_iff_getElem.1 hs) _ _ _ _ (by omega))) (by decide)
  rw [← hr] at hspec
  have hle_at : ∀ j k, ks[j]? = some k → j ≤ r → bytesCompare k target ≤ 0 := by
    intro j k hj hjr
    cases j with
    | zero =>
      rw [h0] at hj
      cases hj
      exact hle
    | succ j =>
      exact (hspec j k (by rw [List.getElem?_drop, Nat.add_comm]; exact hj)).1 (by omega)
  have hgt_at : ∀ j k, ks[j]? = some k → r < j → 0 < bytesCompare k target := by
    intro j k hj hjr
    cases j with
    | zero => omega
    | succ j =>
      have := (hspec j k (by rw [List.getElem?_drop, Nat.add_comm]; exact hj)).2 (by omega)
      unfold KeyLt at this
      rw [bytesCompare_swap k target] at this
      omega
  refine ⟨r, ks[r], hlook, List.getElem?_eq_getElem hrlt,
    hle_at r _ (List.getElem?_eq_getElem hrlt) (Nat.le_refl _),
    fun j kj hj hk => hgt_at j kj hk hj, ?_⟩
  intro j hj
  rcases Nat.lt_trichotomy j r with h | h | h
  · have h1 := pairwise_keyLt_get hs h hj (List.getElem?_eq_getElem hrlt)
    have h2 := hle_at r _ (List.getElem?_eq_getElem hrlt) (Nat.le_refl _)
    unfold KeyLt at h1
    rw [bytesCompare_swap target ks[r]] at h2
    omega
  · exact h
  · have h1 := hgt_at j target hj h
    rw [(bytesCompare_eq_zero target target).2 rfl] at h1
    omega

/-- C13, on the leaf with the keys `""`, `a`, `c`, `e` and the target `d`. -/
theorem C13_nodeLookupLE_largest_le_witness :
    ∃ node, buildNode BNODE_LEAF
        [⟨0, [], []⟩, ⟨0, [97], [1]⟩, ⟨0, [99], [2]⟩, ⟨0, [101], [3]⟩] = .ok node ∧
      ∃ i ki, nodeLookupLE node [100] = .ok i ∧
        [[], [97], [99], [101]][i]? = some ki ∧ bytesCompare ki [100] ≤ 0 ∧
        (∀ j kj, i < j → [[], [97], [99], [101]][j]? = some kj →
          0 < bytesCompare kj [100]) ∧
        (∀ j, [[], [97], [99], [101]][j]? = some [100] → j = i) := by
  obtain ⟨d, hb, _, L⟩ := buildNode_layout BNODE_LEAF
    [⟨0, [], []⟩, ⟨0, [97], [1]⟩, ⟨0, [99], [2]⟩, ⟨0, [101], [3]⟩] (by decide)
    (by decide) (by decide)
  refine ⟨⟨d⟩, hb, C13_nodeLookupLE_largest_le ⟨d⟩ [[], [97], [99], [101]] [100]
    L.nkeys_eq ?_ (by decide) [] rfl (by decide)⟩
  intro i k hk
  have hi := getElem?_lt hk
  have he : ([⟨0, [], []⟩, ⟨0, [97], [1]⟩, ⟨0, [99], [2]⟩, ⟨0, [101], [3]⟩] :
      List Entry)[i]? = some ⟨0, k, match i with | 0 => [] | 1 => [1] | 2 => [2] | _ => [3]⟩ := by
    match i, hk with
    | 0, hk => cases hk; rfl
    | 1, hk => cases hk; rfl
    | 2, hk => cases hk; rfl
    | 3, hk => cases hk; rfl
    | n + 4, hk => simp at hi
  exact L.getKey_eq i _ he

/-! ## Claims about the node operations -/

theorem buildWide_layout (ty : Nat) (es : List Entry) (hty : ty < 65536)
    (hes : ∀ e ∈ es, e.key.length ≤ 1000 ∧ e.val.length ≤ 3000 ∧
      e.ptr < 18446744073709551616)
    (hfit : leafBytes es ≤ 2 * BTREE_PAGE_SIZE) :
    ∃ d, buildWide ty es = .ok ⟨d⟩ ∧ d.length = 2 * BTREE_PAGE_SIZE ∧
      Layout d ty es.length es := by
  unfold leafBytes at hfit
  obtain ⟨z, hzdef⟩ : ∃ z, z = zeros (2 * BTREE_PAGE_SIZE) := ⟨_, rfl⟩
  have hz : z.length = 2 * BTREE_PAGE_SIZE := by rw [hzdef]; exact zeros_length _
  have hP : BTREE_PAGE_SIZE = 4096 := rfl
  obtain ⟨d0, e0, len0, L0⟩ := setHeader_layout z ty es.length
    (by rw [hz, hP]; omega) (by rw [hz]; omega) hty
  obtain ⟨d1, e1, len1, L1⟩ := appendAll_layout ty es.length es [] d0 L0 (by simp) hes
    (by rw [List.nil_append, len0, hz]; exact hfit)
  refine ⟨d1, ?_, by rw [len1, len0, hz], by simpa using L1⟩
  unfold buildWide
  rw [← hzdef, e0, bind_ok]
  exact e1

theorem zeros_take (k m : Nat) (h : m ≤ k) : (zeros k).take m = zeros m := by
  unfold zeros
  rw [List.take_replicate, Nat.min_eq_left h]

theorem zeros_reads (k : Nat) (h4 : 4 ≤ k) (hk : k < 65536) :
    (BNode.mk (zeros k)).btype = .ok 0 ∧ (BNode.mk (zeros k)).nkeys = .ok 0 ∧
      nodeKeys ⟨zeros k⟩ = .ok [] := by
  have L := layout_zeros k h4 hk
  refine ⟨L.btype_eq, L.nkeys_eq, ?_⟩
  unfold nodeKeys
  rw [L.nkeys_eq, bind_ok]
  rfl

/-- C14, evaluated on the failing inputs.  On every node image with at least one entry
and `4096 < nbytes() <= 8192`, `nodeSplit3` returns two pieces that hold no entry and do
not carry the node's type tag: both are the zero-filled buffers it allocated, which
`nodeSplit2` (body omitted in the source) left untouched. -/
theorem C14_nodeSplit3_drops_entries {d : List Nat} {ty n : Nat} {es : List Entry}
    (L : Layout d ty n es) (hfull : es.length = n) (hpos : 0 < n)
    (hty : ty = BNODE_LEAF ∨ ty = BNODE_NODE)
    (hbig : BTREE_PAGE_SIZE < 4 + 10 * n + offTo es n)
    (_hle : 4 + 10 * n + offTo es n ≤ 2 * BTREE_PAGE_SIZE) :
    (BNode.mk d).nbytes = .ok (4 + 10 * n + offTo es n) ∧
    ∃ l r, nodeSplit3 ⟨d⟩ = .ok [l, r] ∧
      l.nkeys = .ok 0 ∧ r.nkeys = .ok 0 ∧ nodeKeys l = .ok [] ∧ nodeKeys r = .ok [] ∧
      l.btype = .ok 0 ∧ r.btype = .ok 0 ∧ ty ≠ 0 ∧ es ≠ [] := by
  have hz := zeros_reads BTREE_PAGE_SIZE (by decide) (by decide)
  have hne : es ≠ [] := by
    intro h
    rw [h] at hfull
    simp at hfull
    omega
  have hty0 : ty ≠ 0 := by
    rcases hty with h | h <;> rw [h] <;> decide
  refine ⟨L.nbytes_eq hfull, ⟨zeros BTREE_PAGE_SIZE⟩, ⟨zeros BTREE_PAGE_SIZE⟩, ?_,
    hz.2.1, hz.2.1, hz.2.2, hz.2.2, hz.1, hz.1, hty0, hne⟩
  rw [nodeSplit3_overflow L hfull hbig, zeros_take _ _ (by decide)]

/-- C14, at the leaf with the sentinel and two pairs with values of 3000 bytes, the
node `treeInsert` hands to `nodeSplit3` in the second insertion of C1. -/
theorem C14_nodeSplit3_drops_entries_witness :
    ∃ old, buildWide BNODE_LEAF [sentinel, ⟨0, [97], bigVal 1⟩, ⟨0, [98], bigVal 2⟩]
        = .ok old ∧
      old.nbytes = .ok 6048 ∧
      ∃ l r, nodeSplit3 old = .ok [l, r] ∧
        l.nkeys = .ok 0 ∧ r.nkeys = .ok 0 ∧ nodeKeys l = .ok [] ∧ nodeKeys r = .ok [] ∧
        l.btype = .ok 0 ∧ r.btype = .ok 0 ∧ BNODE_LEAF ≠ 0 ∧
        [sentinel, ⟨0, [97], bigVal 1⟩, ⟨0, [98], bigVal 2⟩] ≠ [] := by
  have hb : leafBytes [sentinel, ⟨0, [97], bigVal 1⟩, ⟨0, [98], bigVal 2⟩] = 6048 := by
    simp only [leafBytes, offTo, List.length_cons, List.length_nil, List.take, List.map,
      List.sum_cons, List.sum_nil, Entry.size, sentinel, bigVal_length]
    rfl
  obtain ⟨d, hd, _, L⟩ := buildWide_layout BNODE_LEAF
    [sentinel, ⟨0, [97], bigVal 1⟩, ⟨0, [98], bigVal 2⟩] (by decide)
    (by
      intro e he
      simp only [List.mem_cons, List.mem_singleton, List.not_mem_nil, or_false] at he
      rcases he with rfl | rfl | rfl <;>
        simp only [sentinel, bigVal_length, List.length_nil, List.length_cons] <;> omega)
    (by rw [hb]; decide)
  have hb2 := hb
  unfold leafBytes at hb2
  have h := C14_nodeSplit3_drops_entries L rfl (by decide) (Or.inl rfl)
    (by rw [hb2]; decide) (by rw [hb2]; decide)
  refine ⟨⟨d⟩, hd, ?_, h.2⟩
  rw [h.1, hb2]

/-- What `nodeReplace2Kid` writes: the second `nodeAppendRange` starts at slot `idx`
with the entry `idx + 1` of `node`, over the pointer and the key just stored there, so
the result holds the entries of `node` without entry `idx`. -/
theorem nodeReplace2Kid_layout {d od : List Nat} {n0 : Nat} {oes : List Entry}
    (Lo : Layout od BNODE_NODE n0 oes) (hfull : oes.length = n0) (idx ptr : Nat)
    (key : List Nat) (hidx : idx + 1 < n0) (hkey : key.length ≤ 1000)
    (hd : d.length < 65536) (hfit : 4 + 10 * n0 + offTo oes n0 ≤ d.length) :
    ∃ d', nodeReplace2Kid ⟨d⟩ ⟨od⟩ idx ptr key = .ok ⟨d'⟩ ∧ d'.length = d.length ∧
      Layout d' BNODE_NODE (n0 - 1) (oes.take idx ++ oes.drop (idx + 1)) := by
  have hn0 := Lo.n_lt
  have hm1 := offTo_mono oes (show idx ≤ idx + 1 by omega)
  have hm2 := offTo_mono oes (show idx + 1 ≤ n0 by omega)
  have hlt : idx < oes.length := by omega
  have hsz := offTo_succ oes idx _ (List.getElem?_eq_getElem hlt)
  have hsz4 : 4 ≤ (oes[idx]).size := by unfold Entry.size; omega
  have hdr := offTo_drop oes (idx + 1) (n0 - (idx + 1))
  rw [show idx + 1 + (n0 - (idx + 1)) = n0 by omega] at hdr
  obtain ⟨d0, e0, len0, L0⟩ := setHeader_layout d BNODE_NODE (n0 - 1) hd (by omega) (by decide)
  obtain ⟨d1, e1, len1, L1⟩ := nodeAppendRange_at L0 Lo 0 0 idx rfl (by omega) (by omega)
    (by simp only [List.drop_zero, List.length_nil, offTo_zero]; omega)
  rw [List.nil_append, List.drop_zero] at L1
  have hl1 : (oes.take idx).length = idx := by rw [List.length_take]; omega
  have ho1 : offTo (oes.take idx) (oes.take idx).length = offTo oes idx := by
    rw [offTo_length_take]
  -- the pointer of slot `idx`
  have e2 := setPtr_eq d1 (n0 - 1) idx ptr L1.nkeys_eq (by omega) (by omega) (by omega)
  have S2 := sameOutside_blit d1 (4 + 8 * idx) (leEncode 8 (w64 ptr)) (by omega)
  rw [leEncode_length] at S2
  have L2 : Layout (blit d1 (4 + 8 * idx) (leEncode 8 (w64 ptr))) BNODE_NODE (n0 - 1)
      (oes.take idx) := L1.frame S2 (Or.inl ⟨by omega, by omega⟩)
  -- the key of slot `idx`
  obtain ⟨d2, hd2⟩ : ∃ d2, d2 = blit d1 (4 + 8 * idx) (leEncode 8 (w64 ptr)) := ⟨_, rfl⟩
  rw [← hd2] at e2 L2
  have len2 : d2.length = d1.length := by rw [hd2, blit_length]
  have hpos := L2.kvPos_eq idx (by omega)
  obtain ⟨pos, hposdef⟩ : ∃ pos, pos = 4 + 10 * (n0 - 1) + offTo (oes.take idx) idx := ⟨_, rfl⟩
  rw [← hposdef] at hpos
  have hpv : pos = 4 + 10 * (n0 - 1) + offTo oes idx := by
    rw [hposdef, ← ho1, hl1]
  have e3 := setKey_eq d2 idx pos key hpos hkey (by omega) (by omega)
  have S3a := sameOutside_blit d2 pos (leEncode 2 key.length) (by omega)
  have L3a : Layout (blit d2 pos (leEncode 2 key.length)) BNODE_NODE (n0 - 1) (oes.take idx) :=
    L2.frame S3a (Or.inr (Or.inr (by rw [ho1]; omega)))
  have S3b := sameOutside_blit (blit d2 pos (leEncode 2 key.length)) (pos + 4) key
    (by rw [blit_length]; omega)
  have L3 : Layout (blit (blit d2 pos (leEncode 2 key.length)) (pos + 4) key) BNODE_NODE
      (n0 - 1) (oes.take idx) := L3a.frame S3b (Or.inr (Or.inr (by rw [ho1]; omega)))
  obtain ⟨d3, hd3⟩ : ∃ d3, d3 = blit (blit d2 pos (leEncode 2 key.length)) (pos + 4) key :=
    ⟨_, rfl⟩
  rw [← hd3] at e3 L3
  have len3 : d3.length = d2.length := by rw [hd3, blit_length, blit_length]
  obtain ⟨d4, e4, len4, L4⟩ := nodeAppendRange_at L3 Lo idx (idx + 1) (n0 - (idx + 1)) hl1
    (by omega) (by omega) (by rw [ho1]; omega)
  have htk : (oes.drop (idx + 1)).take (n0 - (idx + 1)) = oes.drop (idx + 1) :=
    List.take_of_length_le (by rw [List.length_drop]; omega)
  rw [htk] at L4
  refine ⟨d4, ?_, by omega, L4⟩
  simp only [nodeReplace2Kid, Lo.nkeys_eq, bind_ok]
  rw [sub16_of_le (by omega) (by omega), e0, bind_ok, e1, bind_ok, e2, bind_ok, e3, bind_ok,
    w16_of_lt (by omega), sub16_of_le (by omega) (by omega)]
  exact e4

theorem getElem?_skip {α : Type} (l : List α) (idx j : Nat) (hidx : idx < l.length) :
    (l.take idx ++ l.drop (idx + 1))[j]? = if j < idx then l[j]? else l[j + 1]? := by
  have hl : (l.take idx).length = idx := by rw [List.length_take]; omega
  by_cases h : j < idx
  · rw [if_pos h, List.getElem?_append_left (by omega), List.getElem?_take_of_lt h]
  · rw [if_neg h, List.getElem?_append_right (by omega), hl, List.getElem?_drop]
    congr 1
    omega

/-- C15, evaluated on the failing inputs.  For every internal node with `nkeys >= 2`
and `idx + 1 < nkeys`, `nodeReplace2Kid(new, node, idx, ptr, key)` returns a node with
`nkeys - 1` entries: entries `0..idx-1` of `node`, then entries `idx+1..nkeys-1` of
`node`.  Slot `idx` holds entry `idx + 1` of `node`, not `(key, ptr)`: the last
`nodeAppendRange` copies from `idx + 1` to slot `idx` and overwrites what `setPtr` and
`setKey` stored there. -/
theorem C15_nodeReplace2Kid_keeps_next_entry {d od : List Nat} {n0 : Nat}
    {oes : List Entry} (Lo : Layout od BNODE_NODE n0 oes) (hfull : oes.length = n0)
    (idx ptr : Nat) (key : List Nat) (hidx : idx + 1 < n0) (hkey : key.length ≤ 1000)
    (hd : d.length < 65536) (hfit : 4 + 10 * n0 + offTo oes n0 ≤ d.length) :
    ∃ new, nodeReplace2Kid ⟨d⟩ ⟨od⟩ idx ptr key = .ok new ∧
      new.btype = .ok BNODE_NODE ∧ new.nkeys = .ok (n0 - 1) ∧
      (∀ j e, j < idx → oes[j]? = some e →
        new.getPtr j = .ok e.ptr ∧ new.getKey j = .ok e.key) ∧
      (∀ j e, idx ≤ j → oes[j + 1]? = some e →
        new.getPtr j = .ok e.ptr ∧ new.getKey j = .ok e.key) := by
  obtain ⟨d', e', _, L'⟩ := nodeReplace2Kid_layout Lo hfull idx ptr key hidx hkey hd hfit
  refine ⟨⟨d'⟩, e', L'.btype_eq, L'.nkeys_eq, ?_, ?_⟩
  · intro j e hj he
    have h : (oes.take idx ++ oes.drop (idx + 1))[j]? = some e := by
      rw [getElem?_skip oes idx j (by omega), if_pos hj, he]
    exact ⟨L'.getPtr_eq j e h, L'.getKey_eq j e h⟩
  · intro j e hj he
    have h : (oes.take idx ++ oes.drop (idx + 1))[j]? = some e := by
      rw [getElem?_skip oes idx j (by omega), if_neg (by omega), he]
    exact ⟨L'.getPtr_eq j e h, L'.getKey_eq j e h⟩

/-- C15, at the root with the kids `(1, "")`, `(2, "b")`, `(3, "c")`, when the kids 0
and 1 were merged into page 9 with first key `""`: slot 0 of the result points to page
2 under the key `b`, and page 9 is not in the result. -/
theorem C15_nodeReplace2Kid_keeps_next_entry_witness :
    ∃ node new, buildNode BNODE_NODE [⟨1, [], []⟩, ⟨2, [98], []⟩, ⟨3, [99], []⟩] = .ok node ∧
      nodeReplace2Kid ⟨zeros BTREE_PAGE_SIZE⟩ node 0 9 [] = .ok new ∧
      new.nkeys = .ok 2 ∧ new.getPtr 0 = .ok 2 ∧ new.getKey 0 = .ok [98] ∧
      new.getPtr 1 = .ok 3 ∧ new.getKey 1 = .ok [99] := by
  obtain ⟨od, hb, _, Lo⟩ := buildNode_layout BNODE_NODE
    [⟨1, [], []⟩, ⟨2, [98], []⟩, ⟨3, [99], []⟩] (by decide) (by decide) (by decide)
  obtain ⟨new, h1, _, h2, _, h3⟩ := C15_nodeReplace2Kid_keeps_next_entry
    (d := zeros BTREE_PAGE_SIZE) Lo rfl 0 9 [] (by decide) (by decide)
    (by rw [zeros_length]; decide) (by rw [zeros_length]; decide)
  exact ⟨⟨od⟩, new, hb, h1, h2, (h3 0 ⟨2, [98], []⟩ (Nat.le_refl _) rfl).1,
    (h3 0 ⟨2, [98], []⟩ (Nat.le_refl _) rfl).2, (h3 1 ⟨3, [99], []⟩ (by decide) rfl).1,
    (h3 1 ⟨3, [99], []⟩ (by decide) rfl).2⟩

theorem merged_size {sb ub : Nat} (hsb : sb ≤ BTREE_PAGE_SIZE) (hub : ub ≤ BTREE_PAGE_SIZE / 4)
    (h4 : HEADER ≤ ub) : sub16 (w16 (sb + ub)) HEADER = sb + ub - HEADER := by
  have h1 : BTREE_PAGE_SIZE = 4096 := rfl
  have h2 : HEADER = 4 := rfl
  rw [h1] at hsb hub
  rw [h2] at h4 ⊢
  rw [w16_of_lt (by omega), sub16_of_le (by omega) (by omega)]

/-- C16. `shouldMerge` implements the stated criterion.  For a node with `nkeys = n`,
a kid index `idx < n` and an updated kid (a node image, so that `nbytes()` counts its
four header bytes) whose siblings have `nbytes() <= 4096`: the result is 0 when
`updated.nbytes() > 1024`; otherwise -1 with the left sibling when `idx > 0` and
`left.nbytes() + updated.nbytes() - 4 <= 4096`; otherwise +1 with the right sibling when
`idx + 1 < n` and `right.nbytes() + updated.nbytes() - 4 <= 4096`; otherwise 0. -/
theorem C16_shouldMerge_criterion {σ : Type} (P : Pager σ) (s : σ) (node updated : BNode)
    (idx n ub : Nat) (left right : BNode) (lb rb lp rp : Nat)
    (hn : node.nkeys = .ok n) (hn16 : n < 65536) (hidx : idx < n)
    (hub : updated.nbytes = .ok ub) (hub4 : HEADER ≤ ub)
    (hl : 0 < idx → node.getPtr (idx - 1) = .ok lp ∧ P.get s lp = .ok left ∧
      left.nbytes = .ok lb ∧ lb ≤ BTREE_PAGE_SIZE)
    (hr : idx + 1 < n → node.getPtr (idx + 1) = .ok rp ∧ P.get s rp = .ok right ∧
      right.nbytes = .ok rb ∧ rb ≤ BTREE_PAGE_SIZE) :
    shouldMerge P s node idx updated =
      .ok (if BTREE_PAGE_SIZE / 4 < ub then (0, ⟨[]⟩)
        else if 0 < idx ∧ lb + ub - HEADER ≤ BTREE_PAGE_SIZE then (-1, left)
        else if idx + 1 < n ∧ rb + ub - HEADER ≤ BTREE_PAGE_SIZE then (1, right)
        else (0, ⟨[]⟩)) := by
  by_cases hbig : BTREE_PAGE_SIZE / 4 < ub
  · rw [if_pos hbig]
    unfold shouldMerge
    rw [hub, bind_ok, if_pos hbig]
    rfl
  · rw [if_neg hbig]
    have hsmall : ub ≤ BTREE_PAGE_SIZE / 4 := Nat.not_lt.1 hbig
    have hw1 : w16 (idx + 1) = idx + 1 := w16_of_lt (by omega)
    -- the right sibling, tried when the left one is absent or too big
    have hright : (do
        let n ← node.nkeys
        if w16 (idx + 1) < n then
          let p ← node.getPtr (w16 (idx + 1))
          let sibling ← P.get s p
          let sb ← sibling.nbytes
          let ub ← (Except.ok ub : Res Nat)
          let merged := sub16 (w16 (sb + ub)) HEADER
          if merged ≤ BTREE_PAGE_SIZE then pure (1, sibling) else pure (0, ⟨[]⟩)
        else pure (0, ⟨[]⟩) : Res (Int × BNode)) =
        .ok (if idx + 1 < n ∧ rb + ub - HEADER ≤ BTREE_PAGE_SIZE then (1, right)
          else (0, ⟨[]⟩)) := by
      rw [hn, bind_ok, hw1]
      by_cases h1 : idx + 1 < n
      · obtain ⟨g1, g2, g3, g4⟩ := hr h1
        rw [if_pos h1, g1, bind_ok, g2, bind_ok, g3, bind_ok, bind_ok]
        dsimp only
        rw [merged_size g4 hsmall hub4]
        by_cases h2 : rb + ub - HEADER ≤ BTREE_PAGE_SIZE
        · rw [if_pos h2, if_pos ⟨h1, h2⟩]; rfl
        · rw [if_neg h2, if_neg (fun h => h2 h.2)]; rfl
      · rw [if_neg h1, if_neg (fun h => h1 h.1)]; rfl
    unfold shouldMerge
    rw [hub, bind_ok, if_neg hbig]
    dsimp only
    by_cases h0 : 0 < idx
    · obtain ⟨g1, g2, g3, g4⟩ := hl h0
      have hs1 : sub16 idx 1 = idx - 1 := sub16_of_le (by omega) (by omega)
      rw [if_pos h0, hs1, g1, bind_ok, g2, bind_ok, g3, bind_ok, bind_ok]
      rw [merged_size g4 hsmall hub4]
      by_cases h2 : lb + ub - HEADER ≤ BTREE_PAGE_SIZE
      · rw [if_pos h2, if_pos ⟨h0, h2⟩]; rfl
      · rw [if_neg h2, if_neg (fun h => h2 h.2)]
        exact hright
    · rw [if_neg h0, if_neg (fun h => h0 h.1)]
      exact hright

/-- C16, at the root with the kids 1, 2, 3 over the in-memory page store, kid 2 being
the updated one: both siblings fit and the left one is chosen. -/
theorem C16_shouldMerge_criterion_witness :
    ∃ node left right updated,
      buildNode BNODE_NODE [⟨1, [], []⟩, ⟨2, [98], []⟩, ⟨3, [99], []⟩] = .ok node ∧
      buildNode BNODE_LEAF [⟨0, [], []⟩] = .ok left ∧
      buildNode BNODE_LEAF [⟨0, [99], [3]⟩] = .ok right ∧
      buildNode BNODE_LEAF [⟨0, [98], [1]⟩] = .ok updated ∧
      shouldMerge memPager ⟨[(1, left), (3, right)], 4⟩ node 1 updated = .ok (-1, left) := by
  obtain ⟨nd, hn, _, Ln⟩ := buildNode_layout BNODE_NODE
    [⟨1, [], []⟩, ⟨2, [98], []⟩, ⟨3, [99], []⟩] (by decide) (by decide) (by decide)
  obtain ⟨ld, hl, _, Ll⟩ := buildNode_layout BNODE_LEAF [⟨0, [], []⟩] (by decide)
    (by decide) (by decide)
  obtain ⟨rd, hr, _, Lr⟩ := buildNode_layout BNODE_LEAF [⟨0, [99], [3]⟩] (by decide)
    (by decide) (by decide)
  obtain ⟨ud, hu, _, Lu⟩ := buildNode_layout BNODE_LEAF [⟨0, [98], [1]⟩] (by decide)
    (by decide) (by decide)
  refine ⟨⟨nd⟩, ⟨ld⟩, ⟨rd⟩, ⟨ud⟩, hn, hl, hr, hu, ?_⟩
  have h := C16_shouldMerge_criterion memPager ⟨[(1, ⟨ld⟩), (3, ⟨rd⟩)], 4⟩ ⟨nd⟩ ⟨ud⟩ 1 3 20
    ⟨ld⟩ ⟨rd⟩ 18 20 1 3 Ln.nkeys_eq (by decide) (by decide) (Lu.nbytes_eq rfl) (by decide)
    (fun _ => ⟨Ln.getPtr_eq 0 ⟨1, [], []⟩ rfl, rfl, Ll.nbytes_eq rfl, by decide⟩)
    (fun _ => ⟨Ln.getPtr_eq 2 ⟨3, [99], []⟩ rfl, rfl, Lr.nbytes_eq rfl, by decide⟩)
  rw [h, if_neg (by decide), if_pos (by decide)]

/-- C20 fails as stated.  In the buffer that `setHeader(BNODE_LEAF, 2)` makes of 32 zero
bytes, entry 0 reads as the empty key and the offset of entry 1 is still 0, so the
cell of entry 1 starts where the cell of entry 0 does: `nodeAppendKV(dst, 1, 5, "k",
"v")`, whose cell fits the buffer, changes the key of entry 0 from `""` to `"k"`. -/
theorem C20_bare_buffer_counterexample :
    (BNode.mk (zeros 32)).setHeader BNODE_LEAF 2 = .ok bareBuffer ∧
    bareBuffer.nkeys = .ok 2 ∧ bareBuffer.kvPos 1 = .ok 24 ∧
    24 + (4 + [107].length + [118].length) ≤ bareBuffer.Size ∧
    nodeAppendKV bareBuffer 1 5 [107] [118] = .ok bareBufferAfter ∧
    bareBuffer.getKey 0 = .ok [] ∧ bareBufferAfter.getKey 0 = .ok [107] ∧
    bareBufferAfter.getKey 0 ≠ bareBuffer.getKey 0 := by
  refine ⟨rfl, rfl, rfl, by decide, rfl, rfl, rfl, ?_⟩
  intro h
  have h1 : bareBufferAfter.getKey 0 = .ok [107] := rfl
  have h2 : bareBuffer.getKey 0 = .ok [] := rfl
  rw [h1, h2] at h
  cases h

theorem getElem?_append_last {α : Type} (l : List α) (x : α) :
    (l ++ [x])[l.length]? = some x := by
  rw [List.getElem?_append_right (Nat.le_refl _), Nat.sub_self]
  rfl

/-- C20, amended.  `nodeAppendKV` round-trips through the codec on a buffer whose slots
`0..i-1` are filled in order.  For every buffer shorter than 65536 bytes in which the
header has `nkeys = n` and the entries `0..i-1` lie one after the other from the start
of the cell region (`Layout`), every `i < n`, pointer, key of at most 1000 bytes and
value of at most 3000 bytes whose cell fits the buffer: after `nodeAppendKV(dst, i, p,
key, val)`, `getPtr(i) = p`, `getKey(i) = key`, `getVal(i) = val`,
`getOffset(i+1) = getOffset(i) + 4 + len(key) + len(val)`, and the pointers, keys,
values and offsets of the entries `0..i-1` read as before. -/
theorem C20_nodeAppendKV_roundtrip {d : List Nat} {ty n : Nat} {es : List Entry}
    (L : Layout d ty n es) (i p : Nat) (key val : List Nat) (hi : es.length = i)
    (hin : i < n) (hkey : key.length ≤ 1000) (hval : val.length ≤ 3000)
    (hp : p < 18446744073709551616)
    (hfit : 4 + 10 * n + offTo es es.length + (4 + key.length + val.length) ≤ d.length) :
    ∃ dst off, nodeAppendKV ⟨d⟩ i p key val = .ok dst ∧
      dst.getPtr i = .ok p ∧ dst.getKey i = .ok key ∧ dst.getVal i = .ok val ∧
      (BNode.mk d).getOffset i = .ok off ∧ dst.getOffset i = .ok off ∧
      dst.getOffset (i + 1) = .ok (off + 4 + key.length + val.length) ∧
      ∀ j e, j < i → es[j]? = some e →
        (BNode.mk d).getPtr j = .ok e.ptr ∧ dst.getPtr j = .ok e.ptr ∧
        (BNode.mk d).getKey j = .ok e.key ∧ dst.getKey j = .ok e.key ∧
        (BNode.mk d).getVal j = .ok e.val ∧ dst.getVal j = .ok e.val ∧
        dst.getOffset (j + 1) = (BNode.mk d).getOffset (j + 1) ∧
        dst.getOffset j = (BNode.mk d).getOffset j := by
  obtain ⟨d', e', _, L'⟩ := nodeAppendKV_at L i p key val hi hin hkey hval hp hfit
  have hlast : (es ++ [(⟨p, key, val⟩ : Entry)])[i]? = some ⟨p, key, val⟩ := by
    rw [← hi]; exact getElem?_append_last es _
  have hlen' : (es ++ [(⟨p, key, val⟩ : Entry)]).length = i + 1 := by
    rw [List.length_append, hi, List.length_singleton]
  have hoff : ∀ j, j ≤ i → offTo (es ++ [(⟨p, key, val⟩ : Entry)]) j = offTo es j :=
    fun j hj => offTo_append_left es _ j (by omega)
  have hoff1 : offTo (es ++ [(⟨p, key, val⟩ : Entry)]) (i + 1)
      = offTo es i + 4 + key.length + val.length := by
    rw [offTo_succ _ i _ hlast, hoff i (Nat.le_refl _)]
    simp only [Entry.size]
    omega
  refine ⟨⟨d'⟩, offTo es i, e', L'.getPtr_eq i _ hlast, L'.getKey_eq i _ hlast,
    L'.getVal_eq i _ hlast, L.getOffset_eq i (by omega), ?_, ?_, ?_⟩
  · rw [L'.getOffset_eq i (by omega), hoff i (Nat.le_refl _)]
  · rw [L'.getOffset_eq (i + 1) (by omega), hoff1]
  · intro j e hj he
    have he' : (es ++ [(⟨p, key, val⟩ : Entry)])[j]? = some e := by
      rw [List.getElem?_append_left (by omega)]; exact he
    refine ⟨L.getPtr_eq j e he, L'.getPtr_eq j e he', L.getKey_eq j e he,
      L'.getKey_eq j e he', L.getVal_eq j e he, L'.getVal_eq j e he', ?_, ?_⟩
    · rw [L'.getOffset_eq (j + 1) (by omega), L.getOffset_eq (j + 1) (by omega),
        hoff (j + 1) (by omega)]
    · rw [L'.getOffset_eq j (by omega), L.getOffset_eq j (by omega), hoff j (by omega)]

/-- C20 amended, at a page with the header of a leaf with two entries in which the
sentinel has been appended as entry 0: appending `(5, "k", "v")` as entry 1. -/
theorem C20_nodeAppendKV_roundtrip_witness :
    ∃ d0 d1, (BNode.mk (zeros BTREE_PAGE_SIZE)).setHeader BNODE_LEAF 2 = .ok d0 ∧
      nodeAppendKV d0 0 0 [] [] = .ok d1 ∧
      ∃ dst off, nodeAppendKV d1 1 5 [107] [118] = .ok dst ∧
        dst.getPtr 1 = .ok 5 ∧ dst.getKey 1 = .ok [107] ∧ dst.getVal 1 = .ok [118] ∧
        d1.getOffset 1 = .ok off ∧ dst.getOffset 1 = .ok off ∧
        dst.getOffset (1 + 1) = .ok (off + 4 + [107].length + [118].length) ∧
        ∀ j e, j < 1 → [(⟨0, [], []⟩ : Entry)][j]? = some e →
          d1.getPtr j = .ok e.ptr ∧ dst.getPtr j = .ok e.ptr ∧
          d1.getKey j = .ok e.key ∧ dst.getKey j = .ok e.key ∧
          d1.getVal j = .ok e.val ∧ dst.getVal j = .ok e.val ∧
          dst.getOffset (j + 1) = d1.getOffset (j + 1) ∧
          dst.getOffset j = d1.getOffset j := by
  have hz : (zeros BTREE_PAGE_SIZE).length = 4096 := zeros_length _
  obtain ⟨d0, e0, len0, L0⟩ := setHeader_layout (zeros BTREE_PAGE_SIZE) BNODE_LEAF 2
    (by rw [hz]; decide) (by rw [hz]; decide) (by decide)
  obtain ⟨d1, e1, len1, L1⟩ := nodeAppendKV_at L0 0 0 [] [] rfl (by decide) (by decide)
    (by decide) (by decide) (by rw [len0, hz]; decide)
  exact ⟨⟨d0⟩, ⟨d1⟩, e0, e1, C20_nodeAppendKV_roundtrip L1 1 5 [107] [118] rfl (by decide)
    (by decide) (by decide) (by decide) (by rw [len1, len0, hz]; decide)⟩

/-! ## Claims about the file and its mappings -/

/-- The loop of `extendFile` stops at the first value of the schedule that reaches
`npages`, whatever fuel at least `npages - p` it is given. -/
theorem growPages_schedule (npages : Nat) :
    ∀ fuel p, npages - p ≤ fuel →
      ∃ k, growPages npages fuel p = growSeq p k ∧ npages ≤ growSeq p k ∧
        ∀ j, j < k → growSeq p j < npages := by
  intro fuel
  induction fuel with
  | zero =>
    intro p hp
    exact ⟨0, rfl, by show npages ≤ p; omega, fun j hj => absurd hj (Nat.not_lt_zero j)⟩
  | succ fuel ih =>
    intro p hp
    by_cases hlt : p < npages
    · have hstep : growPages npages (fuel + 1) p = growPages npages fuel (growStep p) := by
        simp only [growPages, hlt, if_true, growStep]
        congr 1
        by_cases h8 : p / 8 < 1
        · rw [if_pos h8]; omega
        · rw [if_neg h8]; omega
      have hgt : p < growStep p := by unfold growStep; omega
      obtain ⟨k, h1, h2, h3⟩ := ih (growStep p) (by omega)
      refine ⟨k + 1, by rw [hstep, h1]; rfl, h2, ?_⟩
      intro j hj
      cases j with
      | zero => exact hlt
      | succ j => exact h3 j (by omega)
    · refine ⟨0, ?_, by show npages ≤ p; omega, fun j hj => absurd hj (Nat.not_lt_zero j)⟩
      simp only [growPages, hlt, if_false]
      rfl

/-- The first index at which a schedule reaches `npages` is unique. -/
theorem growSeq_first_unique (npages p : Nat) {k k' : Nat}
    (h1 : npages ≤ growSeq p k) (h2 : ∀ j, j < k → growSeq p j < npages)
    (h1' : npages ≤ growSeq p k') (h2' : ∀ j, j < k' → growSeq p j < npages) : k = k' := by
  rcases Nat.lt_trichotomy k k' with h | h | h
  · have := h2' k h; omega
  · exact h
  · have := h2 k' h; omega

/-- C19. `extendFile` terminates with the scheduled size.  On a file whose size is a
multiple of 4096: when the file holds `npages` pages already, nothing changes; otherwise
the growth loop stops by its own condition, whatever fuel at least `npages - p` it is
given, at the first value of the schedule `p := p + max(1, p/8)` from the current page
count that is `>= npages`, and when `Ftruncate` succeeds the new file size is that count
times 4096, a multiple of the page size and at least `npages * 4096`. -/
theorem C19_extendFile_schedule (sys : Sys) (db : KV) (npages : Nat)
    (_hmul : db.file % BTREE_PAGE_SIZE = 0)
    (hok : ∀ size, sys.ftruncateOk db.trace size = true) :
    (npages ≤ db.file / BTREE_PAGE_SIZE → extendFile sys db npages = (db, none)) ∧
    (db.file / BTREE_PAGE_SIZE < npages →
      ∃ k, (∀ fuel, npages - db.file / BTREE_PAGE_SIZE ≤ fuel →
          growPages npages fuel (db.file / BTREE_PAGE_SIZE)
            = growSeq (db.file / BTREE_PAGE_SIZE) k) ∧
        npages ≤ growSeq (db.file / BTREE_PAGE_SIZE) k ∧
        (∀ j, j < k → growSeq (db.file / BTREE_PAGE_SIZE) j < npages) ∧
        (extendFile sys db npages).2 = none ∧
        (extendFile sys db npages).1.file
          = growSeq (db.file / BTREE_PAGE_SIZE) k * BTREE_PAGE_SIZE ∧
        (extendFile sys db npages).1.file % BTREE_PAGE_SIZE = 0 ∧
        npages * BTREE_PAGE_SIZE ≤ (extendFile sys db npages).1.file) := by
  constructor
  · intro h
    have : db.file / BTREE_PAGE_SIZE ≥ npages := h
    simp only [extendFile, this, if_true]
  · intro h
    obtain ⟨k, h1, h2, h3⟩ := growPages_schedule npages (npages - db.file / BTREE_PAGE_SIZE)
      (db.file / BTREE_PAGE_SIZE) (Nat.le_refl _)
    have hnot : ¬ db.file / BTREE_PAGE_SIZE ≥ npages := Nat.not_le.2 h
    have hfile : (extendFile sys db npages).1.file
        = growSeq (db.file / BTREE_PAGE_SIZE) k * BTREE_PAGE_SIZE := by
      simp only [extendFile, hnot, if_false, hok, if_true, h1]
    refine ⟨k, ?_, h2, h3, ?_, hfile, ?_, ?_⟩
    · intro fuel hf
      obtain ⟨k', g1, g2, g3⟩ := growPages_schedule npages fuel (db.file / BTREE_PAGE_SIZE) hf
      rw [g1, growSeq_first_unique npages _ h2 h3 g2 g3]
    · simp only [extendFile, hnot, if_false, hok, if_true]
    · rw [hfile, Nat.mul_mod_left]
    · rw [hfile]
      exact Nat.mul_le_mul_right _ h2

/-- C19, at a file of two pages that has to hold 20: the schedule 2, 3, ..., 16, 18, 20. -/
theorem C19_extendFile_schedule_witness :
    (20 ≤ exampleDb.file / BTREE_PAGE_SIZE → extendFile sysOk exampleDb 20 = (exampleDb, none)) ∧
    (exampleDb.file / BTREE_PAGE_SIZE < 20 →
      ∃ k, (∀ fuel, 20 - exampleDb.file / BTREE_PAGE_SIZE ≤ fuel →
          growPages 20 fuel (exampleDb.file / BTREE_PAGE_SIZE)
            = growSeq (exampleDb.file / BTREE_PAGE_SIZE) k) ∧
        20 ≤ growSeq (exampleDb.file / BTREE_PAGE_SIZE) k ∧
        (∀ j, j < k → growSeq (exampleDb.file / BTREE_PAGE_SIZE) j < 20) ∧
        (extendFile sysOk exampleDb 20).2 = none ∧
        (extendFile sysOk exampleDb 20).1.file
          = growSeq (exampleDb.file / BTREE_PAGE_SIZE) k * BTREE_PAGE_SIZE ∧
        (extendFile sysOk exampleDb 20).1.file % BTREE_PAGE_SIZE = 0 ∧
        20 * BTREE_PAGE_SIZE ≤ (extendFile sysOk exampleDb 20).1.file) :=
  C19_extendFile_schedule sysOk exampleDb 20 (by decide) (fun _ => rfl)

/-- The schedule of the example: 16 steps from 2 pages reach 20 pages, 81920 bytes. -/
theorem extendFile_example :
    growSeq 2 16 = 20 ∧ (extendFile sysOk exampleDb 20).1.file = 81920 := by
  constructor <;> rfl

theorem fillPage_length (b : Nat) : (fillPage b).length = BTREE_PAGE_SIZE := by
  simp only [fillPage, List.length_replicate]

theorem readAt_storeAt (bytes : Nat → Nat) (pos : Nat) (src : List Nat) :
    readAt (storeAt bytes pos src) pos src.length = src := by
  apply List.ext_getElem
  · simp only [readAt, List.length_map, List.length_range]
  · intro i h1 h2
    simp only [readAt, storeAt, List.getElem_map, List.getElem_range]
    rw [if_pos ⟨by omega, by omega⟩, Nat.add_sub_cancel_left, List.getD_eq_getElem _ _ h2]

theorem MappedKV.pageNew_eq (db : MappedKV) (d : List Nat) (hd : d.length ≤ BTREE_PAGE_SIZE) :
    db.pageNew ⟨d⟩ =
      .ok (w64 (db.flushed + w64 db.temp.length), { db with temp := db.temp ++ [d] }) := by
  have : decide (BNode.Size ⟨d⟩ ≤ BTREE_PAGE_SIZE) = true := decide_eq_true hd
  unfold MappedKV.pageNew
  rw [this, assert_true, bind_ok]
  rfl

theorem fillPage_take (b : Nat) : (fillPage b).take BTREE_PAGE_SIZE = fillPage b :=
  List.take_of_length_le (by rw [fillPage_length])

theorem fillPage_ne : fillPage 1 ≠ fillPage 0 := by
  intro h
  have h1 : (fillPage 1)[0]? = some 1 := by
    unfold fillPage; rw [List.getElem?_replicate, if_pos (by decide)]
  have h0 : (fillPage 0)[0]? = some 0 := by
    unfold fillPage; rw [List.getElem?_replicate, if_pos (by decide)]
  rw [h, h0] at h1
  cases h1

theorem MappedKV.pageGet_of_locate (db : MappedKV) (ptr : Nat) (w : Window) (o : Nat)
    (h : windowLocate db.chunks 0 ptr = .ok (w, o)) :
    db.pageGet ptr = .ok ⟨readAt db.bytes (w.off + o) BTREE_PAGE_SIZE⟩ := by
  unfold MappedKV.pageGet
  rw [h, bind_ok]
  rfl

theorem MappedKV.pageStore_of_locate (db : MappedKV) (ptr : Nat) (page : List Nat)
    (w : Window) (o : Nat) (h : windowLocate db.chunks 0 ptr = .ok (w, o)) :
    db.pageStore ptr page =
      .ok { db with bytes := storeAt db.bytes (w.off + o) (page.take BTREE_PAGE_SIZE) } := by
  unfold MappedKV.pageStore
  rw [h, bind_ok]
  rfl

/-- Two pending pages: `writePages` stores the first, then the second. -/
theorem MappedKV.copyPages_two (db : MappedKV) (f : Nat) (a b : List Nat) (w1 w2 : Window)
    (o1 o2 : Nat) (h1 : windowLocate db.chunks 0 (w64 (f + w64 0)) = .ok (w1, o1))
    (h2 : windowLocate db.chunks 0 (w64 (f + w64 1)) = .ok (w2, o2)) :
    MappedKV.copyPages f [a, b] 0 db =
      .ok { db with bytes := storeAt (storeAt db.bytes (w1.off + o1)
        (a.take BTREE_PAGE_SIZE)) (w2.off + o2) (b.take BTREE_PAGE_SIZE) } := by
  have h2' : windowLocate
      ({ db with bytes := storeAt db.bytes (w1.off + o1) (a.take BTREE_PAGE_SIZE) } :
        MappedKV).chunks 0 (w64 (f + w64 (0 + 1))) = .ok (w2, o2) := h2
  unfold MappedKV.copyPages
  dsimp only
  rw [MappedKV.pageStore_of_locate db _ a w1 o1 h1, bind_ok]
  unfold MappedKV.copyPages
  dsimp only
  rw [MappedKV.pageStore_of_locate _ _ b w2 o2 h2', bind_ok]
  rfl

/-- The file of `driftDb` has the first size of the growth schedule that holds its 32768
flushed pages. -/
theorem drift_file_pages :
    growSeq 1 81 = 31694 ∧ growSeq 1 82 = 35655 ∧ driftDb.file = 35655 * BTREE_PAGE_SIZE :=
  ⟨by decide, by decide, rfl⟩

theorem drift_extend :
    ({ driftDb with temp := [fillPage 0, fillPage 1] } : MappedKV).extendFile true 32770
      = ({ driftDb with temp := [fillPage 0, fillPage 1] }, none) ∧
    ({ driftDb with temp := [fillPage 0, fillPage 1] } : MappedKV).extendMmap true 32770
      = (driftDbMapped, none) := ⟨rfl, rfl⟩

theorem drift_write :
    MappedKV.writePages true true { driftDb with temp := [fillPage 0, fillPage 1] } =
      .ok (driftDbWritten, none) := by
  have hc := MappedKV.copyPages_two driftDbMapped 32768 (fillPage 0) (fillPage 1)
    ⟨67108864, 67112960⟩ ⟨134217728, 134225920⟩ 67108864 0 rfl rfl
  rw [fillPage_take, fillPage_take] at hc
  unfold MappedKV.writePages
  show (match ({ driftDb with temp := [fillPage 0, fillPage 1] } : MappedKV).extendFile true
    32770 with
    | (db, some err) => pure (db, some err)
    | (db, none) => _) = _
  rw [drift_extend.1]
  dsimp only
  show (MappedKV.copyPages 32768 [fillPage 0, fillPage 1] 0 driftDbMapped >>= _) = _
  rw [hc, bind_ok]
  rfl

/-- C17, evaluated at the failing input.  In the mapping state `driftDb`, `pageNew`
returns 32768 for a first image and 32769 for a second one.  `writePages` then
succeeds, `extendMmap` adding a chunk at file offset `total`, 128 MiB; but page 32768
is the last page of the second chunk, which lies at file offset 128 MiB as well, so the
two pages are the same bytes of the file: `pageGet(32768)` returns the second image,
not the one `pageNew` returned 32768 for. -/
theorem C17_later_page_overwrites_earlier :
    ∃ db1 db2 db',
      driftDb.pageNew ⟨fillPage 0⟩ = .ok (32768, db1) ∧
      db1.pageNew ⟨fillPage 1⟩ = .ok (32769, db2) ∧
      db2.flushed = 32768 ∧ db2.temp = [fillPage 0, fillPage 1] ∧
      MappedKV.writePages true true db2 = .ok (db', none) ∧
      db'.chunks = [⟨0, 67108864⟩, ⟨67108864, 67112960⟩, ⟨134217728, 134225920⟩] ∧
      windowLocate db'.chunks 0 32768 = .ok (⟨67108864, 67112960⟩, 67108864) ∧
      windowLocate db'.chunks 0 32769 = .ok (⟨134217728, 134225920⟩, 0) ∧
      db'.pageGet 32768 = .ok ⟨fillPage 1⟩ ∧ db'.pageGet 32769 = .ok ⟨fillPage 1⟩ ∧
      fillPage 1 ≠ fillPage 0 := by
  have hl0 : (fillPage 0).length ≤ BTREE_PAGE_SIZE := by rw [fillPage_length]
  have hl1 : (fillPage 1).length ≤ BTREE_PAGE_SIZE := by rw [fillPage_length]
  have hread : readAt driftDbWritten.bytes 134217728 BTREE_PAGE_SIZE = fillPage 1 := by
    have := readAt_storeAt (storeAt (fun _ => 0) 134217728 (fillPage 0)) 134217728 (fillPage 1)
    rw [fillPage_length] at this
    exact this
  have hg0 := MappedKV.pageGet_of_locate driftDbWritten 32768 ⟨67108864, 67112960⟩ 67108864 rfl
  have hg1 := MappedKV.pageGet_of_locate driftDbWritten 32769 ⟨134217728, 134225920⟩ 0 rfl
  refine ⟨{ driftDb with temp := [fillPage 0] },
    { driftDb with temp := [fillPage 0, fillPage 1] }, driftDbWritten,
    ?_, ?_, rfl, rfl, drift_write, rfl, rfl, rfl, ?_, ?_, fillPage_ne⟩
  · rw [MappedKV.pageNew_eq _ _ hl0]; rfl
  · rw [MappedKV.pageNew_eq _ _ hl1]; rfl
  · rw [hg0]
    exact congrArg (fun l => (Except.ok ⟨l⟩ : Res BNode)) hread
  · rw [hg1]
    exact congrArg (fun l => (Except.ok ⟨l⟩ : Res BNode)) hread

/-- C18, evaluated on the failing inputs.  In every state whose `total` is the sum of
the chunk lengths, an `extendMmap(npages)` that has to map more adds the chunk `Mmap`
was asked for: it starts at the old `total`, but its length is `npages * 4096`, which
is more than the old `total`; `total` is doubled all the same, so afterwards it is
less than the sum of the chunk lengths, and less than `npages * 4096` when that is
more than twice the old `total`. -/
theorem C18_extendMmap_total_drifts (db : MappedKV) (npages : Nat)
    (hexact : db.total = (db.chunks.map Window.len).sum)
    (hneed : db.total < npages * BTREE_PAGE_SIZE) :
    ∃ db', db.extendMmap true npages = (db', none) ∧
      db'.chunks = db.chunks ++ [⟨db.total, npages * BTREE_PAGE_SIZE⟩] ∧
      db'.total = db.total + db.total ∧
      db.total < npages * BTREE_PAGE_SIZE ∧
      db'.total < (db'.chunks.map Window.len).sum ∧
      (db.total + db.total < npages * BTREE_PAGE_SIZE →
        db'.total < npages * BTREE_PAGE_SIZE) := by
  have hnot : ¬ db.total ≥ npages * BTREE_PAGE_SIZE := Nat.not_le.2 hneed
  refine ⟨{ db with
      total := db.total + db.total
      chunks := db.chunks ++ [⟨db.total, npages * BTREE_PAGE_SIZE⟩] }, ?_, rfl, rfl, hneed,
    ?_, fun h => h⟩
  · unfold MappedKV.extendMmap
    rw [if_neg hnot, if_pos rfl]
  · show db.total + db.total <
      ((db.chunks ++ [(⟨db.total, npages * BTREE_PAGE_SIZE⟩ : Window)]).map Window.len).sum
    rw [List.map_append, List.sum_append, ← hexact]
    simp only [List.map_cons, List.map_nil, List.sum_cons, List.sum_nil]
    omega

/-- C18, at the state after `Open` when 16385 pages are needed: the chunk added has
16385 pages, not 16384, `total` becomes 128 MiB while 128 MiB + 4096 bytes are mapped
(the mapping state `driftDb` of C17). -/
theorem C18_extendMmap_total_drifts_witness :
    ∃ db', openDb.extendMmap true 16385 = (db', none) ∧
      db'.chunks = [⟨0, 67108864⟩, ⟨67108864, 67112960⟩] ∧
      db'.total = 134217728 ∧
      67108864 < 67112960 ∧
      db'.total < (db'.chunks.map Window.len).sum ∧
      (134217728 < 67112960 → db'.total < 67112960) :=
  C18_extendMmap_total_drifts openDb 16385 rfl (by decide)

/-- The same state when 40000 pages are needed: afterwards `total` is 128 MiB, less
than the 40000 pages asked for. -/
theorem extendMmap_total_too_small :
    ∃ db', openDb.extendMmap true 40000 = (db', none) ∧ db'.total = 134217728 ∧
      db'.total < 40000 * BTREE_PAGE_SIZE :=
  ⟨_, rfl, rfl, by decide⟩

/-! ### Chunks that follow one another in the file -/

theorem mappedBytes_cons (w : Window) (rest : List Window) :
    mappedBytes (w :: rest) = w.len + mappedBytes rest := rfl

theorem mappedBytes_append (a b : List Window) :
    mappedBytes (a ++ b) = mappedBytes a + mappedBytes b := by
  unfold mappedBytes
  rw [List.map_append, List.sum_append]

/-- On contiguous chunks `pageGet` finds every page below the end of the mapping, at
the file offset `ptr * 4096`. -/
theorem windowLocate_contiguous :
    ∀ (chunks : List Window) (start ptr : Nat), Contiguous chunks start → start ≤ ptr →
      ptr * BTREE_PAGE_SIZE + BTREE_PAGE_SIZE ≤ start * BTREE_PAGE_SIZE + mappedBytes chunks →
      start * BTREE_PAGE_SIZE + mappedBytes chunks < 18446744073709551616 →
      ∃ w o, windowLocate chunks start ptr = .ok (w, o) ∧
        w.off + o = ptr * BTREE_PAGE_SIZE := by
  intro chunks
  induction chunks with
  | nil =>
    intro start ptr _ hle hfit _
    have : mappedBytes [] = 0 := rfl
    rw [this] at hfit
    have hP : BTREE_PAGE_SIZE = 4096 := rfl
    rw [hP] at hfit
    omega
  | cons w rest ih =>
    intro start ptr hc hle hfit hbound
    obtain ⟨hoff, hmod, hrest⟩ := hc
    rw [mappedBytes_cons] at hfit hbound
    have hP : BTREE_PAGE_SIZE = 4096 := rfl
    rw [hP] at hoff hmod hfit hbound
    have hlen : w.len / 4096 * 4096 = w.len := by omega
    have hw1 : w64 w.len = w.len := w64_of_lt (by omega)
    have hend : w64 (start + w64 w.len / BTREE_PAGE_SIZE) = start + w.len / 4096 := by
      rw [hw1, hP]
      exact w64_of_lt (by omega)
    unfold windowLocate
    simp only [hend]
    by_cases hin : ptr < start + w.len / 4096
    · have hsub : w64 (ptr + 18446744073709551616 - start) = ptr - start := by
        unfold w64
        rw [show ptr + 18446744073709551616 - start = (ptr - start) + 18446744073709551616
          by omega, Nat.add_mod_right, Nat.mod_eq_of_lt (by omega)]
      have hofs : w64 (BTREE_PAGE_SIZE * w64 (ptr + 18446744073709551616 - start))
          = 4096 * (ptr - start) := by
        rw [hsub, hP]
        exact w64_of_lt (by omega)
      rw [if_pos hin, hofs, hP, if_pos (by omega)]
      refine ⟨w, 4096 * (ptr - start), rfl, ?_⟩
      rw [hoff]
      omega
    · rw [if_neg hin]
      have := ih (start + w.len / 4096) ptr (by rw [hP] at hrest; exact hrest) (by omega)
        (by rw [hP]; omega) (by rw [hP]; omega)
      rw [hP] at this
      exact this

theorem readAt_congr (b1 b2 : Nat → Nat) (pos n : Nat)
    (h : ∀ k, k < n → b1 (pos + k) = b2 (pos + k)) : readAt b1 pos n = readAt b2 pos n := by
  unfold readAt
  apply List.map_congr_left
  intro k hk
  exact h k (List.mem_range.1 hk)

theorem storeAt_below (bytes : Nat → Nat) (pos : Nat) (src : List Nat) (j : Nat)
    (h : j < pos) : storeAt bytes pos src j = bytes j := by
  unfold storeAt
  rw [if_neg (by omega)]

/-- The copy loop of `writePages` on contiguous chunks: every pending page is stored at
the file offset of its page number, and the bytes before the first page stay. -/
theorem copyPages_readback (f : Nat) :
    ∀ (pages : List (List Nat)) (i : Nat) (db : MappedKV), Contiguous db.chunks 0 →
      (∀ p ∈ pages, p.length = BTREE_PAGE_SIZE) →
      (f + i + pages.length) * BTREE_PAGE_SIZE ≤ mappedBytes db.chunks →
      mappedBytes db.chunks < 18446744073709551616 →
      ∃ db', MappedKV.copyPages f pages i db = .ok db' ∧ db'.chunks = db.chunks ∧
        db'.flushed = db.flushed ∧ db'.temp = db.temp ∧
        (∀ pos, pos < (f + i) * BTREE_PAGE_SIZE → db'.bytes pos = db.bytes pos) ∧
        (∀ j p, pages[j]? = some p →
          readAt db'.bytes ((f + i + j) * BTREE_PAGE_SIZE) BTREE_PAGE_SIZE = p) := by
  intro pages
  induction pages with
  | nil =>
    intro i db _ _ _ _
    exact ⟨db, rfl, rfl, rfl, rfl, fun _ _ => rfl, fun j p h => by simp at h⟩
  | cons page rest ih =>
    intro i db hc hlen hfit hbound
    have hP : BTREE_PAGE_SIZE = 4096 := rfl
    have hpl : page.length = BTREE_PAGE_SIZE := hlen page (List.mem_cons_self _ _)
    rw [List.length_cons] at hfit
    have hfi : f + i < 18446744073709551616 := by rw [hP] at hfit; omega
    have hwi : w64 (f + w64 i) = f + i := by
      rw [w64_of_lt (show i < 18446744073709551616 by omega), w64_of_lt hfi]
    obtain ⟨w, o, hloc, hpos⟩ := windowLocate_contiguous db.chunks 0 (f + i) hc
      (Nat.zero_le _) (by rw [hP] at hfit ⊢; omega) (by rw [Nat.zero_mul, Nat.zero_add]; exact hbound)
    have htake : page.take BTREE_PAGE_SIZE = page := List.take_of_length_le (by rw [hpl])
    obtain ⟨db1, hdb1⟩ : ∃ db1 : MappedKV, db1 =
        { db with bytes := storeAt db.bytes ((f + i) * BTREE_PAGE_SIZE) page } := ⟨_, rfl⟩
    have hstore : db.pageStore (w64 (f + w64 i)) page = .ok db1 := by
      rw [hwi, MappedKV.pageStore_of_locate db (f + i) page w o hloc, htake, hpos, hdb1]
    have hc1 : db1.chunks = db.chunks := by rw [hdb1]
    obtain ⟨db', hcp, h1, h2, h3, hframe, hread⟩ := ih (i + 1) db1 (by rw [hc1]; exact hc)
      (fun p hp => hlen p (List.mem_cons_of_mem _ hp))
      (by rw [hc1, show f + (i + 1) + rest.length = f + i + (rest.length + 1) by omega]
          exact hfit)
      (by rw [hc1]; exact hbound)
    have hb1 : ∀ pos, db1.bytes pos = storeAt db.bytes ((f + i) * BTREE_PAGE_SIZE) page pos := by
      intro pos; rw [hdb1]
    refine ⟨db', ?_, by rw [h1, hc1], by rw [h2, hdb1], by rw [h3, hdb1], ?_, ?_⟩
    · unfold MappedKV.copyPages
      dsimp only
      rw [hstore, bind_ok]
      exact hcp
    · intro pos hpos'
      rw [hframe pos (by rw [hP] at hpos' ⊢; omega), hb1, storeAt_below _ _ _ _ hpos']
    · intro j p hj
      cases j with
      | zero =>
        simp only [List.getElem?_cons_zero, Option.some.injEq] at hj
        subst hj
        rw [Nat.add_zero, readAt_congr db'.bytes db1.bytes _ _
          (fun k hk => hframe _ (by rw [hP] at hk ⊢; omega))]
        have := readAt_storeAt db.bytes ((f + i) * BTREE_PAGE_SIZE) page
        rw [hpl] at this
        rw [readAt_congr db1.bytes _ _ _ (fun k _ => hb1 _)]
        exact this
      | succ j =>
        simp only [List.getElem?_cons_succ] at hj
        have := hread j p hj
        rw [show f + (i + 1) + j = f + i + (j + 1) by omega] at this
        exact this

theorem contiguous_append (w : Window) :
    ∀ (chunks : List Window) (start : Nat), Contiguous chunks start →
      w.off = start * BTREE_PAGE_SIZE + mappedBytes chunks → w.len % BTREE_PAGE_SIZE = 0 →
      Contiguous (chunks ++ [w]) start := by
  intro chunks
  induction chunks with
  | nil =>
    intro start _ ho hl
    refine ⟨?_, hl, trivial⟩
    rw [ho]; unfold mappedBytes; simp
  | cons c rest ih =>
    intro start hc ho hl
    obtain ⟨h1, h2, h3⟩ := hc
    refine ⟨h1, h2, ih _ h3 ?_ hl⟩
    rw [ho, mappedBytes_cons, Nat.add_mul]
    have hP : BTREE_PAGE_SIZE = 4096 := rfl
    rw [hP] at h2 ⊢
    omega

theorem extendFile_fields (db : MappedKV) (n : Nat) :
    (db.extendFile true n).2 = none ∧ (db.extendFile true n).1.chunks = db.chunks ∧
      (db.extendFile true n).1.total = db.total ∧
      (db.extendFile true n).1.flushed = db.flushed ∧
      (db.extendFile true n).1.temp = db.temp ∧ (db.extendFile true n).1.bytes = db.bytes := by
  unfold MappedKV.extendFile
  dsimp only
  split
  · exact ⟨rfl, rfl, rfl, rfl, rfl, rfl⟩
  · exact ⟨rfl, rfl, rfl, rfl, rfl, rfl⟩

theorem extendMmap_exact (db : MappedKV) (n : Nat) (hc : Contiguous db.chunks 0)
    (ht : db.total = mappedBytes db.chunks) :
    (db.extendMmap true n).2 = none ∧ Contiguous (db.extendMmap true n).1.chunks 0 ∧
      n * BTREE_PAGE_SIZE ≤ mappedBytes (db.extendMmap true n).1.chunks ∧
      mappedBytes (db.extendMmap true n).1.chunks ≤ mappedBytes db.chunks + n * BTREE_PAGE_SIZE ∧
      (db.extendMmap true n).1.flushed = db.flushed ∧
      (db.extendMmap true n).1.temp = db.temp ∧ (db.extendMmap true n).1.bytes = db.bytes := by
  unfold MappedKV.extendMmap
  split
  · next h => exact ⟨rfl, hc, by rw [← ht]; exact h, Nat.le_add_right _ _, rfl, rfl, rfl⟩
  · rw [if_pos rfl]
    refine ⟨rfl, ?_, ?_, ?_, rfl, rfl, rfl⟩
    · exact contiguous_append _ _ _ hc (by rw [Nat.zero_mul, Nat.zero_add]; exact ht)
        (Nat.mul_mod_left _ _)
    · show _ ≤ mappedBytes (db.chunks ++ [_])
      rw [mappedBytes_append]; unfold mappedBytes; simp
    · show mappedBytes (db.chunks ++ [_]) ≤ _
      rw [mappedBytes_append]; unfold mappedBytes; simp

/-- While `mmap.total` is the number of bytes mapped and the chunks follow one another in
the file, `writePages` stores every pending page at its own page number: `pageGet` of the
number `pageNew` gave returns the image that was passed. -/
theorem writePages_readback (db : MappedKV) (hc : Contiguous db.chunks 0)
    (ht : db.total = mappedBytes db.chunks)
    (hlen : ∀ p ∈ db.temp, p.length = BTREE_PAGE_SIZE)
    (hbound : mappedBytes db.chunks + (db.flushed + db.temp.length) * BTREE_PAGE_SIZE
      < 18446744073709551616) :
    ∃ db', db.writePages true true = .ok (db', none) ∧
      ∀ j p, db.temp[j]? = some p → db'.pageGet (db.flushed + j) = .ok ⟨p⟩ := by
  obtain ⟨f1, f2, f3, f4, f5, f6⟩ := extendFile_fields db (db.flushed + db.temp.length)
  obtain ⟨db1, hdb1⟩ : ∃ db1, db1 = (db.extendFile true (db.flushed + db.temp.length)).1 :=
    ⟨_, rfl⟩
  rw [← hdb1] at f2 f3 f4 f5 f6
  have he1 : db.extendFile true (db.flushed + db.temp.length) = (db1, none) := by
    rw [hdb1, ← f1]
  obtain ⟨m1, m2, m3, m4, m5, m6, m7⟩ := extendMmap_exact db1 (db.flushed + db.temp.length)
    (by rw [f2]; exact hc) (by rw [f2, f3]; exact ht)
  obtain ⟨db2, hdb2⟩ : ∃ db2, db2 = (db1.extendMmap true (db.flushed + db.temp.length)).1 :=
    ⟨_, rfl⟩
  rw [← hdb2] at m2 m3 m4 m5 m6 m7
  have he2 : db1.extendMmap true (db.flushed + db.temp.length) = (db2, none) := by
    rw [hdb2, ← m1]
  rw [f2] at m4
  rw [f4] at m5
  rw [f5] at m6
  have hb2 : mappedBytes db2.chunks < 18446744073709551616 := Nat.lt_of_le_of_lt m4 hbound
  obtain ⟨db', hcp, c1, _, _, _, hread⟩ := copyPages_readback db2.flushed db2.temp 0 db2 m2
    (by rw [m6]; exact hlen) (by rw [m5, m6, Nat.add_zero]; exact m3) hb2
  refine ⟨db', ?_, ?_⟩
  · unfold MappedKV.writePages
    dsimp only
    rw [he1]
    dsimp only
    rw [he2]
    dsimp only
    rw [hcp]
    rfl
  · intro j p hj
    have hjl : j < db.temp.length := by
      rcases Nat.lt_or_ge j db.temp.length with h | h
      · exact h
      · rw [List.getElem?_eq_none h] at hj; cases hj
    have hP : BTREE_PAGE_SIZE = 4096 := rfl
    obtain ⟨w, o, hloc, hpos⟩ := windowLocate_contiguous db'.chunks 0 (db.flushed + j)
      (by rw [c1]; exact m2) (Nat.zero_le _)
      (by rw [c1, Nat.zero_mul, Nat.zero_add]; rw [hP] at m3 ⊢; omega)
      (by rw [c1, Nat.zero_mul, Nat.zero_add]; exact hb2)
    rw [MappedKV.pageGet_of_locate db' (db.flushed + j) w o hloc, hpos]
    have := hread j p (by rw [m6]; exact hj)
    rw [m5, Nat.add_zero] at this
    rw [this]

theorem writePages_readback_first_extension :
    ∃ db', ({ openDb with temp := [fillPage 0, fillPage 1] } : MappedKV).writePages true true
        = .ok (db', none) ∧
      db'.pageGet 1 = .ok ⟨fillPage 0⟩ ∧ db'.pageGet 2 = .ok ⟨fillPage 1⟩ := by
  obtain ⟨db', h, hr⟩ := writePages_readback
    ({ openDb with temp := [fillPage 0, fillPage 1] } : MappedKV) ⟨rfl, rfl, trivial⟩ rfl
    (by
      intro p hp
      rcases List.mem_cons.1 hp with h | h
      · rw [h]; exact fillPage_length 0
      · rw [List.mem_singleton.1 h]; exact fillPage_length 1)
    (by decide)
  exact ⟨db', h, hr 0 _ rfl, hr 1 _ rfl⟩

/-! ## The commit: pending pages, then the master record -/

theorem readAt_length (bytes : Nat → Nat) (pos n : Nat) : (readAt bytes pos n).length = n := by
  simp only [readAt, List.length_map, List.length_range]

theorem readAt_storeAt_apart (bytes : Nat → Nat) (pos : Nat) (src : List Nat) (q n : Nat)
    (h : q + n ≤ pos ∨ pos + src.length ≤ q) :
    readAt (storeAt bytes pos src) q n = readAt bytes q n := by
  apply readAt_congr
  intro k hk
  unfold storeAt
  rw [if_neg (by omega)]

theorem readAt_storeAt_inside (bytes : Nat → Nat) (pos : Nat) (src : List Nat) (x n : Nat)
    (h : x + n ≤ src.length) :
    readAt (storeAt bytes pos src) (pos + x) n = slice src x n := by
  apply List.ext_getElem?
  intro i
  rw [slice_getElem?]
  by_cases hi : i < n
  · rw [if_pos hi, List.getElem?_eq_getElem (by rw [readAt_length]; exact hi)]
    simp only [readAt, storeAt, List.getElem_map, List.getElem_range]
    rw [if_pos ⟨by omega, by omega⟩, show pos + x + i - pos = x + i by omega,
      List.getD_eq_getElem _ _ (by omega), List.getElem?_eq_getElem (by omega)]
  · rw [if_neg hi, List.getElem?_eq_none (by rw [readAt_length]; omega)]

theorem masterRecord_root (root flushed : Nat) :
    slice (masterRecord root flushed) 16 8 = leEncode 8 (w64 root) := by
  unfold masterRecord
  have h1 : (blit (zeros 32) 0 (DB_SIG.take 16)).length = 32 := by
    rw [blit_length, zeros_length]
  have h2 : (blit (blit (zeros 32) 0 (DB_SIG.take 16)) 16 (leEncode 8 (w64 root))).length
      = 32 := by rw [blit_length, h1]
  rw [slice_blit_disjoint _ _ _ _ _ (by rw [h2]; decide) (Or.inl (by decide))]
  have := slice_blit_same (blit (zeros 32) 0 (DB_SIG.take 16)) 16 (leEncode 8 (w64 root))
    (by rw [h1, leEncode_length]; decide)
  rw [leEncode_length] at this
  exact this

theorem masterRecord_used (root flushed : Nat) :
    slice (masterRecord root flushed) 24 8 = leEncode 8 (w64 flushed) := by
  unfold masterRecord
  have h1 : (blit (zeros 32) 0 (DB_SIG.take 16)).length = 32 := by
    rw [blit_length, zeros_length]
  have h2 : (blit (blit (zeros 32) 0 (DB_SIG.take 16)) 16 (leEncode 8 (w64 root))).length
      = 32 := by rw [blit_length, h1]
  have := slice_blit_same (blit (blit (zeros 32) 0 (DB_SIG.take 16)) 16
    (leEncode 8 (w64 root))) 24 (leEncode 8 (w64 flushed)) (by rw [h2, leEncode_length])
  rw [leEncode_length] at this
  exact this

/-- After `masterStore` the record of the file names the root and the number of pages
it was given. -/
theorem master_of_store (bytes : Nat → Nat) (root flushed : Nat) :
    readAt (storeAt bytes 0 (masterRecord root flushed)) 0 32 = masterRecord root flushed ∧
      masterRoot (storeAt bytes 0 (masterRecord root flushed)) = w64 root ∧
      masterUsed (storeAt bytes 0 (masterRecord root flushed)) = w64 flushed := by
  have hl := masterRecord_length root flushed
  refine ⟨?_, ?_, ?_⟩
  · have := readAt_storeAt bytes 0 (masterRecord root flushed)
    rw [hl] at this
    exact this
  · unfold masterRoot
    have := readAt_storeAt_inside bytes 0 (masterRecord root flushed) 16 8 (by rw [hl]; decide)
    rw [Nat.zero_add] at this
    rw [this, masterRecord_root]
    exact leDecode_leEncode_8 (w64 root) (Nat.mod_lt _ (by decide))
  · unfold masterUsed
    have := readAt_storeAt_inside bytes 0 (masterRecord root flushed) 24 8 (by rw [hl])
    rw [Nat.zero_add] at this
    rw [this, masterRecord_used]
    exact leDecode_leEncode_8 (w64 flushed) (Nat.mod_lt _ (by decide))

/-- One pending page: `writePages` stores it where `pageGet` finds its page number. -/
theorem MappedKV.copyPages_one (db : MappedKV) (f : Nat) (a : List Nat) (w : Window)
    (o : Nat) (h : windowLocate db.chunks 0 (w64 (f + w64 0)) = .ok (w, o)) :
    MappedKV.copyPages f [a] 0 db =
      .ok { db with bytes := storeAt db.bytes (w.off + o) (a.take BTREE_PAGE_SIZE) } := by
  unfold MappedKV.copyPages
  dsimp only
  rw [MappedKV.pageStore_of_locate db _ a w o h, bind_ok]
  rfl

theorem fillPage_ne_of (a b : Nat) (h : a ≠ b) : fillPage a ≠ fillPage b := by
  intro hab
  have h1 : (fillPage a)[0]? = some a := by
    unfold fillPage; rw [List.getElem?_replicate, if_pos (by decide)]
  have h0 : (fillPage b)[0]? = some b := by
    unfold fillPage; rw [List.getElem?_replicate, if_pos (by decide)]
  rw [hab, h0] at h1
  exact h (Option.some.inj h1).symm

theorem readAt_zero (pos : Nat) : readAt (fun _ => 0) pos BTREE_PAGE_SIZE = fillPage 0 := by
  apply List.ext_getElem
  · rw [readAt_length, fillPage_length]
  · intro i h1 h2
    simp only [readAt, fillPage, List.getElem_map, List.getElem_replicate]

/-- The first commit from `driftDb`: one pending image, the root of the tree. -/
theorem drift_first_commit :
    ({ driftDb with temp := [fillPage 170] } : MappedKV).writePages true true
      = .ok (driftDbFirstWritten, none) ∧
    ({ driftDb with temp := [fillPage 170] } : MappedKV).flashPages true true true true true
      32768 = .ok (driftDbFirst, none) := by
  have hc := MappedKV.copyPages_one
    (⟨146042880, 268435456, [⟨0, 67108864⟩, ⟨67108864, 67112960⟩, ⟨134217728, 134221824⟩],
      32768, [fillPage 170], fun _ => 0⟩ : MappedKV) 32768 (fillPage 170)
    ⟨67108864, 67112960⟩ 67108864 rfl
  rw [fillPage_take] at hc
  have hw : ({ driftDb with temp := [fillPage 170] } : MappedKV).writePages true true
      = .ok (driftDbFirstWritten, none) := by
    unfold MappedKV.writePages
    show (MappedKV.copyPages 32768 [fillPage 170] 0
      (⟨146042880, 268435456, [⟨0, 67108864⟩, ⟨67108864, 67112960⟩,
        ⟨134217728, 134221824⟩], 32768, [fillPage 170], fun _ => 0⟩ : MappedKV) >>= _) = _
    rw [hc, bind_ok]
    rfl
  refine ⟨hw, ?_⟩
  unfold MappedKV.flashPages
  rw [hw, bind_ok]
  rfl

/-- The next commit: one pending image, the new root, page 32769. -/
theorem drift_next_commit :
    ({ driftDbFirst with temp := [fillPage 187] } : MappedKV).writePages true true
      = .ok (driftDbNextWritten, none) ∧
    driftDbNextWritten.syncPages true true true 32769 = (driftDbNext, none) ∧
    ({ driftDbFirst with temp := [fillPage 187] } : MappedKV).flashPages true true true true
      true 32769 = .ok (driftDbNext, none) := by
  have hc := MappedKV.copyPages_one ({ driftDbFirst with temp := [fillPage 187] } : MappedKV)
    32769 (fillPage 187) ⟨134217728, 134221824⟩ 0 rfl
  rw [fillPage_take] at hc
  have hw : ({ driftDbFirst with temp := [fillPage 187] } : MappedKV).writePages true true
      = .ok (driftDbNextWritten, none) := by
    unfold MappedKV.writePages
    show (MappedKV.copyPages 32769 [fillPage 187] 0
      ({ driftDbFirst with temp := [fillPage 187] } : MappedKV) >>= _) = _
    rw [hc, bind_ok]
    rfl
  refine ⟨hw, rfl, ?_⟩
  unfold MappedKV.flashPages
  rw [hw, bind_ok]
  rfl

/-- C10, evaluated at the failing input: two commits of one page each from the mapping
state `driftDb`.  The first commit stores the image `A` (bytes `aa`) in page 32768 and
then writes a master record that names the root 32768 and 32769 pages.  In the second
commit `writePages` stores the image `B` (bytes `bb`) of page 32769 through the third
chunk, which `extendMmap` mapped at offset `total`, 128 MiB: the bytes of page 32768.
At that point the master record is still the one of the first commit, and the page of
the root it names holds `B`, not `A`.  When the commit is done the master record names
the root 32769 and 32770 pages, while page 32769 of the file was never written. -/
theorem C10_commit_overwrites_published_root :
    ∃ dbA db1 dbB dbW db2,
      driftDb.pageNew ⟨fillPage 170⟩ = .ok (32768, dbA) ∧
      dbA.flashPages true true true true true 32768 = .ok (db1, none) ∧
      masterRoot db1.bytes = 32768 ∧ masterUsed db1.bytes = 32769 ∧
      filePage db1.bytes 32768 = fillPage 170 ∧
      db1.pageGet 32768 = .ok ⟨fillPage 170⟩ ∧
      db1.pageNew ⟨fillPage 187⟩ = .ok (32769, dbB) ∧
      dbB.writePages true true = .ok (dbW, none) ∧
      readAt dbW.bytes 0 32 = readAt db1.bytes 0 32 ∧
      masterRoot dbW.bytes = 32768 ∧ masterUsed dbW.bytes = 32769 ∧
      filePage dbW.bytes 32768 = fillPage 187 ∧
      dbW.pageGet 32768 = .ok ⟨fillPage 187⟩ ∧
      dbW.syncPages true true true 32769 = (db2, none) ∧
      dbB.flashPages true true true true true 32769 = .ok (db2, none) ∧
      masterRoot db2.bytes = 32769 ∧ masterUsed db2.bytes = 32770 ∧
      filePage db2.bytes 32768 = fillPage 187 ∧
      filePage db2.bytes 32769 = fillPage 0 ∧
      fillPage 187 ≠ fillPage 170 ∧ fillPage 0 ≠ fillPage 187 := by
  have hlA : (fillPage 170).length ≤ BTREE_PAGE_SIZE := by rw [fillPage_length]
  have hlB : (fillPage 187).length ≤ BTREE_PAGE_SIZE := by rw [fillPage_length]
  have hrec1 := masterRecord_length 32768 32769
  have hrec2 := masterRecord_length 32769 32770
  have hm1 := master_of_store (storeAt (fun _ => 0) 134217728 (fillPage 170)) 32768 32769
  have hm2 := master_of_store driftDbNextWritten.bytes 32769 32770
  -- page 32768 of the file after the first commit
  have hA : readAt driftDbFirst.bytes 134217728 BTREE_PAGE_SIZE = fillPage 170 := by
    show readAt (storeAt (storeAt (fun _ => 0) 134217728 (fillPage 170)) 0
      (masterRecord 32768 32769)) 134217728 BTREE_PAGE_SIZE = _
    rw [readAt_storeAt_apart _ _ _ _ _ (Or.inr (by rw [hrec1]; decide))]
    have := readAt_storeAt (fun _ => 0) 134217728 (fillPage 170)
    rw [fillPage_length] at this
    exact this
  -- the same bytes after `writePages` of the second commit
  have hB : readAt driftDbNextWritten.bytes 134217728 BTREE_PAGE_SIZE = fillPage 187 := by
    have := readAt_storeAt driftDbFirst.bytes 134217728 (fillPage 187)
    rw [fillPage_length] at this
    exact this
  have hkeep : ∀ q n, q + n ≤ 134217728 →
      readAt driftDbNextWritten.bytes q n = readAt driftDbFirst.bytes q n := fun q n h =>
    readAt_storeAt_apart driftDbFirst.bytes 134217728 (fillPage 187) q n (Or.inl h)
  have hB2 : readAt driftDbNext.bytes 134217728 BTREE_PAGE_SIZE = fillPage 187 := by
    show readAt (storeAt driftDbNextWritten.bytes 0 (masterRecord 32769 32770)) 134217728
      BTREE_PAGE_SIZE = _
    rw [readAt_storeAt_apart _ _ _ _ _ (Or.inr (by rw [hrec2]; decide))]
    exact hB
  have hZ : readAt driftDbNext.bytes 134221824 BTREE_PAGE_SIZE = fillPage 0 := by
    show readAt (storeAt (storeAt (storeAt (storeAt (fun _ => 0) 134217728 (fillPage 170)) 0
      (masterRecord 32768 32769)) 134217728 (fillPage 187)) 0 (masterRecord 32769 32770))
      134221824 BTREE_PAGE_SIZE = _
    rw [readAt_storeAt_apart _ _ _ _ _ (Or.inr (by rw [hrec2]; decide)),
      readAt_storeAt_apart _ _ _ _ _ (Or.inr (by rw [fillPage_length]; decide)),
      readAt_storeAt_apart _ _ _ _ _ (Or.inr (by rw [hrec1]; decide)),
      readAt_storeAt_apart _ _ _ _ _ (Or.inr (by rw [fillPage_length]; decide))]
    exact readAt_zero _
  have hg1 := MappedKV.pageGet_of_locate driftDbFirst 32768 ⟨67108864, 67112960⟩ 67108864 rfl
  have hgW := MappedKV.pageGet_of_locate driftDbNextWritten 32768 ⟨67108864, 67112960⟩
    67108864 rfl
  refine ⟨{ driftDb with temp := [fillPage 170] }, driftDbFirst,
    { driftDbFirst with temp := [fillPage 187] }, driftDbNextWritten, driftDbNext,
    ?_, drift_first_commit.2, hm1.2.1, hm1.2.2, hA, ?_, ?_, drift_next_commit.1, ?_, ?_, ?_,
    hB, ?_, drift_next_commit.2.1, drift_next_commit.2.2, hm2.2.1, hm2.2.2, hB2, hZ,
    fillPage_ne_of 187 170 (by decide), fillPage_ne_of 0 187 (by decide)⟩
  · rw [MappedKV.pageNew_eq _ _ hlA]; rfl
  · rw [hg1]
    exact congrArg (fun l => (Except.ok ⟨l⟩ : Res BNode)) hA
  · rw [MappedKV.pageNew_eq _ _ hlB]; rfl
  · exact hkeep 0 32 (by decide)
  · unfold masterRoot
    rw [hkeep 16 8 (by decide)]
    exact hm1.2.1
  · unfold masterUsed
    rw [hkeep 24 8 (by decide)]
    exact hm1.2.2
  · rw [hgW]
    exact congrArg (fun l => (Except.ok ⟨l⟩ : Res BNode)) hB

theorem storeAt_above (bytes : Nat → Nat) (pos : Nat) (src : List Nat) (j : Nat)
    (h : pos + src.length ≤ j) : storeAt bytes pos src j = bytes j := by
  unfold storeAt
  rw [if_neg (by omega)]

/-- While `mmap.total` is the number of bytes mapped and the chunks follow one another
in the file, the commit keeps the order of the contract.  `writePages` changes no byte
of the file below page `flushed`, so neither the master record nor a page of an earlier
commit, and puts every pending image into its own page of the file; the master record
that `syncPages` writes afterwards names the given root and `flushed + n` pages, and
the pages read back through `pageGet`. -/
theorem flashPages_exact (db : MappedKV) (root : Nat) (hc : Contiguous db.chunks 0)
    (ht : db.total = mappedBytes db.chunks)
    (hlen : ∀ p ∈ db.temp, p.length = BTREE_PAGE_SIZE)
    (hbound : mappedBytes db.chunks + (db.flushed + db.temp.length) * BTREE_PAGE_SIZE
      < 18446744073709551616)
    (hfl : 1 ≤ db.flushed) :
    ∃ dbW db', db.writePages true true = .ok (dbW, none) ∧
      (∀ pos, pos < db.flushed * BTREE_PAGE_SIZE → dbW.bytes pos = db.bytes pos) ∧
      (∀ j p, db.temp[j]? = some p → filePage dbW.bytes (db.flushed + j) = p) ∧
      db.flashPages true true true true true root = .ok (db', none) ∧
      db'.flushed = db.flushed + db.temp.length ∧ db'.temp = [] ∧
      readAt db'.bytes 0 32 = masterRecord root (db.flushed + db.temp.length) ∧
      (∀ pos, 32 ≤ pos → db'.bytes pos = dbW.bytes pos) ∧
      ∀ j p, db.temp[j]? = some p →
        filePage db'.bytes (db.flushed + j) = p ∧ db'.pageGet (db.flushed + j) = .ok ⟨p⟩ := by
  have hP : BTREE_PAGE_SIZE = 4096 := rfl
  obtain ⟨f1, f2, f3, f4, f5, f6⟩ := extendFile_fields db (db.flushed + db.temp.length)
  obtain ⟨db1, hdb1⟩ : ∃ db1, db1 = (db.extendFile true (db.flushed + db.temp.length)).1 :=
    ⟨_, rfl⟩
  rw [← hdb1] at f2 f3 f4 f5 f6
  have he1 : db.extendFile true (db.flushed + db.temp.length) = (db1, none) := by
    rw [hdb1, ← f1]
  obtain ⟨m1, m2, m3, m4, m5, m6, m7⟩ := extendMmap_exact db1 (db.flushed + db.temp.length)
    (by rw [f2]; exact hc) (by rw [f2, f3]; exact ht)
  obtain ⟨db2, hdb2⟩ : ∃ db2, db2 = (db1.extendMmap true (db.flushed + db.temp.length)).1 :=
    ⟨_, rfl⟩
  rw [← hdb2] at m2 m3 m4 m5 m6 m7
  have he2 : db1.extendMmap true (db.flushed + db.temp.length) = (db2, none) := by
    rw [hdb2, ← m1]
  rw [f2] at m4
  rw [f4] at m5
  rw [f5] at m6
  rw [f6] at m7
  have hb2 : mappedBytes db2.chunks < 18446744073709551616 := Nat.lt_of_le_of_lt m4 hbound
  obtain ⟨dbW, hcp, c1, c2, c3, hframe, hread⟩ := copyPages_readback db2.flushed db2.temp 0
    db2 m2 (by rw [m6]; exact hlen) (by rw [m5, m6, Nat.add_zero]; exact m3) hb2
  rw [m5, Nat.add_zero, m7] at hframe
  rw [m5] at c2
  rw [m6] at c3
  have hwrite : db.writePages true true = .ok (dbW, none) := by
    unfold MappedKV.writePages
    dsimp only
    rw [he1]
    dsimp only
    rw [he2]
    dsimp only
    rw [hcp]
    rfl
  have hreadW : ∀ j p, db.temp[j]? = some p → filePage dbW.bytes (db.flushed + j) = p := by
    intro j p hj
    have := hread j p (by rw [m6]; exact hj)
    rw [m5, Nat.add_zero] at this
    exact this
  have hn : w64 (dbW.flushed + w64 dbW.temp.length) = db.flushed + db.temp.length := by
    rw [c2, c3, w64_of_lt (show db.temp.length < 18446744073709551616 by rw [hP] at hbound; omega),
      w64_of_lt (by rw [hP] at hbound; omega)]
  obtain ⟨db', hdb'⟩ : ∃ db' : MappedKV, db' =
      { dbW with
        flushed := db.flushed + db.temp.length
        temp := []
        bytes := storeAt dbW.bytes 0 (masterRecord root (db.flushed + db.temp.length)) } :=
    ⟨_, rfl⟩
  have hsync : dbW.syncPages true true true root = (db', none) := by
    unfold MappedKV.syncPages MappedKV.masterStore
    dsimp only
    rw [hn, hdb']
    rfl
  have hbytes : db'.bytes = storeAt dbW.bytes 0 (masterRecord root (db.flushed + db.temp.length)) := by
    rw [hdb']
  have hchunks : db'.chunks = db2.chunks := by rw [hdb']; exact c1
  have hrl := masterRecord_length root (db.flushed + db.temp.length)
  have hreadN : ∀ j p, db.temp[j]? = some p → filePage db'.bytes (db.flushed + j) = p := by
    intro j p hj
    unfold filePage
    rw [hbytes, readAt_storeAt_apart _ _ _ _ _ (Or.inr (by rw [hrl, hP]; omega))]
    exact hreadW j p hj
  refine ⟨dbW, db', hwrite, hframe, hreadW, ?_, by rw [hdb'], by rw [hdb'], ?_, ?_, ?_⟩
  · unfold MappedKV.flashPages
    rw [hwrite, bind_ok]
    dsimp only
    rw [hsync]
    rfl
  · rw [hbytes]
    exact (master_of_store dbW.bytes root (db.flushed + db.temp.length)).1
  · intro pos hpos
    rw [hbytes, storeAt_above _ _ _ _ (by rw [hrl, Nat.zero_add]; exact hpos)]
  · intro j p hj
    refine ⟨hreadN j p hj, ?_⟩
    have hjl : j < db.temp.length := by
      rcases Nat.lt_or_ge j db.temp.length with h | h
      · exact h
      · rw [List.getElem?_eq_none h] at hj; cases hj
    obtain ⟨w, o, hloc, hpos⟩ := windowLocate_contiguous db'.chunks 0 (db.flushed + j)
      (by rw [hchunks]; exact m2) (Nat.zero_le _)
      (by rw [hchunks, Nat.zero_mul, Nat.zero_add]; rw [hP] at m3 ⊢; omega)
      (by rw [hchunks, Nat.zero_mul, Nat.zero_add]; exact hb2)
    rw [MappedKV.pageGet_of_locate db' (db.flushed + j) w o hloc, hpos]
    exact congrArg (fun l => (Except.ok ⟨l⟩ : Res BNode)) (hreadN j p hj)

/-- The commit of two pending pages after `Open` on an empty file: the contract holds. -/
theorem flashPages_exact_first :
    ∃ dbW db', ({ openDb with temp := [fillPage 170, fillPage 187] } : MappedKV).writePages
        true true = .ok (dbW, none) ∧
      filePage dbW.bytes 1 = fillPage 170 ∧ filePage dbW.bytes 2 = fillPage 187 ∧
      ({ openDb with temp := [fillPage 170, fillPage 187] } : MappedKV).flashPages
        true true true true true 2 = .ok (db', none) ∧
      readAt db'.bytes 0 32 = masterRecord 2 3 ∧
      db'.pageGet 1 = .ok ⟨fillPage 170⟩ ∧ db'.pageGet 2 = .ok ⟨fillPage 187⟩ := by
  obtain ⟨dbW, db', h1, _, h3, h4, _, _, h7, _, h9⟩ := flashPages_exact
    ({ openDb with temp := [fillPage 170, fillPage 187] } : MappedKV) 2 ⟨rfl, rfl, trivial⟩ rfl
    (by
      intro p hp
      rcases List.mem_cons.1 hp with h | h
      · rw [h]; exact fillPage_length 170
      · rw [List.mem_singleton.1 h]; exact fillPage_length 187)
    (by decide) (by decide)
  exact ⟨dbW, db', h1, h3 0 _ rfl, h3 1 _ rfl, h4, h7, (h9 0 _ rfl).2, (h9 1 _ rfl).2⟩

/-! ## The scratch buffer of `treeInsert` on a leaf -/

/-- `treeInsert` on a leaf image with at least one entry that takes at most one page:
the result is built in the scratch buffer of two pages and holds the entries
`leafPut` gives. -/
theorem treeInsertBody_leaf_scratch {σ : Type} (P : Pager σ)
    (recur : σ → BNode → List Nat → List Nat → Res (BNode × σ)) (s : σ)
    {d : List Nat} {es : List Entry} (L : Layout d BNODE_LEAF es.length es)
    (hpos : 0 < es.length) (hfits : leafBytes es ≤ BTREE_PAGE_SIZE) (key val : List Nat)
    (hkey : key.length ≤ 1000) (hval : val.length ≤ 3000) :
    ∃ d', treeInsertBody P recur s ⟨d⟩ key val = .ok (⟨d'⟩, s) ∧
      d'.length = 2 * BTREE_PAGE_SIZE ∧
      Layout d' BNODE_LEAF (leafPut es key val).length (leafPut es key val) := by
  have hi := lookupLE_lt es key hpos
  have h1 : es[lookupLE es key]? = some es[lookupLE es key] := List.getElem?_eq_getElem hi
  have hlen := leafPut_length es key val _ h1
  unfold leafBytes BTREE_PAGE_SIZE at hfits
  have hz : (zeros (2 * BTREE_PAGE_SIZE)).length = 8192 := zeros_length _
  simp only [treeInsertBody, nodeLookupLE_eq L rfl key, bind_ok, L.btype_eq, if_true,
    L.getKey_eq _ _ h1]
  by_cases hk : es[lookupLE es key].key = key
  · have hb : bytesEqual key es[lookupLE es key].key = true := (bytesEqual_iff _ _).2 hk.symm
    rw [hb]
    simp only [if_true]
    obtain ⟨d', e', len', L'⟩ := leafUpdate_layout (d := zeros (2 * BTREE_PAGE_SIZE)) L rfl
      (lookupLE es key) key val hi hkey hval (by rw [hz]; decide) (by rw [hz]; omega)
    refine ⟨d', by rw [e']; rfl, by rw [len', hz]; rfl, ?_⟩
    rw [hlen, if_pos hk]
    unfold leafPut
    simp only [h1, Option.map_some', Option.some.injEq, hk, if_true]
    exact L'
  · have hb : bytesEqual key es[lookupLE es key].key = false := by
      rw [Bool.eq_false_iff]
      intro h
      exact hk ((bytesEqual_iff _ _).1 h).symm
    rw [hb]
    simp only [Bool.false_eq_true, if_false]
    have hn := L.n_lt
    rw [w16_of_lt (by omega)]
    obtain ⟨d', e', len', L'⟩ := leafInsert_layout (d := zeros (2 * BTREE_PAGE_SIZE)) L rfl
      (lookupLE es key + 1) key val (by omega) hkey hval (by rw [hz]; decide)
      (by rw [hz]; omega)
    refine ⟨d', by rw [e']; rfl, by rw [len', hz]; rfl, ?_⟩
    rw [hlen, if_neg hk]
    unfold leafPut
    simp only [h1, Option.map_some', Option.some.injEq, hk, if_false]
    exact L'

/-- On a leaf without entries `treeInsert` stops at the assertion of `getKey(0)`, before
`leafInsert` or `leafUpdate` is called. -/
theorem treeInsert_empty_leaf {σ : Type} (P : Pager σ) (fuel : Nat) (s : σ) {d : List Nat}
    (L : Layout d BNODE_LEAF 0 []) (key val : List Nat) :
    treeInsert P fuel s ⟨d⟩ key val = .error .assertion := by
  have body : ∀ recur, treeInsertBody P recur s ⟨d⟩ key val = .error .assertion := by
    intro recur
    simp only [treeInsertBody, nodeLookupLE_eq L rfl key, bind_ok, L.btype_eq, if_true]
    have : (BNode.mk d).getKey (lookupLE [] key) = .error .assertion := by
      unfold BNode.getKey
      rw [L.nkeys_eq, bind_ok]
      rfl
    rw [this]
    rfl
  cases fuel with
  | zero => exact body _
  | succ fuel => exact body _

/-- C22: for every leaf image with at least one entry and `nbytes() <= 4096`, every key
of 1 to 1000 bytes and every value of at most 3000 bytes, `treeInsert` returns an image
in the scratch buffer of `2 * 4096` bytes whose `nbytes()` is at most the old size plus
the 14 + len(key) + len(val) bytes of one entry, hence at most `2 * 4096`; no write
fell outside the buffer and no copy was cut short: the image holds every entry in
full, and `getKey` and `getVal` read each of them back. -/
theorem C22_leaf_insert_within_scratch {σ : Type} (P : Pager σ) (fuel : Nat) (s : σ)
    (node : BNode) (es : List Entry) (nb : Nat) (key val : List Nat)
    (L : Layout node.data BNODE_LEAF es.length es) (hpos : 0 < es.length)
    (hnb : node.nbytes = .ok nb) (hfit : nb ≤ BTREE_PAGE_SIZE)
    (hkey : ValidKey key) (hval : ValidVal val) :
    ∃ img nb', treeInsert P fuel s node key val = .ok (img, s) ∧
      img.data.length = 2 * BTREE_PAGE_SIZE ∧
      img.nbytes = .ok nb' ∧ nb' ≤ nb + (14 + key.length + val.length) ∧
      nb' ≤ 2 * BTREE_PAGE_SIZE ∧
      Layout img.data BNODE_LEAF (leafPut es key val).length (leafPut es key val) ∧
      ∀ i e, (leafPut es key val)[i]? = some e →
        img.getKey i = .ok e.key ∧ img.getVal i = .ok e.val := by
  obtain ⟨d⟩ := node
  have hkl : key.length ≤ 1000 := hkey.2
  have hvl : val.length ≤ 3000 := hval
  have hnb2 := L.nbytes_eq rfl
  rw [hnb] at hnb2
  have hnbeq : nb = leafBytes es := by
    unfold leafBytes
    exact Except.ok.inj hnb2
  have hfits : leafBytes es ≤ BTREE_PAGE_SIZE := by rw [← hnbeq]; exact hfit
  have hi := lookupLE_lt es key hpos
  have h1 : es[lookupLE es key]? = some es[lookupLE es key] := List.getElem?_eq_getElem hi
  have hbytes := leafPut_bytes es key val _ h1
  have hP : BTREE_PAGE_SIZE = 4096 := rfl
  have hbound : leafBytes (leafPut es key val) ≤ nb + (14 + key.length + val.length) := by
    rw [hnbeq]
    split at hbytes <;> omega
  obtain ⟨d', hins, hlen, L'⟩ : ∃ d', treeInsert P fuel s ⟨d⟩ key val = .ok (⟨d'⟩, s) ∧
      d'.length = 2 * BTREE_PAGE_SIZE ∧
      Layout d' BNODE_LEAF (leafPut es key val).length (leafPut es key val) := by
    cases fuel with
    | zero => exact treeInsertBody_leaf_scratch P _ s L hpos hfits key val hkl hvl
    | succ fuel => exact treeInsertBody_leaf_scratch P _ s L hpos hfits key val hkl hvl
  refine ⟨⟨d'⟩, leafBytes (leafPut es key val), hins, hlen, L'.nbytes_eq rfl, hbound, ?_, L',
    fun i e he => ⟨L'.getKey_eq i e he, L'.getVal_eq i e he⟩⟩
  rw [hP] at hfit ⊢
  omega

/-- C22, on the leaf that holds the sentinel and one pair of the largest key and value
(4032 bytes), with another pair of the largest key and value: the image takes 8046
bytes, more than a page and less than the scratch buffer. -/
theorem C22_leaf_insert_within_scratch_witness :
    ∃ node, buildNode BNODE_LEAF [⟨0, [], []⟩, ⟨0, longKey 1 1, bigVal 7⟩] = .ok node ∧
      node.nbytes = .ok 4032 ∧
      ∃ img nb', treeInsert memPager 0 MemPages.empty node (longKey 2 2) (bigVal 8)
          = .ok (img, MemPages.empty) ∧
        img.data.length = 2 * BTREE_PAGE_SIZE ∧
        img.nbytes = .ok nb' ∧ nb' ≤ 4032 + (14 + (longKey 2 2).length + (bigVal 8).length) ∧
        nb' ≤ 2 * BTREE_PAGE_SIZE ∧
        Layout img.data BNODE_LEAF
          (leafPut [⟨0, [], []⟩, ⟨0, longKey 1 1, bigVal 7⟩] (longKey 2 2) (bigVal 8)).length
          (leafPut [⟨0, [], []⟩, ⟨0, longKey 1 1, bigVal 7⟩] (longKey 2 2) (bigVal 8)) ∧
        ∀ i e, (leafPut [⟨0, [], []⟩, ⟨0, longKey 1 1, bigVal 7⟩] (longKey 2 2)
            (bigVal 8))[i]? = some e → img.getKey i = .ok e.key ∧ img.getVal i = .ok e.val := by
  have hsmall : ∀ e ∈ ([⟨0, [], []⟩, ⟨0, longKey 1 1, bigVal 7⟩] : List Entry),
      e.key.length ≤ 1000 ∧ e.val.length ≤ 3000 ∧ e.ptr < 18446744073709551616 := by
    intro e he
    simp only [List.mem_cons, List.mem_singleton, List.not_mem_nil, or_false] at he
    rcases he with rfl | rfl <;>
      simp only [longKey_length, bigVal_length, List.length_nil] <;> omega
  have hb : leafBytes ([⟨0, [], []⟩, ⟨0, longKey 1 1, bigVal 7⟩] : List Entry) = 4032 := by
    simp only [leafBytes, offTo, List.length_cons, List.length_nil, List.take,
      List.map, List.sum_cons, List.sum_nil, Entry.size, longKey_length, bigVal_length]
    omega
  obtain ⟨d, hbuild, _, L⟩ := buildNode_layout BNODE_LEAF
    [⟨0, [], []⟩, ⟨0, longKey 1 1, bigVal 7⟩] (by decide) hsmall (by rw [hb]; decide)
  have hnb : (BNode.mk d).nbytes = .ok 4032 := by
    rw [L.nbytes_eq rfl]
    unfold leafBytes at hb
    exact congrArg Except.ok hb
  exact ⟨⟨d⟩, hbuild, hnb, C22_leaf_insert_within_scratch memPager 0 MemPages.empty ⟨d⟩
    [⟨0, [], []⟩, ⟨0, longKey 1 1, bigVal 7⟩] 4032 (longKey 2 2) (bigVal 8) L (by decide)
    hnb (by decide) ⟨by rw [longKey_length]; decide, by rw [longKey_length]; decide⟩
    (by unfold ValidVal; rw [bigVal_length]; decide)⟩

/-! ## Deleting a key that is not stored -/

theorem treeDelete_absent {σ : Type} (P : Pager σ) (s : σ) (key : List Nat) :
    ∀ (h fuel : Nat) (node : BNode), h ≤ fuel → Subtree P s h node →
      ¬ KeyIn P s key h node → treeDelete P fuel s node key = .ok (⟨[]⟩, s) := by
  intro h
  induction h with
  | zero =>
    intro fuel node _ hsub hno
    obtain ⟨d⟩ := node
    obtain ⟨es, L, hpos⟩ := hsub
    have hlt := lookupLE_lt es key hpos
    have h1 : es[lookupLE es key]? = some es[lookupLE es key] := List.getElem?_eq_getElem hlt
    have hne : es[lookupLE es key].key ≠ key := by
      intro hk
      exact hno ⟨lookupLE es key, by rw [L.getKey_eq _ _ h1, hk]⟩
    have hb : bytesEqual key es[lookupLE es key].key = false := by
      rw [Bool.eq_false_iff]
      intro hq
      exact hne ((bytesEqual_iff _ _).1 hq).symm
    have body : ∀ recur, treeDeleteBody P recur s ⟨d⟩ key = .ok (⟨[]⟩, s) := by
      intro recur
      simp only [treeDeleteBody, nodeLookupLE_eq L rfl key, bind_ok, L.btype_eq, if_true,
        L.getKey_eq _ _ h1]
      rw [hb]
      simp only [Bool.false_eq_true, not_false_eq_true, if_true, pure_eq_ok]
    cases fuel with
    | zero => exact body _
    | succ fuel => exact body _
  | succ h ih =>
    intro fuel node hfuel hsub hno
    obtain ⟨d⟩ := node
    obtain ⟨es, L, hpos, hkids⟩ := hsub
    have hlt := lookupLE_lt es key hpos
    have h1 : es[lookupLE es key]? = some es[lookupLE es key] := List.getElem?_eq_getElem hlt
    obtain ⟨kid, hget, hkid⟩ := hkids _ (List.getElem_mem hlt)
    have hnk : ¬ KeyIn P s key h kid := fun hk =>
      hno ⟨lookupLE es key, _, kid, L.getPtr_eq _ _ h1, hget, hk⟩
    cases fuel with
    | zero => omega
    | succ fuel =>
      have hrec := ih fuel kid (by omega) hkid hnk
      show treeDeleteBody P (treeDelete P fuel) s ⟨d⟩ key = _
      unfold treeDeleteBody
      rw [nodeLookupLE_eq L rfl key, bind_ok, L.btype_eq, bind_ok, if_neg (by decide),
        if_pos rfl]
      unfold nodeDelete
      rw [L.getPtr_eq _ _ h1, bind_ok, hget, bind_ok, hrec, bind_ok]
      rfl

theorem Delete_absent {σ : Type} (P : Pager σ) (t : BTree σ) (h fuel : Nat) (key : List Nat)
    (hkey : ValidKey key) (hfuel : h ≤ fuel) (ht : TreeOK P t h)
    (hno : ¬ Present P t h key) : BTree.Delete P fuel t key = .ok (false, t) := by
  have ha1 : (key.length != 0) = true := by simpa using hkey.1
  have ha2 : decide (key.length ≤ BTREE_MAX_KEY_SIZE) = true := decide_eq_true hkey.2
  unfold BTree.Delete
  rw [ha1, ha2, assert_true, bind_ok, bind_ok]
  by_cases hr : t.root = 0
  · rw [if_pos hr]; rfl
  · rw [if_neg hr]
    rcases ht with h0 | ⟨node, hget, hsub⟩
    · exact absurd h0 hr
    · have hnk : ¬ KeyIn P t.pages key h node := fun hk => hno ⟨hr, node, hget, hk⟩
      rw [hget, bind_ok, treeDelete_absent P t.pages key h fuel node hfuel hsub hnk, bind_ok]
      rfl

theorem subtree_tally {σ : Type} (P : Pager σ) (s : σ) (c : Nat) :
    ∀ (h : Nat) (node : BNode), Subtree P s h node → Subtree (tally P) (s, c) h node := by
  intro h
  induction h with
  | zero => intro node hs; exact hs
  | succ h ih =>
    intro node hs
    obtain ⟨es, L, hpos, hkids⟩ := hs
    refine ⟨es, L, hpos, fun e he => ?_⟩
    obtain ⟨kid, hget, hk⟩ := hkids e he
    exact ⟨kid, hget, ih kid hk⟩

theorem keyIn_tally {σ : Type} (P : Pager σ) (s : σ) (c : Nat) (key : List Nat) :
    ∀ (h : Nat) (node : BNode), KeyIn (tally P) (s, c) key h node → KeyIn P s key h node := by
  intro h
  induction h with
  | zero => intro node hs; exact hs
  | succ h ih =>
    intro node hs
    obtain ⟨i, p, kid, hp, hget, hk⟩ := hs
    exact ⟨i, p, kid, hp, hget, ih kid hk⟩

/-- C23: on a tree of any height whose nodes are laid out as in `pkg/bnode.go`, with
child pointers that `get` resolves, `BTree.Delete` of a key of 1 to 1000 bytes that no leaf
holds returns `false` and the tree it was given: the same root over the same state of
the page store.  The callbacks `new` and `del` are arbitrary here, and over the store
that counts their calls the count stays as it was: neither is called at any level. -/
theorem C23_failed_delete_no_effect {σ : Type} (P : Pager σ) (t : BTree σ) (h fuel : Nat)
    (key : List Nat) (hkey : ValidKey key) (hfuel : h ≤ fuel) (ht : TreeOK P t h)
    (hno : ¬ Present P t h key) :
    BTree.Delete P fuel t key = .ok (false, t) ∧
      ∀ c, BTree.Delete (tally P) fuel ⟨t.root, (t.pages, c)⟩ key
        = .ok (false, ⟨t.root, (t.pages, c)⟩) := by
  refine ⟨Delete_absent P t h fuel key hkey hfuel ht hno, fun c => ?_⟩
  apply Delete_absent (tally P) ⟨t.root, (t.pages, c)⟩ h fuel key hkey hfuel
  · rcases ht with h0 | ⟨node, hget, hsub⟩
    · exact Or.inl h0
    · exact Or.inr ⟨node, hget, subtree_tally P t.pages c h node hsub⟩
  · rintro ⟨hr, node, hget, hk⟩
    exact hno ⟨hr, node, hget, keyIn_tally P t.pages c key h node hk⟩

/-! ### A tree of three levels in a file -/

/-- The pages of the tree of three levels, each in the layout of its entries, and what
`pageGet` returns for them in the file that holds them as the pages 1 to 7. -/
theorem thinTree_pages :
    ∃ l0 l1 l2 l3 lf rt rd : List Nat,
      thinTree = .ok [⟨l0⟩, ⟨l1⟩, ⟨l2⟩, ⟨l3⟩, ⟨lf⟩, ⟨rt⟩, ⟨rd⟩] ∧
      Layout l0 BNODE_LEAF 1 (thinLeaf 0) ∧ Layout l1 BNODE_LEAF 1 (thinLeaf 1) ∧
      Layout l2 BNODE_LEAF 1 (thinLeaf 2) ∧ Layout l3 BNODE_LEAF 1 (thinLeaf 3) ∧
      Layout lf BNODE_NODE 3 thinLeft ∧ Layout rt BNODE_NODE 1 thinRight ∧
      Layout rd BNODE_NODE 2 thinRoot ∧
      ∀ k p, [(⟨l0⟩ : BNode), ⟨l1⟩, ⟨l2⟩, ⟨l3⟩, ⟨lf⟩, ⟨rt⟩, ⟨rd⟩][k]? = some p →
        KV.pageGet (exDb [⟨l0⟩, ⟨l1⟩, ⟨l2⟩, ⟨l3⟩, ⟨lf⟩, ⟨rt⟩, ⟨rd⟩]) (k + 1) = .ok p := by
  obtain ⟨l0, e0, n0, L0⟩ := buildNode_layout BNODE_LEAF (thinLeaf 0) (by decide)
    (by decide) (by decide)
  obtain ⟨l1, e1, n1, L1⟩ := buildNode_layout BNODE_LEAF (thinLeaf 1) (by decide)
    (by decide) (by decide)
  obtain ⟨l2, e2, n2, L2⟩ := buildNode_layout BNODE_LEAF (thinLeaf 2) (by decide)
    (by decide) (by decide)
  obtain ⟨l3, e3, n3, L3⟩ := buildNode_layout BNODE_LEAF (thinLeaf 3) (by decide)
    (by decide) (by decide)
  obtain ⟨lf, ef, nf, Lf⟩ := buildNode_layout BNODE_NODE thinLeft (by decide) (by decide)
    (by decide)
  obtain ⟨rt, et, nt, Lt⟩ := buildNode_layout BNODE_NODE thinRight (by decide) (by decide)
    (by decide)
  obtain ⟨rd, er, nr, Lr⟩ := buildNode_layout BNODE_NODE thinRoot (by decide) (by decide)
    (by decide)
  have hlen : ∀ p ∈ [(⟨l0⟩ : BNode), ⟨l1⟩, ⟨l2⟩, ⟨l3⟩, ⟨lf⟩, ⟨rt⟩, ⟨rd⟩],
      p.data.length = BTREE_PAGE_SIZE := by
    intro p hp
    simp only [List.mem_cons, List.mem_singleton, List.not_mem_nil, or_false] at hp
    rcases hp with rfl | rfl | rfl | rfl | rfl | rfl | rfl
    · exact n0
    · exact n1
    · exact n2
    · exact n3
    · exact nf
    · exact nt
    · exact nr
  refine ⟨l0, l1, l2, l3, lf, rt, rd, ?_, L0, L1, L2, L3, Lf, Lt, Lr, fun k p hk =>
    pageGet_exDb [⟨l0⟩, ⟨l1⟩, ⟨l2⟩, ⟨l3⟩, ⟨lf⟩, ⟨rt⟩, ⟨rd⟩] rfl hlen k p hk⟩
  unfold thinTree
  rw [e0, bind_ok, e1, bind_ok, e2, bind_ok, e3, bind_ok, ef, bind_ok, et, bind_ok, er, bind_ok]
  rfl

theorem getKey_inv {d : List Nat} {ty : Nat} (es : List Entry)
    (L : Layout d ty es.length es) (i : Nat) (k : List Nat)
    (h : (BNode.mk d).getKey i = .ok k) : ∃ e ∈ es, e.key = k := by
  by_cases hi : i < es.length
  · have he : es[i]? = some es[i] := List.getElem?_eq_getElem hi
    rw [L.getKey_eq i _ he] at h
    exact ⟨es[i], List.getElem_mem hi, Except.ok.inj h⟩
  · unfold BNode.getKey at h
    rw [L.nkeys_eq, bind_ok, decide_eq_false hi, assert_false] at h
    cases h

theorem getPtr_inv {d : List Nat} {ty : Nat} (es : List Entry)
    (L : Layout d ty es.length es) (i p : Nat)
    (h : (BNode.mk d).getPtr i = .ok p) : ∃ e ∈ es, e.ptr = p := by
  by_cases hi : i < es.length
  · have he : es[i]? = some es[i] := List.getElem?_eq_getElem hi
    rw [L.getPtr_eq i _ he] at h
    exact ⟨es[i], List.getElem_mem hi, Except.ok.inj h⟩
  · unfold BNode.getPtr at h
    rw [L.nkeys_eq, bind_ok, decide_eq_false hi, assert_false] at h
    cases h

/-- C23, on the tree of three levels of `thinTree` in a file, with the key `02 05`,
which lies between the keys `02` and `03` of the tree: `BTree.Delete` returns `false`
and the tree as it was, also over the store that counts the calls of `new` and `del`. -/
theorem C23_failed_delete_no_effect_witness :
    ∃ pages : List BNode, thinTree = .ok pages ∧
      BTree.Delete kvPager 2 ⟨7, exDb pages⟩ [2, 5] = .ok (false, ⟨7, exDb pages⟩) ∧
      ∀ c, BTree.Delete (tally kvPager) 2 ⟨7, (exDb pages, c)⟩ [2, 5]
        = .ok (false, ⟨7, (exDb pages, c)⟩) := by
  obtain ⟨l0, l1, l2, l3, lf, rt, rd, hpages, L0, L1, L2, L3, Lf, Lt, Lr, hget⟩ :=
    thinTree_pages
  have g1 : kvPager.get (exDb [⟨l0⟩, ⟨l1⟩, ⟨l2⟩, ⟨l3⟩, ⟨lf⟩, ⟨rt⟩, ⟨rd⟩]) 1 = .ok ⟨l0⟩ :=
    hget 0 _ rfl
  have g2 : kvPager.get (exDb [⟨l0⟩, ⟨l1⟩, ⟨l2⟩, ⟨l3⟩, ⟨lf⟩, ⟨rt⟩, ⟨rd⟩]) 2 = .ok ⟨l1⟩ :=
    hget 1 _ rfl
  have g3 : kvPager.get (exDb [⟨l0⟩, ⟨l1⟩, ⟨l2⟩, ⟨l3⟩, ⟨lf⟩, ⟨rt⟩, ⟨rd⟩]) 3 = .ok ⟨l2⟩ :=
    hget 2 _ rfl
  have g4 : kvPager.get (exDb [⟨l0⟩, ⟨l1⟩, ⟨l2⟩, ⟨l3⟩, ⟨lf⟩, ⟨rt⟩, ⟨rd⟩]) 4 = .ok ⟨l3⟩ :=
    hget 3 _ rfl
  have g5 : kvPager.get (exDb [⟨l0⟩, ⟨l1⟩, ⟨l2⟩, ⟨l3⟩, ⟨lf⟩, ⟨rt⟩, ⟨rd⟩]) 5 = .ok ⟨lf⟩ :=
    hget 4 _ rfl
  have g6 : kvPager.get (exDb [⟨l0⟩, ⟨l1⟩, ⟨l2⟩, ⟨l3⟩, ⟨lf⟩, ⟨rt⟩, ⟨rd⟩]) 6 = .ok ⟨rt⟩ :=
    hget 5 _ rfl
  have g7 : kvPager.get (exDb [⟨l0⟩, ⟨l1⟩, ⟨l2⟩, ⟨l3⟩, ⟨lf⟩, ⟨rt⟩, ⟨rd⟩]) 7 = .ok ⟨rd⟩ :=
    hget 6 _ rfl
  have hleafs : ∀ i (d : List Nat), Layout d BNODE_LEAF (thinLeaf i).length (thinLeaf i) →
      ¬ KeyIn kvPager (exDb [⟨l0⟩, ⟨l1⟩, ⟨l2⟩, ⟨l3⟩, ⟨lf⟩, ⟨rt⟩, ⟨rd⟩]) [2, 5] 0 ⟨d⟩ := by
    intro i d L ⟨j, hj⟩
    obtain ⟨e, he, hk⟩ := getKey_inv (thinLeaf i) L j _ hj
    match i, he with
    | 0, he => simp only [thinLeaf, List.mem_singleton] at he; subst he; cases hk
    | 1, he => simp only [thinLeaf, List.mem_singleton] at he; subst he; cases hk
    | 2, he => simp only [thinLeaf, List.mem_singleton] at he; subst he; cases hk
    | n + 3, he => simp only [thinLeaf, List.mem_singleton] at he; subst he; cases hk
  refine ⟨_, hpages, C23_failed_delete_no_effect kvPager
    ⟨7, exDb [⟨l0⟩, ⟨l1⟩, ⟨l2⟩, ⟨l3⟩, ⟨lf⟩, ⟨rt⟩, ⟨rd⟩]⟩ 2 2 [2, 5]
    ⟨by decide, by decide⟩ (Nat.le_refl 2) ?_ ?_⟩
  · refine Or.inr ⟨⟨rd⟩, g7, thinRoot, Lr, by decide, fun e he => ?_⟩
    simp only [thinRoot, List.mem_cons, List.mem_singleton, List.not_mem_nil, or_false] at he
    rcases he with rfl | rfl
    · refine ⟨⟨lf⟩, g5, thinLeft, Lf, by decide, fun e he => ?_⟩
      simp only [thinLeft, List.mem_cons, List.mem_singleton, List.not_mem_nil, or_false] at he
      rcases he with rfl | rfl | rfl
      · exact ⟨⟨l0⟩, g1, thinLeaf 0, L0, by decide⟩
      · exact ⟨⟨l1⟩, g2, thinLeaf 1, L1, by decide⟩
      · exact ⟨⟨l2⟩, g3, thinLeaf 2, L2, by decide⟩
    · refine ⟨⟨rt⟩, g6, thinRight, Lt, by decide, fun e he => ?_⟩
      simp only [thinRight, List.mem_singleton] at he
      subst he
      exact ⟨⟨l3⟩, g4, thinLeaf 3, L3, by decide⟩
  · rintro ⟨_, node, hnode, i, p, kid, hp, hkid, j, q, leaf, hq, hleaf, hk⟩
    have hnode' : kvPager.get (exDb [⟨l0⟩, ⟨l1⟩, ⟨l2⟩, ⟨l3⟩, ⟨lf⟩, ⟨rt⟩, ⟨rd⟩]) 7 = .ok node :=
      hnode
    rw [g7] at hnode'
    cases hnode'
    obtain ⟨e, he, hep⟩ := getPtr_inv thinRoot Lr i p hp
    simp only [thinRoot, List.mem_cons, List.mem_singleton, List.not_mem_nil, or_false] at he
    rcases he with rfl | rfl
    · subst hep
      rw [g5] at hkid
      cases hkid
      obtain ⟨e, he, hep⟩ := getPtr_inv thinLeft Lf j q hq
      simp only [thinLeft, List.mem_cons, List.mem_singleton, List.not_mem_nil, or_false] at he
      rcases he with rfl | rfl | rfl
      · subst hep; rw [g1] at hleaf; cases hleaf; exact hleafs 0 l0 L0 hk
      · subst hep; rw [g2] at hleaf; cases hleaf; exact hleafs 1 l1 L1 hk
      · subst hep; rw [g3] at hleaf; cases hleaf; exact hleafs 2 l2 L2 hk
    · subst hep
      rw [g6] at hkid
      cases hkid
      obtain ⟨e, he, hep⟩ := getPtr_inv thinRight Lt j q hq
      simp only [thinRight, List.mem_singleton] at he
      subst he
      subst hep
      rw [g4] at hleaf
      cases hleaf
      exact hleafs 3 l3 L3 hk

/-! ## Deleting the last key below an internal node with one kid -/

theorem shouldMerge_alone {σ : Type} (P : Pager σ) (s : σ) {d : List Nat} {e : Entry}
    (L : Layout d BNODE_NODE 1 [e]) {dU : List Nat} {ty : Nat} (LU : Layout dU ty 0 []) :
    shouldMerge P s ⟨d⟩ 0 ⟨dU⟩ = .ok (0, ⟨[]⟩) := by
  have hub : (BNode.mk dU).nbytes = .ok 4 := LU.nbytes_eq rfl
  unfold shouldMerge
  rw [hub, bind_ok, if_neg (by decide)]
  dsimp only
  rw [if_neg (by decide), L.nkeys_eq, bind_ok, if_neg (by decide)]
  rfl

/-- The case of `nodeDelete` that stops: the node has one kid, and the recursive call
returns that kid without entries.  There is no sibling to merge with, `shouldMerge`
returns 0, and `assert(updated.nkeys() > 0)` fails. -/
theorem nodeDelete_only_kid_emptied {σ : Type} (P : Pager σ)
    (recur : σ → BNode → List Nat → Res (BNode × σ)) (s s1 s2 : σ) {d : List Nat}
    {e : Entry} (L : Layout d BNODE_NODE 1 [e]) (kid : BNode) (key : List Nat)
    (hget : P.get s e.ptr = .ok kid) {dU : List Nat} {ty : Nat}
    (hrec : recur s kid key = .ok (⟨dU⟩, s1)) (LU : Layout dU ty 0 [])
    (hdel : P.del s1 e.ptr = .ok s2) :
    nodeDelete P recur s ⟨d⟩ 0 key = .error .assertion := by
  have hlen : ¬ (BNode.mk dU).data.length = 0 := by
    show ¬ dU.length = 0
    have := LU.fits
    omega
  unfold nodeDelete
  rw [L.getPtr_eq 0 e rfl, bind_ok, hget, bind_ok, hrec, bind_ok]
  dsimp only
  rw [if_neg hlen, hdel, bind_ok, shouldMerge_alone P s2 L LU, bind_ok]
  dsimp only
  rw [if_neg (by decide), if_neg (by decide), LU.nkeys_eq, bind_ok]
  rfl

/-- A round of the loop of `BTree.Get` on an internal node goes on with the kid that
`nodeLookupLE` selects. -/
theorem getStep_node {σ : Type} (P : Pager σ) (recur : BNode → Res (Option (List Nat)))
    (s : σ) (key : List Nat) {d : List Nat} {es : List Entry}
    (L : Layout d BNODE_NODE es.length es) (e : Entry) (h1 : es[lookupLE es key]? = some e)
    (kid : BNode) (hget : P.get s e.ptr = .ok kid) :
    getStep P recur s key ⟨d⟩ = recur kid := by
  unfold getStep
  rw [nodeLookupLE_eq L rfl key, bind_ok, L.btype_eq, bind_ok, if_neg (by decide),
    L.getPtr_eq _ _ h1, bind_ok, hget, bind_ok]

/-- A round of the loop of `BTree.Get` on a leaf that holds the key. -/
theorem getStep_leaf_at {σ : Type} (P : Pager σ) (recur : BNode → Res (Option (List Nat)))
    (s : σ) (key : List Nat) {d : List Nat} {es : List Entry}
    (L : Layout d BNODE_LEAF es.length es) (e : Entry) (h1 : es[lookupLE es key]? = some e)
    (hk : e.key = key) : getStep P recur s key ⟨d⟩ = .ok (some e.val) := by
  have hb : bytesEqual key e.key = true := (bytesEqual_iff _ _).2 hk.symm
  unfold getStep
  rw [nodeLookupLE_eq L rfl key, bind_ok, L.btype_eq, bind_ok, if_pos rfl,
    L.getKey_eq _ _ h1, bind_ok, hb, if_pos rfl, L.getVal_eq _ _ h1, bind_ok]
  rfl

/-- The in-order walk of the tree of three levels: its keys, ascending. -/
theorem thinTree_walk :
    ∃ pages : List BNode, thinTree = .ok pages ∧
      treeWalk kvPager 2 ⟨7, exDb pages⟩ = .ok [[], [1], [2], [3]] := by
  obtain ⟨l0, l1, l2, l3, lf, rt, rd, hpages, L0, L1, L2, L3, Lf, Lt, Lr, hget⟩ :=
    thinTree_pages
  have g1 : kvPager.get (exDb [⟨l0⟩, ⟨l1⟩, ⟨l2⟩, ⟨l3⟩, ⟨lf⟩, ⟨rt⟩, ⟨rd⟩]) 1 = .ok ⟨l0⟩ :=
    hget 0 _ rfl
  have g2 : kvPager.get (exDb [⟨l0⟩, ⟨l1⟩, ⟨l2⟩, ⟨l3⟩, ⟨lf⟩, ⟨rt⟩, ⟨rd⟩]) 2 = .ok ⟨l1⟩ :=
    hget 1 _ rfl
  have g3 : kvPager.get (exDb [⟨l0⟩, ⟨l1⟩, ⟨l2⟩, ⟨l3⟩, ⟨lf⟩, ⟨rt⟩, ⟨rd⟩]) 3 = .ok ⟨l2⟩ :=
    hget 2 _ rfl
  have g4 : kvPager.get (exDb [⟨l0⟩, ⟨l1⟩, ⟨l2⟩, ⟨l3⟩, ⟨lf⟩, ⟨rt⟩, ⟨rd⟩]) 4 = .ok ⟨l3⟩ :=
    hget 3 _ rfl
  have g5 : kvPager.get (exDb [⟨l0⟩, ⟨l1⟩, ⟨l2⟩, ⟨l3⟩, ⟨lf⟩, ⟨rt⟩, ⟨rd⟩]) 5 = .ok ⟨lf⟩ :=
    hget 4 _ rfl
  have g6 : kvPager.get (exDb [⟨l0⟩, ⟨l1⟩, ⟨l2⟩, ⟨l3⟩, ⟨lf⟩, ⟨rt⟩, ⟨rd⟩]) 6 = .ok ⟨rt⟩ :=
    hget 5 _ rfl
  have g7 : kvPager.get (exDb [⟨l0⟩, ⟨l1⟩, ⟨l2⟩, ⟨l3⟩, ⟨lf⟩, ⟨rt⟩, ⟨rd⟩]) 7 = .ok ⟨rd⟩ :=
    hget 6 _ rfl
  have wleaf : ∀ (d : List Nat) (es : List Entry) (fuel : Nat),
      Layout d BNODE_LEAF es.length es →
      walk kvPager (exDb [⟨l0⟩, ⟨l1⟩, ⟨l2⟩, ⟨l3⟩, ⟨lf⟩, ⟨rt⟩, ⟨rd⟩]) fuel ⟨d⟩
        = .ok (es.map Entry.key) := by
    intro d es fuel L
    cases fuel <;>
      simp only [walk, walkStep, L.btype_eq, bind_ok, if_true, nodeKeys_eq L rfl]
  have wl : walk kvPager (exDb [⟨l0⟩, ⟨l1⟩, ⟨l2⟩, ⟨l3⟩, ⟨lf⟩, ⟨rt⟩, ⟨rd⟩]) 1 ⟨lf⟩
      = .ok [[], [1], [2]] := by
    show walkStep kvPager _ (walk kvPager _ 0) ⟨lf⟩ = _
    unfold walkStep
    rw [Lf.btype_eq, bind_ok, if_neg (by decide), Lf.nkeys_eq, bind_ok]
    simp only [kidsLoop, Lf.getPtr_eq 0 ⟨1, [], []⟩ rfl, Lf.getPtr_eq 1 ⟨2, [1], []⟩ rfl,
      Lf.getPtr_eq 2 ⟨3, [2], []⟩ rfl, bind_ok, g1, g2, g3, wleaf l0 (thinLeaf 0) 0 L0,
      wleaf l1 (thinLeaf 1) 0 L1, wleaf l2 (thinLeaf 2) 0 L2, pure_eq_ok]
    rfl
  have wr : walk kvPager (exDb [⟨l0⟩, ⟨l1⟩, ⟨l2⟩, ⟨l3⟩, ⟨lf⟩, ⟨rt⟩, ⟨rd⟩]) 1 ⟨rt⟩
      = .ok [[3]] := by
    show walkStep kvPager _ (walk kvPager _ 0) ⟨rt⟩ = _
    unfold walkStep
    rw [Lt.btype_eq, bind_ok, if_neg (by decide), Lt.nkeys_eq, bind_ok]
    simp only [kidsLoop, Lt.getPtr_eq 0 ⟨4, [3], []⟩ rfl, bind_ok, g4,
      wleaf l3 (thinLeaf 3) 0 L3, pure_eq_ok]
    rfl
  refine ⟨_, hpages, ?_⟩
  unfold treeWalk
  rw [if_neg (Nat.succ_ne_zero 6), g7, bind_ok]
  show walkStep kvPager _ (walk kvPager _ 1) ⟨rd⟩ = _
  unfold walkStep
  rw [Lr.btype_eq, bind_ok, if_neg (by decide), Lr.nkeys_eq, bind_ok]
  simp only [kidsLoop, Lr.getPtr_eq 0 ⟨5, [], []⟩ rfl, Lr.getPtr_eq 1 ⟨6, [3], []⟩ rfl,
    bind_ok, g5, g6, wl, wr, pure_eq_ok]
  rfl

/-- C21, evaluated at the failing input.  The tree has three levels: a root with two
internal kids, the left one over three leaves (keys `""`, `01`, `02`) and the right one
over a single leaf that holds the key `03` alone; the keys are sorted, every key of an
internal node is the first key of its kid, every node has at least one key, the walk of
the leaves gives the keys in ascending order, and `BTree.Get` finds the key `03`.
`BTree.Delete` of that key does not complete: the leaf is left without entries, its
parent has no other kid to merge it with, `shouldMerge` returns 0 and
`assert(updated.nkeys() > 0)` of `nodeDelete` stops the program. -/
theorem C21_delete_aborts_when_only_kid_empties :
    ∃ pages : List BNode, thinTree = .ok pages ∧
      TreeOK kvPager ⟨7, exDb pages⟩ 2 ∧
      (∀ p ∈ pages, ∃ n, p.nkeys = .ok n ∧ 1 ≤ n) ∧
      treeWalk kvPager 2 ⟨7, exDb pages⟩ = .ok [[], [1], [2], [3]] ∧
      Present kvPager ⟨7, exDb pages⟩ 2 [3] ∧
      BTree.Get kvPager 2 ⟨7, exDb pages⟩ [3] = .ok (some [13]) ∧
      ∀ fuel, BTree.Delete kvPager (fuel + 2) ⟨7, exDb pages⟩ [3] = .error .assertion := by
  obtain ⟨l0, l1, l2, l3, lf, rt, rd, hpages, L0, L1, L2, L3, Lf, Lt, Lr, hget⟩ :=
    thinTree_pages
  have g1 : kvPager.get (exDb [⟨l0⟩, ⟨l1⟩, ⟨l2⟩, ⟨l3⟩, ⟨lf⟩, ⟨rt⟩, ⟨rd⟩]) 1 = .ok ⟨l0⟩ :=
    hget 0 _ rfl
  have g2 : kvPager.get (exDb [⟨l0⟩, ⟨l1⟩, ⟨l2⟩, ⟨l3⟩, ⟨lf⟩, ⟨rt⟩, ⟨rd⟩]) 2 = .ok ⟨l1⟩ :=
    hget 1 _ rfl
  have g3 : kvPager.get (exDb [⟨l0⟩, ⟨l1⟩, ⟨l2⟩, ⟨l3⟩, ⟨lf⟩, ⟨rt⟩, ⟨rd⟩]) 3 = .ok ⟨l2⟩ :=
    hget 2 _ rfl
  have g4 : kvPager.get (exDb [⟨l0⟩, ⟨l1⟩, ⟨l2⟩, ⟨l3⟩, ⟨lf⟩, ⟨rt⟩, ⟨rd⟩]) 4 = .ok ⟨l3⟩ :=
    hget 3 _ rfl
  have g5 : kvPager.get (exDb [⟨l0⟩, ⟨l1⟩, ⟨l2⟩, ⟨l3⟩, ⟨lf⟩, ⟨rt⟩, ⟨rd⟩]) 5 = .ok ⟨lf⟩ :=
    hget 4 _ rfl
  have g6 : kvPager.get (exDb [⟨l0⟩, ⟨l1⟩, ⟨l2⟩, ⟨l3⟩, ⟨lf⟩, ⟨rt⟩, ⟨rd⟩]) 6 = .ok ⟨rt⟩ :=
    hget 5 _ rfl
  have g7 : kvPager.get (exDb [⟨l0⟩, ⟨l1⟩, ⟨l2⟩, ⟨l3⟩, ⟨lf⟩, ⟨rt⟩, ⟨rd⟩]) 7 = .ok ⟨rd⟩ :=
    hget 6 _ rfl
  have hroot : lookupLE thinRoot [3] = 1 := by decide
  have hright : lookupLE thinRight [3] = 0 := by decide
  have hleaf : lookupLE (thinLeaf 3) [3] = 0 := by decide
  obtain ⟨pages', hpages', hwalk⟩ := thinTree_walk
  rw [hpages] at hpages'
  cases hpages'
  refine ⟨_, hpages, ?_, ?_, hwalk, ?_, ?_, ?_⟩
  · refine Or.inr ⟨⟨rd⟩, g7, thinRoot, Lr, by decide, fun e he => ?_⟩
    simp only [thinRoot, List.mem_cons, List.mem_singleton, List.not_mem_nil, or_false] at he
    rcases he with rfl | rfl
    · refine ⟨⟨lf⟩, g5, thinLeft, Lf, by decide, fun e he => ?_⟩
      simp only [thinLeft, List.mem_cons, List.mem_singleton, List.not_mem_nil, or_false] at he
      rcases he with rfl | rfl | rfl
      · exact ⟨⟨l0⟩, g1, thinLeaf 0, L0, by decide⟩
      · exact ⟨⟨l1⟩, g2, thinLeaf 1, L1, by decide⟩
      · exact ⟨⟨l2⟩, g3, thinLeaf 2, L2, by decide⟩
    · refine ⟨⟨rt⟩, g6, thinRight, Lt, by decide, fun e he => ?_⟩
      simp only [thinRight, List.mem_singleton] at he
      subst he
      exact ⟨⟨l3⟩, g4, thinLeaf 3, L3, by decide⟩
  · intro p hp
    simp only [List.mem_cons, List.mem_singleton, List.not_mem_nil, or_false] at hp
    rcases hp with rfl | rfl | rfl | rfl | rfl | rfl | rfl
    · exact ⟨_, L0.nkeys_eq, by decide⟩
    · exact ⟨_, L1.nkeys_eq, by decide⟩
    · exact ⟨_, L2.nkeys_eq, by decide⟩
    · exact ⟨_, L3.nkeys_eq, by decide⟩
    · exact ⟨_, Lf.nkeys_eq, by decide⟩
    · exact ⟨_, Lt.nkeys_eq, by decide⟩
    · exact ⟨_, Lr.nkeys_eq, by decide⟩
  · exact ⟨Nat.succ_ne_zero 6, ⟨rd⟩, g7, 1, 6, ⟨rt⟩, Lr.getPtr_eq 1 ⟨6, [3], []⟩ rfl, g6, 0, 4, ⟨l3⟩,
      Lt.getPtr_eq 0 ⟨4, [3], []⟩ rfl, g4, 0, L3.getKey_eq 0 ⟨0, [3], [13]⟩ rfl⟩
  · unfold BTree.Get
    rw [show (([3] : List Nat).length != 0) = true from rfl,
      show decide (([3] : List Nat).length ≤ BTREE_MAX_KEY_SIZE) = true from rfl,
      assert_true, bind_ok, bind_ok]
    dsimp only
    rw [if_neg (by decide), g7, bind_ok]
    show getStep kvPager (getLoop kvPager _ [3] 1) _ [3] ⟨rd⟩ = _
    rw [getStep_node kvPager _ _ [3] Lr ⟨6, [3], []⟩ (by rw [hroot]; rfl) ⟨rt⟩ g6]
    show getStep kvPager (getLoop kvPager _ [3] 0) _ [3] ⟨rt⟩ = _
    rw [getStep_node kvPager _ _ [3] Lt ⟨4, [3], []⟩ (by rw [hright]; rfl) ⟨l3⟩ g4]
    exact getStep_leaf_at kvPager _ _ [3] L3 ⟨0, [3], [13]⟩ (by rw [hleaf]; rfl) rfl
  · intro fuel
    obtain ⟨dU, hU, _, LU⟩ : ∃ dU, treeDelete kvPager fuel
        (exDb [⟨l0⟩, ⟨l1⟩, ⟨l2⟩, ⟨l3⟩, ⟨lf⟩, ⟨rt⟩, ⟨rd⟩]) ⟨l3⟩ [3] = .ok (⟨dU⟩, _) ∧
        dU.length = BTREE_PAGE_SIZE ∧ Layout dU BNODE_LEAF (1 - 1)
          ((thinLeaf 3).take (lookupLE (thinLeaf 3) [3]) ++
            (thinLeaf 3).drop (lookupLE (thinLeaf 3) [3] + 1)) := by
      cases fuel with
      | zero =>
        exact treeDeleteBody_leaf_at kvPager _ _ L3 rfl (by decide) [3] ⟨0, [3], [13]⟩
          (by rw [hleaf]; rfl) rfl
      | succ fuel =>
        exact treeDeleteBody_leaf_at kvPager _ _ L3 rfl (by decide) [3] ⟨0, [3], [13]⟩
          (by rw [hleaf]; rfl) rfl
    have LU0 : Layout dU BNODE_LEAF 0 [] := by
      rw [hleaf] at LU
      exact LU
    have hmid : treeDelete kvPager (fuel + 1)
        (exDb [⟨l0⟩, ⟨l1⟩, ⟨l2⟩, ⟨l3⟩, ⟨lf⟩, ⟨rt⟩, ⟨rd⟩]) ⟨rt⟩ [3] = .error .assertion := by
      show treeDeleteBody kvPager (treeDelete kvPager fuel) _ ⟨rt⟩ [3] = _
      unfold treeDeleteBody
      rw [nodeLookupLE_eq Lt rfl [3], bind_ok, Lt.btype_eq, bind_ok, if_neg (by decide),
        if_pos rfl, hright]
      exact nodeDelete_only_kid_emptied kvPager _ _ _ _ Lt ⟨l3⟩ [3] g4 hU LU0 rfl
    have htop : treeDelete kvPager (fuel + 2)
        (exDb [⟨l0⟩, ⟨l1⟩, ⟨l2⟩, ⟨l3⟩, ⟨lf⟩, ⟨rt⟩, ⟨rd⟩]) ⟨rd⟩ [3] = .error .assertion := by
      show treeDeleteBody kvPager (treeDelete kvPager (fuel + 1)) _ ⟨rd⟩ [3] = _
      unfold treeDeleteBody
      rw [nodeLookupLE_eq Lr rfl [3], bind_ok, Lr.btype_eq, bind_ok, if_neg (by decide),
        if_pos rfl, hroot]
      unfold nodeDelete
      rw [Lr.getPtr_eq 1 ⟨6, [3], []⟩ rfl, bind_ok, g6, bind_ok, hmid]
      rfl
    unfold BTree.Delete
    rw [show (([3] : List Nat).length != 0) = true from rfl,
      show decide (([3] : List Nat).length ≤ BTREE_MAX_KEY_SIZE) = true from rfl,
      assert_true, bind_ok, bind_ok]
    dsimp only
    rw [if_neg (by decide), g7, bind_ok, htop]
    rfl

end ParsDB
